import Mathlib

/-!
# RootFinder: expression evaluator, symbolic differentiator and Newton solver

A shallow embedding of `Expression.cpp` and `dllImplementation.cpp`.

Conventions of the embedding

* A `std::string` is a `List Char`; positions are natural numbers.
* A `double` is a rational number: arithmetic is exact, `std::to_string` prints six
  decimals as `printf("%f")` does, and `std::stod` reads a decimal literal exactly.
  Rounding of binary floating point, signed zero and the range limits of `double`
  are not modelled; an operation whose result is not a finite number (division by
  zero, a non-finite library result) ends the run with `Outcome.unmodelled`.
* The `<cmath>` functions and the constant `M_E` are a parameter (`CMath`).
* A C++ exception is `Outcome.thrown`, an out-of-range read is `Outcome.undefined`.
* `size_t` subtraction wraps below zero (`subSz`); the nesting counters wrap modulo
  `2 ^ 64` in both directions (`nestInc`, `nestDec`).
* Loops whose text is rewritten while they run take a step budget that is computed
  from the text; `Outcome.fuel` reports an exhausted budget.
* The diagnostic `Logger` only appends lines to a file and is left out.
-/

namespace RootFinder

/-- The two exception types the engine and the string library raise. -/
inductive Exn where
  | invalid_argument
  | out_of_range
  deriving DecidableEq, Repr

/-- Result of running a piece of the engine. -/
inductive Outcome (α : Type) where
  | ok (a : α)
  | thrown (e : Exn)
  | undefined
  | unmodelled
  | fuel
  deriving DecidableEq, Repr

/-- Sequencing of engine steps: everything but `ok` ends the run. -/
def Outcome.bind {α β : Type} (r : Outcome α) (k : α → Outcome β) : Outcome β :=
  match r with
  | .ok a => k a
  | .thrown e => .thrown e
  | .undefined => .undefined
  | .unmodelled => .unmodelled
  | .fuel => .fuel

instance : Monad Outcome where
  pure := Outcome.ok
  bind := Outcome.bind

/-- The result is a value (the call returned normally). -/
def Outcome.isOk {α : Type} (r : Outcome α) : Bool :=
  match r with
  | .ok _ => true
  | _ => false

/-- The call ended by a C++ exception. -/
def Outcome.isThrown {α : Type} (r : Outcome α) : Bool :=
  match r with
  | .thrown _ => true
  | _ => false

/-- A library result that may be non-finite. -/
def finite {α : Type} (o : Option α) : Outcome α :=
  match o with
  | some a => .ok a
  | none => .unmodelled

/-- The functions of `<cmath>` the evaluator calls; `none` is a non-finite result. -/
structure CMath where
  sin : ℚ → ℚ
  cos : ℚ → ℚ
  tan : ℚ → ℚ
  log : ℚ → Option ℚ
  pow : ℚ → ℚ → Option ℚ
  M_E : ℚ

/-! ## Strings -/

/-- Width of `size_t`. -/
def SIZE_MOD : Nat := 2 ^ 64

/-- Subtraction of `size_t` values: wraps around below zero. -/
def subSz (a b : Nat) : Nat :=
  if b ≤ a then a - b else a + SIZE_MOD - b

/-- Increment of a `size_t` nesting counter. -/
def nestInc (n : Nat) : Nat := (n + 1) % SIZE_MOD

/-- Decrement of a `size_t` nesting counter. -/
def nestDec (n : Nat) : Nat := (n + SIZE_MOD - 1) % SIZE_MOD

/-- The update `if (c == '(') ++nestingLevel; else if (c == ')') --nestingLevel;`. -/
def nestStep (c : Char) (nestingLevel : Nat) : Nat :=
  if c = '(' then nestInc nestingLevel
  else if c = ')' then nestDec nestingLevel
  else nestingLevel

/-- Read `expr[i]`: the terminator at `i = size`, out of range beyond. -/
def charAt (expr : List Char) (i : Nat) : Outcome Char :=
  if i < expr.length then .ok (expr.getD i (Char.ofNat 0))
  else if i = expr.length then .ok (Char.ofNat 0)
  else .undefined

/-- Method `std::string::substr(pos)`. -/
def substr (s : List Char) (pos : Nat) : Outcome (List Char) :=
  if pos ≤ s.length then .ok (s.drop pos) else .thrown .out_of_range

/-- Method `std::string::replace(pos, len, str)`; `len` is clamped to the end. -/
def replace (s : List Char) (pos len : Nat) (str : List Char) : Outcome (List Char) :=
  if pos ≤ s.length then .ok (s.take pos ++ str ++ s.drop (pos + len))
  else .thrown .out_of_range

/-- Method `std::string::find(pat)`, `none` for `npos`. -/
def find (pat : List Char) : List Char → Option Nat
  | [] => if pat.isEmpty then some 0 else none
  | c :: cs =>
    if pat.isPrefixOf (c :: cs) then some 0
    else (find pat cs).map (· + 1)

/-- Function `std::isdigit` on the characters of the text, which is taken to be ASCII. -/
def isdigit (c : Char) : Bool := c.isDigit

/-! ## Numbers as text -/

/-- Nearest natural number of a non-negative rational, ties to even. -/
def roundHalfEven (q : ℚ) : Nat :=
  let n := q.num.toNat
  let fl := n / q.den
  let r := n % q.den
  if 2 * r < q.den then fl
  else if q.den < 2 * r then fl + 1
  else if fl % 2 = 0 then fl else fl + 1

/-- Function `std::to_string(double)`: sign, integer part, point, six decimals. The value
is an exact rational: there is no negative zero (which the code prints as `-0.000000`),
and the sixth decimal is rounded from the exact value, not from its `double`. -/
def to_string (q : ℚ) : List Char :=
  let scaled := roundHalfEven (|q| * 1000000)
  let fracDigits := Nat.toDigits 10 (scaled % 1000000)
  (if q < 0 then ['-'] else []) ++ Nat.toDigits 10 (scaled / 1000000) ++ ['.']
    ++ List.replicate (6 - fracDigits.length) '0' ++ fracDigits

/-- Value of a run of decimal digits read after the value `acc`. -/
def digitsValue (acc : Nat) : List Char → Nat
  | [] => acc
  | c :: cs => digitsValue (acc * 10 + (c.toNat - 48)) cs

/-- The white space `strtod` skips. -/
def isspace (c : Char) : Bool :=
  c = ' ' || (9 ≤ c.toNat && c.toNat ≤ 13)

/-- The exponent part of a decimal literal: `e` or `E`, an optional sign and at least
one digit; `0` when the text does not continue with one. -/
def stodExponent (s : List Char) : Int :=
  match s with
  | c :: rest =>
    if c = 'e' || c = 'E' then
      match rest with
      | '-' :: ds => - (digitsValue 0 (ds.takeWhile isdigit) : Int)
      | '+' :: ds => (digitsValue 0 (ds.takeWhile isdigit) : Int)
      | ds => (digitsValue 0 (ds.takeWhile isdigit) : Int)
    else 0
  | [] => 0

/-- The text starts an infinity, a NaN or a hexadecimal literal, which `strtod` reads
as well and the model does not cover. -/
def stodSpecial (s : List Char) : Bool :=
  let low := (s.take 3).map Char.toLower
  low = ['i', 'n', 'f'] || low = ['n', 'a', 'n'] ||
    match s with
    | '0' :: x :: h :: _ => (x = 'x' || x = 'X') && (h = '.' || h.isDigit ||
        ('a'.toNat ≤ h.toLower.toNat && h.toLower.toNat ≤ 'f'.toNat))
    | _ => false

/-- The unsigned part of what `strtod` reads: digits, an optional point and digits, an
optional exponent; at least one digit is required. -/
def stodUnsigned (s : List Char) : Outcome ℚ :=
  let intDigits := s.takeWhile isdigit
  let rest := s.dropWhile isdigit
  let fracDigits := match rest with
    | '.' :: r => r.takeWhile isdigit
    | _ => []
  let afterFrac := match rest with
    | '.' :: r => r.dropWhile isdigit
    | r => r
  if stodSpecial s then .unmodelled
  else if intDigits.isEmpty && fracDigits.isEmpty then .thrown .invalid_argument
  else
    let mant : ℚ :=
      (digitsValue 0 (intDigits ++ fracDigits) : ℚ) / (10 : ℚ) ^ fracDigits.length
    let ex := stodExponent afterFrac
    .ok (if 0 ≤ ex then mant * (10 : ℚ) ^ ex.toNat else mant / (10 : ℚ) ^ (-ex).toNat)

/-- Function `std::stod`: skips white space, reads a sign and the longest decimal
literal at the start of the text; throws when there is none. The literal is read
exactly and without a range limit: the `out_of_range` the code throws for a literal
beyond the range of `double`, and the rounding to the nearest `double`, are left out. -/
def stod (s : List Char) : Outcome ℚ :=
  match s.dropWhile isspace with
  | '-' :: r => do
    let v ← stodUnsigned r
    pure (-v)
  | '+' :: r => stodUnsigned r
  | r => stodUnsigned r

/-- Function `Reverse`. -/
def Reverse (s : List Char) : List Char := s.reverse

/-! ## The numeric-token readers -/

/-- Loop of `GetValueToRight` over the characters from `endPosition` on. -/
def GetValueToRightLoop (m : CMath) (x : ℚ) :
    List Char → Nat → List Char → Outcome (ℚ × Nat)
  | [], endPosition, returnVal => do
    let v ← stod returnVal
    pure (v, subSz endPosition 1)
  | c :: rest, endPosition, returnVal =>
    if c = 'x' then
      if !returnVal.isEmpty then do
        let v ← stod returnVal
        pure (v * x, endPosition)
      else .ok (x, endPosition)
    else if c = 'e' && returnVal.isEmpty then .ok (m.M_E, endPosition)
    else if c = 'e' || c = 'E' || c = '.' then
      GetValueToRightLoop m x rest (endPosition + 1) (returnVal ++ [c])
    else if !isdigit c &&
        !(c = '-' && (returnVal.isEmpty || returnVal.getLast? = some 'e')) then do
      let v ← stod returnVal
      pure (v, subSz endPosition 1)
    else GetValueToRightLoop m x rest (endPosition + 1) (returnVal ++ [c])

/-- Function `GetValueToRight`: the value read from `startPosition` rightwards and the
position of the last character looked at. -/
def GetValueToRight (m : CMath) (expr : List Char) (startPosition : Nat) (x : ℚ) :
    Outcome (ℚ × Nat) :=
  GetValueToRightLoop m x (expr.drop startPosition) startPosition []

/-- One round of the loop of `GetValueToLeft` at `startPosition`; `next` is the rest of
the loop after `--startPosition`. -/
def GetValueToLeftBody (m : CMath) (x : ℚ) (expr : List Char) (startPosition : Nat)
    (returnVal : List Char) (next : List Char → Outcome (ℚ × Nat)) : Outcome (ℚ × Nat) := do
  let c ← charAt expr startPosition
  let hasNoNextVal : Bool := startPosition = 0
  let nextVal ← if hasNoNextVal then pure c else charAt expr (startPosition - 1)
  if c = 'x' then
    if !returnVal.isEmpty then do
      let v ← stod (Reverse returnVal)
      pure (v * x, startPosition)
    else pure (x, startPosition)
  else if c = 'e' && (hasNoNextVal || !isdigit nextVal) then pure (m.M_E, startPosition)
  else if !(c = 'e' || c = 'E' || c = '.') && !isdigit c &&
      !(c = '-' && (hasNoNextVal || nextVal = 'e')) then do
    let v ← stod (Reverse returnVal)
    pure (v, startPosition + 1)
  else if hasNoNextVal then do
    let v ← stod (Reverse (returnVal ++ [c]))
    pure (v, startPosition)
  else next (returnVal ++ [c])

/-- Loop of `GetValueToLeft`, from `startPosition` down to the start of the text. At
position 0 the round always returns (`hasNoNextVal`), so it has no next round. -/
def GetValueToLeftLoop (m : CMath) (x : ℚ) (expr : List Char) :
    Nat → List Char → Outcome (ℚ × Nat)
  | 0, returnVal => GetValueToLeftBody m x expr 0 returnVal (fun _ => .fuel)
  | n + 1, returnVal =>
    GetValueToLeftBody m x expr (n + 1) returnVal (fun r => GetValueToLeftLoop m x expr n r)

/-- Function `GetValueToLeft`: the value read from `endPosition` leftwards and the
position of the first character of the token. -/
def GetValueToLeft (m : CMath) (expr : List Char) (endPosition : Nat) (x : ℚ) :
    Outcome (ℚ × Nat) :=
  GetValueToLeftLoop m x expr endPosition []

/-- Loop of `GetSubExpression`: the text up to the parenthesis that closes the group
and its position (the size of the text when nothing closes it). -/
def GetSubExpressionLoop :
    List Char → Nat → Nat → List Char → List Char × Nat
  | [], _, endPosition, returnVal => (returnVal, endPosition)
  | c :: rest, nestingLevel, endPosition, returnVal =>
    if nestStep c nestingLevel = 0 then (returnVal, endPosition)
    else GetSubExpressionLoop rest (nestStep c nestingLevel) (endPosition + 1) (returnVal ++ [c])

/-- Function `GetSubExpression`; `startPosition` is the position after the opening
parenthesis. -/
def GetSubExpression (expr : List Char) (startPosition : Nat) : List Char × Nat :=
  GetSubExpressionLoop (expr.drop startPosition) 1 startPosition []

/-! ## The evaluator -/

/-- Method `Expression::EvalSubExpression`; `ev` is `EvalInternal`. Gives the rewritten
text and the returned position, `positionToStartReplace + subResultS.size()`, which is
the position right after the spliced literal. -/
def EvalSubExpression (ev : List Char → ℚ → Outcome ℚ) (expr : List Char)
    (startPosition : Nat) (x : ℚ) : Outcome (List Char × Nat) :=
  if startPosition ≥ expr.length then .ok (expr, startPosition)
  else do
    let (subExpr, endPosition) := GetSubExpression expr startPosition
    let subResult ← ev subExpr x
    let subResultS := to_string subResult
    let positionToStartReplace := subSz startPosition 1
    let totalSizeToReplace := subSz endPosition startPosition + 2
    let expr2 ← replace expr positionToStartReplace totalSizeToReplace subResultS
    pure (expr2, positionToStartReplace + subResultS.length)

/-- Loop of `Expression::EvalSubExpressions`. -/
def EvalSubExpressionsLoop (ev : List Char → ℚ → Outcome ℚ) (x : ℚ) :
    Nat → List Char → Nat → Outcome (List Char)
  | 0, expr, position => if position < expr.length then .fuel else .ok expr
  | fuel + 1, expr, position =>
    if position < expr.length then do
      let c ← charAt expr position
      if c = '(' then do
        let (expr2, position2) ← EvalSubExpression ev expr (position + 1) x
        EvalSubExpressionsLoop ev x fuel expr2 (position2 + 1)
      else EvalSubExpressionsLoop ev x fuel expr (position + 1)
    else .ok expr

/-- Method `Expression::EvalSubExpressions`. -/
def EvalSubExpressions (ev : List Char → ℚ → Outcome ℚ) (expr : List Char) (x : ℚ) :
    Outcome (List Char) :=
  EvalSubExpressionsLoop ev x expr.length expr 0

/-- Method `Expression::EvalSpecialFunction`; `func` is the function to apply. -/
def EvalSpecialFunction (m : CMath) (expr : List Char) (startPositionOfFunction : Nat)
    (startPositionOfValue : Nat) (func : ℚ → Outcome ℚ) (x : ℚ) :
    Outcome (List Char × Nat) := do
  let (value, endPosition) ← GetValueToRight m expr startPositionOfValue x
  let evaluatedValue ← func value
  let evaluatedValueS := to_string evaluatedValue
  let totalSizeToReplace := subSz endPosition startPositionOfFunction + 1
  let expr2 ← replace expr startPositionOfFunction totalSizeToReplace evaluatedValueS
  pure (expr2, subSz (startPositionOfFunction + evaluatedValueS.length) 1)

/-- Loop of `Expression::EvalSpecialFunctions`. -/
def EvalSpecialFunctionsLoop (m : CMath) (x : ℚ) :
    Nat → List Char → Nat → Outcome (List Char)
  | 0, expr, position => if position < expr.length then .fuel else .ok expr
  | fuel + 1, expr, position =>
    if position < expr.length then do
      let c ← charAt expr position
      let nextC ← charAt expr (position + 1)
      let isNeg : Bool := c = '-'
      let cStar := if isNeg then nextC else c
      if cStar = 's' then do
        let (expr2, position2) ←
          if isNeg then
            EvalSpecialFunction m expr position (position + 4) (fun v => pure (-1 * m.sin v)) x
          else EvalSpecialFunction m expr position (position + 3) (fun v => pure (m.sin v)) x
        EvalSpecialFunctionsLoop m x fuel expr2 (position2 + 1)
      else if cStar = 'c' then do
        let (expr2, position2) ←
          if isNeg then
            EvalSpecialFunction m expr position (position + 4) (fun v => pure (-1 * m.cos v)) x
          else EvalSpecialFunction m expr position (position + 3) (fun v => pure (m.cos v)) x
        EvalSpecialFunctionsLoop m x fuel expr2 (position2 + 1)
      else if cStar = 't' then do
        let (expr2, position2) ←
          if isNeg then
            EvalSpecialFunction m expr position (position + 4) (fun v => pure (-1 * m.tan v)) x
          else EvalSpecialFunction m expr position (position + 3) (fun v => pure (m.tan v)) x
        EvalSpecialFunctionsLoop m x fuel expr2 (position2 + 1)
      else if cStar = 'l' then do
        let (expr2, position2) ←
          if isNeg then
            EvalSpecialFunction m expr position (position + 3)
              (fun v => do
                let r ← finite (m.log v)
                pure (-1 * r)) x
          else EvalSpecialFunction m expr position (position + 2) (fun v => finite (m.log v)) x
        EvalSpecialFunctionsLoop m x fuel expr2 (position2 + 1)
      else EvalSpecialFunctionsLoop m x fuel expr (position + 1)
    else .ok expr

/-- Method `Expression::EvalSpecialFunctions`. -/
def EvalSpecialFunctions (m : CMath) (expr : List Char) (x : ℚ) : Outcome (List Char) :=
  EvalSpecialFunctionsLoop m x expr.length expr 0

/-- Loop of `Expression::EvalPowers`. -/
def EvalPowersLoop (m : CMath) (x : ℚ) : Nat → List Char → Nat → Outcome (List Char)
  | 0, expr, position => if position < expr.length then .fuel else .ok expr
  | fuel + 1, expr, position =>
    if position < expr.length then do
      let c ← charAt expr position
      if c = '^' then do
        let (valueToLeft, startPosition) ← GetValueToLeft m expr (subSz position 1) x
        let (valueToRight, endPosition) ← GetValueToRight m expr (position + 1) x
        let evaluatedValue ← finite (m.pow valueToLeft valueToRight)
        let evaluatedValueS := to_string evaluatedValue
        let totalSizeToReplace := subSz endPosition startPosition + 1
        let expr2 ← replace expr startPosition totalSizeToReplace evaluatedValueS
        EvalPowersLoop m x fuel expr2 (subSz (startPosition + evaluatedValueS.length) 1 + 1)
      else EvalPowersLoop m x fuel expr (position + 1)
    else .ok expr

/-- Method `Expression::EvalPowers`. -/
def EvalPowers (m : CMath) (expr : List Char) (x : ℚ) : Outcome (List Char) :=
  EvalPowersLoop m x expr.length expr 0

/-- The sign clean-up of `EvalMultiplcation`: the first `+-` becomes `-`, then the first
`--` becomes `+`. -/
def normalizeSigns (expr : List Char) : Outcome (List Char) := do
  let expr1 ← match find ['+', '-'] expr with
    | some pos => replace expr pos 2 ['-']
    | none => pure expr
  match find ['-', '-'] expr1 with
  | some pos => replace expr1 pos 2 ['+']
  | none => pure expr1

/-- Loop of `Expression::EvalMultiplcation`. -/
def EvalMultiplcationLoop (m : CMath) (x : ℚ) : Nat → List Char → Nat → Outcome (List Char)
  | 0, expr, position => if position < expr.length then .fuel else .ok expr
  | fuel + 1, expr, position =>
    if position < expr.length then do
      let c ← charAt expr position
      if c = '*' || c = '/' then do
        let (valueToLeft, startPosition) ← GetValueToLeft m expr (subSz position 1) x
        let (valueToRight, endPosition) ← GetValueToRight m expr (position + 1) x
        let evaluatedValue ←
          if c = '/' then
            (if valueToRight = 0 then Outcome.unmodelled else pure (valueToLeft / valueToRight))
          else pure (valueToLeft * valueToRight)
        let evaluatedValueS := to_string evaluatedValue
        let totalSizeToReplace := subSz endPosition startPosition + 1
        let expr2 ← replace expr startPosition totalSizeToReplace evaluatedValueS
        let expr3 ← normalizeSigns expr2
        EvalMultiplcationLoop m x fuel expr3
          (subSz (startPosition + evaluatedValueS.length) 1 + 1)
      else EvalMultiplcationLoop m x fuel expr (position + 1)
    else .ok expr

/-- Method `Expression::EvalMultiplcation`. -/
def EvalMultiplcation (m : CMath) (expr : List Char) (x : ℚ) : Outcome (List Char) :=
  EvalMultiplcationLoop m x expr.length expr 0

/-- Loop of `Expression::EvalAddition`. -/
def EvalAdditionLoop (m : CMath) (x : ℚ) : Nat → List Char → Nat → Outcome (List Char)
  | 0, expr, position => if position < expr.length then .fuel else .ok expr
  | fuel + 1, expr, position =>
    if position < expr.length then do
      let c ← charAt expr position
      if c = '+' || (c = '-' && position ≠ 0) then do
        let (valueToLeft, startPosition) ← GetValueToLeft m expr (subSz position 1) x
        let (valueToRight, endPosition) ← GetValueToRight m expr (position + 1) x
        let evaluatedValue :=
          if c = '+' then valueToLeft + valueToRight else valueToLeft - valueToRight
        let evaluatedValueS := to_string evaluatedValue
        let totalSizeToReplace := subSz endPosition startPosition + 1
        let expr2 ← replace expr startPosition totalSizeToReplace evaluatedValueS
        EvalAdditionLoop m x fuel expr2 (subSz (startPosition + evaluatedValueS.length) 1 + 1)
      else EvalAdditionLoop m x fuel expr (position + 1)
    else .ok expr

/-- Method `Expression::EvalAddition`. -/
def EvalAddition (m : CMath) (expr : List Char) (x : ℚ) : Outcome (List Char) :=
  EvalAdditionLoop m x expr.length expr 0

/-- Method `Expression::EvalInternal` with a bound on the depth of nested groups. -/
def EvalInternalF (m : CMath) : Nat → List Char → ℚ → Outcome ℚ
  | 0, _, _ => .fuel
  | depth + 1, expr, x =>
    if expr.isEmpty then .thrown .invalid_argument
    else if expr = ['x'] then .ok x
    else if expr = ['-', 'x'] then .ok (-x)
    else do
      let e1 ← EvalSubExpressions (EvalInternalF m depth) expr x
      let e2 ← EvalSpecialFunctions m e1 x
      let e3 ← EvalPowers m e2 x
      let e4 ← EvalMultiplcation m e3 x
      let e5 ← EvalAddition m e4 x
      let e6 := if e5 = ['x'] then to_string x else e5
      stod e6

/-- Method `Expression::EvalInternal`: a group is shorter than the text around it, so
the length of the text bounds the depth. -/
def EvalInternal (m : CMath) (expr : List Char) (x : ℚ) : Outcome ℚ :=
  EvalInternalF m (expr.length + 1) expr x

/-- Method `Expression::Evaluate`. -/
def Evaluate (m : CMath) (expr : List Char) (x : ℚ) : Outcome ℚ :=
  EvalInternal m expr x

/-! ## The differentiator -/

/-- Enum `InterTermOperator`. -/
inductive InterTermOperator where
  | NONE
  | PLUS
  | MINUS
  deriving DecidableEq, Repr

/-- Loop of `Expression::BreakUpTerms` over the characters still to read. -/
def BreakUpTermsLoop : List Char → List Char → InterTermOperator → Char → Bool → Nat →
    List (InterTermOperator × List Char)
  | [], currentTerm, currentOp, _, _, _ =>
    if !currentTerm.isEmpty then [(currentOp, currentTerm)] else []
  | c :: rest, currentTerm, currentOp, lastC, isFirst, nestingLevel =>
    if nestingLevel = 0 && (c = '+' || (c = '-' && lastC ≠ 'E' && !isFirst)) then
      (currentOp, currentTerm) ::
        BreakUpTermsLoop rest [] (if c = '+' then .PLUS else .MINUS) c true nestingLevel
    else
      BreakUpTermsLoop rest (currentTerm ++ [c]) currentOp c false (nestStep c nestingLevel)

/-- Method `Expression::BreakUpTerms`. -/
def BreakUpTerms (expressionToBreak : List Char) : List (InterTermOperator × List Char) :=
  BreakUpTermsLoop expressionToBreak [] .NONE (Char.ofNat 0) true 0

/-- One round of the loop of `Expression::RecombineTerms`. -/
def RecombineStep (completeExpr : List Char) (item : InterTermOperator × List Char) :
    List Char :=
  let term := item.2
  if term.isEmpty then completeExpr
  else
    let isNeg : Bool := term.head? = some '-'
    match item.1 with
    | .PLUS => if isNeg then completeExpr ++ term else completeExpr ++ '+' :: term
    | .MINUS =>
      if isNeg then completeExpr ++ '+' :: term.drop 1 else completeExpr ++ '-' :: term
    | .NONE => term

/-- Method `Expression::RecombineTerms`. -/
def RecombineTerms (brokenExpression : List (InterTermOperator × List Char)) : List Char :=
  brokenExpression.foldl RecombineStep []

/-- The scan shared by the product, quotient and power rules: position of the first
`op` met while the nesting level is zero. -/
def findTopLevel (op : Char) : List Char → Nat → Nat → Option Nat
  | [], _, _ => none
  | c :: rest, pos, nestingLevel =>
    if nestStep c nestingLevel = 0 && c = op then some pos
    else findTopLevel op rest (pos + 1) (nestStep c nestingLevel)

/-- The scan of the chain rule: first position where the nesting level is one. -/
def findNestingOne : List Char → Nat → Nat → Option Nat
  | [], _, _ => none
  | c :: rest, pos, nestingLevel =>
    if nestStep c nestingLevel = 1 then some pos
    else findNestingOne rest (pos + 1) (nestStep c nestingLevel)

/-- Method `Expression::ProcessChainRule`; `rec` is `FindDerivativeInternal`, `none` is
`solved = false`. -/
def ProcessChainRule (rec : List Char → List Char → Outcome (List Char))
    (term deriveVar : List Char) : Outcome (Option (List Char)) :=
  match findNestingOne term 0 0 with
  | none => .ok none
  | some parenthPos => do
    let (subExpr, _) := GetSubExpression term (parenthPos + 1)
    let subExprDerivative ← rec subExpr deriveVar
    let toReplace := ['('] ++ subExpr ++ [')']
    let subVar := deriveVar ++ [Char.ofNat 39]
    let substitutedTerm ← replace term parenthPos toReplace.length subVar
    let substitutedTermDerivative ← rec substitutedTerm subVar
    if substitutedTermDerivative = ['0'] || subExprDerivative = ['0'] then pure (some ['0'])
    else if substitutedTermDerivative = ['1'] then pure (some subExprDerivative)
    else if subExprDerivative = ['1'] then pure (some substitutedTermDerivative)
    else pure (some (['('] ++ substitutedTermDerivative ++ [')', '*', '('] ++
      subExprDerivative ++ [')']))

/-- Method `Expression::ProcessProductRule`. -/
def ProcessProductRule (rec : List Char → List Char → Outcome (List Char))
    (term deriveVar : List Char) : Outcome (Option (List Char)) :=
  match findTopLevel '*' term 0 0 with
  | none => .ok none
  | some pos => do
    let lTerm := term.take pos
    let rTerm ← substr term (pos + 1)
    if lTerm = ['0'] || rTerm = ['0'] then pure (some ['0'])
    else do
      let lTermDerivative ← rec lTerm deriveVar
      let rTermDerivative ← rec rTerm deriveVar
      let lTD0 : Bool := lTermDerivative = ['0']
      let lTD1 : Bool := lTermDerivative = ['1']
      let rTD0 : Bool := rTermDerivative = ['0']
      let rTD1 : Bool := rTermDerivative = ['1']
      if lTD0 && rTD0 then pure (some ['0'])
      else if lTD0 && rTD1 then pure (some lTerm)
      else if lTD1 && rTD0 then pure (some rTerm)
      else if rTD1 && lTD1 then pure (some (lTerm ++ ['+'] ++ rTerm))
      else if lTD0 then
        pure (some (['('] ++ lTerm ++ [')', '*'] ++ ['('] ++ rTermDerivative ++ [')']))
      else if rTD0 then
        pure (some (['('] ++ rTerm ++ [')', '*'] ++ ['('] ++ lTermDerivative ++ [')']))
      else
        pure (some (['('] ++ lTerm ++ [')', '*', '('] ++ rTermDerivative ++ [')', '+', '(']
          ++ rTerm ++ [')', '*', '('] ++ lTermDerivative ++ [')']))

/-- Method `Expression::ProcessQuotientRule`. -/
def ProcessQuotientRule (rec : List Char → List Char → Outcome (List Char))
    (term deriveVar : List Char) : Outcome (Option (List Char)) :=
  match findTopLevel '/' term 0 0 with
  | none => .ok none
  | some pos => do
    let lTerm := term.take pos
    let rTerm ← substr term (pos + 1)
    if lTerm = ['0'] then pure (some ['0'])
    else if rTerm = ['0'] then .thrown .invalid_argument
    else do
      let lTermDerivative ← rec lTerm deriveVar
      let rTermDerivative ← rec rTerm deriveVar
      let lTD0 : Bool := lTermDerivative = ['0']
      let rTD0 : Bool := rTermDerivative = ['0']
      let rTD1 : Bool := rTermDerivative = ['1']
      if lTD0 && rTD0 then pure (some ['0'])
      else if lTD0 && rTD1 then
        pure (some (['('] ++ lTerm ++ [')', '/', '('] ++ rTerm ++ [')', '^', '2']))
      else if rTD0 then
        pure (some (['('] ++ lTermDerivative ++ [')', '/', '('] ++ rTerm ++ [')']))
      else if lTD0 then
        pure (some (['('] ++ lTerm ++ [')', '*', '('] ++ rTermDerivative ++ [')', '/', '(']
          ++ rTerm ++ [')', '^', '2']))
      else if rTD1 then
        pure (some (['('] ++ lTermDerivative ++ [')', '/'] ++ rTerm ++ ['-'] ++ lTerm ++ ['/']
          ++ rTerm ++ ['^', '2']))
      else
        pure (some (['('] ++ lTermDerivative ++ [')', '/', '('] ++ rTerm ++ [')', '-', '(']
          ++ lTerm ++ [')', '*', '('] ++ rTermDerivative ++ [')', '/', '('] ++ rTerm
          ++ [')', '^', '2']))

/-- Method `Expression::ProcessPowers`. -/
def ProcessPowers (m : CMath) (rec : List Char → List Char → Outcome (List Char))
    (term deriveVar : List Char) : Outcome (Option (List Char)) :=
  match findTopLevel '^' term 0 0 with
  | none => .ok none
  | some pos => do
    let lTerm := term.take pos
    let rTerm ← substr term (pos + 1)
    if lTerm = ['0'] || rTerm = ['0'] then pure (some ['0'])
    else do
      let lTermDerivative ← rec lTerm deriveVar
      let rTermDerivative ← rec rTerm deriveVar
      let lTD0 : Bool := lTermDerivative = ['0']
      let lTD1 : Bool := lTermDerivative = ['1']
      let rTD0 : Bool := rTermDerivative = ['0']
      let rTD1 : Bool := rTermDerivative = ['1']
      let lnL := ['l', 'n', '('] ++ lTerm ++ [')']
      let head := ['('] ++ lTerm ++ [')', '^', '('] ++ rTerm
      if lTD0 && rTD0 then pure (some ['0'])
      else if lTD0 then
        if lTerm = ['e'] && rTD1 then pure (some (['e', '^'] ++ rTerm))
        else if rTD1 then pure (some (head ++ [')', '*'] ++ lnL))
        else if lTerm = ['e'] then
          pure (some (lTerm ++ ['^', '('] ++ rTerm ++ [')', '*', '('] ++ rTermDerivative ++ [')']))
        else
          pure (some (head ++ [')', '*', '('] ++ lnL ++ ['*', '('] ++ rTermDerivative
            ++ [')', ')']))
      else if rTD0 then do
        let rTermVal ← EvalInternal m rTerm 0
        let rTermValS := to_string rTermVal
        let rTermPowVal := rTermVal - 1
        let rTermPowValS := to_string rTermPowVal
        if lTD1 then pure (some (rTermValS ++ ['*', '('] ++ lTerm ++ [')', '^'] ++ rTermPowValS))
        else
          pure (some (['('] ++ rTermValS ++ [')', '*', '('] ++ lTermDerivative ++ [')', '*', '(']
            ++ lTerm ++ [')', '^', '('] ++ rTermPowValS ++ [')']))
      else
        let base := head ++ ['-', '1', ')', '*', '(', '('] ++ rTerm ++ [')']
        let tail := ['+', '('] ++ lTerm ++ [')', '*'] ++ lnL
        if lTD1 && rTD1 then pure (some (base ++ tail ++ [')']))
        else if lTD1 then
          pure (some (base ++ tail ++ ['*', '('] ++ rTermDerivative ++ [')', ')']))
        else if rTD1 then
          pure (some (base ++ ['*', '('] ++ lTermDerivative ++ [')'] ++ tail ++ [')']))
        else
          pure (some (base ++ ['*', '('] ++ lTermDerivative ++ [')'] ++ tail ++ ['*', '(']
            ++ rTermDerivative ++ [')', ')']))

/-- Method `Expression::ProcessSpecialFunctions`. -/
def ProcessSpecialFunctions (rec : List Char → List Char → Outcome (List Char))
    (term deriveVar : List Char) : Outcome (Option (List Char)) :=
  match term with
  | c :: c2 :: _ =>
    let isNeg : Bool := c = '-'
    let cStar := if isNeg then c2 else c
    let offset : Nat := (if isNeg then 1 else 0) + (if cStar = 'l' then 2 else 3)
    if cStar = 's' || cStar = 'c' || cStar = 't' || cStar = 'l' then do
      let fn ← substr term offset
      let fnDerivative ← rec fn deriveVar
      if fnDerivative = ['0'] then pure (some ['0'])
      else
        let fnD1 : Bool := fnDerivative = ['1']
        let scaled := fun (item : List Char) =>
          if !fnD1 then ['('] ++ fnDerivative ++ [')', '*'] ++ item else item
        let processedItem :=
          if cStar = 's' then scaled (['c', 'o', 's'] ++ fn)
          else if cStar = 'c' then scaled (['-', 's', 'i', 'n'] ++ fn)
          else if cStar = 't' then
            ['('] ++ fnDerivative ++ [')', '/', '(', 'c', 'o', 's'] ++ fn ++ [')', '^', '2']
          else ['('] ++ fnDerivative ++ [')', '/', '('] ++ fn ++ [')']
        pure (some (if isNeg then ['-', '1', '.', '0', '*'] ++ processedItem else processedItem))
    else .ok none
  | _ => .ok none

/-- The body of the loop of `Expression::ProcessDerivatives`: the derivative text of
one term, the rules being tried in the order of the source. -/
def ProcessTerm (m : CMath) (rec : List Char → List Char → Outcome (List Char))
    (term deriveVar : List Char) : Outcome (List Char) :=
  if term = deriveVar then .ok ['1']
  else if term = '-' :: deriveVar then .ok ['-', '1']
  else if find deriveVar term = none then .ok ['0']
  else do
    match ← ProcessProductRule rec term deriveVar with
    | some item => pure item
    | none =>
    match ← ProcessQuotientRule rec term deriveVar with
    | some item => pure item
    | none =>
    match ← ProcessPowers m rec term deriveVar with
    | some item => pure item
    | none =>
    match ← ProcessSpecialFunctions rec term deriveVar with
    | some item => pure item
    | none =>
    match ← ProcessChainRule rec term deriveVar with
    | some item => pure item
    | none => .thrown .invalid_argument

/-- Method `Expression::ProcessDerivatives`. -/
def ProcessDerivatives (m : CMath) (rec : List Char → List Char → Outcome (List Char)) :
    List (InterTermOperator × List Char) → List Char →
    Outcome (List (InterTermOperator × List Char))
  | [], _ => .ok []
  | (op, term) :: rest, deriveVar => do
    let processedItem ← ProcessTerm m rec term deriveVar
    let processedItems ← ProcessDerivatives m rec rest deriveVar
    pure ((op, processedItem) :: processedItems)

/-- Method `Expression::FindDerivativeInternal` with a bound on the depth of the
recursion through the rules. -/
def FindDerivativeInternalF (m : CMath) : Nat → List Char → List Char → Outcome (List Char)
  | 0, _, _ => .fuel
  | depth + 1, expr, deriveVar => do
    let itemsToLookAt := BreakUpTerms expr
    let processedItems ←
      ProcessDerivatives m (FindDerivativeInternalF m depth) itemsToLookAt deriveVar
    pure (RecombineTerms processedItems)

/-- A bound on the depth of the recursion of `FindDerivativeInternal`: a rule either
passes on a shorter text with no more opening parentheses, or (chain rule) a text with
fewer opening parentheses that is longer by less than the placeholder variable. -/
def derivativeDepth (expr deriveVar : List Char) : Nat :=
  expr.length + expr.count '(' * (deriveVar.length + expr.count '(') + 1

/-- Method `Expression::FindDerivativeInternal`. -/
def FindDerivativeInternal (m : CMath) (expr deriveVar : List Char) : Outcome (List Char) :=
  FindDerivativeInternalF m (derivativeDepth expr deriveVar) expr deriveVar

/-- Method `Expression::Derivative`: the text of the derivative expression. -/
def Derivative (m : CMath) (expr : List Char) : Outcome (List Char) :=
  FindDerivativeInternal m expr ['x']

/-! ## The Newton solver -/

/-- What a call of `SolveForRoot` does to the engine and to the `results` buffer, in
the order it happens. -/
inductive Event where
  | differentiate (r : Outcome (List Char))
  | evalFunction (xn : ℚ) (r : Outcome ℚ)
  | evalDerivative (xn : ℚ) (r : Outcome ℚ)
  | write (index : Int) (value : ℚ)
  deriving DecidableEq

/-- A run of `SolveForRoot`: its events and the value it returns. -/
structure Run where
  trace : List Event
  ret : Outcome Int
  deriving DecidableEq

/-- Largest value of `int`. -/
def INT_MAX : Int := 2147483647

/-- The handler `catch (...)` of `SolveForRoot`: an exception makes the call return 0;
the other ways an engine call can end are passed on. -/
def catchAll {α : Type} (r : Outcome α) : Outcome Int :=
  match r with
  | .ok _ => .ok 0
  | .thrown _ => .ok 0
  | .undefined => .undefined
  | .unmodelled => .unmodelled
  | .fuel => .fuel

/-- The `for` loop of `SolveForRoot` and the statements after it; `f` and `df` evaluate
the function and its derivative, the first argument bounds the number of rounds. -/
def NewtonLoop (f df : ℚ → Outcome ℚ) (VERY_SMALL_VALUE goalErr : ℚ) (maxSize : Int) :
    Nat → Int → ℚ → ℚ → List Event → Run
  | 0, iterNum, _, funcVal, trace =>
    if iterNum ≤ maxSize ∧ |funcVal| > goalErr then ⟨trace, .fuel⟩
    else ⟨trace, .ok (if iterNum > maxSize then maxSize else iterNum)⟩
  | rounds + 1, iterNum, xn, funcVal, trace =>
    if iterNum ≤ maxSize ∧ |funcVal| > goalErr then
      match df xn with
      | .ok derivVal =>
        let trace1 := trace ++ [.evalDerivative xn (.ok derivVal)]
        if |derivVal| < VERY_SMALL_VALUE then ⟨trace1, .ok 0⟩
        else if derivVal = 0 then ⟨trace1, .unmodelled⟩
        else
          let xn1 := xn - funcVal / derivVal
          match f xn1 with
          | .ok funcVal1 =>
            let trace2 := trace1 ++ [.evalFunction xn1 (.ok funcVal1), .write iterNum xn1]
            if iterNum = INT_MAX then ⟨trace2, .undefined⟩
            else NewtonLoop f df VERY_SMALL_VALUE goalErr maxSize rounds (iterNum + 1) xn1
              funcVal1 trace2
          | r => ⟨trace1 ++ [.evalFunction xn1 r], catchAll r⟩
      | r => ⟨trace ++ [.evalDerivative xn r], catchAll r⟩
    else ⟨trace, .ok (if iterNum > maxSize then maxSize else iterNum)⟩

/-- Function `dllImplementation::SolveForRoot`. `expr` holds the characters readable at
the pointer, `VERY_SMALL_VALUE` is the constant of the precompiled header. The
`results` buffer is the `write` events of the run. -/
def SolveForRoot (m : CMath) (VERY_SMALL_VALUE : ℚ) (expr : List Char) (exprLen : Nat)
    (initialGuess : ℚ) (maxSize : Int) (goalErr : ℚ) : Run :=
  if maxSize ≤ 0 ∨ exprLen = 0 then ⟨[], .ok 0⟩
  else if expr.length < exprLen then ⟨[], .undefined⟩
  else
    let function := expr.take exprLen
    match Derivative m function with
    | .ok derivative =>
      match Evaluate m function initialGuess with
      | .ok funcVal =>
        NewtonLoop (Evaluate m function) (Evaluate m derivative) VERY_SMALL_VALUE goalErr
          maxSize maxSize.toNat 1 initialGuess funcVal
          [.differentiate (.ok derivative), .evalFunction initialGuess (.ok funcVal),
            .write 0 initialGuess]
      | r => ⟨[.differentiate (.ok derivative), .evalFunction initialGuess r], catchAll r⟩
    | r => ⟨[.differentiate r], catchAll r⟩

/-- Number of Newton update steps of a run: the estimates recorded after the initial
guess. -/
def newtonSteps (trace : List Event) : Nat :=
  trace.countP (fun ev => match ev with
    | .write index _ => decide (index ≠ 0)
    | _ => false)

/-- Some call of the differentiator or of the evaluator ended by an exception. -/
def engineThrew (trace : List Event) : Prop :=
  ∃ ev ∈ trace, match ev with
    | .differentiate r => r.isThrown = true
    | .evalFunction _ r => r.isThrown = true
    | .evalDerivative _ r => r.isThrown = true
    | .write _ _ => False

/-- Some evaluated derivative value has magnitude below the threshold. -/
def smallDerivative (VERY_SMALL_VALUE : ℚ) (trace : List Event) : Prop :=
  ∃ xn derivVal, Event.evalDerivative xn (.ok derivVal) ∈ trace ∧
    |derivVal| < VERY_SMALL_VALUE

/-- The call ended outside what the model decides: an out-of-range read, a value that
is not a finite number, or an exhausted step budget. -/
def Outcome.noVerdict {α : Type} (r : Outcome α) : Bool :=
  match r with
  | .undefined => true
  | .unmodelled => true
  | .fuel => true
  | _ => false

/-- Some call of the differentiator or of the evaluator ended without a verdict. -/
def engineNoVerdict (trace : List Event) : Prop :=
  ∃ ev ∈ trace, match ev with
    | .differentiate r => r.noVerdict = true
    | .evalFunction _ r => r.noVerdict = true
    | .evalDerivative _ r => r.noVerdict = true
    | .write _ _ => False

/-- What the loop of `SolveForRoot`, entered with the counter at `iterNum`, adds to a
run: the events `ext` and the returned value `ret`. -/
structure LoopSpec (VERY_SMALL_VALUE : ℚ) (maxSize iterNum : Int) (ext : List Event)
    (ret : Outcome Int) : Prop where
  not_thrown : ∀ e, ret ≠ .thrown e
  zero_iff : ret = .ok 0 ↔ engineThrew ext ∨ smallDerivative VERY_SMALL_VALUE ext
  value : ∀ r, ret = .ok r → r ≠ 0 → r = min (iterNum + newtonSteps ext) maxSize
  writes : ∀ i v, Event.write i v ∈ ext → iterNum ≤ i ∧ i ≤ maxSize
  steps : iterNum + newtonSteps ext ≤ maxSize + 1
  returns : ret.isOk = true ∨ engineNoVerdict ext ∨
    (∃ xn, Event.evalDerivative xn (.ok 0) ∈ ext) ∨ INT_MAX ≤ maxSize

/-- The events of a run before its loop: none, the differentiation alone, or the
differentiation, the first evaluation and the record of the initial guess. -/
def isPrelude (initialGuess : ℚ) (pre : List Event) : Prop :=
  pre = [] ∨ (∃ d, pre = [Event.differentiate (.ok d)]) ∨
    ∃ d fv, pre = [Event.differentiate (.ok d),
      Event.evalFunction initialGuess (.ok fv), Event.write 0 initialGuess]

/-- The result `r2` is `r1` unless `r1` ran out of its step budget. -/
def Outcome.refines {α : Type} (r1 r2 : Outcome α) : Prop :=
  r1 = .fuel ∨ r2 = r1

/-! ## Texts named by the claims -/

/-- The further terms of a sum of zeros: each connective followed by the term `0`. -/
def zeroTail : List Char → List Char
  | [] => []
  | op :: rest => op :: '0' :: zeroTail rest

/-- The text made only of the term `0` joined by the given connectives: `0`, `0+0`,
`0+0-0`, and so on. -/
def zeroSum (connectives : List Char) : List Char :=
  '0' :: zeroTail connectives

/-- The character of a connective between terms. -/
def opChar (op : InterTermOperator) : Char :=
  match op with
  | .NONE => Char.ofNat 0
  | .PLUS => '+'
  | .MINUS => '-'

/-- The product-rule table in the words of the specification: the derivative text of a
term `L*R` from the derivative texts `dL` and `dR` of its factors. -/
def productRuleText (L R dL dR : List Char) : List Char :=
  if dL = ['0'] ∧ dR = ['0'] then ['0']
  else if dL = ['0'] ∧ dR = ['1'] then L
  else if dL = ['1'] ∧ dR = ['0'] then R
  else if dL = ['1'] ∧ dR = ['1'] then L ++ ['+'] ++ R
  else if dL = ['0'] then ['('] ++ L ++ [')', '*', '('] ++ dR ++ [')']
  else if dR = ['0'] then ['('] ++ R ++ [')', '*', '('] ++ dL ++ [')']
  else ['('] ++ L ++ [')', '*', '('] ++ dR ++ [')', '+', '('] ++ R ++ [')', '*', '(']
    ++ dL ++ [')']

/-- The text `inner`, read from the nesting level `nestingLevel`, never brings the
level to zero and leaves it at one: it is the inside of a parenthesised group whose
closing parenthesis comes right after it. -/
def insideGroup : List Char → Nat → Bool
  | [], nestingLevel => decide (nestingLevel = 1)
  | c :: rest, nestingLevel =>
    nestStep c nestingLevel != 0 && insideGroup rest (nestStep c nestingLevel)

/-- No character of the text is an operator or a parenthesis: it is a name, a number
without a sign, or a run of both. -/
def isPlain (s : List Char) : Prop :=
  ∀ c ∈ s, c ≠ '+' ∧ c ≠ '-' ∧ c ≠ '*' ∧ c ≠ '/' ∧ c ≠ '^' ∧ c ≠ '(' ∧ c ≠ ')'

/-- The content of the `results` buffer as a run fills it: the index and the value of
every `write`, in the order of the writes. -/
def writes (trace : List Event) : List (Int × ℚ) :=
  trace.filterMap (fun ev => match ev with
    | .write index value => some (index, value)
    | _ => none)

/-- The values `xs` stored at the consecutive indices `i`, `i + 1`, and so on. -/
def indexFrom (i : Int) : List ℚ → List (Int × ℚ)
  | [] => []
  | v :: vs => (i, v) :: indexFrom (i + 1) vs

/-- Number of calls of the differentiator in a run. -/
def differentiations (trace : List Event) : Nat :=
  trace.countP (fun ev => match ev with
    | .differentiate _ => true
    | _ => false)

/-- One Newton update in the words of the specification: `b = a - f(a) / f'(a)`, taken
while `|f(a)| > goalErr`; `f` and `df` evaluate the function and its derivative. -/
def newtonStep (f df : ℚ → Outcome ℚ) (goalErr : ℚ) (a b : ℚ) : Prop :=
  ∃ fv dv, f a = .ok fv ∧ df a = .ok dv ∧ |fv| > goalErr ∧ b = a - fv / dv

/-- Every estimate of the list after the first is the Newton update of the one before
it. -/
def newtonChain (f df : ℚ → Outcome ℚ) (goalErr : ℚ) : List ℚ → Prop
  | a :: b :: rest => newtonStep f df goalErr a b ∧ newtonChain f df goalErr (b :: rest)
  | _ => True

/-- The order of the specification on the texts handed to the differentiator: fewer
opening parentheses, or as many and a shorter text. -/
def lexSmaller (sub term : List Char) : Prop :=
  sub.count '(' < term.count '(' ∨ (sub.count '(' = term.count '(' ∧ sub.length < term.length)

/-- The two kinds of argument `(sub, subVar)` a rule hands to the recursive call when it
works on `(term, deriveVar)`: a shorter text with the same variable and no more
parentheses, or (chain rule) a text with fewer opening parentheses, longer by at most
the variable, with the placeholder variable. -/
def recArg (term deriveVar sub subVar : List Char) : Prop :=
  (subVar = deriveVar ∧ sub.length < term.length ∧ sub.count '(' ≤ term.count '(' ∧
    sub.count ')' ≤ term.count ')') ∨
  (subVar = deriveVar ++ [Char.ofNat 39] ∧ sub.count '(' < term.count '(' ∧
    sub.length ≤ term.length + deriveVar.length ∧ sub.count ')' ≤ term.count ')')

/-- Two results are the same, and they are an exhausted step budget only if `q`. -/
def agree (q : Prop) {α : Type} (r1 r2 : Outcome α) : Prop :=
  r1 = r2 ∧ (r1 = .fuel → q)

/-! ## Balanced parentheses and the terms written back -/

/-- The nesting depth after reading a text from depth `d`, counted without bound;
`none` when a closing parenthesis is met at depth zero. -/
def depthAfter : Nat → List Char → Option Nat
  | d, [] => some d
  | d, c :: cs =>
    if c = '(' then depthAfter (d + 1) cs
    else if c = ')' then (if d = 0 then none else depthAfter (d - 1) cs)
    else depthAfter d cs

/-- Balanced parentheses: every prefix has at least as many `(` as `)` and the totals
are equal. -/
def balanced (s : List Char) : Bool := depthAfter 0 s == some 0

/-- The positions at which the loop of `Expression::BreakUpTerms` ends a term: the same
loop, recording the position of each character that takes the splitting branch. -/
def BreakUpTermsSplits : List Char → Char → Bool → Nat → Nat → List Nat
  | [], _, _, _, _ => []
  | c :: rest, lastC, isFirst, nestingLevel, position =>
    if nestingLevel = 0 && (c = '+' || (c = '-' && lastC ≠ 'E' && !isFirst)) then
      position :: BreakUpTermsSplits rest c true nestingLevel (position + 1)
    else
      BreakUpTermsSplits rest c false (nestStep c nestingLevel) (position + 1)

/-- The character that stands for an operator between terms. -/
def opText : InterTermOperator → List Char
  | .NONE => []
  | .PLUS => ['+']
  | .MINUS => ['-']

/-- The terms written in order, each preceded by the character of its operator. -/
def writeTerms : List (InterTermOperator × List Char) → List Char
  | [] => []
  | (op, term) :: rest => opText op ++ term ++ writeTerms rest

/-- The table of the specification for the special-function rule: the derivative text of
the keyword `K` applied to the parenthesised argument `F`, from the derivative text
`dF` of `F` when that is not `0`. -/
def specialFunctionTable (K F dF : List Char) : List Char :=
  if K = ['s', 'i', 'n'] then
    (if dF = ['1'] then ['c', 'o', 's'] ++ F else ['('] ++ dF ++ [')', '*'] ++ ['c', 'o', 's'] ++ F)
  else if K = ['c', 'o', 's'] then
    (if dF = ['1'] then ['-', 's', 'i', 'n'] ++ F
      else ['('] ++ dF ++ [')', '*'] ++ ['-', 's', 'i', 'n'] ++ F)
  else if K = ['t', 'a', 'n'] then
    ['('] ++ dF ++ [')', '/', '(', 'c', 'o', 's'] ++ F ++ [')', '^', '2']
  else ['('] ++ dF ++ [')', '/', '('] ++ F ++ [')']

/-! ## The shape of the texts of the grammar -/

/-- The letters that start a function keyword. -/
def isKeyLetter (c : Char) : Bool := c = 's' || c = 'c' || c = 't' || c = 'l'

/-- The characters after which an operand starts: the operators and the opening
parenthesis. -/
def isStartChar (c : Char) : Bool :=
  c = '+' || c = '-' || c = '*' || c = '/' || c = '^' || c = '('

/-- The characters that end an operand: the operators and the closing parenthesis. -/
def isCutChar (c : Char) : Bool :=
  c = '+' || c = '-' || c = '*' || c = '/' || c = '^' || c = ')'

/-- The text starts with a function keyword and its opening parenthesis. -/
def keywordAhead (s : List Char) : Prop :=
  ['s', 'i', 'n', '('] <+: s ∨ ['c', 'o', 's', '('] <+: s ∨ ['t', 'a', 'n', '('] <+: s ∨
    ['l', 'n', '('] <+: s

/-- The text before an operand: empty, or ending in a character after which an operand
starts. -/
def startsAt (a : List Char) : Prop :=
  a = [] ∨ ∃ a2 p, a = a2 ++ [p] ∧ isStartChar p = true

/-- Wherever an operand starts with one of the letters `s`, `c`, `t`, `l`, it starts with
a function keyword and its opening parenthesis. -/
def keywordShape (s : List Char) : Prop :=
  ∀ a c rest, s = a ++ c :: rest → isKeyLetter c = true → startsAt a →
    keywordAhead (c :: rest)

/-- No function keyword letter follows the sign of an exponent. -/
def noKeyAfterExponent (s : List Char) : Prop :=
  ∀ a c rest, s = a ++ 'E' :: '-' :: c :: rest → isKeyLetter c = false

/-- What the differentiator relies on in a text it is given: balanced parentheses (fewer
than the counter can hold), function keywords where operands start with their letters,
and no such letter after the sign of an exponent. -/
def wellShaped (s : List Char) : Prop :=
  depthAfter 0 s = some 0 ∧ s.count '(' + 1 < SIZE_MOD ∧ keywordShape s ∧
    noKeyAfterExponent s

/-- Outside parentheses a term holds no `+`, and a `-` only as its first character or
after the exponent marker `E`. -/
def topSigns (t : List Char) : Prop :=
  ∀ a p rest, t = a ++ p :: rest → (∀ c ∈ a, c ≠ '(' ∧ c ≠ ')') →
    p ≠ '+' ∧ (p = '-' → a = [] ∨ ∃ a2, a = a2 ++ ['E'])

/-- The variable of differentiation and its placeholders: `x` followed by apostrophes. -/
def isVar (v : List Char) : Prop := ∀ c ∈ v, c = 'x' ∨ c = Char.ofNat 39

/-- Balanced at every depth: the text brings every depth back to itself. -/
def bal (s : List Char) : Prop := ∀ k, depthAfter k s = some k

/-- Whatever text a rule returns is balanced. -/
def okBal (r : Outcome (Option (List Char))) : Prop :=
  ∀ item, r = .ok (some item) → bal item

/-- The nonterminals of the expression grammar of the specification. -/
inductive Nonterminal where
  | expr
  | term
  | factor
  | power
  | atom

/-- The rule `digits` of the grammar: one or more decimal digits. -/
def isDigits (ds : List Char) : Prop := ds ≠ [] ∧ ∀ c ∈ ds, isdigit c = true

/-- The rule `number := digits ('.' digits)? ('E' '-'? digits)?` of the grammar. -/
def isNumber (n : List Char) : Prop :=
  ∃ ds frac ex, n = ds ++ frac ++ ex ∧ isDigits ds ∧
    (frac = [] ∨ ∃ fs, frac = '.' :: fs ∧ isDigits fs) ∧
    (ex = [] ∨ ∃ es, (ex = 'E' :: es ∨ ex = 'E' :: '-' :: es) ∧ isDigits es)

/-- The function names of the grammar. -/
def isFunc (K : List Char) : Prop :=
  K = ['s', 'i', 'n'] ∨ K = ['c', 'o', 's'] ∨ K = ['t', 'a', 'n'] ∨ K = ['l', 'n']

/-- The expression grammar of the specification: the texts derived from each
nonterminal.
`expr := term (('+' | '-') term)*`, `term := factor (('*' | '/') factor)*`,
`factor := power ('^' power)*`, `power := '-'? atom`,
`atom := number | 'x' | 'e' | func '(' expr ')' | '(' expr ')'`. -/
inductive conforms : Nonterminal → List Char → Prop
  | exprTerm (t : List Char) : conforms .term t → conforms .expr t
  | exprPlus (e t : List Char) : conforms .expr e → conforms .term t →
      conforms .expr (e ++ '+' :: t)
  | exprMinus (e t : List Char) : conforms .expr e → conforms .term t →
      conforms .expr (e ++ '-' :: t)
  | termFactor (f : List Char) : conforms .factor f → conforms .term f
  | termTimes (t f : List Char) : conforms .term t → conforms .factor f →
      conforms .term (t ++ '*' :: f)
  | termOver (t f : List Char) : conforms .term t → conforms .factor f →
      conforms .term (t ++ '/' :: f)
  | factorPower (p : List Char) : conforms .power p → conforms .factor p
  | factorPow (f p : List Char) : conforms .factor f → conforms .power p →
      conforms .factor (f ++ '^' :: p)
  | powerAtom (a : List Char) : conforms .atom a → conforms .power a
  | powerNeg (a : List Char) : conforms .atom a → conforms .power ('-' :: a)
  | atomNumber (n : List Char) : isNumber n → conforms .atom n
  | atomX : conforms .atom ['x']
  | atomE : conforms .atom ['e']
  | atomFunc (K e : List Char) : isFunc K → conforms .expr e →
      conforms .atom (K ++ '(' :: (e ++ [')']))
  | atomGroup (e : List Char) : conforms .expr e → conforms .atom ('(' :: (e ++ [')']))

/-- Every exponent marker `E` is followed by a digit, or by `-` and a digit. -/
def exponentShape (s : List Char) : Prop :=
  ∀ a rest, s = a ++ 'E' :: rest →
    (∃ d r, rest = d :: r ∧ isdigit d = true) ∨ (∃ d r, rest = '-' :: d :: r ∧ isdigit d = true)

/-- What the grammar gives to the differentiator: balanced parentheses, keywords where
operands start with their letters, digits after the exponent marker. -/
def grammarShape (s : List Char) : Prop := bal s ∧ keywordShape s ∧ exponentShape s

/-! ## A math library for closed examples -/

/-- Partial sum of the exponential series. -/
def expSeries (q : ℚ) : ℚ :=
  ((List.range 40).map (fun k => q ^ k / (Nat.factorial k : ℚ))).sum

/-- Partial sum of the sine series. -/
def sinSeries (q : ℚ) : ℚ :=
  ((List.range 16).map
    (fun k => (-1) ^ k * q ^ (2 * k + 1) / (Nat.factorial (2 * k + 1) : ℚ))).sum

/-- Partial sum of the cosine series. -/
def cosSeries (q : ℚ) : ℚ :=
  ((List.range 16).map (fun k => (-1) ^ k * q ^ (2 * k) / (Nat.factorial (2 * k) : ℚ))).sum

/-- Partial sum of the area-tangent series of the natural logarithm. -/
def logSeries (q : ℚ) : ℚ :=
  2 * ((List.range 60).map (fun k => ((q - 1) / (q + 1)) ^ (2 * k + 1) / ((2 * k + 1 : Nat) : ℚ))).sum

/-- A `CMath` for evaluating examples: integer powers are exact, the other functions
are partial sums of their series; results that are not finite are `none`. -/
def libm : CMath where
  sin := sinSeries
  cos := cosSeries
  tan := fun q => sinSeries q / cosSeries q
  log := fun q => if q ≤ 0 then none else some (logSeries q)
  pow := fun a b =>
    if b.den = 1 then (if a = 0 ∧ b < 0 then none else some (a ^ b.num))
    else if a < 0 then none
    else if a = 0 then (if b < 0 then none else some 0)
    else some (expSeries (b * logSeries a))
  M_E := 2718281828459045 / 1000000000000000

/-! ## The solver: lemmas -/

theorem engineThrew_append (a b : List Event) :
    engineThrew (a ++ b) ↔ engineThrew a ∨ engineThrew b := by
  simp only [engineThrew, List.mem_append]
  constructor
  · rintro ⟨ev, h | h, hp⟩
    · exact Or.inl ⟨ev, h, hp⟩
    · exact Or.inr ⟨ev, h, hp⟩
  · rintro (⟨ev, h, hp⟩ | ⟨ev, h, hp⟩)
    · exact ⟨ev, Or.inl h, hp⟩
    · exact ⟨ev, Or.inr h, hp⟩

theorem smallDerivative_append (v : ℚ) (a b : List Event) :
    smallDerivative v (a ++ b) ↔ smallDerivative v a ∨ smallDerivative v b := by
  simp only [smallDerivative, List.mem_append]
  constructor
  · rintro ⟨x, d, h | h, hp⟩
    · exact Or.inl ⟨x, d, h, hp⟩
    · exact Or.inr ⟨x, d, h, hp⟩
  · rintro (⟨x, d, h, hp⟩ | ⟨x, d, h, hp⟩)
    · exact ⟨x, d, Or.inl h, hp⟩
    · exact ⟨x, d, Or.inr h, hp⟩

theorem newtonSteps_append (a b : List Event) :
    newtonSteps (a ++ b) = newtonSteps a + newtonSteps b := by
  simp [newtonSteps, List.countP_append]

theorem engineNoVerdict_append (a b : List Event) :
    engineNoVerdict (a ++ b) ↔ engineNoVerdict a ∨ engineNoVerdict b := by
  simp only [engineNoVerdict, List.mem_append]
  constructor
  · rintro ⟨ev, h | h, hp⟩
    · exact Or.inl ⟨ev, h, hp⟩
    · exact Or.inr ⟨ev, h, hp⟩
  · rintro (⟨ev, h, hp⟩ | ⟨ev, h, hp⟩)
    · exact ⟨ev, Or.inl h, hp⟩
    · exact ⟨ev, Or.inr h, hp⟩

theorem NewtonLoop_spec (f df : ℚ → Outcome ℚ) (V goalErr : ℚ) (maxSize : Int)
    (hmax : 1 ≤ maxSize) :
    ∀ (rounds : Nat) (iterNum : Int) (xn funcVal : ℚ) (trace : List Event),
      1 ≤ iterNum → iterNum + rounds = maxSize + 1 →
      ∃ ext, (NewtonLoop f df V goalErr maxSize rounds iterNum xn funcVal trace).trace
          = trace ++ ext ∧
        LoopSpec V maxSize iterNum ext
          (NewtonLoop f df V goalErr maxSize rounds iterNum xn funcVal trace).ret := by
  intro rounds
  induction rounds with
  | zero =>
    intro iterNum xn funcVal trace h1 hr
    have hgt : ¬ iterNum ≤ maxSize := by omega
    refine ⟨[], ?_, ?_⟩
    · simp [NewtonLoop, hgt]
    · simp only [NewtonLoop, hgt, false_and, if_false]
      have hgt2 : iterNum > maxSize := by omega
      simp only [hgt2, if_true]
      constructor
      · intro e; simp
      · simp [engineThrew, smallDerivative]; omega
      · intro r hr0 _; simp at hr0; subst hr0; simp [newtonSteps]; omega
      · simp
      · simp [newtonSteps]; omega
      · exact Or.inl rfl
  | succ n ih =>
    intro iterNum xn funcVal trace h1 hr
    by_cases hc : iterNum ≤ maxSize ∧ |funcVal| > goalErr
    · have hle : iterNum ≤ maxSize := hc.1
      cases hdf : df xn with
      | ok derivVal =>
        by_cases hsmall : |derivVal| < V
        · refine ⟨[.evalDerivative xn (.ok derivVal)], ?_, ?_⟩
          · simp [NewtonLoop, hc, hdf, hsmall]
          · simp only [NewtonLoop, hc, hdf, hsmall, and_self, if_true]
            constructor
            · intro e; simp
            · simp only [true_iff]
              exact Or.inr ⟨xn, derivVal, by simp, hsmall⟩
            · intro r hr0 hne; simp at hr0; omega
            · simp
            · simp [newtonSteps]; omega
            · exact Or.inl rfl
        · by_cases hzero : derivVal = 0
          · subst hzero
            refine ⟨[.evalDerivative xn (.ok 0)], ?_, ?_⟩
            · simp only [NewtonLoop, hc, hdf, hsmall, and_self, if_true, if_false]
            · simp only [NewtonLoop, hc, hdf, hsmall, and_self, if_true, if_false]
              constructor
              · intro e; simp
              · refine ⟨fun h => (by cases h), fun h => False.elim ?_⟩
                simp only [engineThrew, smallDerivative, List.mem_singleton] at h
                rcases h with ⟨ev, rfl, h⟩ | ⟨x, d, h, hd⟩
                · simp [Outcome.isThrown] at h
                · simp at h; obtain ⟨-, rfl⟩ := h; exact hsmall hd
              · intro r hr0; simp at hr0
              · simp
              · simp [newtonSteps]; omega
              · exact Or.inr (Or.inr (Or.inl ⟨xn, List.mem_singleton.2 rfl⟩))
          · cases hf : f (xn - funcVal / derivVal) with
            | ok funcVal1 =>
              by_cases hint : iterNum = INT_MAX
              · subst hint
                refine ⟨[.evalDerivative xn (.ok derivVal),
                  .evalFunction (xn - funcVal / derivVal) (.ok funcVal1),
                  .write INT_MAX (xn - funcVal / derivVal)], ?_, ?_⟩
                · simp only [NewtonLoop, hc, hdf, hsmall, hzero, hf, and_self, if_true,
                    if_false, List.append_assoc, List.singleton_append]
                · simp only [NewtonLoop, hc, hdf, hsmall, hzero, hf, and_self, if_true,
                    if_false]
                  constructor
                  · intro e; simp
                  · refine ⟨fun h => (by cases h), fun h => False.elim ?_⟩
                    simp only [engineThrew, smallDerivative] at h
                    rcases h with ⟨ev, hm, h⟩ | ⟨x, d, h, hd⟩
                    · simp at hm
                      rcases hm with rfl | rfl | rfl <;> simp [Outcome.isThrown] at h
                    · simp at h; obtain ⟨-, rfl⟩ := h; exact hsmall hd
                  · intro r hr0; simp at hr0
                  · intro i v hm; simp at hm; omega
                  · have h0 : INT_MAX ≠ 0 := by decide
                    simp [newtonSteps, h0]; omega
                  · exact Or.inr (Or.inr (Or.inr hle))
              · obtain ⟨ext, htr, hspec⟩ := ih (iterNum + 1) (xn - funcVal / derivVal) funcVal1
                  (trace ++ [.evalDerivative xn (.ok derivVal)] ++
                    [.evalFunction (xn - funcVal / derivVal) (.ok funcVal1),
                     .write iterNum (xn - funcVal / derivVal)]) (by omega) (by omega)
                refine ⟨[.evalDerivative xn (.ok derivVal),
                  .evalFunction (xn - funcVal / derivVal) (.ok funcVal1),
                  .write iterNum (xn - funcVal / derivVal)] ++ ext, ?_, ?_⟩
                · simp only [NewtonLoop, hc, hdf, hsmall, hzero, hf, hint, and_self, if_true,
                    if_false]
                  rw [htr]; simp
                · simp only [NewtonLoop, hc, hdf, hsmall, hzero, hf, hint, and_self, if_true,
                    if_false]
                  have hpre : ¬ (engineThrew [Event.evalDerivative xn (.ok derivVal),
                      .evalFunction (xn - funcVal / derivVal) (.ok funcVal1),
                      .write iterNum (xn - funcVal / derivVal)] ∨
                      smallDerivative V [Event.evalDerivative xn (.ok derivVal),
                      .evalFunction (xn - funcVal / derivVal) (.ok funcVal1),
                      .write iterNum (xn - funcVal / derivVal)]) := by
                    simp only [engineThrew, smallDerivative]
                    rintro (⟨ev, hm, h⟩ | ⟨x, d, h, hd⟩)
                    · simp at hm
                      rcases hm with rfl | rfl | rfl <;> simp [Outcome.isThrown] at h
                    · simp at h; obtain ⟨-, rfl⟩ := h; exact hsmall hd
                  have hst : newtonSteps ([Event.evalDerivative xn (.ok derivVal),
                      .evalFunction (xn - funcVal / derivVal) (.ok funcVal1),
                      .write iterNum (xn - funcVal / derivVal)] ++ ext)
                      = 1 + newtonSteps ext := by
                    rw [newtonSteps_append]
                    have : iterNum ≠ 0 := by omega
                    simp [newtonSteps, this]
                  constructor
                  · exact hspec.not_thrown
                  · rw [hspec.zero_iff, engineThrew_append, smallDerivative_append]
                    tauto
                  · intro r hr0 hne
                    rw [hst, hspec.value r hr0 hne]; push_cast; congr 1; omega
                  · intro i v hm
                    simp only [List.mem_append, List.mem_cons, List.mem_singleton] at hm
                    rcases hm with (h | h | h) | h
                    · cases h
                    · cases h
                    · simp at h; omega
                    · have := hspec.writes i v h; omega
                  · rw [hst]; have := hspec.steps; push_cast; omega
                  · rcases hspec.returns with h | h | ⟨x, h⟩ | h
                    · exact Or.inl h
                    · exact Or.inr (Or.inl ((engineNoVerdict_append _ _).2 (Or.inr h)))
                    · exact Or.inr (Or.inr (Or.inl ⟨x, List.mem_append_right _ h⟩))
                    · exact Or.inr (Or.inr (Or.inr h))
            | thrown e =>
              refine ⟨[.evalDerivative xn (.ok derivVal),
                  .evalFunction (xn - funcVal / derivVal) (.thrown e)], ?_, ?_⟩
              · simp [NewtonLoop, hc, hdf, hsmall, hzero, hf]
              · simp only [NewtonLoop, hc, hdf, hsmall, hzero, hf, and_self, if_true, if_false,
                  catchAll]
                constructor
                · intro e; simp
                · simp only [true_iff]
                  exact Or.inl ⟨_, List.mem_cons_of_mem _ (List.mem_singleton.2 rfl),
                    by simp [Outcome.isThrown]⟩
                · intro r hr0 hne; simp at hr0; omega
                · simp
                · simp [newtonSteps]; omega
                · exact Or.inl rfl
            | undefined =>
              refine ⟨[.evalDerivative xn (.ok derivVal),
                  .evalFunction (xn - funcVal / derivVal) .undefined], ?_, ?_⟩
              · simp [NewtonLoop, hc, hdf, hsmall, hzero, hf]
              · simp only [NewtonLoop, hc, hdf, hsmall, hzero, hf, and_self, if_true, if_false,
                  catchAll]
                constructor
                · intro e; simp
                · refine ⟨fun h => (by cases h), fun h => False.elim ?_⟩
                  simp only [engineThrew, smallDerivative] at h
                  rcases h with ⟨ev, hm, h⟩ | ⟨x, d, h, hd⟩
                  · simp at hm
                    rcases hm with rfl | rfl <;> simp [Outcome.isThrown] at h
                  · simp at h; obtain ⟨-, rfl⟩ := h; exact hsmall hd
                · intro r hr0; simp at hr0
                · simp
                · simp [newtonSteps]; omega
                · exact Or.inr (Or.inl ⟨_, List.mem_cons_of_mem _ (List.mem_singleton.2 rfl),
                    by simp [Outcome.noVerdict]⟩)
            | unmodelled =>
              refine ⟨[.evalDerivative xn (.ok derivVal),
                  .evalFunction (xn - funcVal / derivVal) .unmodelled], ?_, ?_⟩
              · simp [NewtonLoop, hc, hdf, hsmall, hzero, hf]
              · simp only [NewtonLoop, hc, hdf, hsmall, hzero, hf, and_self, if_true, if_false,
                  catchAll]
                constructor
                · intro e; simp
                · refine ⟨fun h => (by cases h), fun h => False.elim ?_⟩
                  simp only [engineThrew, smallDerivative] at h
                  rcases h with ⟨ev, hm, h⟩ | ⟨x, d, h, hd⟩
                  · simp at hm
                    rcases hm with rfl | rfl <;> simp [Outcome.isThrown] at h
                  · simp at h; obtain ⟨-, rfl⟩ := h; exact hsmall hd
                · intro r hr0; simp at hr0
                · simp
                · simp [newtonSteps]; omega
                · exact Or.inr (Or.inl ⟨_, List.mem_cons_of_mem _ (List.mem_singleton.2 rfl),
                    by simp [Outcome.noVerdict]⟩)
            | fuel =>
              refine ⟨[.evalDerivative xn (.ok derivVal),
                  .evalFunction (xn - funcVal / derivVal) .fuel], ?_, ?_⟩
              · simp [NewtonLoop, hc, hdf, hsmall, hzero, hf]
              · simp only [NewtonLoop, hc, hdf, hsmall, hzero, hf, and_self, if_true, if_false,
                  catchAll]
                constructor
                · intro e; simp
                · refine ⟨fun h => (by cases h), fun h => False.elim ?_⟩
                  simp only [engineThrew, smallDerivative] at h
                  rcases h with ⟨ev, hm, h⟩ | ⟨x, d, h, hd⟩
                  · simp at hm
                    rcases hm with rfl | rfl <;> simp [Outcome.isThrown] at h
                  · simp at h; obtain ⟨-, rfl⟩ := h; exact hsmall hd
                · intro r hr0; simp at hr0
                · simp
                · simp [newtonSteps]; omega
                · exact Or.inr (Or.inl ⟨_, List.mem_cons_of_mem _ (List.mem_singleton.2 rfl),
                    by simp [Outcome.noVerdict]⟩)
      | thrown e =>
        refine ⟨[.evalDerivative xn (.thrown e)], ?_, ?_⟩
        · simp [NewtonLoop, hc, hdf]
        · simp only [NewtonLoop, hc, hdf, and_self, if_true, catchAll]
          constructor
          · intro e; simp
          · simp only [true_iff]
            exact Or.inl ⟨_, List.mem_singleton.2 rfl, by simp [Outcome.isThrown]⟩
          · intro r hr0 hne; simp at hr0; omega
          · simp
          · simp [newtonSteps]; omega
          · exact Or.inl rfl
      | undefined =>
        refine ⟨[.evalDerivative xn .undefined], ?_, ?_⟩
        · simp [NewtonLoop, hc, hdf]
        · simp only [NewtonLoop, hc, hdf, and_self, if_true, catchAll]
          constructor
          · intro e; simp
          · refine ⟨fun h => (by cases h), fun h => False.elim ?_⟩
            simp only [engineThrew, smallDerivative, List.mem_singleton] at h
            rcases h with ⟨ev, rfl, h⟩ | ⟨x, d, h, hd⟩
            · simp [Outcome.isThrown] at h
            · simp at h
          · intro r hr0; simp at hr0
          · simp
          · simp [newtonSteps]; omega
          · exact Or.inr (Or.inl ⟨_, List.mem_singleton.2 rfl, by simp [Outcome.noVerdict]⟩)
      | unmodelled =>
        refine ⟨[.evalDerivative xn .unmodelled], ?_, ?_⟩
        · simp [NewtonLoop, hc, hdf]
        · simp only [NewtonLoop, hc, hdf, and_self, if_true, catchAll]
          constructor
          · intro e; simp
          · refine ⟨fun h => (by cases h), fun h => False.elim ?_⟩
            simp only [engineThrew, smallDerivative, List.mem_singleton] at h
            rcases h with ⟨ev, rfl, h⟩ | ⟨x, d, h, hd⟩
            · simp [Outcome.isThrown] at h
            · simp at h
          · intro r hr0; simp at hr0
          · simp
          · simp [newtonSteps]; omega
          · exact Or.inr (Or.inl ⟨_, List.mem_singleton.2 rfl, by simp [Outcome.noVerdict]⟩)
      | fuel =>
        refine ⟨[.evalDerivative xn .fuel], ?_, ?_⟩
        · simp [NewtonLoop, hc, hdf]
        · simp only [NewtonLoop, hc, hdf, and_self, if_true, catchAll]
          constructor
          · intro e; simp
          · refine ⟨fun h => (by cases h), fun h => False.elim ?_⟩
            simp only [engineThrew, smallDerivative, List.mem_singleton] at h
            rcases h with ⟨ev, rfl, h⟩ | ⟨x, d, h, hd⟩
            · simp [Outcome.isThrown] at h
            · simp at h
          · intro r hr0; simp at hr0
          · simp
          · simp [newtonSteps]; omega
          · exact Or.inr (Or.inl ⟨_, List.mem_singleton.2 rfl, by simp [Outcome.noVerdict]⟩)
    · refine ⟨[], ?_, ?_⟩
      · simp [NewtonLoop, hc]
      · simp only [NewtonLoop, hc, if_false]
        constructor
        · intro e; simp
        · simp [engineThrew, smallDerivative]; split <;> omega
        · intro r hr0 _; simp at hr0; subst hr0; simp [newtonSteps]; split <;> omega
        · simp
        · simp [newtonSteps]; omega
        · exact Or.inl rfl

theorem prelude_quiet (g V : ℚ) (pre : List Event) (h : isPrelude g pre) :
    ¬ engineThrew pre ∧ ¬ smallDerivative V pre ∧ ¬ engineNoVerdict pre ∧
    newtonSteps pre = 0 ∧ (∀ i v, Event.write i v ∈ pre → i = 0) ∧
    (∀ xn r, Event.evalDerivative xn r ∉ pre) := by
  rcases h with rfl | ⟨d, rfl⟩ | ⟨d, fv, rfl⟩
  · simp [engineThrew, smallDerivative, engineNoVerdict, newtonSteps]
  · simp [engineThrew, smallDerivative, engineNoVerdict, newtonSteps, Outcome.isThrown,
      Outcome.noVerdict]
  · refine ⟨?_, ?_, ?_, ?_, ?_, ?_⟩
    · rintro ⟨ev, hm, h⟩
      simp at hm
      rcases hm with rfl | rfl | rfl <;> simp [Outcome.isThrown] at h
    · rintro ⟨x, d, hm, _⟩
      simp at hm
    · rintro ⟨ev, hm, h⟩
      simp at hm
      rcases hm with rfl | rfl | rfl <;> simp [Outcome.noVerdict] at h
    · simp [newtonSteps]
    · intro i v hm
      simp at hm
      exact hm.1
    · intro xn r hm
      simp at hm

theorem LoopSpec_single (V : ℚ) (maxSize : Int) (hmax : 0 < maxSize) (ev : Event)
    (r : Outcome Int)
    (hev : (r = .ok 0 ∧ engineThrew [ev]) ∨
      (r.noVerdict = true ∧ engineNoVerdict [ev] ∧ ¬ engineThrew [ev]))
    (hnw : ∀ i v, ev ≠ Event.write i v) (hnd : ∀ x d, ev ≠ Event.evalDerivative x d) :
    LoopSpec V maxSize 1 [ev] r := by
  have hsteps : newtonSteps [ev] = 0 := by
    cases ev <;> simp [newtonSteps]
    exact absurd rfl (hnw _ _)
  have hsm : ¬ smallDerivative V [ev] := by
    rintro ⟨x, d, hm, _⟩
    simp at hm
    exact hnd _ _ hm.symm
  rcases hev with ⟨rfl, ht⟩ | ⟨hr, hn, ht⟩
  · constructor
    · intro e; simp
    · simp [ht]
    · intro r hr0 hne; simp at hr0; omega
    · intro i v hm; simp at hm; exact absurd hm.symm (hnw _ _)
    · rw [hsteps]; simp; omega
    · exact Or.inl rfl
  · constructor
    · intro e he; subst he; simp [Outcome.noVerdict] at hr
    · refine ⟨fun h => ?_, fun h => ?_⟩
      · subst h; simp [Outcome.noVerdict] at hr
      · rcases h with h | h
        · exact absurd h ht
        · exact absurd h hsm
    · intro r0 hr0; subst hr0; simp [Outcome.noVerdict] at hr
    · intro i v hm; simp at hm; exact absurd hm.symm (hnw _ _)
    · rw [hsteps]; simp; omega
    · exact Or.inr (Or.inl hn)

theorem SolveForRoot_decompose (m : CMath) (V : ℚ) (expr : List Char) (exprLen : Nat)
    (g : ℚ) (maxSize : Int) (goalErr : ℚ) (hmax : 0 < maxSize) (hlen : exprLen ≠ 0)
    (hbuf : exprLen ≤ expr.length) :
    ∃ pre ext, (SolveForRoot m V expr exprLen g maxSize goalErr).trace = pre ++ ext ∧
      isPrelude g pre ∧
      LoopSpec V maxSize 1 ext (SolveForRoot m V expr exprLen g maxSize goalErr).ret := by
  have h1 : ¬ (maxSize ≤ 0 ∨ exprLen = 0) := by
    rintro (h | h)
    · omega
    · exact hlen h
  have h2 : ¬ expr.length < exprLen := by omega
  unfold SolveForRoot
  simp only [h1, h2, if_false]
  cases hD : Derivative m (List.take exprLen expr) with
  | ok d =>
    cases hE : Evaluate m (List.take exprLen expr) g with
    | ok fv =>
      obtain ⟨ext, htr, hspec⟩ := NewtonLoop_spec (Evaluate m (List.take exprLen expr))
        (Evaluate m d) V goalErr maxSize (by omega) maxSize.toNat 1 g fv
        [.differentiate (.ok d), .evalFunction g (.ok fv), .write 0 g] (le_refl 1)
        (by rw [Int.toNat_of_nonneg (by omega)]; omega)
      exact ⟨_, ext, htr, Or.inr (Or.inr ⟨d, fv, rfl⟩), hspec⟩
    | thrown e =>
      refine ⟨[.differentiate (.ok d)], [.evalFunction g (.thrown e)], rfl,
        Or.inr (Or.inl ⟨d, rfl⟩), ?_⟩
      exact LoopSpec_single V maxSize hmax _ _
        (Or.inl ⟨rfl, _, List.mem_singleton.2 rfl, rfl⟩) (by simp) (by simp)
    | undefined =>
      refine ⟨[.differentiate (.ok d)], [.evalFunction g .undefined], rfl,
        Or.inr (Or.inl ⟨d, rfl⟩), ?_⟩
      exact LoopSpec_single V maxSize hmax _ _
        (Or.inr ⟨rfl, ⟨_, List.mem_singleton.2 rfl, rfl⟩,
          by simp [engineThrew, Outcome.isThrown]⟩) (by simp) (by simp)
    | unmodelled =>
      refine ⟨[.differentiate (.ok d)], [.evalFunction g .unmodelled], rfl,
        Or.inr (Or.inl ⟨d, rfl⟩), ?_⟩
      exact LoopSpec_single V maxSize hmax _ _
        (Or.inr ⟨rfl, ⟨_, List.mem_singleton.2 rfl, rfl⟩,
          by simp [engineThrew, Outcome.isThrown]⟩) (by simp) (by simp)
    | fuel =>
      refine ⟨[.differentiate (.ok d)], [.evalFunction g .fuel], rfl,
        Or.inr (Or.inl ⟨d, rfl⟩), ?_⟩
      exact LoopSpec_single V maxSize hmax _ _
        (Or.inr ⟨rfl, ⟨_, List.mem_singleton.2 rfl, rfl⟩,
          by simp [engineThrew, Outcome.isThrown]⟩) (by simp) (by simp)
  | thrown e =>
    refine ⟨[], [.differentiate (.thrown e)], rfl, Or.inl rfl, ?_⟩
    exact LoopSpec_single V maxSize hmax _ _
      (Or.inl ⟨rfl, _, List.mem_singleton.2 rfl, rfl⟩) (by simp) (by simp)
  | undefined =>
    refine ⟨[], [.differentiate .undefined], rfl, Or.inl rfl, ?_⟩
    exact LoopSpec_single V maxSize hmax _ _
      (Or.inr ⟨rfl, ⟨_, List.mem_singleton.2 rfl, rfl⟩,
        by simp [engineThrew, Outcome.isThrown]⟩) (by simp) (by simp)
  | unmodelled =>
    refine ⟨[], [.differentiate .unmodelled], rfl, Or.inl rfl, ?_⟩
    exact LoopSpec_single V maxSize hmax _ _
      (Or.inr ⟨rfl, ⟨_, List.mem_singleton.2 rfl, rfl⟩,
        by simp [engineThrew, Outcome.isThrown]⟩) (by simp) (by simp)
  | fuel =>
    refine ⟨[], [.differentiate .fuel], rfl, Or.inl rfl, ?_⟩
    exact LoopSpec_single V maxSize hmax _ _
      (Or.inr ⟨rfl, ⟨_, List.mem_singleton.2 rfl, rfl⟩,
        by simp [engineThrew, Outcome.isThrown]⟩) (by simp) (by simp)

/-! ## The solver: claims -/

/-- C1: `SolveForRoot` never lets an engine exception escape; it returns 0 exactly when
`maxSize <= 0`, or `exprLen = 0`, or a call of the differentiator or evaluator raised an
exception, or an evaluated derivative value had magnitude below `VERY_SMALL_VALUE`;
every other value it returns lies between 1 and `maxSize`; and it returns a value
unless the run leaves what is modelled (buffer shorter than `exprLen`, an engine call
without verdict, a derivative value of exactly zero that is not below the threshold,
or `maxSize = INT_MAX`). -/
theorem SolveForRoot_zero_iff_failure (m : CMath) (V : ℚ) (expr : List Char)
    (exprLen : Nat) (g : ℚ) (maxSize : Int) (goalErr : ℚ) :
    (∀ e, (SolveForRoot m V expr exprLen g maxSize goalErr).ret ≠ .thrown e) ∧
    ((SolveForRoot m V expr exprLen g maxSize goalErr).ret = .ok 0 ↔
      maxSize ≤ 0 ∨ exprLen = 0 ∨
      engineThrew (SolveForRoot m V expr exprLen g maxSize goalErr).trace ∨
      smallDerivative V (SolveForRoot m V expr exprLen g maxSize goalErr).trace) ∧
    (∀ r, (SolveForRoot m V expr exprLen g maxSize goalErr).ret = .ok r → r ≠ 0 →
      1 ≤ r ∧ r ≤ maxSize) ∧
    ((SolveForRoot m V expr exprLen g maxSize goalErr).ret.isOk = true ∨
      expr.length < exprLen ∨
      engineNoVerdict (SolveForRoot m V expr exprLen g maxSize goalErr).trace ∨
      (∃ xn, Event.evalDerivative xn (.ok 0) ∈
        (SolveForRoot m V expr exprLen g maxSize goalErr).trace) ∨
      INT_MAX ≤ maxSize) := by
  by_cases h1 : maxSize ≤ 0 ∨ exprLen = 0
  · have hrun : SolveForRoot m V expr exprLen g maxSize goalErr = ⟨[], .ok 0⟩ := by
      simp [SolveForRoot, h1]
    rw [hrun]
    refine ⟨by simp, ?_, ?_, Or.inl rfl⟩
    · simp only [true_iff]
      rcases h1 with h | h
      · exact Or.inl h
      · exact Or.inr (Or.inl h)
    · intro r hr hne; simp at hr; omega
  · by_cases h2 : expr.length < exprLen
    · have hrun : SolveForRoot m V expr exprLen g maxSize goalErr = ⟨[], .undefined⟩ := by
        simp [SolveForRoot, h1, h2]
      rw [hrun]
      refine ⟨by simp, ?_, ?_, Or.inr (Or.inl h2)⟩
      · refine ⟨fun h => (by cases h), fun h => False.elim ?_⟩
        rcases h with h | h | h | h
        · exact h1 (Or.inl h)
        · exact h1 (Or.inr h)
        · simp [engineThrew] at h
        · simp [smallDerivative] at h
      · intro r hr; simp at hr
    · have hmax : 0 < maxSize := by
        by_contra hc; exact h1 (Or.inl (by omega))
      have hlen : exprLen ≠ 0 := fun hc => h1 (Or.inr hc)
      obtain ⟨pre, ext, htr, hpre, hspec⟩ := SolveForRoot_decompose m V expr exprLen g maxSize
        goalErr hmax hlen (by omega)
      obtain ⟨q1, q2, q3, -, -, q6⟩ := prelude_quiet g V pre hpre
      rw [htr]
      refine ⟨hspec.not_thrown, ?_, ?_, ?_⟩
      · rw [hspec.zero_iff, engineThrew_append, smallDerivative_append]
        constructor
        · rintro (h | h)
          · exact Or.inr (Or.inr (Or.inl (Or.inr h)))
          · exact Or.inr (Or.inr (Or.inr (Or.inr h)))
        · rintro (h | h | (h | h) | (h | h))
          · exact absurd (Or.inl h) h1
          · exact absurd (Or.inr h) h1
          · exact absurd h q1
          · exact Or.inl h
          · exact absurd h q2
          · exact Or.inr h
      · intro r hr hne
        have hv := hspec.value r hr hne
        have hs := hspec.steps
        rw [hv]
        constructor
        · exact le_min (by omega) (by omega)
        · exact min_le_right _ _
      · rcases hspec.returns with h | h | ⟨x, h⟩ | h
        · exact Or.inl h
        · exact Or.inr (Or.inr (Or.inl ((engineNoVerdict_append _ _).2 (Or.inr h))))
        · exact Or.inr (Or.inr (Or.inr (Or.inl ⟨x, List.mem_append_right _ h⟩)))
        · exact Or.inr (Or.inr (Or.inr (Or.inr h)))

/-- Witness of C1 on the run for `x` from the guess 1 with five rounds: the value 2 it
returns lies between 1 and 5. -/
theorem SolveForRoot_zero_iff_failure_witness : (1 : Int) ≤ 2 ∧ (2 : Int) ≤ 5 :=
  (SolveForRoot_zero_iff_failure libm (1 / 1000000000) ['x'] 1 1 5 (1 / 10)).2.2.1 2
    (by decide!) (by decide)

/-- C2: with `maxSize <= 0` or `exprLen = 0` the call returns 0 and nothing happens
before: no differentiation, no evaluation, no write to the results buffer. -/
theorem SolveForRoot_invalid_configuration (m : CMath) (V : ℚ) (expr : List Char)
    (exprLen : Nat) (g : ℚ) (maxSize : Int) (goalErr : ℚ)
    (h : maxSize ≤ 0 ∨ exprLen = 0) :
    (SolveForRoot m V expr exprLen g maxSize goalErr).ret = .ok 0 ∧
    (SolveForRoot m V expr exprLen g maxSize goalErr).trace = [] := by
  simp [SolveForRoot, h]

/-- Witness of C2: a call with `maxSize = 0`. -/
theorem SolveForRoot_invalid_configuration_witness :
    ((0 : Int) ≤ 0 ∨ (1 : Nat) = 0) ∧
    (SolveForRoot libm (1 / 1000000000) ['x'] 1 1 0 0).ret = .ok 0 ∧
    (SolveForRoot libm (1 / 1000000000) ['x'] 1 1 0 0).trace = [] :=
  ⟨Or.inl (le_refl 0),
    SolveForRoot_invalid_configuration libm (1 / 1000000000) ['x'] 1 1 0 0
      (Or.inl (le_refl 0))⟩

/-- C3: with `maxSize > 0` every index of the results buffer that is written lies in
`0..maxSize`, and at most `maxSize` Newton update steps are performed. -/
theorem SolveForRoot_writes_in_bounds (m : CMath) (V : ℚ) (expr : List Char)
    (exprLen : Nat) (g : ℚ) (maxSize : Int) (goalErr : ℚ) (hmax : 0 < maxSize) :
    (∀ i v, Event.write i v ∈ (SolveForRoot m V expr exprLen g maxSize goalErr).trace →
      0 ≤ i ∧ i ≤ maxSize) ∧
    (newtonSteps (SolveForRoot m V expr exprLen g maxSize goalErr).trace : Int) ≤ maxSize := by
  by_cases hlen : exprLen = 0
  · simp [SolveForRoot, hlen, newtonSteps]; omega
  · by_cases h2 : expr.length < exprLen
    · have h1 : ¬ maxSize ≤ 0 := by omega
      simp [SolveForRoot, hlen, h2, h1, newtonSteps]; omega
    · obtain ⟨pre, ext, htr, hpre, hspec⟩ := SolveForRoot_decompose m V expr exprLen g maxSize
        goalErr hmax hlen (by omega)
      obtain ⟨-, -, -, q4, q5, -⟩ := prelude_quiet g V pre hpre
      rw [htr]
      constructor
      · intro i v hm
        rcases List.mem_append.1 hm with h | h
        · have := q5 i v h; omega
        · have := hspec.writes i v h; omega
      · rw [newtonSteps_append, q4]
        have := hspec.steps
        push_cast; omega

/-- Witness of C3: a call with `maxSize = 2` on `x+1` that uses both rounds. -/
theorem SolveForRoot_writes_in_bounds_witness :
    (0 : Int) < 2 ∧
    (newtonSteps (SolveForRoot libm (1 / 1000000000) ['x', '+', '1'] 3 1 2 (-1)).trace : Int)
      ≤ 2 :=
  ⟨by decide,
    (SolveForRoot_writes_in_bounds libm (1 / 1000000000) ['x', '+', '1'] 3 1 2 (-1)
      (by decide)).2⟩

/-- C4, as stated, fails: for `x` with the initial guess 0 and `goalErr = 1/10` the
function value 0 is already within the goal, no Newton step is performed, and the call
returns 1. -/
theorem SolveForRoot_count_not_steps :
    Evaluate libm ['x'] 0 = .ok 0 ∧
    (SolveForRoot libm (1 / 1000000000) ['x'] 1 0 5 (1 / 10)).ret = .ok 1 ∧
    newtonSteps (SolveForRoot libm (1 / 1000000000) ['x'] 1 0 5 (1 / 10)).trace = 0 := by
  decide!

/-- C4, amended: on every successful solve the returned value is the number of
recorded estimates, initial guess included, capped at `maxSize`, that is
`min (steps + 1) maxSize`; in particular when `|f(initialGuess)| <= goalErr` already
holds no step is performed and the value is 1. -/
theorem SolveForRoot_count_is_estimates (m : CMath) (V : ℚ) (expr : List Char)
    (exprLen : Nat) (g : ℚ) (maxSize : Int) (goalErr : ℚ) :
    (∀ r, (SolveForRoot m V expr exprLen g maxSize goalErr).ret = .ok r → r ≠ 0 →
      r = min ((newtonSteps (SolveForRoot m V expr exprLen g maxSize goalErr).trace : Int) + 1)
        maxSize) ∧
    (∀ d fv, 0 < maxSize → exprLen ≠ 0 → exprLen ≤ expr.length →
      Derivative m (expr.take exprLen) = .ok d →
      Evaluate m (expr.take exprLen) g = .ok fv → |fv| ≤ goalErr →
      (SolveForRoot m V expr exprLen g maxSize goalErr).ret = .ok 1 ∧
      newtonSteps (SolveForRoot m V expr exprLen g maxSize goalErr).trace = 0) := by
  constructor
  · intro r hr hne
    by_cases h1 : maxSize ≤ 0 ∨ exprLen = 0
    · simp [SolveForRoot, h1] at hr; omega
    · by_cases h2 : expr.length < exprLen
      · simp [SolveForRoot, h1, h2] at hr
      · have hmax : 0 < maxSize := by
          by_contra hc; exact h1 (Or.inl (by omega))
        have hlen : exprLen ≠ 0 := fun hc => h1 (Or.inr hc)
        obtain ⟨pre, ext, htr, hpre, hspec⟩ := SolveForRoot_decompose m V expr exprLen g
          maxSize goalErr hmax hlen (by omega)
        obtain ⟨-, -, -, q4, -, -⟩ := prelude_quiet g V pre hpre
        rw [htr, newtonSteps_append, q4, hspec.value r hr hne]
        congr 1
        push_cast; omega
  · intro d fv hmax hlen hbuf hD hE hgoal
    have h1 : ¬ (maxSize ≤ 0 ∨ exprLen = 0) := by
      rintro (h | h)
      · omega
      · exact hlen h
    have h2 : ¬ expr.length < exprLen := by omega
    have hc : ¬ ((1 : Int) ≤ maxSize ∧ |fv| > goalErr) := fun h => absurd hgoal (not_le.2 h.2)
    have hm : ¬ (1 : Int) > maxSize := by omega
    cases hn : maxSize.toNat <;>
      simp [SolveForRoot, h1, h2, hD, hE, hn, NewtonLoop, hc, hm, newtonSteps]

/-- Witness of the amended C4 on the run for `x` from the guess 1 with five rounds: one
step, returned value 2; and on the run from the guess 0: no step, returned value 1. -/
theorem SolveForRoot_count_is_estimates_witness :
    (2 : Int) = min ((newtonSteps
      (SolveForRoot libm (1 / 1000000000) ['x'] 1 1 5 (1 / 10)).trace : Int) + 1) 5 ∧
    (SolveForRoot libm (1 / 1000000000) ['x'] 1 0 5 (1 / 10)).ret = .ok 1 :=
  ⟨(SolveForRoot_count_is_estimates libm (1 / 1000000000) ['x'] 1 1 5 (1 / 10)).1 2
      (by decide!) (by decide),
    ((SolveForRoot_count_is_estimates libm (1 / 1000000000) ['x'] 1 0 5 (1 / 10)).2
      ['1'] 0 (by decide) (by decide) (by decide) (by decide!) (by decide!)
      (by norm_num)).1⟩

/-! ## The evaluator: passes that find nothing to do -/

theorem charAt_of_lt (expr : List Char) (i : Nat) (h : i < expr.length) :
    charAt expr i = .ok (expr.getD i (Char.ofNat 0)) := by
  simp [charAt, h]

theorem getD_mem (expr : List Char) (i : Nat) (d : Char) (h : i < expr.length) :
    expr.getD i d ∈ expr := by
  rw [List.getD_eq_getElem _ _ h]
  exact List.getElem_mem h

theorem charAt_mem_or_nul (expr : List Char) (i : Nat) (c : Char)
    (h : charAt expr i = .ok c) : c ∈ expr ∨ c = Char.ofNat 0 := by
  unfold charAt at h
  split at h
  · next hlt =>
    cases h
    exact Or.inl (getD_mem _ _ _ hlt)
  · split at h
    · cases h; exact Or.inr rfl
    · cases h

theorem bind_ok {α β : Type} (a : α) (k : α → Outcome β) :
    (Outcome.ok a >>= k) = k a := rfl

theorem EvalSubExpressionsLoop_past (ev : List Char → ℚ → Outcome ℚ) (x : ℚ) (fuel : Nat)
    (expr : List Char) (pos : Nat) (h : expr.length ≤ pos) :
    EvalSubExpressionsLoop ev x fuel expr pos = .ok expr := by
  have : ¬ pos < expr.length := by omega
  cases fuel <;> simp [EvalSubExpressionsLoop, this]

theorem EvalSubExpressionsLoop_none (ev : List Char → ℚ → Outcome ℚ) (x : ℚ)
    (expr : List Char) (hno : ∀ c ∈ expr, c ≠ '(') :
    ∀ (fuel pos : Nat), expr.length - pos ≤ fuel →
      EvalSubExpressionsLoop ev x fuel expr pos = .ok expr := by
  intro fuel
  induction fuel with
  | zero =>
    intro pos h
    exact EvalSubExpressionsLoop_past ev x 0 expr pos (by omega)
  | succ n ih =>
    intro pos h
    by_cases hlt : pos < expr.length
    · have hc : expr.getD pos (Char.ofNat 0) ≠ '(' := hno _ (getD_mem _ _ _ hlt)
      simp only [EvalSubExpressionsLoop, hlt, if_true, charAt_of_lt _ _ hlt, bind_ok, hc,
        if_false]
      exact ih (pos + 1) (by omega)
    · exact EvalSubExpressionsLoop_past ev x _ expr pos (by omega)

theorem EvalSubExpressions_none (ev : List Char → ℚ → Outcome ℚ) (x : ℚ)
    (expr : List Char) (hno : ∀ c ∈ expr, c ≠ '(') :
    EvalSubExpressions ev expr x = .ok expr :=
  EvalSubExpressionsLoop_none ev x expr hno _ 0 (by omega)

theorem EvalPowersLoop_past (m : CMath) (x : ℚ) (fuel : Nat)
    (expr : List Char) (pos : Nat) (h : expr.length ≤ pos) :
    EvalPowersLoop m x fuel expr pos = .ok expr := by
  have : ¬ pos < expr.length := by omega
  cases fuel <;> simp [EvalPowersLoop, this]

theorem EvalPowersLoop_none (m : CMath) (x : ℚ)
    (expr : List Char) (hno : ∀ c ∈ expr, c ≠ '^') :
    ∀ (fuel pos : Nat), expr.length - pos ≤ fuel →
      EvalPowersLoop m x fuel expr pos = .ok expr := by
  intro fuel
  induction fuel with
  | zero =>
    intro pos h
    exact EvalPowersLoop_past m x 0 expr pos (by omega)
  | succ n ih =>
    intro pos h
    by_cases hlt : pos < expr.length
    · have hc : expr.getD pos (Char.ofNat 0) ≠ '^' := hno _ (getD_mem _ _ _ hlt)
      simp only [EvalPowersLoop, hlt, if_true, charAt_of_lt _ _ hlt, bind_ok, hc,
        if_false]
      exact ih (pos + 1) (by omega)
    · exact EvalPowersLoop_past m x _ expr pos (by omega)

theorem EvalPowers_none (m : CMath) (x : ℚ) (expr : List Char)
    (hno : ∀ c ∈ expr, c ≠ '^') : EvalPowers m expr x = .ok expr :=
  EvalPowersLoop_none m x expr hno _ 0 (by omega)

theorem EvalSpecialFunctionsLoop_past (m : CMath) (x : ℚ) (fuel : Nat)
    (expr : List Char) (pos : Nat) (h : expr.length ≤ pos) :
    EvalSpecialFunctionsLoop m x fuel expr pos = .ok expr := by
  have : ¬ pos < expr.length := by omega
  cases fuel <;> simp [EvalSpecialFunctionsLoop, this]

theorem charAt_next (expr : List Char) (pos : Nat) (hlt : pos < expr.length) :
    ∃ nc, charAt expr (pos + 1) = .ok nc ∧ (nc ∈ expr ∨ nc = Char.ofNat 0) := by
  by_cases h : pos + 1 < expr.length
  · exact ⟨_, charAt_of_lt _ _ h, Or.inl (getD_mem _ _ _ h)⟩
  · have : pos + 1 = expr.length := by omega
    exact ⟨Char.ofNat 0, by simp [charAt, this], Or.inr rfl⟩

theorem EvalSpecialFunctionsLoop_none (m : CMath) (x : ℚ)
    (expr : List Char)
    (hno : ∀ c ∈ expr, c ≠ 's' ∧ c ≠ 'c' ∧ c ≠ 't' ∧ c ≠ 'l') :
    ∀ (fuel pos : Nat), expr.length - pos ≤ fuel →
      EvalSpecialFunctionsLoop m x fuel expr pos = .ok expr := by
  intro fuel
  induction fuel with
  | zero =>
    intro pos h
    exact EvalSpecialFunctionsLoop_past m x 0 expr pos (by omega)
  | succ n ih =>
    intro pos h
    by_cases hlt : pos < expr.length
    · obtain ⟨h1, h2, h3, h4⟩ := hno _ (getD_mem _ (pos) (Char.ofNat 0) hlt)
      obtain ⟨nc, hnc, hmem⟩ := charAt_next expr pos hlt
      have hn : nc ≠ 's' ∧ nc ≠ 'c' ∧ nc ≠ 't' ∧ nc ≠ 'l' := by
        rcases hmem with h | h
        · exact hno _ h
        · subst h; decide
      obtain ⟨g1, g2, g3, g4⟩ := hn
      simp only [EvalSpecialFunctionsLoop, hlt, if_true, charAt_of_lt _ _ hlt, bind_ok, hnc]
      by_cases hneg : expr.getD pos (Char.ofNat 0) = '-'
      · simp only [hneg, decide_True, if_true, g1, g2, g3, g4, if_false]
        exact ih (pos + 1) (by omega)
      · simp only [hneg, decide_False, if_false, h1, h2, h3, h4, Bool.false_eq_true]
        exact ih (pos + 1) (by omega)
    · exact EvalSpecialFunctionsLoop_past m x _ expr pos (by omega)

theorem EvalSpecialFunctions_none (m : CMath) (x : ℚ) (expr : List Char)
    (hno : ∀ c ∈ expr, c ≠ 's' ∧ c ≠ 'c' ∧ c ≠ 't' ∧ c ≠ 'l') :
    EvalSpecialFunctions m expr x = .ok expr :=
  EvalSpecialFunctionsLoop_none m x expr hno _ 0 (by omega)

theorem EvalMultiplcationLoop_past (m : CMath) (x : ℚ) (fuel : Nat)
    (expr : List Char) (pos : Nat) (h : expr.length ≤ pos) :
    EvalMultiplcationLoop m x fuel expr pos = .ok expr := by
  have : ¬ pos < expr.length := by omega
  cases fuel <;> simp [EvalMultiplcationLoop, this]

theorem EvalMultiplcationLoop_skip (m : CMath) (x : ℚ) (expr : List Char) (p : Nat)
    (hp : p ≤ expr.length) :
    ∀ (k fuel pos : Nat), pos + k = p →
      (∀ i, pos ≤ i → i < p →
        expr.getD i (Char.ofNat 0) ≠ '*' ∧ expr.getD i (Char.ofNat 0) ≠ '/') →
      EvalMultiplcationLoop m x (fuel + k) expr pos = EvalMultiplcationLoop m x fuel expr p := by
  intro k
  induction k with
  | zero =>
    intro fuel pos h _
    have : pos = p := by omega
    subst this; rfl
  | succ n ih =>
    intro fuel pos h hno
    have hlt : pos < expr.length := by omega
    obtain ⟨h1, h2⟩ := hno pos (le_refl _) (by omega)
    have : fuel + (n + 1) = (fuel + n) + 1 := by omega
    rw [this]
    simp only [EvalMultiplcationLoop, hlt, if_true, charAt_of_lt _ _ hlt, bind_ok, h1, h2,
      decide_False, Bool.or_self, Bool.false_eq_true, if_false]
    exact ih fuel (pos + 1) (by omega) (fun i hi hi2 => hno i (by omega) hi2)

theorem EvalMultiplcation_none (m : CMath) (x : ℚ) (expr : List Char)
    (hno : ∀ c ∈ expr, c ≠ '*' ∧ c ≠ '/') : EvalMultiplcation m expr x = .ok expr := by
  unfold EvalMultiplcation
  have := EvalMultiplcationLoop_skip m x expr expr.length (le_refl _) expr.length 0 0
    (by omega) (fun i _ hi => hno _ (getD_mem _ _ _ hi))
  rw [Nat.zero_add] at this
  rw [this]
  exact EvalMultiplcationLoop_past m x 0 expr _ (le_refl _)

theorem EvalAdditionLoop_past (m : CMath) (x : ℚ) (fuel : Nat)
    (expr : List Char) (pos : Nat) (h : expr.length ≤ pos) :
    EvalAdditionLoop m x fuel expr pos = .ok expr := by
  have : ¬ pos < expr.length := by omega
  cases fuel <;> simp [EvalAdditionLoop, this]

theorem EvalAdditionLoop_skip (m : CMath) (x : ℚ) (expr : List Char) (p : Nat)
    (hp : p ≤ expr.length) :
    ∀ (k fuel pos : Nat), pos + k = p →
      (∀ i, pos ≤ i → i < p →
        expr.getD i (Char.ofNat 0) ≠ '+' ∧ (expr.getD i (Char.ofNat 0) ≠ '-' ∨ i = 0)) →
      EvalAdditionLoop m x (fuel + k) expr pos = EvalAdditionLoop m x fuel expr p := by
  intro k
  induction k with
  | zero =>
    intro fuel pos h _
    have : pos = p := by omega
    subst this; rfl
  | succ n ih =>
    intro fuel pos h hno
    have hlt : pos < expr.length := by omega
    obtain ⟨h1, h2⟩ := hno pos (le_refl _) (by omega)
    have : fuel + (n + 1) = (fuel + n) + 1 := by omega
    rw [this]
    have hcond : (decide (expr.getD pos (Char.ofNat 0) = '+') ||
        (decide (expr.getD pos (Char.ofNat 0) = '-') && decide (pos ≠ 0))) = false := by
      rw [decide_eq_false h1]
      rcases h2 with h2 | h2
      · rw [decide_eq_false h2]; rfl
      · rw [decide_eq_false (not_not.2 h2)]; simp only [Bool.and_false, Bool.or_self]
    simp only [EvalAdditionLoop, hlt, if_true, charAt_of_lt _ _ hlt, bind_ok, hcond,
      Bool.false_eq_true, if_false]
    exact ih fuel (pos + 1) (by omega) (fun i hi hi2 => hno i (by omega) hi2)

/-! ## The numeric-token readers on runs of digits -/

theorem pure_eq_ok {α : Type} (a : α) : (pure a : Outcome α) = .ok a := rfl

theorem charAt_append_cons (a b : List Char) (c : Char) :
    charAt (a ++ c :: b) a.length = .ok c := by
  have h : a.length < (a ++ c :: b).length := by simp
  rw [charAt, if_pos h, List.getD_append_right _ _ _ _ (le_refl _)]
  simp

theorem charAt_ok_of_le (expr : List Char) (i : Nat) (h : i ≤ expr.length) :
    ∃ c, charAt expr i = .ok c := by
  by_cases h1 : i < expr.length
  · exact ⟨expr.getD i (Char.ofNat 0), by simp only [charAt, h1, if_true]⟩
  · have : i = expr.length := by omega
    exact ⟨Char.ofNat 0, by rw [charAt, if_neg h1, if_pos this]⟩

theorem isdigit_ne (c : Char) (h : isdigit c = true) :
    c ≠ 'x' ∧ c ≠ 'e' ∧ c ≠ 'E' ∧ c ≠ '.' ∧ c ≠ '-' ∧ c ≠ '+' := by
  refine ⟨?_, ?_, ?_, ?_, ?_, ?_⟩ <;> rintro rfl <;> exact absurd h (by decide)

/-- Left scan over a digit or a point that is not at position 0. -/
theorem GetValueToLeftLoop_numeric (m : CMath) (x : ℚ) (expr : List Char) (sp : Nat)
    (rv : List Char) (c : Char) (hc : charAt expr (sp + 1) = .ok c)
    (hnum : isdigit c = true ∨ c = '.') (hlen : sp ≤ expr.length) :
    GetValueToLeftLoop m x expr (sp + 1) rv = GetValueToLeftLoop m x expr sp (rv ++ [c]) := by
  obtain ⟨nv, hnv⟩ := charAt_ok_of_le expr sp hlen
  rcases hnum with h | h
  · obtain ⟨h1, h2, h3, h4, h5, h6⟩ := isdigit_ne c h
    simp [GetValueToLeftLoop, GetValueToLeftBody, hc, bind_ok, pure_eq_ok, hnv, h, h1, h2,
      h3, h4, h5]
  · subst h
    simp [GetValueToLeftLoop, GetValueToLeftBody, hc, bind_ok, pure_eq_ok, hnv]

theorem GetValueToLeftLoop_numeric_zero (m : CMath) (x : ℚ) (expr : List Char)
    (rv : List Char) (c : Char) (hc : charAt expr 0 = .ok c)
    (hnum : isdigit c = true ∨ c = '.') :
    GetValueToLeftLoop m x expr 0 rv =
      (stod (Reverse (rv ++ [c])) >>= fun v => pure (v, 0)) := by
  rcases hnum with h | h
  · obtain ⟨h1, h2, h3, h4, h5, h6⟩ := isdigit_ne c h
    simp [GetValueToLeftLoop, GetValueToLeftBody, hc, bind_ok, pure_eq_ok, h, h1, h2,
      h3, h4, h5]
  · subst h
    simp [GetValueToLeftLoop, GetValueToLeftBody, hc, bind_ok, pure_eq_ok]

/-- Left scan stopping at a binary operator. -/
theorem GetValueToLeftLoop_stop (m : CMath) (x : ℚ) (expr : List Char) (sp : Nat)
    (rv : List Char) (c : Char) (hc : charAt expr sp = .ok c)
    (hop : c = '+' ∨ c = '*' ∨ c = '/' ∨ c = '^') (hlen : sp ≤ expr.length + 1) :
    GetValueToLeftLoop m x expr sp rv =
      (stod (Reverse rv) >>= fun v => pure (v, sp + 1)) := by
  cases sp with
  | zero =>
    rcases hop with h | h | h | h <;> subst h <;>
      simp [GetValueToLeftLoop, GetValueToLeftBody, hc, bind_ok, pure_eq_ok, isdigit]
  | succ n =>
    obtain ⟨nv, hnv⟩ := charAt_ok_of_le expr n (by omega)
    rcases hop with h | h | h | h <;> subst h <;>
      simp [GetValueToLeftLoop, GetValueToLeftBody, hc, bind_ok, pure_eq_ok, hnv, isdigit]

/-- Left scan over a run of digits and points that follows a separator. -/
theorem GetValueToLeftLoop_run (m : CMath) (x : ℚ) (pre : List Char) (sep : Char) :
    ∀ (ds rv post : List Char), (∀ c ∈ ds, isdigit c = true ∨ c = '.') →
      GetValueToLeftLoop m x (pre ++ sep :: (ds ++ post)) (pre.length + ds.length) rv =
        GetValueToLeftLoop m x (pre ++ sep :: (ds ++ post)) pre.length (rv ++ ds.reverse) := by
  intro ds
  induction ds using List.reverseRecOn with
  | nil => intro rv post _; simp
  | append_singleton ds c ih =>
    intro rv post hnum
    have hc : charAt (pre ++ sep :: (ds ++ [c] ++ post)) (pre.length + ds.length + 1)
        = .ok c := by
      have := charAt_append_cons (pre ++ sep :: ds) post c
      simpa [Nat.add_assoc] using this
    have hlen : pre.length + ds.length ≤ (pre ++ sep :: (ds ++ [c] ++ post)).length := by
      simp; omega
    have hstep := GetValueToLeftLoop_numeric m x (pre ++ sep :: (ds ++ [c] ++ post))
      (pre.length + ds.length) rv c hc (hnum c (by simp)) hlen
    have hih := ih (rv ++ [c]) (c :: post) (fun d hd => hnum d (by simp [hd]))
    simp only [List.length_append, List.length_singleton, List.reverse_append,
      List.reverse_singleton, List.singleton_append, List.append_assoc] at hstep hih ⊢
    rw [← Nat.add_assoc, hstep, hih]

/-- Left scan over a run of digits and points that starts the text. -/
theorem GetValueToLeftLoop_run_start (m : CMath) (x : ℚ) :
    ∀ (ds rv post : List Char), ds ≠ [] → (∀ c ∈ ds, isdigit c = true ∨ c = '.') →
      GetValueToLeftLoop m x (ds ++ post) (ds.length - 1) rv =
        (stod (Reverse (rv ++ ds.reverse)) >>= fun v => pure (v, 0)) := by
  intro ds
  induction ds using List.reverseRecOn with
  | nil => intro rv post h; exact absurd rfl h
  | append_singleton ds c ih =>
    intro rv post _ hnum
    have hc : charAt (ds ++ [c] ++ post) ds.length = .ok c := by
      have := charAt_append_cons ds post c
      simpa using this
    by_cases hds : ds = []
    · subst hds
      simpa using GetValueToLeftLoop_numeric_zero m x ([c] ++ post) rv c (by simpa using hc)
        (hnum c (by simp))
    · have hpos : 0 < ds.length := List.length_pos.2 hds
      have hc2 : charAt (ds ++ [c] ++ post) (ds.length - 1 + 1) = .ok c := by
        rw [Nat.sub_add_cancel hpos]; exact hc
      have hstep := GetValueToLeftLoop_numeric m x (ds ++ [c] ++ post) (ds.length - 1) rv c hc2
        (hnum c (by simp)) (by simp; omega)
      have hih := ih (rv ++ [c]) (c :: post) hds (fun d hd => hnum d (by simp [hd]))
      rw [Nat.sub_add_cancel hpos] at hstep
      simp only [List.length_append, List.length_singleton, List.reverse_append,
        List.reverse_singleton, List.singleton_append, List.append_assoc,
        Nat.add_sub_cancel] at hstep hih ⊢
      rw [hstep, hih]

theorem GetValueToRightLoop_run (m : CMath) (x : ℚ) :
    ∀ (ds rest : List Char) (pos : Nat) (rv : List Char),
      (∀ c ∈ ds, isdigit c = true ∨ c = '.') →
      GetValueToRightLoop m x (ds ++ rest) pos rv =
        GetValueToRightLoop m x rest (pos + ds.length) (rv ++ ds) := by
  intro ds
  induction ds with
  | nil => intro rest pos rv _; simp
  | cons c ds ih =>
    intro rest pos rv hnum
    have hrest := ih rest (pos + 1) (rv ++ [c]) (fun d hd => hnum d (by simp [hd]))
    rcases hnum c (by simp) with h | h
    · obtain ⟨h1, h2, h3, h4, h5, h6⟩ := isdigit_ne c h
      simp only [List.cons_append, GetValueToRightLoop, h1, h2, h3, h4, if_false, decide_False,
        Bool.false_and, Bool.or_self, Bool.false_eq_true, h, Bool.not_true]
      refine hrest.trans ?_
      simp [Nat.add_assoc, Nat.add_comm 1]
    · subst h
      simp only [List.cons_append, GetValueToRightLoop]
      simp only [show ¬ ('.' = 'x') by decide, show ('.' = 'e') = False by decide, if_false,
        decide_False, Bool.false_and, Bool.false_eq_true, decide_True, Bool.or_true, if_true]
      refine hrest.trans ?_
      simp [Nat.add_assoc, Nat.add_comm 1]

theorem GetValueToRightLoop_nil (m : CMath) (x : ℚ) (pos : Nat) (rv : List Char) :
    GetValueToRightLoop m x [] pos rv = (stod rv >>= fun v => pure (v, subSz pos 1)) := rfl

/-- Right scan stopping at a character that cannot belong to a number, with a number
already read. -/
theorem GetValueToRightLoop_stop (m : CMath) (x : ℚ) (c : Char) (rest : List Char)
    (pos : Nat) (rv : List Char)
    (hop : c = '+' ∨ c = '*' ∨ c = '/' ∨ c = '^' ∨ c = ')' ∨
      (c = '-' ∧ rv ≠ [] ∧ rv.getLast? ≠ some 'e')) :
    GetValueToRightLoop m x (c :: rest) pos rv =
      (stod rv >>= fun v => pure (v, subSz pos 1)) := by
  rcases hop with h | h | h | h | h | ⟨h, h1, h2⟩ <;> subst h
  · simp [GetValueToRightLoop, isdigit]
  · simp [GetValueToRightLoop, isdigit]
  · simp [GetValueToRightLoop, isdigit]
  · simp [GetValueToRightLoop, isdigit]
  · simp [GetValueToRightLoop, isdigit]
  · simp [GetValueToRightLoop, isdigit, h1, h2]

/-! ## Decimal text and its value -/

theorem digitsValue_cons (acc : Nat) (c : Char) (cs : List Char) :
    digitsValue acc (c :: cs) = digitsValue (acc * 10 + (c.toNat - 48)) cs := rfl

theorem digitsValue_nil (acc : Nat) : digitsValue acc [] = acc := rfl

theorem digitsValue_append (a b : List Char) (acc : Nat) :
    digitsValue acc (a ++ b) = digitsValue (digitsValue acc a) b := by
  induction a generalizing acc with
  | nil => rfl
  | cons c a ih =>
    rw [List.cons_append, digitsValue_cons, digitsValue_cons, ih]

theorem digitsValue_zeros (k acc : Nat) :
    digitsValue acc (List.replicate k '0') = acc * 10 ^ k := by
  induction k generalizing acc with
  | zero => simp only [List.replicate_zero, digitsValue_nil, pow_zero, mul_one]
  | succ n ih =>
    have : ('0' : Char).toNat - 48 = 0 := by decide
    rw [List.replicate_succ, digitsValue_cons, ih, this, Nat.add_zero, pow_succ]; ring

theorem digitChar_spec : ∀ k, k < 10 →
    isdigit (Nat.digitChar k) = true ∧ (Nat.digitChar k).toNat - 48 = k := by
  decide

theorem toDigitsCore_spec (f : Nat) : ∀ (n : Nat) (acc : List Char), n < f →
    ∃ ds, Nat.toDigitsCore 10 f n acc = ds ++ acc ∧ ds ≠ [] ∧
      (∀ c ∈ ds, isdigit c = true) ∧ ∀ a, digitsValue a ds = a * 10 ^ ds.length + n := by
  induction f with
  | zero => intro n acc h; omega
  | succ f ih =>
    intro n acc h
    obtain ⟨hd1, hd2⟩ := digitChar_spec (n % 10) (Nat.mod_lt _ (by decide))
    by_cases h0 : n / 10 = 0
    · refine ⟨[Nat.digitChar (n % 10)], ?_, by simp, ?_, ?_⟩
      · simp [Nat.toDigitsCore, h0]
      · intro c hc; simp at hc; subst hc; exact hd1
      · intro a
        simp only [digitsValue_cons, digitsValue_nil, hd2, List.length_singleton, pow_one]
        omega
    · obtain ⟨ds, e1, e2, e3, e4⟩ := ih (n / 10) (Nat.digitChar (n % 10) :: acc) (by omega)
      refine ⟨ds ++ [Nat.digitChar (n % 10)], ?_, by simp, ?_, ?_⟩
      · simp [Nat.toDigitsCore, h0, e1]
      · intro c hc
        rcases List.mem_append.1 hc with h | h
        · exact e3 c h
        · simp at h; subst h; exact hd1
      · intro a
        rw [digitsValue_append, e4]
        simp only [digitsValue_cons, digitsValue_nil, hd2, List.length_append,
          List.length_singleton, pow_succ]
        have := Nat.div_add_mod n 10
        nlinarith [this]

theorem toDigits_spec (n : Nat) :
    Nat.toDigits 10 n ≠ [] ∧ (∀ c ∈ Nat.toDigits 10 n, isdigit c = true) ∧
    digitsValue 0 (Nat.toDigits 10 n) = n := by
  obtain ⟨ds, e1, e2, e3, e4⟩ := toDigitsCore_spec (n + 1) n [] (by omega)
  rw [Nat.toDigits, e1, List.append_nil]
  exact ⟨e2, e3, by rw [e4]; simp⟩

theorem roundHalfEven_natCast (n : Nat) : roundHalfEven (n : ℚ) = n := by
  simp [roundHalfEven, Nat.mod_one]

theorem to_string_natCast (n : Nat) :
    to_string (n : ℚ) = Nat.toDigits 10 n ++ ['.', '0', '0', '0', '0', '0', '0'] := by
  have h1 : |(n : ℚ)| * 1000000 = ((n * 1000000 : Nat) : ℚ) := by
    rw [abs_of_nonneg (by positivity)]; push_cast; ring
  have h2 : ¬ ((n : ℚ) < 0) := by
    have : (0 : ℚ) ≤ n := by positivity
    linarith
  have h3 : Nat.toDigits 10 0 = ['0'] := by decide
  simp only [to_string, h1, roundHalfEven_natCast, h2, if_false, Nat.mul_mod_left,
    Nat.mul_div_cancel _ (show 0 < 1000000 by decide), h3]
  simp

theorem isdigit_not_space (c : Char) (h : isdigit c = true) : isspace c = false := by
  simp only [isdigit, Char.isDigit, Bool.and_eq_true, decide_eq_true_eq] at h
  simp only [isspace, Bool.or_eq_false_iff, decide_eq_false_iff_not, Bool.and_eq_false_iff]
  have h1 : 48 ≤ c.toNat := by
    have := h.1; exact this
  constructor
  · rintro rfl; revert h1; decide
  · right; omega

theorem stod_of_digit_head (d : Char) (rest : List Char) (h : isdigit d = true) :
    stod (d :: rest) = stodUnsigned (d :: rest) := by
  obtain ⟨-, -, -, -, h5, h6⟩ := isdigit_ne d h
  have hs := isdigit_not_space d h
  unfold stod
  rw [List.dropWhile_cons_of_neg (by simp [hs])]
  split
  · next r heq => cases heq; exact absurd rfl h5
  · next r heq => cases heq; exact absurd rfl h6
  · rfl

theorem isdigit_toLower (c : Char) (h : isdigit c = true) : c.toLower = c := by
  simp only [isdigit, Char.isDigit, Bool.and_eq_true, decide_eq_true_eq] at h
  have h2 : c.toNat ≤ 57 := h.2
  have h3 : ¬ (c.toNat ≥ 65 ∧ c.toNat ≤ 90) := by omega
  unfold Char.toLower
  simp only [h3, if_false]

theorem stodSpecial_digit (d : Char) (rest : List Char) (h : isdigit d = true)
    (h2 : ∀ c ∈ rest.head?, c ≠ 'x' ∧ c ≠ 'X') : stodSpecial (d :: rest) = false := by
  have hl := isdigit_toLower d h
  have hi : d ≠ 'i' := by rintro rfl; exact absurd h (by decide)
  have hn : d ≠ 'n' := by rintro rfl; exact absurd h (by decide)
  unfold stodSpecial
  have e1 : (List.map Char.toLower (List.take 3 (d :: rest)) = ['i', 'n', 'f']) = False := by
    simp [hl, hi]
  have e2 : (List.map Char.toLower (List.take 3 (d :: rest)) = ['n', 'a', 'n']) = False := by
    simp [hl, hn]
  simp only [e1, e2, decide_False, Bool.false_or]
  split
  · next x hh t heq =>
    cases heq
    obtain ⟨g1, g2⟩ := h2 x (by simp)
    simp [g1, g2]
  · rfl

theorem takeWhile_digits (ds : List Char) (h : ∀ c ∈ ds, isdigit c = true) :
    ds.takeWhile isdigit = ds := by
  induction ds with
  | nil => rfl
  | cons c ds ih =>
    rw [List.takeWhile_cons_of_pos (h c (by simp)), ih (fun d hd => h d (by simp [hd]))]

theorem dropWhile_digits (ds : List Char) (h : ∀ c ∈ ds, isdigit c = true) :
    ds.dropWhile isdigit = [] := by
  induction ds with
  | nil => rfl
  | cons c ds ih =>
    rw [List.dropWhile_cons_of_pos (h c (by simp)), ih (fun d hd => h d (by simp [hd]))]

theorem takeWhile_digits_append (ds : List Char) (c : Char) (rest : List Char)
    (h : ∀ c ∈ ds, isdigit c = true) (hc : isdigit c = false) :
    (ds ++ c :: rest).takeWhile isdigit = ds := by
  induction ds with
  | nil => simp [List.takeWhile, hc]
  | cons d ds ih =>
    rw [List.cons_append, List.takeWhile_cons_of_pos (h d (by simp)),
      ih (fun e he => h e (by simp [he]))]

theorem dropWhile_digits_append (ds : List Char) (c : Char) (rest : List Char)
    (h : ∀ c ∈ ds, isdigit c = true) (hc : isdigit c = false) :
    (ds ++ c :: rest).dropWhile isdigit = c :: rest := by
  induction ds with
  | nil => simp [List.dropWhile, hc]
  | cons d ds ih =>
    rw [List.cons_append, List.dropWhile_cons_of_pos (h d (by simp)),
      ih (fun e he => h e (by simp [he]))]

theorem stod_digits (ds : List Char) (hne : ds ≠ []) (h : ∀ c ∈ ds, isdigit c = true) :
    stod ds = .ok (digitsValue 0 ds : ℚ) := by
  obtain ⟨d, rest, rfl⟩ := List.exists_cons_of_ne_nil hne
  have hd := h d (by simp)
  rw [stod_of_digit_head d rest hd]
  have hsp : stodSpecial (d :: rest) = false := by
    apply stodSpecial_digit d rest hd
    intro c hc
    have hcm : c ∈ rest := by
      cases rest with
      | nil => simp at hc
      | cons a t => simp at hc; subst hc; simp
    have := h c (by simp [hcm])
    constructor <;> rintro rfl <;> exact absurd this (by decide)
  unfold stodUnsigned
  simp only [hsp, takeWhile_digits _ h, dropWhile_digits _ h, Bool.false_eq_true, if_false]
  simp [stodExponent]

theorem stod_decimal (ds fs : List Char) (hne : ds ≠ []) (h : ∀ c ∈ ds, isdigit c = true)
    (hf : ∀ c ∈ fs, isdigit c = true) :
    stod (ds ++ '.' :: fs) = .ok ((digitsValue 0 (ds ++ fs) : ℚ) / 10 ^ fs.length) := by
  obtain ⟨d, rest, rfl⟩ := List.exists_cons_of_ne_nil hne
  have hd := h d (by simp)
  have e : (d :: rest) ++ '.' :: fs = d :: (rest ++ '.' :: fs) := rfl
  have hsp : stodSpecial ((d :: rest) ++ '.' :: fs) = false := by
    rw [e]
    apply stodSpecial_digit d _ hd
    intro c hc
    cases rest with
    | nil =>
      have : c = '.' := by simpa using hc.symm
      subst this; decide
    | cons a t =>
      have hca : c = a := by simpa using hc.symm
      have := h c (by simp [hca])
      constructor <;> rintro rfl <;> exact absurd this (by decide)
  have hdot : isdigit '.' = false := by decide
  rw [e, stod_of_digit_head d _ hd, ← e]
  unfold stodUnsigned
  simp only [hsp, takeWhile_digits_append _ _ _ h hdot, dropWhile_digits_append _ _ _ h hdot,
    Bool.false_eq_true, if_false, takeWhile_digits _ hf, dropWhile_digits _ hf]
  simp [stodExponent]

theorem stod_to_string_natCast (n : Nat) : stod (to_string (n : ℚ)) = .ok (n : ℚ) := by
  obtain ⟨h1, h2, h3⟩ := toDigits_spec n
  rw [to_string_natCast, stod_decimal _ _ h1 h2 (by decide)]
  have : ['0', '0', '0', '0', '0', '0'] = List.replicate 6 '0' := rfl
  rw [digitsValue_append, h3, this, digitsValue_zeros]
  norm_num

/-! ## The evaluator: one splice of a pass -/

theorem subSz_of_le (a b : Nat) (h : b ≤ a) : subSz a b = a - b := by
  simp [subSz, h]

theorem to_string_length_pos (q : ℚ) : 0 < (to_string q).length := by
  simp [to_string]

theorem GetValueToLeft_start (m : CMath) (x : ℚ) (L post : List Char) (vL : ℚ)
    (hLne : L ≠ []) (hL : ∀ c ∈ L, isdigit c = true ∨ c = '.') (hvL : stod L = .ok vL) :
    GetValueToLeft m (L ++ post) (subSz L.length 1) x = .ok (vL, 0) := by
  have hpos : 0 < L.length := List.length_pos.2 hLne
  rw [subSz_of_le _ _ hpos, GetValueToLeft, GetValueToLeftLoop_run_start m x L [] post hLne hL]
  simp [Reverse, hvL, bind_ok, pure_eq_ok]

theorem GetValueToRight_run (m : CMath) (x : ℚ) (pre R rest : List Char) (vR : ℚ)
    (hRne : R ≠ []) (hR : ∀ c ∈ R, isdigit c = true ∨ c = '.')
    (hrest : rest = [] ∨ ∃ c t, rest = c :: t ∧
      (c = '+' ∨ c = '-' ∨ c = '*' ∨ c = '/' ∨ c = '^' ∨ c = ')'))
    (hvR : stod R = .ok vR) :
    GetValueToRight m (pre ++ (R ++ rest)) pre.length x = .ok (vR, pre.length + R.length - 1) := by
  have hpos : 0 < R.length := List.length_pos.2 hRne
  rw [GetValueToRight, List.drop_left, GetValueToRightLoop_run m x R rest _ _ hR]
  rcases hrest with rfl | ⟨c, t, rfl, hc⟩
  · rw [GetValueToRightLoop_nil, List.nil_append, hvR, bind_ok, pure_eq_ok,
      subSz_of_le _ _ (by omega)]
  · have hlast : R.getLast? ≠ some 'e' := by
      intro h
      have hm : 'e' ∈ R := List.mem_of_getLast?_eq_some h
      rcases hR _ hm with h1 | h1
      · exact absurd h1 (by decide)
      · exact absurd h1 (by decide)
    rw [GetValueToRightLoop_stop m x c t _ _ (by
      rcases hc with h | h | h | h | h | h
      · exact Or.inl h
      · exact Or.inr (Or.inr (Or.inr (Or.inr (Or.inr ⟨h, by simpa using hRne, by simpa using hlast⟩))))
      · exact Or.inr (Or.inl h)
      · exact Or.inr (Or.inr (Or.inl h))
      · exact Or.inr (Or.inr (Or.inr (Or.inl h)))
      · exact Or.inr (Or.inr (Or.inr (Or.inr (Or.inl h))))),
      List.nil_append, hvR, bind_ok, pure_eq_ok, subSz_of_le _ _ (by omega)]

theorem GetValueToLeft_after_sep (m : CMath) (x : ℚ) (pre : List Char) (sep : Char)
    (Lb post : List Char) (vL : ℚ)
    (hsep : sep = '+' ∨ sep = '*' ∨ sep = '/' ∨ sep = '^')
    (hL : ∀ c ∈ Lb, isdigit c = true ∨ c = '.') (hvL : stod Lb = .ok vL) :
    GetValueToLeft m (pre ++ sep :: (Lb ++ post)) (pre.length + Lb.length) x =
      .ok (vL, pre.length + 1) := by
  rw [GetValueToLeft, GetValueToLeftLoop_run m x pre sep Lb [] post hL,
    GetValueToLeftLoop_stop m x _ _ _ sep (charAt_append_cons _ _ _) hsep
      (by simp only [List.length_append, List.length_cons]; omega)]
  simp [Reverse, hvL, bind_ok, pure_eq_ok]

/-- One splice of the addition pass: the literal `L` that starts the text, the operator
and the literal `R` become the text of their sum or difference. -/
theorem EvalAdditionLoop_step (m : CMath) (x : ℚ) (L R rest : List Char) (op : Char)
    (vL vR : ℚ) (fuel : Nat) (hop : op = '+' ∨ op = '-')
    (hLne : L ≠ []) (hL : ∀ c ∈ L, isdigit c = true ∨ c = '.')
    (hRne : R ≠ []) (hR : ∀ c ∈ R, isdigit c = true ∨ c = '.')
    (hrest : rest = [] ∨ ∃ c t, rest = c :: t ∧
      (c = '+' ∨ c = '-' ∨ c = '*' ∨ c = '/' ∨ c = '^' ∨ c = ')'))
    (hvL : stod L = .ok vL) (hvR : stod R = .ok vR) :
    EvalAdditionLoop m x (fuel + 1) (L ++ op :: (R ++ rest)) L.length =
      EvalAdditionLoop m x fuel
        (to_string (if op = '+' then vL + vR else vL - vR) ++ rest)
        (to_string (if op = '+' then vL + vR else vL - vR)).length := by
  have hpos : 0 < L.length := List.length_pos.2 hLne
  have hRpos : 0 < R.length := List.length_pos.2 hRne
  have hlt : L.length < (L ++ op :: (R ++ rest)).length := by simp
  have hcond : (decide (op = '+') || (decide (op = '-') && decide (L.length ≠ 0))) = true := by
    rcases hop with h | h
    · simp [h]
    · simpa [h] using hLne
  have hleft := GetValueToLeft_start m x L (op :: (R ++ rest)) vL hLne hL hvL
  have hright := GetValueToRight_run m x (L ++ [op]) R rest vR hRne hR hrest hvR
  have e1 : L ++ [op] ++ (R ++ rest) = L ++ op :: (R ++ rest) := by simp
  have e2 : (L ++ [op]).length = L.length + 1 := by simp
  rw [e1, e2] at hright
  have hS := to_string_length_pos (if op = '+' then vL + vR else vL - vR)
  have hrep : replace (L ++ op :: (R ++ rest)) 0
      (subSz (L.length + 1 + R.length - 1) 0 + 1)
      (to_string (if op = '+' then vL + vR else vL - vR)) =
      .ok (to_string (if op = '+' then vL + vR else vL - vR) ++ rest) := by
    have e3 : subSz (L.length + 1 + R.length - 1) 0 + 1 = L.length + (1 + R.length) := by
      rw [subSz_of_le _ _ (Nat.zero_le _)]; omega
    have e5 : L ++ op :: (R ++ rest) = (L ++ op :: R) ++ rest := by simp
    have e4 : List.drop (L.length + (1 + R.length)) (L ++ op :: (R ++ rest)) = rest := by
      rw [e5]
      exact List.drop_left' (by simp only [List.length_append, List.length_cons]; omega)
    rw [replace, if_pos (Nat.zero_le _), e3, Nat.zero_add, e4]
    rfl
  have hposn : subSz (0 + (to_string (if op = '+' then vL + vR else vL - vR)).length) 1 + 1 =
      (to_string (if op = '+' then vL + vR else vL - vR)).length := by
    rw [Nat.zero_add, subSz_of_le _ _ hS]; omega
  simp only [EvalAdditionLoop, hlt, if_true, charAt_append_cons, bind_ok, hcond, hleft, hright,
    hrep, hposn]

theorem find_none_of_not_mem (a b : Char) (l : List Char) (h : b ∉ l) :
    find [a, b] l = none := by
  induction l with
  | nil => rfl
  | cons c cs ih =>
    have hb : b ∉ cs := fun hh => h (List.mem_cons_of_mem _ hh)
    have hpre : List.isPrefixOf [a, b] (c :: cs) = false := by
      cases cs with
      | nil => simp [List.isPrefixOf]
      | cons d ds =>
        have hd : b ≠ d := fun hh => hb (by simp [hh])
        simp [List.isPrefixOf, hd]
    simp only [find, hpre, Bool.false_eq_true, if_false, ih hb, Option.map_none']

theorem normalizeSigns_of_no_minus (l : List Char) (h : '-' ∉ l) :
    normalizeSigns l = .ok l := by
  simp only [normalizeSigns, find_none_of_not_mem _ _ l h, pure_eq_ok, bind_ok]

/-- One splice of the multiplication pass: the literal `Lb` after a separator, the
operator and the literal `R` become the text of their product or quotient. -/
theorem EvalMultiplcationLoop_step (m : CMath) (x : ℚ) (pre : List Char) (sep : Char)
    (Lb R rest : List Char) (op : Char) (vL vR v : ℚ) (fuel : Nat)
    (hsep : sep = '+' ∨ sep = '*' ∨ sep = '/' ∨ sep = '^')
    (hop : op = '*' ∨ op = '/')
    (hL : ∀ c ∈ Lb, isdigit c = true ∨ c = '.')
    (hRne : R ≠ []) (hR : ∀ c ∈ R, isdigit c = true ∨ c = '.')
    (hrest : rest = [] ∨ ∃ c t, rest = c :: t ∧
      (c = '+' ∨ c = '-' ∨ c = '*' ∨ c = '/' ∨ c = '^' ∨ c = ')'))
    (hvL : stod Lb = .ok vL) (hvR : stod R = .ok vR)
    (hv : (if op = '/' then (if vR = 0 then Outcome.unmodelled else pure (vL / vR))
      else pure (vL * vR)) = .ok v) :
    EvalMultiplcationLoop m x (fuel + 1) (pre ++ sep :: (Lb ++ op :: (R ++ rest)))
        (pre.length + 1 + Lb.length) =
      (normalizeSigns (pre ++ sep :: (to_string v ++ rest)) >>= fun e3 =>
        EvalMultiplcationLoop m x fuel e3 (pre.length + 1 + (to_string v).length)) := by
  have hRpos : 0 < R.length := List.length_pos.2 hRne
  have e0 : pre ++ sep :: (Lb ++ op :: (R ++ rest)) = (pre ++ sep :: Lb) ++ op :: (R ++ rest) := by
    simp
  have e0len : (pre ++ sep :: Lb).length = pre.length + 1 + Lb.length := by
    simp only [List.length_append, List.length_cons]; omega
  have hlt : pre.length + 1 + Lb.length < (pre ++ sep :: (Lb ++ op :: (R ++ rest))).length := by
    simp only [List.length_append, List.length_cons]; omega
  have hch : charAt (pre ++ sep :: (Lb ++ op :: (R ++ rest))) (pre.length + 1 + Lb.length)
      = .ok op := by
    rw [e0, ← e0len]; exact charAt_append_cons _ _ _
  have hcond : (decide (op = '*') || decide (op = '/')) = true := by
    rcases hop with h | h <;> simp [h]
  have hleft : GetValueToLeft m (pre ++ sep :: (Lb ++ op :: (R ++ rest)))
      (subSz (pre.length + 1 + Lb.length) 1) x = .ok (vL, pre.length + 1) := by
    rw [subSz_of_le _ _ (by omega)]
    have : pre.length + 1 + Lb.length - 1 = pre.length + Lb.length := by omega
    rw [this]
    exact GetValueToLeft_after_sep m x pre sep Lb _ vL hsep hL hvL
  have hright : GetValueToRight m (pre ++ sep :: (Lb ++ op :: (R ++ rest)))
      (pre.length + 1 + Lb.length + 1) x = .ok (vR, pre.length + 1 + Lb.length + 1 + R.length - 1) := by
    have := GetValueToRight_run m x (pre ++ sep :: Lb ++ [op]) R rest vR hRne hR hrest hvR
    have e1 : pre ++ sep :: Lb ++ [op] ++ (R ++ rest) = pre ++ sep :: (Lb ++ op :: (R ++ rest)) := by
      simp
    have e2 : (pre ++ sep :: Lb ++ [op]).length = pre.length + 1 + Lb.length + 1 := by
      simp only [List.length_append, List.length_cons, List.length_nil]; omega
    rw [e1, e2] at this
    exact this
  have hS := to_string_length_pos v
  have hrep : replace (pre ++ sep :: (Lb ++ op :: (R ++ rest))) (pre.length + 1)
      (subSz (pre.length + 1 + Lb.length + 1 + R.length - 1) (pre.length + 1) + 1) (to_string v) =
      .ok (pre ++ sep :: (to_string v ++ rest)) := by
    have e3 : pre.length + 1 + (subSz (pre.length + 1 + Lb.length + 1 + R.length - 1)
        (pre.length + 1) + 1) = pre.length + 1 + Lb.length + 1 + R.length := by
      rw [subSz_of_le _ _ (by omega)]; omega
    have e5 : pre ++ sep :: (Lb ++ op :: (R ++ rest)) = (pre ++ sep :: (Lb ++ op :: R)) ++ rest := by
      simp
    have e4 : List.drop (pre.length + 1 + Lb.length + 1 + R.length)
        (pre ++ sep :: (Lb ++ op :: (R ++ rest))) = rest := by
      rw [e5]
      exact List.drop_left' (by simp only [List.length_append, List.length_cons]; omega)
    have e6 : List.take (pre.length + 1) (pre ++ sep :: (Lb ++ op :: (R ++ rest))) = pre ++ [sep] := by
      have : pre ++ sep :: (Lb ++ op :: (R ++ rest)) = (pre ++ [sep]) ++ (Lb ++ op :: (R ++ rest)) := by
        simp
      rw [this]
      exact List.take_left' (by simp)
    rw [replace, if_pos (by omega), e3, e4, e6]
    simp
  have hposn : subSz (pre.length + 1 + (to_string v).length) 1 + 1 =
      pre.length + 1 + (to_string v).length := by
    rw [subSz_of_le _ _ (by omega)]; omega
  simp only [EvalMultiplcationLoop, hlt, if_true, hch, bind_ok, hcond, hleft, hright]
  rcases hop with h | h
  · subst h
    simp only [show ¬ ('*' = '/') by decide, if_false, pure_eq_ok] at hv ⊢
    cases hv
    simp only [bind_ok, hrep, hposn]
  · subst h
    by_cases hz : vR = 0
    · simp [hz] at hv
    · simp only [hz, if_true, if_false, pure_eq_ok] at hv ⊢
      cases hv
      simp only [bind_ok, hrep, hposn]

/-! ## The evaluator on a sum with a product -/

theorem to_string_natCast_numeric (n : Nat) :
    ∀ c ∈ to_string (n : ℚ), isdigit c = true ∨ c = '.' := by
  intro c hc
  rw [to_string_natCast] at hc
  rcases List.mem_append.1 hc with h | h
  · exact Or.inl ((toDigits_spec n).2.1 c h)
  · simp at h
    rcases h with h | h
    · exact Or.inr h
    · subst h; exact Or.inl (by decide)

theorem to_string_natCast_ne_nil (n : Nat) : to_string (n : ℚ) ≠ [] := by
  rw [to_string_natCast]; simp

theorem numeric_no_minus (l : List Char) (h : ∀ c ∈ l, isdigit c = true ∨ c = '.' ∨ c = '+') :
    '-' ∉ l := by
  intro hm
  rcases h _ hm with h | h | h
  · exact absurd h (by decide)
  · exact absurd h (by decide)
  · exact absurd h (by decide)

theorem Evaluate_sum_with_product_aux (m : CMath) (x : ℚ) (da db dc : List Char)
    (hb : db ≠ []) (hc : dc ≠ [])
    (hda : ∀ c ∈ da, isdigit c = true) (hdb : ∀ c ∈ db, isdigit c = true)
    (hdc : ∀ c ∈ dc, isdigit c = true) :
    EvalMultiplcation m (da ++ '+' :: (db ++ '*' :: dc)) x =
      .ok (da ++ '+' :: to_string ((digitsValue 0 db * digitsValue 0 dc : Nat) : ℚ)) := by
  have hlen : (da ++ '+' :: (db ++ '*' :: dc)).length
      = (dc.length + 1) + (da.length + 1 + db.length) := by
    simp only [List.length_append, List.length_cons]; omega
  have e0 : da ++ '+' :: (db ++ '*' :: dc) = (da ++ '+' :: db) ++ '*' :: dc := by simp
  have e0len : (da ++ '+' :: db).length = da.length + 1 + db.length := by
    simp only [List.length_append, List.length_cons]; omega
  have hskip := EvalMultiplcationLoop_skip m x (da ++ '+' :: (db ++ '*' :: dc))
    (da.length + 1 + db.length) (by rw [hlen]; omega) (da.length + 1 + db.length)
    (dc.length + 1) 0 (by omega) (by
      intro i _ hi
      rw [e0, List.getD_append _ _ _ _ (by rw [e0len]; exact hi)]
      have hmem := getD_mem (da ++ '+' :: db) i (Char.ofNat 0) (by rw [e0len]; exact hi)
      have hd : isdigit ((da ++ '+' :: db).getD i (Char.ofNat 0)) = true ∨
          (da ++ '+' :: db).getD i (Char.ofNat 0) = '+' := by
        rcases List.mem_append.1 hmem with h | h
        · exact Or.inl (hda _ h)
        · rcases List.mem_cons.1 h with h | h
          · exact Or.inr h
          · exact Or.inl (hdb _ h)
      rcases hd with h | h
      · constructor <;> intro hh <;> rw [hh] at h <;> exact absurd h (by decide)
      · rw [h]; constructor <;> decide)
  have hstep := EvalMultiplcationLoop_step m x da '+' db dc [] '*'
    (digitsValue 0 db) (digitsValue 0 dc)
    (((digitsValue 0 db * digitsValue 0 dc : Nat) : ℚ)) dc.length (Or.inl rfl) (Or.inl rfl)
    (fun c h => Or.inl (hdb c h)) hc (fun c h => Or.inl (hdc c h)) (Or.inl rfl)
    (stod_digits db hb hdb) (stod_digits dc hc hdc) (by
      simp only [show ¬ ('*' = '/') by decide, if_false, pure_eq_ok]
      push_cast; rfl)
  simp only [List.append_nil] at hstep
  have hnorm : normalizeSigns (da ++ '+' :: to_string ((digitsValue 0 db * digitsValue 0 dc : Nat) : ℚ))
      = .ok (da ++ '+' :: to_string ((digitsValue 0 db * digitsValue 0 dc : Nat) : ℚ)) := by
    apply normalizeSigns_of_no_minus
    apply numeric_no_minus
    intro c hcm
    rcases List.mem_append.1 hcm with h | h
    · exact Or.inl (hda _ h)
    · rcases List.mem_cons.1 h with h | h
      · exact Or.inr (Or.inr h)
      · rcases to_string_natCast_numeric _ c h with h | h
        · exact Or.inl h
        · exact Or.inr (Or.inl h)
  rw [EvalMultiplcation, hlen, hskip, hstep, hnorm, bind_ok]
  exact EvalMultiplcationLoop_past m x _ _ _
    (by simp only [List.length_append, List.length_cons]; omega)

theorem EvalAddition_sum_aux (m : CMath) (x : ℚ) (da : List Char) (n : Nat)
    (ha : da ≠ []) (hda : ∀ c ∈ da, isdigit c = true) :
    EvalAddition m (da ++ '+' :: to_string (n : ℚ)) x =
      .ok (to_string ((digitsValue 0 da + n : Nat) : ℚ)) := by
  have hlen : (da ++ '+' :: to_string (n : ℚ)).length
      = ((to_string (n : ℚ)).length + 1) + da.length := by
    simp only [List.length_append, List.length_cons]; omega
  have hskip := EvalAdditionLoop_skip m x (da ++ '+' :: to_string (n : ℚ)) da.length
    (by rw [hlen]; omega) da.length ((to_string (n : ℚ)).length + 1) 0 (by omega) (by
      intro i _ hi
      rw [List.getD_append _ _ _ _ hi]
      have h := hda _ (getD_mem da i (Char.ofNat 0) hi)
      constructor
      · intro hh; rw [hh] at h; exact absurd h (by decide)
      · left; intro hh; rw [hh] at h; exact absurd h (by decide))
  have hstep := EvalAdditionLoop_step m x da (to_string (n : ℚ)) [] '+'
    (digitsValue 0 da) n (to_string (n : ℚ)).length (Or.inl rfl) ha
    (fun c h => Or.inl (hda c h)) (to_string_natCast_ne_nil n) (to_string_natCast_numeric n)
    (Or.inl rfl) (stod_digits da ha hda) (stod_to_string_natCast n)
  simp only [List.append_nil, if_true] at hstep
  rw [EvalAddition, hlen, hskip, hstep]
  push_cast
  exact EvalAdditionLoop_past m x _ _ _ (le_refl _)

/-- Evaluation of the text `a+b*c` for decimal integer literals. -/
theorem Evaluate_sum_with_product (m : CMath) (x : ℚ) (da db dc : List Char)
    (ha : da ≠ []) (hb : db ≠ []) (hc : dc ≠ [])
    (hda : ∀ c ∈ da, isdigit c = true) (hdb : ∀ c ∈ db, isdigit c = true)
    (hdc : ∀ c ∈ dc, isdigit c = true) :
    Evaluate m (da ++ '+' :: (db ++ '*' :: dc)) x =
      .ok ((digitsValue 0 da : ℚ) + (digitsValue 0 db : ℚ) * (digitsValue 0 dc : ℚ)) := by
  have hchars : ∀ c ∈ da ++ '+' :: (db ++ '*' :: dc),
      isdigit c = true ∨ c = '+' ∨ c = '*' := by
    intro c hcm
    rcases List.mem_append.1 hcm with h | h
    · exact Or.inl (hda _ h)
    · rcases List.mem_cons.1 h with h | h
      · exact Or.inr (Or.inl h)
      · rcases List.mem_append.1 h with h | h
        · exact Or.inl (hdb _ h)
        · rcases List.mem_cons.1 h with h | h
          · exact Or.inr (Or.inr h)
          · exact Or.inl (hdc _ h)
  have hne : ∀ (d : Char), isdigit d = false → d ≠ '+' → d ≠ '*' →
      ∀ c ∈ da ++ '+' :: (db ++ '*' :: dc), c ≠ d := by
    intro d h1 h2 h3 c hcm hcd
    subst hcd
    rcases hchars c hcm with h | h | h
    · rw [h] at h1; cases h1
    · exact h2 h
    · exact h3 h
  have h1 : (da ++ '+' :: (db ++ '*' :: dc)).isEmpty = false := by
    cases da <;> rfl
  have hlen5 : 5 ≤ (da ++ '+' :: (db ++ '*' :: dc)).length := by
    have := List.length_pos.2 ha
    have := List.length_pos.2 hb
    have := List.length_pos.2 hc
    simp only [List.length_append, List.length_cons]; omega
  have h2 : da ++ '+' :: (db ++ '*' :: dc) ≠ ['x'] := by
    intro h; rw [h] at hlen5; simp at hlen5
  have h3 : da ++ '+' :: (db ++ '*' :: dc) ≠ ['-', 'x'] := by
    intro h; rw [h] at hlen5; simp at hlen5
  have p1 := EvalSubExpressions_none
    (EvalInternalF m (da ++ '+' :: (db ++ '*' :: dc)).length) x _
    (hne '(' (by decide) (by decide) (by decide))
  have p2 := EvalSpecialFunctions_none m x (da ++ '+' :: (db ++ '*' :: dc)) (fun c hcm =>
    ⟨hne 's' (by decide) (by decide) (by decide) c hcm,
     hne 'c' (by decide) (by decide) (by decide) c hcm,
     hne 't' (by decide) (by decide) (by decide) c hcm,
     hne 'l' (by decide) (by decide) (by decide) c hcm⟩)
  have p3 := EvalPowers_none m x (da ++ '+' :: (db ++ '*' :: dc))
    (hne '^' (by decide) (by decide) (by decide))
  have p4 := Evaluate_sum_with_product_aux m x da db dc hb hc hda hdb hdc
  have p5 := EvalAddition_sum_aux m x da (digitsValue 0 db * digitsValue 0 dc) ha hda
  have p6 : to_string ((digitsValue 0 da + digitsValue 0 db * digitsValue 0 dc : Nat) : ℚ)
      ≠ ['x'] := by
    rw [to_string_natCast]
    intro h
    have := congrArg List.length h
    simp at this
  have p7 := stod_to_string_natCast (digitsValue 0 da + digitsValue 0 db * digitsValue 0 dc)
  simp only [Evaluate, EvalInternal, EvalInternalF, h1, h2, h3, Bool.false_eq_true, if_false,
    p1, p2, p3, p4, p5, bind_ok, p6, p7]
  push_cast
  rfl

/-! ## The evaluator on sums of zeros -/

theorem zeroTail_chars (ops : List Char) (h : ∀ c ∈ ops, c = '+' ∨ c = '-') :
    ∀ c ∈ zeroTail ops, c = '0' ∨ c = '+' ∨ c = '-' := by
  induction ops with
  | nil => intro c hc; simp [zeroTail] at hc
  | cons op rest ih =>
    intro c hc
    simp only [zeroTail, List.mem_cons] at hc
    rcases hc with h1 | h1 | h1
    · subst h1; exact Or.inr (h _ (by simp))
    · exact Or.inl h1
    · exact ih (fun d hd => h d (by simp [hd])) c h1

theorem zeroTail_head (ops : List Char) (h : ∀ c ∈ ops, c = '+' ∨ c = '-') :
    zeroTail ops = [] ∨ ∃ c t, zeroTail ops = c :: t ∧
      (c = '+' ∨ c = '-' ∨ c = '*' ∨ c = '/' ∨ c = '^' ∨ c = ')') := by
  cases ops with
  | nil => exact Or.inl rfl
  | cons op rest =>
    refine Or.inr ⟨op, _, rfl, ?_⟩
    rcases h op (by simp) with h1 | h1
    · exact Or.inl h1
    · exact Or.inr (Or.inl h1)

theorem stod_zero_text : stod ['0'] = .ok 0 := by decide!

theorem to_string_zero : to_string 0 = ['0', '.', '0', '0', '0', '0', '0', '0'] := by decide!

theorem stod_to_string_zero : stod (to_string 0) = .ok 0 := by decide!

/-- The addition pass folds a literal of value zero and a tail of zero terms into the
text of zero. -/
theorem EvalAdditionLoop_zeroTail (m : CMath) (x : ℚ) :
    ∀ (ops L : List Char) (fuel : Nat), (∀ c ∈ ops, c = '+' ∨ c = '-') →
      L ≠ [] → (∀ c ∈ L, isdigit c = true ∨ c = '.') → stod L = .ok 0 →
      ops.length ≤ fuel →
      EvalAdditionLoop m x fuel (L ++ zeroTail ops) L.length =
        .ok (if ops = [] then L else to_string 0) := by
  intro ops
  induction ops with
  | nil =>
    intro L fuel _ _ _ _ _
    simp only [zeroTail, List.append_nil, if_true]
    exact EvalAdditionLoop_past m x _ _ _ (le_refl _)
  | cons op rest ih =>
    intro L fuel hops hLne hL hvL hfuel
    obtain ⟨f, rfl⟩ : ∃ f, fuel = f + 1 := ⟨fuel - 1, by simp at hfuel; omega⟩
    have hrest : ∀ c ∈ rest, c = '+' ∨ c = '-' := fun d hd => hops d (by simp [hd])
    have hstep := EvalAdditionLoop_step m x L ['0'] (zeroTail rest) op 0 0 f
      (hops op (by simp)) hLne hL (by simp) (by intro c hc; simp at hc; subst hc; left; decide)
      (zeroTail_head rest hrest) hvL stod_zero_text
    have hval : (if op = '+' then (0 : ℚ) + 0 else 0 - 0) = 0 := by split <;> simp
    rw [hval] at hstep
    have e : L ++ zeroTail (op :: rest) = L ++ op :: (['0'] ++ zeroTail rest) := by
      simp [zeroTail]
    rw [e, hstep, ih (to_string 0) f hrest (by rw [to_string_zero]; simp)
      (by rw [to_string_zero]; decide) stod_to_string_zero (by simp at hfuel; omega)]
    simp

theorem zeroTail_length (ops : List Char) : (zeroTail ops).length = 2 * ops.length := by
  induction ops with
  | nil => rfl
  | cons op rest ih => simp only [zeroTail, List.length_cons, ih]; omega

/-- The evaluation of a text from the results of its five passes. -/
theorem Evaluate_of_passes (m : CMath) (x : ℚ) (expr e1 e2 e3 e4 e5 : List Char)
    (h1 : expr.isEmpty = false) (h2 : expr ≠ ['x']) (h3 : expr ≠ ['-', 'x'])
    (p1 : EvalSubExpressions (EvalInternalF m expr.length) expr x = .ok e1)
    (p2 : EvalSpecialFunctions m e1 x = .ok e2) (p3 : EvalPowers m e2 x = .ok e3)
    (p4 : EvalMultiplcation m e3 x = .ok e4) (p5 : EvalAddition m e4 x = .ok e5) :
    Evaluate m expr x = stod (if e5 = ['x'] then to_string x else e5) := by
  rw [Evaluate, EvalInternal, EvalInternalF]
  simp only [h1, h2, h3, Bool.false_eq_true, if_false, p1, p2, p3, p4, p5, bind_ok]

/-- A sum of zeros evaluates to zero. -/
theorem Evaluate_zeroSum (m : CMath) (x : ℚ) (ops : List Char)
    (hops : ∀ c ∈ ops, c = '+' ∨ c = '-') : Evaluate m (zeroSum ops) x = .ok 0 := by
  have hchars : ∀ c ∈ zeroSum ops, c = '0' ∨ c = '+' ∨ c = '-' := by
    intro c hc
    simp only [zeroSum, List.mem_cons] at hc
    rcases hc with h | h
    · exact Or.inl h
    · exact zeroTail_chars ops hops c h
  have hne : ∀ (d : Char), d ≠ '0' → d ≠ '+' → d ≠ '-' → ∀ c ∈ zeroSum ops, c ≠ d := by
    intro d h1 h2 h3 c hcm hcd
    subst hcd
    rcases hchars c hcm with h | h | h
    · exact h1 h
    · exact h2 h
    · exact h3 h
  have h1 : (zeroSum ops).isEmpty = false := rfl
  have h2 : zeroSum ops ≠ ['x'] := by
    intro h; simp [zeroSum] at h
  have h3 : zeroSum ops ≠ ['-', 'x'] := by
    intro h; simp [zeroSum] at h
  have p1 := EvalSubExpressions_none (EvalInternalF m (zeroSum ops).length) x _
    (hne '(' (by decide) (by decide) (by decide))
  have p2 := EvalSpecialFunctions_none m x (zeroSum ops) (fun c hcm =>
    ⟨hne 's' (by decide) (by decide) (by decide) c hcm,
     hne 'c' (by decide) (by decide) (by decide) c hcm,
     hne 't' (by decide) (by decide) (by decide) c hcm,
     hne 'l' (by decide) (by decide) (by decide) c hcm⟩)
  have p3 := EvalPowers_none m x (zeroSum ops) (hne '^' (by decide) (by decide) (by decide))
  have p4 := EvalMultiplcation_none m x (zeroSum ops) (fun c hcm =>
    ⟨hne '*' (by decide) (by decide) (by decide) c hcm,
     hne '/' (by decide) (by decide) (by decide) c hcm⟩)
  have hlen : (zeroSum ops).length = (zeroSum ops).length - 1 + 1 := by
    simp [zeroSum]
  have hskip := EvalAdditionLoop_skip m x (zeroSum ops) 1 (by simp [zeroSum]) 1
    ((zeroSum ops).length - 1) 0 rfl (by
      intro i _ hi
      have : i = 0 := by omega
      subst this
      constructor
      · simp [zeroSum]
      · right; rfl)
  have p5 : EvalAddition m (zeroSum ops) x = .ok (if ops = [] then ['0'] else to_string 0) := by
    rw [EvalAddition, hlen, hskip]
    have := EvalAdditionLoop_zeroTail m x ops ['0'] ((zeroSum ops).length - 1) hops (by simp)
      (by intro c hc; simp at hc; subst hc; left; decide) stod_zero_text
      (by simp only [zeroSum, List.length_cons, zeroTail_length]; omega)
    simpa [zeroSum] using this
  rw [Evaluate_of_passes m x _ _ _ _ _ _ h1 h2 h3 p1 p2 p3 p4 p5]
  by_cases ho : ops = []
  · simp only [ho, if_true]
    rw [if_neg (by decide)]
    exact stod_zero_text
  · simp only [ho, if_false]
    rw [to_string_zero, if_neg (by decide), ← to_string_zero]
    exact stod_to_string_zero

/-! ## The differentiator on texts without the variable -/

theorem BreakUpTermsLoop_chars : ∀ (cs cur : List Char) (op : InterTermOperator)
    (lastC : Char) (isFirst : Bool) (nl : Nat),
    ∀ p ∈ BreakUpTermsLoop cs cur op lastC isFirst nl, ∀ c ∈ p.2, c ∈ cur ∨ c ∈ cs := by
  intro cs
  induction cs with
  | nil =>
    intro cur op lastC isFirst nl p hp c hc
    simp only [BreakUpTermsLoop] at hp
    split at hp
    · simp at hp; subst hp; exact Or.inl hc
    · simp at hp
  | cons d cs ih =>
    intro cur op lastC isFirst nl p hp c hc
    simp only [BreakUpTermsLoop] at hp
    split at hp
    · rcases List.mem_cons.1 hp with h | h
      · subst h; exact Or.inl hc
      · rcases ih _ _ _ _ _ p h c hc with h1 | h1
        · simp at h1
        · exact Or.inr (List.mem_cons_of_mem _ h1)
    · rcases ih _ _ _ _ _ p hp c hc with h1 | h1
      · rcases List.mem_append.1 h1 with h2 | h2
        · exact Or.inl h2
        · simp at h2; subst h2; exact Or.inr (List.mem_cons_self _ _)
      · exact Or.inr (List.mem_cons_of_mem _ h1)

theorem BreakUpTermsLoop_ops : ∀ (cs cur : List Char) (op : InterTermOperator)
    (lastC : Char) (isFirst : Bool) (nl : Nat),
    ∀ p ∈ BreakUpTermsLoop cs cur op lastC isFirst nl,
      p.1 = op ∨ p.1 = .PLUS ∨ p.1 = .MINUS := by
  intro cs
  induction cs with
  | nil =>
    intro cur op lastC isFirst nl p hp
    simp only [BreakUpTermsLoop] at hp
    split at hp
    · simp at hp; subst hp; exact Or.inl rfl
    · simp at hp
  | cons d cs ih =>
    intro cur op lastC isFirst nl p hp
    simp only [BreakUpTermsLoop] at hp
    split at hp
    · rcases List.mem_cons.1 hp with h | h
      · subst h; exact Or.inl rfl
      · rcases ih _ _ _ _ _ p h with h1 | h1
        · right
          rw [h1]
          split
          · exact Or.inl rfl
          · exact Or.inr rfl
        · exact Or.inr h1
    · exact ih _ _ _ _ _ p hp

theorem BreakUpTermsLoop_head : ∀ (cs cur : List Char) (op : InterTermOperator)
    (lastC : Char) (isFirst : Bool) (nl : Nat), (cur ≠ [] ∨ cs ≠ []) →
    ∃ t0 rest, BreakUpTermsLoop cs cur op lastC isFirst nl = (op, t0) :: rest ∧
      ∀ p ∈ rest, p.1 = .PLUS ∨ p.1 = .MINUS := by
  intro cs
  induction cs with
  | nil =>
    intro cur op lastC isFirst nl h
    have hc : cur ≠ [] := by
      rcases h with h | h
      · exact h
      · exact absurd rfl h
    refine ⟨cur, [], ?_, by simp⟩
    simp [BreakUpTermsLoop, hc]
  | cons d cs ih =>
    intro cur op lastC isFirst nl _
    simp only [BreakUpTermsLoop]
    split
    · refine ⟨cur, _, rfl, ?_⟩
      intro p hp
      rcases BreakUpTermsLoop_ops _ _ _ _ _ _ p hp with h1 | h1
      · rw [h1]
        split
        · exact Or.inl rfl
        · exact Or.inr rfl
      · exact h1
    · exact ih _ _ _ _ _ (Or.inl (by simp))

theorem find_single_none (c : Char) (l : List Char) (h : c ∉ l) : find [c] l = none := by
  induction l with
  | nil => rfl
  | cons d ds ih =>
    have hd : c ≠ d := fun hh => h (by simp [hh])
    have hds : c ∉ ds := fun hh => h (List.mem_cons_of_mem _ hh)
    have hpre : List.isPrefixOf [c] (d :: ds) = false := by
      simp [List.isPrefixOf, hd]
    simp only [find, hpre, Bool.false_eq_true, if_false, ih hds, Option.map_none']

theorem ProcessTerm_constant (m : CMath) (rec : List Char → List Char → Outcome (List Char))
    (term : List Char) (h : 'x' ∉ term) : ProcessTerm m rec term ['x'] = .ok ['0'] := by
  have h1 : term ≠ ['x'] := by rintro rfl; simp at h
  have h2 : term ≠ ['-', 'x'] := by rintro rfl; simp at h
  simp only [ProcessTerm, h1, h2, if_false, find_single_none 'x' term h, if_true]

theorem ProcessDerivatives_constant (m : CMath)
    (rec : List Char → List Char → Outcome (List Char)) :
    ∀ (items : List (InterTermOperator × List Char)), (∀ p ∈ items, 'x' ∉ p.2) →
      ProcessDerivatives m rec items ['x'] = .ok (items.map (fun p => (p.1, ['0']))) := by
  intro items
  induction items with
  | nil => intro _; rfl
  | cons p rest ih =>
    intro h
    obtain ⟨op, term⟩ := p
    simp only [ProcessDerivatives, ProcessTerm_constant m rec term (h (op, term) (by simp)),
      bind_ok, ih (fun q hq => h q (by simp [hq])), pure_eq_ok, List.map_cons]

theorem RecombineTerms_zero_tail :
    ∀ (rest : List (InterTermOperator × List Char)) (acc : List Char),
      (∀ p ∈ rest, p.1 = .PLUS ∨ p.1 = .MINUS) →
      List.foldl RecombineStep acc (rest.map (fun p => (p.1, ['0']))) =
        acc ++ zeroTail (rest.map (fun p => opChar p.1)) := by
  intro rest
  induction rest with
  | nil => intro acc _; simp [zeroTail]
  | cons p rest ih =>
    intro acc h
    obtain ⟨op, term⟩ := p
    rcases h (op, term) (by simp) with h1 | h1
    · simp only [] at h1
      subst h1
      simp only [List.map_cons, List.foldl_cons, RecombineStep, zeroTail, opChar]
      rw [ih _ (fun q hq => h q (by simp [hq]))]
      simp
      rfl
    · simp only [] at h1
      subst h1
      simp only [List.map_cons, List.foldl_cons, RecombineStep, zeroTail, opChar]
      rw [ih _ (fun q hq => h q (by simp [hq]))]
      simp
      rfl

/-- The derivative text of a text without the variable is a sum of zeros, one per
term of the decomposition. -/
theorem Derivative_constant (m : CMath) (s : List Char) (hne : s ≠ []) (hx : 'x' ∉ s) :
    ∃ connectives : List Char, (∀ c ∈ connectives, c = '+' ∨ c = '-') ∧
      connectives.length + 1 = (BreakUpTerms s).length ∧
      Derivative m s = .ok (zeroSum connectives) := by
  obtain ⟨t0, rest, hb, hops⟩ := BreakUpTermsLoop_head s [] .NONE (Char.ofNat 0) true 0
    (Or.inr hne)
  have hfree : ∀ p ∈ BreakUpTerms s, 'x' ∉ p.2 := by
    intro p hp hxp
    rcases BreakUpTermsLoop_chars _ _ _ _ _ _ p hp 'x' hxp with h | h
    · simp at h
    · exact hx h
  refine ⟨rest.map (fun p => opChar p.1), ?_, ?_, ?_⟩
  · intro c hc
    obtain ⟨p, hp, rfl⟩ := List.mem_map.1 hc
    rcases hops p hp with h | h <;> rw [h]
    · exact Or.inl rfl
    · exact Or.inr rfl
  · rw [BreakUpTerms, hb]; simp
  · rw [Derivative, FindDerivativeInternal, derivativeDepth, FindDerivativeInternalF]
    rw [ProcessDerivatives_constant m _ _ hfree]
    simp only [bind_ok, pure_eq_ok]
    rw [BreakUpTerms, hb, RecombineTerms, List.map_cons, List.foldl_cons]
    have : RecombineStep [] (InterTermOperator.NONE, ['0']) = ['0'] := rfl
    rw [this, RecombineTerms_zero_tail rest ['0'] hops]
    rfl

/-! ## The product rule -/

theorem RecombineTerms_single (t : List Char) :
    RecombineTerms [(InterTermOperator.NONE, t)] = t := by
  cases t with
  | nil => rfl
  | cons c cs => rfl

/-- The product rule as the code applies it to a term `L*R` split at its first
top-level `*`, for any function `rec` that differentiates the two sides. -/
theorem ProcessProductRule_table (rec : List Char → List Char → Outcome (List Char))
    (deriveVar term L R dL dR : List Char)
    (hsplit : term = L ++ '*' :: R) (hfirst : findTopLevel '*' term 0 0 = some L.length)
    (hL : L ≠ ['0']) (hR : R ≠ ['0'])
    (hdL : rec L deriveVar = .ok dL) (hdR : rec R deriveVar = .ok dR) :
    ProcessProductRule rec term deriveVar = .ok (some (productRuleText L R dL dR)) := by
  have htake : term.take L.length = L := by
    rw [hsplit]; exact List.take_left' rfl
  have hsub : substr term (L.length + 1) = .ok R := by
    have hle : L.length + 1 ≤ term.length := by
      rw [hsplit]; simp
    have hdrop : term.drop (L.length + 1) = R := by
      have : term = (L ++ ['*']) ++ R := by rw [hsplit]; simp
      rw [this]; exact List.drop_left' (by simp)
    rw [substr, if_pos hle, hdrop]
  simp only [ProcessProductRule, hfirst, htake, hsub, bind_ok, hL, hR, decide_False,
    Bool.or_self, Bool.false_eq_true, if_false, hdL, hdR, pure_eq_ok, productRuleText]
  by_cases a0 : dL = ['0'] <;> by_cases a1 : dL = ['1'] <;> by_cases b0 : dR = ['0'] <;>
    by_cases b1 : dR = ['1'] <;> simp_all

/-! ## The depth bound of the differentiator -/

theorem refines_refl {α : Type} (r : Outcome α) : r.refines r := Or.inr rfl

theorem refines_trans {α : Type} {a b c : Outcome α} (h1 : a.refines b) (h2 : b.refines c) :
    a.refines c := by
  rcases h1 with h | h
  · exact Or.inl h
  · rcases h2 with h' | h'
    · exact Or.inl (by rw [← h, h'])
    · exact Or.inr (by rw [h', h])

theorem refines_bind {α β : Type} {r1 r2 : Outcome α} {k1 k2 : α → Outcome β}
    (h : r1.refines r2) (hk : ∀ a, (k1 a).refines (k2 a)) :
    (r1 >>= k1).refines (r2 >>= k2) := by
  rcases h with h | h
  · subst h; exact Or.inl rfl
  · subst h
    cases r2 with
    | ok a => exact hk a
    | thrown e => exact Or.inr rfl
    | undefined => exact Or.inr rfl
    | unmodelled => exact Or.inr rfl
    | fuel => exact Or.inl rfl

theorem refines_of_ok {α : Type} {r1 r2 : Outcome α} {a : α} (h : r1.refines r2)
    (h1 : r1 = .ok a) : r2 = .ok a := by
  rcases h with h | h
  · rw [h1] at h; cases h
  · rw [h, h1]

theorem ProcessProductRule_refines (rec1 rec2 : List Char → List Char → Outcome (List Char))
    (h : ∀ e v, (rec1 e v).refines (rec2 e v)) (term deriveVar : List Char) :
    (ProcessProductRule rec1 term deriveVar).refines (ProcessProductRule rec2 term deriveVar) := by
  unfold ProcessProductRule
  split
  · exact refines_refl _
  · refine refines_bind (refines_refl _) (fun rTerm => ?_)
    split
    · exact refines_refl _
    · refine refines_bind (h _ _) (fun dl => ?_)
      refine refines_bind (h _ _) (fun dr => ?_)
      exact refines_refl _

theorem ProcessQuotientRule_refines (rec1 rec2 : List Char → List Char → Outcome (List Char))
    (h : ∀ e v, (rec1 e v).refines (rec2 e v)) (term deriveVar : List Char) :
    (ProcessQuotientRule rec1 term deriveVar).refines
      (ProcessQuotientRule rec2 term deriveVar) := by
  unfold ProcessQuotientRule
  split
  · exact refines_refl _
  · refine refines_bind (refines_refl _) (fun rTerm => ?_)
    split
    · exact refines_refl _
    · split
      · exact refines_refl _
      · refine refines_bind (h _ _) (fun dl => ?_)
        refine refines_bind (h _ _) (fun dr => ?_)
        exact refines_refl _

theorem ProcessPowers_refines (m : CMath)
    (rec1 rec2 : List Char → List Char → Outcome (List Char))
    (h : ∀ e v, (rec1 e v).refines (rec2 e v)) (term deriveVar : List Char) :
    (ProcessPowers m rec1 term deriveVar).refines (ProcessPowers m rec2 term deriveVar) := by
  unfold ProcessPowers
  split
  · exact refines_refl _
  · refine refines_bind (refines_refl _) (fun rTerm => ?_)
    split
    · exact refines_refl _
    · refine refines_bind (h _ _) (fun dl => ?_)
      refine refines_bind (h _ _) (fun dr => ?_)
      exact refines_refl _

theorem ProcessSpecialFunctions_refines
    (rec1 rec2 : List Char → List Char → Outcome (List Char))
    (h : ∀ e v, (rec1 e v).refines (rec2 e v)) (term deriveVar : List Char) :
    (ProcessSpecialFunctions rec1 term deriveVar).refines
      (ProcessSpecialFunctions rec2 term deriveVar) := by
  unfold ProcessSpecialFunctions
  split
  · dsimp only []
    repeat' first
      | exact refines_refl _
      | refine refines_bind (h _ _) (fun _ => ?_)
      | refine refines_bind (refines_refl _) (fun _ => ?_)
      | split
  · exact refines_refl _

theorem ProcessChainRule_refines
    (rec1 rec2 : List Char → List Char → Outcome (List Char))
    (h : ∀ e v, (rec1 e v).refines (rec2 e v)) (term deriveVar : List Char) :
    (ProcessChainRule rec1 term deriveVar).refines (ProcessChainRule rec2 term deriveVar) := by
  unfold ProcessChainRule
  split
  · exact refines_refl _
  · refine refines_bind (h _ _) (fun d => ?_)
    refine refines_bind (refines_refl _) (fun st => ?_)
    refine refines_bind (h _ _) (fun d2 => ?_)
    exact refines_refl _

theorem ProcessTerm_refines (m : CMath)
    (rec1 rec2 : List Char → List Char → Outcome (List Char))
    (h : ∀ e v, (rec1 e v).refines (rec2 e v)) (term deriveVar : List Char) :
    (ProcessTerm m rec1 term deriveVar).refines (ProcessTerm m rec2 term deriveVar) := by
  unfold ProcessTerm
  split
  · exact refines_refl _
  · split
    · exact refines_refl _
    · split
      · exact refines_refl _
      · refine refines_bind (ProcessProductRule_refines rec1 rec2 h _ _) (fun r => ?_)
        split
        · exact refines_refl _
        · refine refines_bind (ProcessQuotientRule_refines rec1 rec2 h _ _) (fun r => ?_)
          split
          · exact refines_refl _
          · refine refines_bind (ProcessPowers_refines m rec1 rec2 h _ _) (fun r => ?_)
            split
            · exact refines_refl _
            · refine refines_bind (ProcessSpecialFunctions_refines rec1 rec2 h _ _) (fun r => ?_)
              split
              · exact refines_refl _
              · refine refines_bind (ProcessChainRule_refines rec1 rec2 h _ _) (fun r => ?_)
                exact refines_refl _

theorem ProcessDerivatives_refines (m : CMath)
    (rec1 rec2 : List Char → List Char → Outcome (List Char))
    (h : ∀ e v, (rec1 e v).refines (rec2 e v)) :
    ∀ (items : List (InterTermOperator × List Char)) (deriveVar : List Char),
      (ProcessDerivatives m rec1 items deriveVar).refines
        (ProcessDerivatives m rec2 items deriveVar) := by
  intro items
  induction items with
  | nil => intro v; exact refines_refl _
  | cons p rest ih =>
    intro v
    obtain ⟨op, term⟩ := p
    simp only [ProcessDerivatives]
    refine refines_bind (ProcessTerm_refines m rec1 rec2 h _ _) (fun r => ?_)
    refine refines_bind (ih v) (fun r => ?_)
    exact refines_refl _

/-- A larger depth bound does not change a result of `FindDerivativeInternal` that a
smaller one was enough for. -/
theorem FindDerivativeInternalF_succ_refines (m : CMath) :
    ∀ (depth : Nat) (expr deriveVar : List Char),
      (FindDerivativeInternalF m depth expr deriveVar).refines
        (FindDerivativeInternalF m (depth + 1) expr deriveVar) := by
  intro depth
  induction depth with
  | zero => intro expr v; exact Or.inl rfl
  | succ n ih =>
    intro expr v
    rw [FindDerivativeInternalF, FindDerivativeInternalF]
    refine refines_bind (ProcessDerivatives_refines m _ _ ih _ _) (fun r => ?_)
    exact refines_refl _

theorem FindDerivativeInternalF_le_refines (m : CMath) (d1 d2 : Nat) (hle : d1 ≤ d2)
    (expr deriveVar : List Char) :
    (FindDerivativeInternalF m d1 expr deriveVar).refines
      (FindDerivativeInternalF m d2 expr deriveVar) := by
  induction d2 with
  | zero =>
    have : d1 = 0 := by omega
    subst this; exact refines_refl _
  | succ n ih =>
    by_cases h : d1 = n + 1
    · subst h; exact refines_refl _
    · exact refines_trans (ih (by omega)) (FindDerivativeInternalF_succ_refines m n expr deriveVar)

theorem derivativeDepth_left (L R v : List Char) (c : Char) :
    derivativeDepth L v + 1 ≤ derivativeDepth (L ++ c :: R) v := by
  simp only [derivativeDepth, List.length_append, List.length_cons, List.count_append]
  have h : List.count '(' L * (v.length + List.count '(' L) ≤
      (List.count '(' L + List.count '(' (c :: R)) *
        (v.length + (List.count '(' L + List.count '(' (c :: R))) :=
    Nat.mul_le_mul (Nat.le_add_right _ _) (by omega)
  omega

theorem derivativeDepth_right (L R v : List Char) (c : Char) :
    derivativeDepth R v + 1 ≤ derivativeDepth (L ++ c :: R) v := by
  simp only [derivativeDepth, List.length_append, List.length_cons, List.count_append]
  have hc : List.count '(' R ≤ List.count '(' (c :: R) := by
    rw [List.count_cons]; omega
  have h : List.count '(' R * (v.length + List.count '(' R) ≤
      (List.count '(' L + List.count '(' (c :: R)) *
        (v.length + (List.count '(' L + List.count '(' (c :: R))) :=
    Nat.mul_le_mul (by omega) (by omega)
  omega

/-- The product rule for a whole expression that is one term, in terms of
`FindDerivativeInternal` alone. -/
theorem FindDerivativeInternal_product (m : CMath) (deriveVar term L R dL dR : List Char)
    (hvar : find deriveVar term ≠ none) (hstar : '*' ∉ deriveVar)
    (hsplit : term = L ++ '*' :: R) (hfirst : findTopLevel '*' term 0 0 = some L.length)
    (hL : L ≠ ['0']) (hR : R ≠ ['0'])
    (hdL : FindDerivativeInternal m L deriveVar = .ok dL)
    (hdR : FindDerivativeInternal m R deriveVar = .ok dR)
    (hone : BreakUpTerms term = [(.NONE, term)]) :
    FindDerivativeInternal m term deriveVar = .ok (productRuleText L R dL dR) := by
  obtain ⟨n, hn⟩ : ∃ n, derivativeDepth term deriveVar = n + 1 := ⟨_, rfl⟩
  have h1 : derivativeDepth L deriveVar ≤ n := by
    have := derivativeDepth_left L R deriveVar '*'
    rw [← hsplit] at this; omega
  have h2 : derivativeDepth R deriveVar ≤ n := by
    have := derivativeDepth_right L R deriveVar '*'
    rw [← hsplit] at this; omega
  have e1 := refines_of_ok (FindDerivativeInternalF_le_refines m _ n h1 L deriveVar) hdL
  have e2 := refines_of_ok (FindDerivativeInternalF_le_refines m _ n h2 R deriveVar) hdR
  have hmem : '*' ∈ term := by rw [hsplit]; simp
  have g1 : term ≠ deriveVar := fun h => hstar (h ▸ hmem)
  have g2 : term ≠ '-' :: deriveVar := by
    intro h
    rw [h] at hmem
    rcases List.mem_cons.1 hmem with h3 | h3
    · exact absurd h3 (by decide)
    · exact hstar h3
  rw [FindDerivativeInternal, hn, FindDerivativeInternalF, hone]
  simp only [ProcessDerivatives, ProcessTerm, g1, g2, hvar, if_false,
    ProcessProductRule_table _ deriveVar term L R dL dR hsplit hfirst hL hR e1 e2, bind_ok,
    pure_eq_ok, RecombineTerms_single]

/-! ## The evaluator and the differentiator: claims -/

/-- C5, as stated, fails: the text `(2+3`, whose opening parenthesis is never closed, is
evaluated to 5 instead of raising an error. -/
theorem Evaluate_unclosed_parenthesis :
    Evaluate libm ['(', '2', '+', '3'] 0 = .ok 5 := by
  decide!

/-- C5, amended: `Evaluate` raises an error for the empty expression, for every math
library and every bound value; it does not raise one for every text whose parentheses
cannot be matched: `(2+3`, whose opening parenthesis is never closed, evaluates to 5,
and so does `2+3)`, whose closing parenthesis is never opened. -/
theorem Evaluate_empty_fails_unmatched_passes (m : CMath) (x : ℚ) :
    Evaluate m [] x = .thrown .invalid_argument ∧
    Evaluate m ['(', '2', '+', '3'] x = .ok 5 ∧
    Evaluate m ['2', '+', '3', ')'] x = .ok 5 :=
  ⟨by with_unfolding_all rfl, by with_unfolding_all rfl, by with_unfolding_all rfl⟩

/-- C6: multiplication binds tighter than addition: for all non-negative integers
`a`, `b`, `c` written as decimal literals and every bound value `x`, `Evaluate` of the
text `a+b*c` returns `a + b*c`; in particular `2+3*4` gives 14 regardless of `x`.
Arithmetic is exact here, so no bound on the literals is needed; on `double` the same
values are computed as long as `a + b*c` is below `2 ^ 53`. -/
theorem Evaluate_product_before_sum (m : CMath) (x : ℚ) (a b c : Nat) :
    Evaluate m (Nat.toDigits 10 a ++ '+' :: (Nat.toDigits 10 b ++ '*' :: Nat.toDigits 10 c)) x
      = .ok ((a : ℚ) + (b : ℚ) * (c : ℚ)) ∧
    Evaluate m ['2', '+', '3', '*', '4'] x = .ok 14 := by
  obtain ⟨a1, a2, a3⟩ := toDigits_spec a
  obtain ⟨b1, b2, b3⟩ := toDigits_spec b
  obtain ⟨c1, c2, c3⟩ := toDigits_spec c
  constructor
  · have h := Evaluate_sum_with_product m x _ _ _ a1 b1 c1 a2 b2 c2
    rw [a3, b3, c3] at h
    exact h
  · with_unfolding_all rfl

/-- C7 at its failing input: in `1+(x-3)^2` with `x = 1` the group has the value -2, but
the power pass squares 2 and the sign is applied afterwards, so the result is -3 and
not 5; the same group at the start of the text, `(x-3)^2`, gives 4, and `(2+3)*4`
gives 20. -/
theorem Evaluate_negative_group_under_power :
    Evaluate libm ['1', '+', '(', 'x', '-', '3', ')', '^', '2'] 1 = .ok (-3) ∧
    Evaluate libm ['(', 'x', '-', '3', ')', '^', '2'] 1 = .ok 4 ∧
    Evaluate libm ['(', '2', '+', '3', ')', '*', '4'] 1 = .ok 20 := by
  decide!

/-- C8: for every non-empty text without the variable `x` (in particular for every
expression of the grammar without `x`) `Derivative` returns a text made only of the
term `0` joined by `+` and `-`, one `0` per term of the decomposition, and that text
evaluates to 0 at every bound value. -/
theorem Derivative_of_constant_text (m : CMath) (s : List Char) (hne : s ≠ [])
    (hx : 'x' ∉ s) :
    ∃ connectives : List Char, (∀ c ∈ connectives, c = '+' ∨ c = '-') ∧
      connectives.length + 1 = (BreakUpTerms s).length ∧
      Derivative m s = .ok (zeroSum connectives) ∧
      ∀ x, Evaluate m (zeroSum connectives) x = .ok 0 := by
  obtain ⟨connectives, h1, h2, h3⟩ := Derivative_constant m s hne hx
  exact ⟨connectives, h1, h2, h3, fun x => Evaluate_zeroSum m x connectives h1⟩

/-- Witness of C8 on the text `2+3`. -/
theorem Derivative_of_constant_text_witness :
    ∃ connectives : List Char, (∀ c ∈ connectives, c = '+' ∨ c = '-') ∧
      connectives.length + 1 = (BreakUpTerms ['2', '+', '3']).length ∧
      Derivative libm ['2', '+', '3'] = .ok (zeroSum connectives) ∧
      ∀ x, Evaluate libm (zeroSum connectives) x = .ok 0 :=
  Derivative_of_constant_text libm ['2', '+', '3'] (by decide) (by decide)

/-- C9: the derivative text of `x` is exactly `1` and that of `-x` is exactly `-1`; they
evaluate to 1 and -1 at every bound value. -/
theorem Derivative_of_variable (m : CMath) (x : ℚ) :
    Derivative m ['x'] = .ok ['1'] ∧ Derivative m ['-', 'x'] = .ok ['-', '1'] ∧
    Evaluate m ['1'] x = .ok 1 ∧ Evaluate m ['-', '1'] x = .ok (-1) :=
  ⟨by with_unfolding_all rfl, by with_unfolding_all rfl, by with_unfolding_all rfl,
    by with_unfolding_all rfl⟩

/-- C10: product rule. For a term that contains the variable and is split by its first
top-level `*` into `L` and `R`, neither the literal `0`, with `dL` and `dR` the
derivative texts of `L` and `R`, the derivative text of the term is the one of the
table (`productRuleText`): it is what the loop of `ProcessDerivatives` computes for the
term at every depth bound that suffices for `L` and `R`, and what
`FindDerivativeInternal` returns when the term is the whole expression. The derivative
of `x*x` is `x+x`, which is 6 at `x = 3`. -/
theorem Derivative_product_rule (m : CMath) :
    (∀ (deriveVar term L R dL dR : List Char),
      find deriveVar term ≠ none → '*' ∉ deriveVar →
      term = L ++ '*' :: R → findTopLevel '*' term 0 0 = some L.length →
      L ≠ ['0'] → R ≠ ['0'] →
      FindDerivativeInternal m L deriveVar = .ok dL →
      FindDerivativeInternal m R deriveVar = .ok dR →
      (∀ depth, derivativeDepth L deriveVar ≤ depth → derivativeDepth R deriveVar ≤ depth →
        ProcessTerm m (FindDerivativeInternalF m depth) term deriveVar
          = .ok (productRuleText L R dL dR)) ∧
      (BreakUpTerms term = [(.NONE, term)] →
        FindDerivativeInternal m term deriveVar = .ok (productRuleText L R dL dR))) ∧
    Derivative m ['x', '*', 'x'] = .ok ['x', '+', 'x'] ∧
    Evaluate m ['x', '+', 'x'] 3 = .ok 6 := by
  refine ⟨?_, by with_unfolding_all rfl, by with_unfolding_all rfl⟩
  intro deriveVar term L R dL dR hvar hstar hsplit hfirst hL hR hdL hdR
  refine ⟨?_, FindDerivativeInternal_product m deriveVar term L R dL dR hvar hstar hsplit
    hfirst hL hR hdL hdR⟩
  intro depth h1 h2
  have e1 := refines_of_ok (FindDerivativeInternalF_le_refines m _ depth h1 L deriveVar) hdL
  have e2 := refines_of_ok (FindDerivativeInternalF_le_refines m _ depth h2 R deriveVar) hdR
  have hmem : '*' ∈ term := by rw [hsplit]; simp
  have g1 : term ≠ deriveVar := fun h => hstar (h ▸ hmem)
  have g2 : term ≠ '-' :: deriveVar := by
    intro h
    rw [h] at hmem
    rcases List.mem_cons.1 hmem with h3 | h3
    · exact absurd h3 (by decide)
    · exact hstar h3
  simp only [ProcessTerm, g1, g2, hvar, if_false,
    ProcessProductRule_table _ deriveVar term L R dL dR hsplit hfirst hL hR e1 e2, bind_ok,
    pure_eq_ok]

/-- Witness of C10 on the expression `x*x`: both factors have the derivative text `1`
and the result is `x+x`. -/
theorem Derivative_product_rule_witness :
    FindDerivativeInternal libm ['x', '*', 'x'] ['x'] = .ok ['x', '+', 'x'] :=
  ((Derivative_product_rule libm).1 ['x'] ['x', '*', 'x'] ['x'] ['x'] ['1'] ['1']
    (by decide) (by decide) rfl (by decide) (by decide) (by decide)
    (by with_unfolding_all rfl) (by with_unfolding_all rfl)).2 (by decide)

/-! ## The quotient rule -/

theorem ProcessProductRule_none (rec : List Char → List Char → Outcome (List Char))
    (term deriveVar : List Char) (h : findTopLevel '*' term 0 0 = none) :
    ProcessProductRule rec term deriveVar = .ok none := by
  simp only [ProcessProductRule, h]

theorem ProcessQuotientRule_none (rec : List Char → List Char → Outcome (List Char))
    (term deriveVar : List Char) (h : findTopLevel '/' term 0 0 = none) :
    ProcessQuotientRule rec term deriveVar = .ok none := by
  simp only [ProcessQuotientRule, h]

/-- A rule that splits `term = L ++ c :: R` at position `L.length` reads `L` and `R`. -/
theorem split_at_length (L R : List Char) (c : Char) :
    (L ++ c :: R).take L.length = L ∧ substr (L ++ c :: R) (L.length + 1) = .ok R := by
  constructor
  · simp
  · have h : L.length + 1 ≤ (L ++ c :: R).length := by simp
    simp only [substr, h, if_true]
    congr 1
    have : L ++ c :: R = (L ++ [c]) ++ R := by simp
    rw [this, show L.length + 1 = (L ++ [c]).length by simp, List.drop_left]

/-- The quotient rule on a term whose denominator is the literal `0`. -/
theorem ProcessQuotientRule_zero_denominator
    (rec : List Char → List Char → Outcome (List Char)) (L deriveVar : List Char)
    (hfirst : findTopLevel '/' (L ++ ['/', '0']) 0 0 = some L.length) (hL : L ≠ ['0']) :
    ProcessQuotientRule rec (L ++ ['/', '0']) deriveVar = .thrown .invalid_argument := by
  obtain ⟨h1, h2⟩ := split_at_length L ['0'] '/'
  simp only [ProcessQuotientRule, hfirst, h1, h2, bind_ok, hL, if_false, if_true]

/-- The quotient rule on a term whose numerator is the literal `0`. -/
theorem ProcessQuotientRule_zero_numerator
    (rec : List Char → List Char → Outcome (List Char)) (R deriveVar : List Char) :
    ProcessQuotientRule rec ('0' :: '/' :: R) deriveVar = .ok (some ['0']) := by
  have hfirst : findTopLevel '/' ('0' :: '/' :: R) 0 0 = some 1 := by
    simp [findTopLevel, nestStep]
  obtain ⟨h1, h2⟩ := split_at_length ['0'] R '/'
  simp only [List.length_singleton, List.singleton_append, Nat.reduceAdd] at h1 h2
  simp only [ProcessQuotientRule, hfirst, h1, h2, bind_ok, if_true, pure_eq_ok]

/-- A whole expression that is one term has the derivative text of the term. -/
theorem FindDerivativeInternal_single (m : CMath) (term deriveVar : List Char)
    (r : Outcome (List Char))
    (hone : BreakUpTerms term = [(.NONE, term)])
    (h : ∀ rec, ProcessTerm m rec term deriveVar = r) :
    FindDerivativeInternal m term deriveVar = r := by
  obtain ⟨n, hn⟩ : ∃ n, derivativeDepth term deriveVar = n + 1 := ⟨_, rfl⟩
  rw [FindDerivativeInternal, hn, FindDerivativeInternalF, hone]
  simp only [ProcessDerivatives, h]
  cases r <;> simp [bind_ok, pure_eq_ok, RecombineTerms_single] <;> rfl

theorem term_ne_of_mem (c : Char) (term : List Char) (h : c ∈ term) (hc : c ≠ 'x')
    (hm : c ≠ '-') : term ≠ ['x'] ∧ term ≠ ['-', 'x'] := by
  constructor
  · intro e; rw [e] at h; simp at h; exact hc h
  · intro e; rw [e] at h; simp at h; rcases h with h | h
    · exact hm h
    · exact hc h

/-- C12, as stated, fails: in the term `0*x/0` the first top-level `/` has the literal
`0` as its whole right-hand side and the term contains the variable, but the product
rule is tried first and returns `0`; and for `0/x*x`, whose left-hand side of the `/` is
the literal `0`, the product rule differentiates `0/x` and `x` and returns `0/x`. -/
theorem Derivative_quotient_after_product :
    findTopLevel '/' ['0', '*', 'x', '/', '0'] 0 0 = some 3 ∧
    find ['x'] ['0', '*', 'x', '/', '0'] ≠ none ∧
    Derivative libm ['0', '*', 'x', '/', '0'] = .ok ['0'] ∧
    findTopLevel '/' ['0', '/', 'x', '*', 'x'] 0 0 = some 1 ∧
    Derivative libm ['0', '/', 'x', '*', 'x'] = .ok ['0', '/', 'x'] :=
  ⟨by decide, by decide, by with_unfolding_all rfl, by decide, by with_unfolding_all rfl⟩

/-- C12, amended: for a term that contains the variable and has no top-level `*`, if the
first top-level `/` has the literal `0` as its whole right-hand side, the derivative of
the term fails with `invalid_argument`; if its whole left-hand side is the literal `0`,
the derivative text of the term is `0`. Both hold whatever the recursive differentiator
`rec` would answer, so neither side is differentiated, and both hold for `Derivative`
when the term is the whole expression. -/
theorem Derivative_quotient_literal_zero (m : CMath) (term : List Char)
    (hvar : find ['x'] term ≠ none) (hstar : findTopLevel '*' term 0 0 = none) :
    (∀ L, term = L ++ ['/', '0'] → findTopLevel '/' term 0 0 = some L.length →
      (∀ rec, ProcessTerm m rec term ['x'] = .thrown .invalid_argument) ∧
      (BreakUpTerms term = [(.NONE, term)] →
        Derivative m term = .thrown .invalid_argument)) ∧
    (∀ R, term = '0' :: '/' :: R →
      (∀ rec, ProcessTerm m rec term ['x'] = .ok ['0']) ∧
      (BreakUpTerms term = [(.NONE, term)] → Derivative m term = .ok ['0'])) := by
  constructor
  · intro L hsplit hfirst
    have hL : L ≠ ['0'] := by
      intro e; rw [hsplit, e] at hvar; exact hvar (by decide)
    obtain ⟨g1, g2⟩ := term_ne_of_mem '/' term (by rw [hsplit]; simp) (by decide) (by decide)
    have key : ∀ rec, ProcessTerm m rec term ['x'] = .thrown .invalid_argument := by
      intro rec
      have hq := ProcessQuotientRule_zero_denominator rec L ['x'] (hsplit ▸ hfirst) hL
      rw [← hsplit] at hq
      simp only [ProcessTerm, g1, g2, hvar, if_false, ProcessProductRule_none rec term _ hstar,
        bind_ok, hq]
      rfl
    exact ⟨key, fun hone => FindDerivativeInternal_single m term ['x'] _ hone key⟩
  · intro R hsplit
    obtain ⟨g1, g2⟩ := term_ne_of_mem '/' term (by rw [hsplit]; simp) (by decide) (by decide)
    have key : ∀ rec, ProcessTerm m rec term ['x'] = .ok ['0'] := by
      intro rec
      have hq := ProcessQuotientRule_zero_numerator rec R ['x']
      rw [← hsplit] at hq
      simp only [ProcessTerm, g1, g2, hvar, if_false, ProcessProductRule_none rec term _ hstar,
        bind_ok, hq, pure_eq_ok]
    exact ⟨key, fun hone => FindDerivativeInternal_single m term ['x'] _ hone key⟩

/-- Witness of C12 on the expressions `x/0` and `0/x`. -/
theorem Derivative_quotient_literal_zero_witness :
    Derivative libm ['x', '/', '0'] = .thrown .invalid_argument ∧
    Derivative libm ['0', '/', 'x'] = .ok ['0'] :=
  ⟨(((Derivative_quotient_literal_zero libm ['x', '/', '0'] (by decide) (by decide)).1
      ['x'] rfl (by decide)).2 (by decide)),
   (((Derivative_quotient_literal_zero libm ['0', '/', 'x'] (by decide) (by decide)).2
      ['x'] rfl).2 (by decide))⟩

/-! ## Claims at single inputs -/

/-- The quotient rule on a term `L/R` whose numerator has the derivative text `0` and
whose denominator has a derivative text `dR` other than `0`. -/
theorem ProcessQuotientRule_constant_numerator
    (rec : List Char → List Char → Outcome (List Char)) (deriveVar L R dR : List Char)
    (hfirst : findTopLevel '/' (L ++ '/' :: R) 0 0 = some L.length)
    (hL : L ≠ ['0']) (hR : R ≠ ['0'])
    (hdL : rec L deriveVar = .ok ['0']) (hdR : rec R deriveVar = .ok dR) (h0 : dR ≠ ['0']) :
    ProcessQuotientRule rec (L ++ '/' :: R) deriveVar = .ok (some
      (if dR = ['1'] then ['('] ++ L ++ [')', '/', '('] ++ R ++ [')', '^', '2']
       else ['('] ++ L ++ [')', '*', '('] ++ dR ++ [')', '/', '('] ++ R ++ [')', '^', '2'])) := by
  obtain ⟨h1, h2⟩ := split_at_length L R '/'
  simp only [ProcessQuotientRule, hfirst, h1, h2, bind_ok, hL, hR, if_false, hdL, hdR,
    pure_eq_ok]
  by_cases h : dR = ['1']
  · subst h; simp
  · simp [h, h0]

/-- C11 at its failing inputs: when the numerator `L` of a term `L/R` has the derivative
text `0` and the denominator the derivative text `dR`, not `0`, the quotient rule
returns `(L)/(R)^2` for `dR = 1` and `(L)*(dR)/(R)^2` otherwise, both without the minus
sign of `dL/R - L*dR/R^2`. So the derivative text returned for `1/x` is `(1)/(x)^2`,
whose value at `x = 2` is 1/4 and not -1/4. The text returned for `x/(x+1)` is the full
formula and its value at `x = 1` is 1/4. -/
theorem Derivative_quotient_rule_sign :
    (∀ (rec : List Char → List Char → Outcome (List Char)) (deriveVar L R dR : List Char),
      findTopLevel '/' (L ++ '/' :: R) 0 0 = some L.length → L ≠ ['0'] → R ≠ ['0'] →
      rec L deriveVar = .ok ['0'] → rec R deriveVar = .ok dR → dR ≠ ['0'] →
      ProcessQuotientRule rec (L ++ '/' :: R) deriveVar = .ok (some
        (if dR = ['1'] then ['('] ++ L ++ [')', '/', '('] ++ R ++ [')', '^', '2']
         else ['('] ++ L ++ [')', '*', '('] ++ dR ++ [')', '/', '('] ++ R ++
           [')', '^', '2']))) ∧
    (∀ m, Derivative m ['1', '/', 'x'] = .ok ['(', '1', ')', '/', '(', 'x', ')', '^', '2']) ∧
    Evaluate libm ['(', '1', ')', '/', '(', 'x', ')', '^', '2'] 2 = .ok (1 / 4) ∧
    (∀ m, Derivative m ['x', '/', '(', 'x', '+', '1', ')'] =
      .ok ['(', '1', ')', '/', '(', '(', 'x', '+', '1', ')', ')', '-', '(', 'x', ')', '*',
        '(', '1', '+', '0', ')', '/', '(', '(', 'x', '+', '1', ')', ')', '^', '2']) ∧
    Evaluate libm ['(', '1', ')', '/', '(', '(', 'x', '+', '1', ')', ')', '-', '(', 'x', ')',
      '*', '(', '1', '+', '0', ')', '/', '(', '(', 'x', '+', '1', ')', ')', '^', '2'] 1
      = .ok (1 / 4) := by
  refine ⟨fun rec deriveVar L R dR hfirst hL hR hdL hdR h0 =>
      ProcessQuotientRule_constant_numerator rec deriveVar L R dR hfirst hL hR hdL hdR h0,
    fun m => by with_unfolding_all rfl, by decide!, fun m => by with_unfolding_all rfl,
    by decide!⟩

/-- Witness of C11 on the term `2/(x*x)`, whose denominator has the derivative text
`x+x`: the quotient rule returns `(2)*(x+x)/((x*x))^2`. -/
theorem Derivative_quotient_rule_sign_witness :
    ProcessQuotientRule (FindDerivativeInternal libm)
      (['2'] ++ '/' :: ['(', 'x', '*', 'x', ')']) ['x'] = .ok (some
        (if ['x', '+', 'x'] = ['1'] then
          ['('] ++ ['2'] ++ [')', '/', '('] ++ ['(', 'x', '*', 'x', ')'] ++ [')', '^', '2']
         else ['('] ++ ['2'] ++ [')', '*', '('] ++ ['x', '+', 'x'] ++ [')', '/', '('] ++
           ['(', 'x', '*', 'x', ')'] ++ [')', '^', '2'])) :=
  Derivative_quotient_rule_sign.1 (FindDerivativeInternal libm) ['x'] ['2']
    ['(', 'x', '*', 'x', ')'] ['x', '+', 'x'] (by decide) (by decide) (by decide)
    (by with_unfolding_all rfl) (by with_unfolding_all rfl) (by decide)

/-- C16 at its failing input: for a term whose derivative text does not start with `-`,
recombination under a minus connective appends `-` and the text as it is, without
parentheses. The derivative text returned for `1-x*x` is `0-x+x`, the minus applying to
the first `x` only, so its value at `x = 3` is 0 and not -6. -/
theorem Derivative_difference_of_product (m : CMath) :
    (∀ completeExpr term : List Char, term ≠ [] → term.head? ≠ some '-' →
      RecombineStep completeExpr (.MINUS, term) = completeExpr ++ '-' :: term) ∧
    Derivative m ['1', '-', 'x', '*', 'x'] = .ok ['0', '-', 'x', '+', 'x'] ∧
    Evaluate m ['0', '-', 'x', '+', 'x'] 3 = .ok 0 := by
  refine ⟨?_, by with_unfolding_all rfl, by with_unfolding_all rfl⟩
  intro completeExpr term hne h
  cases term with
  | nil => exact absurd rfl hne
  | cons a t =>
    have ha : a ≠ '-' := by simpa using h
    simp [RecombineStep, ha]

/-- Witness of C16 on the derivative text `x+x` recombined after `0`. -/
theorem Derivative_difference_of_product_witness :
    RecombineStep ['0'] (.MINUS, ['x', '+', 'x']) = ['0'] ++ '-' :: ['x', '+', 'x'] :=
  (Derivative_difference_of_product libm).1 ['0'] ['x', '+', 'x'] (by decide) (by decide)

/-- C18 at its failing input: the left operand reader returns `x` as soon as it meets
the variable, also when a `-` stands in front of it at position 0. So `-x+2` at `x = 1`
gives -3, the value of `-(x+2)`, and not 1; the text `-x` alone gives -1 and a literal
with a leading sign is read with it, `-2+3` giving 1. -/
theorem Evaluate_leading_minus_variable (m : CMath) :
    (∀ (rest : List Char) (x : ℚ), GetValueToLeft m ('-' :: 'x' :: rest) 1 x = .ok (x, 1)) ∧
    Evaluate m ['-', 'x', '+', '2'] 1 = .ok (-3) ∧
    Evaluate m ['-', 'x'] 1 = .ok (-1) ∧
    Evaluate m ['-', '2', '+', '3'] 1 = .ok 1 := by
  refine ⟨?_, by with_unfolding_all rfl, by with_unfolding_all rfl, by with_unfolding_all rfl⟩
  intro rest x
  simp [GetValueToLeft, GetValueToLeftLoop, GetValueToLeftBody, charAt, bind_ok, pure_eq_ok]

/-- C19 at its failing input: in `2-sin(x)` at `x = -1` the special-function pass takes
the `-` as the sign of the function and splices the literal of `-sin(-1)` right after
the `2`, which gives the text `20.841471`; at `x = 1` the result is `2 - sin(1)`. -/
theorem Evaluate_minus_special_function :
    EvalSpecialFunctions libm
      ['2', '-', 's', 'i', 'n', '-', '1', '.', '0', '0', '0', '0', '0', '0'] (-1)
      = .ok ['2', '0', '.', '8', '4', '1', '4', '7', '1'] ∧
    Evaluate libm ['2', '-', 's', 'i', 'n', '(', 'x', ')'] (-1) = .ok (20841471 / 1000000) ∧
    Evaluate libm ['2', '-', 's', 'i', 'n', '(', 'x', ')'] 1 = .ok (1158529 / 1000000) := by
  decide!

/-- C20 at its failing input: on `2+3*-4*5` the pass `EvalMultiplcation` returns the
text `2-12.000000*5`, which still holds a `*`, and `Evaluate` gives -10 and not -58. -/
theorem EvalMultiplcation_leaves_product (m : CMath) (x : ℚ) :
    EvalMultiplcation m ['2', '+', '3', '*', '-', '4', '*', '5'] x
      = .ok ['2', '-', '1', '2', '.', '0', '0', '0', '0', '0', '0', '*', '5'] ∧
    Evaluate m ['2', '+', '3', '*', '-', '4', '*', '5'] x = .ok (-10) :=
  ⟨by with_unfolding_all rfl, by with_unfolding_all rfl⟩

/-! ## The polynomial power rule -/

theorem EvalAddition_none (m : CMath) (x : ℚ) (expr : List Char)
    (hno : ∀ c ∈ expr, c ≠ '+' ∧ c ≠ '-') : EvalAddition m expr x = .ok expr := by
  have hskip := EvalAdditionLoop_skip m x expr expr.length (le_refl _) expr.length 0 0
    (by omega) (fun i _ hi => by
      have hmem := getD_mem expr i (Char.ofNat 0) hi
      exact ⟨(hno _ hmem).1, Or.inl (hno _ hmem).2⟩)
  rw [EvalAddition]
  rw [Nat.zero_add] at hskip
  rw [hskip]
  exact EvalAdditionLoop_past m x _ _ _ (le_refl _)

/-- The characters of a number without a sign: digits, the decimal point and the
exponent marker. -/
theorem literal_chars (expr : List Char)
    (h : ∀ c ∈ expr, isdigit c = true ∨ c = '.' ∨ c = 'E') (d : Char)
    (hd : isdigit d = false) (h1 : d ≠ '.') (h2 : d ≠ 'E') : ∀ c ∈ expr, c ≠ d := by
  intro c hc e
  subst e
  rcases h c hc with h3 | h3 | h3
  · rw [hd] at h3; exact absurd h3 (by decide)
  · exact h1 h3
  · exact h2 h3

/-- A text of digits, decimal points and exponent markers is evaluated by the final
number parse alone. -/
theorem EvalInternal_literal (m : CMath) (x : ℚ) (expr : List Char) (hne : expr ≠ [])
    (h : ∀ c ∈ expr, isdigit c = true ∨ c = '.' ∨ c = 'E') :
    EvalInternal m expr x = stod expr := by
  have no := fun d hd h1 h2 => literal_chars expr h d hd h1 h2
  have hx : 'x' ∉ expr := fun hm => no 'x' (by decide) (by decide) (by decide) _ hm rfl
  have e := Evaluate_of_passes m x expr expr expr expr expr expr
    (by cases expr <;> simp_all)
    (by intro e; rw [e] at hx; simp at hx)
    (by intro e; rw [e] at hx; simp at hx)
    (EvalSubExpressions_none _ x expr (no '(' (by decide) (by decide) (by decide)))
    (EvalSpecialFunctions_none m x expr (fun c hc =>
      ⟨no 's' (by decide) (by decide) (by decide) c hc,
       no 'c' (by decide) (by decide) (by decide) c hc,
       no 't' (by decide) (by decide) (by decide) c hc,
       no 'l' (by decide) (by decide) (by decide) c hc⟩))
    (EvalPowers_none m x expr (no '^' (by decide) (by decide) (by decide)))
    (EvalMultiplcation_none m x expr (fun c hc =>
      ⟨no '*' (by decide) (by decide) (by decide) c hc,
       no '/' (by decide) (by decide) (by decide) c hc⟩))
    (EvalAddition_none m x expr (fun c hc =>
      ⟨no '+' (by decide) (by decide) (by decide) c hc,
       no '-' (by decide) (by decide) (by decide) c hc⟩))
  rw [Evaluate] at e
  rw [e, if_neg]
  intro e2; rw [e2] at hx; simp at hx

/-- A text without `+` and `-` is one term. -/
theorem BreakUpTermsLoop_plain : ∀ (cs cur : List Char) (op : InterTermOperator)
    (lastC : Char) (isFirst : Bool) (nl : Nat),
    (∀ c ∈ cs, c ≠ '+' ∧ c ≠ '-') → cur ++ cs ≠ [] →
    BreakUpTermsLoop cs cur op lastC isFirst nl = [(op, cur ++ cs)] := by
  intro cs
  induction cs with
  | nil =>
    intro cur op lastC isFirst nl _ hne
    cases cur with
    | nil => simp at hne
    | cons a t => simp [BreakUpTermsLoop]
  | cons c rest ih =>
    intro cur op lastC isFirst nl hno _
    have h1 := (hno c (List.mem_cons_self _ _)).1
    have h2 := (hno c (List.mem_cons_self _ _)).2
    rw [BreakUpTermsLoop]
    simp only [h1, h2, decide_False, Bool.false_and, Bool.or_false, Bool.and_false,
      Bool.false_eq_true, if_false]
    rw [ih _ _ _ _ _ (fun d hd => hno d (List.mem_cons_of_mem _ hd)) (by simp)]
    simp

theorem BreakUpTerms_plain (s : List Char) (hno : ∀ c ∈ s, c ≠ '+' ∧ c ≠ '-') (hne : s ≠ []) :
    BreakUpTerms s = [(.NONE, s)] := by
  rw [BreakUpTerms, BreakUpTermsLoop_plain s [] _ _ _ _ hno (by simpa using hne)]
  simp

theorem findTopLevel_not_mem (op : Char) : ∀ (s : List Char) (pos nl : Nat), op ∉ s →
    findTopLevel op s pos nl = none := by
  intro s
  induction s with
  | nil => intro pos nl _; rfl
  | cons c rest ih =>
    intro pos nl h
    have hc : c ≠ op := fun e => h (e ▸ List.mem_cons_self _ _)
    rw [findTopLevel]
    simp only [hc, decide_False, Bool.and_false, Bool.false_eq_true, if_false]
    exact ih _ _ (fun hm => h (List.mem_cons_of_mem _ hm))

theorem FindDerivativeInternalF_variable (m : CMath) (depth : Nat) :
    FindDerivativeInternalF m (depth + 1) ['x'] ['x'] = .ok ['1'] := by
  with_unfolding_all rfl

theorem FindDerivativeInternalF_plain_constant (m : CMath) (depth : Nat) (s : List Char)
    (hno : ∀ c ∈ s, c ≠ '+' ∧ c ≠ '-') (hne : s ≠ []) (hx : 'x' ∉ s) :
    FindDerivativeInternalF m (depth + 1) s ['x'] = .ok ['0'] := by
  rw [FindDerivativeInternalF, BreakUpTerms_plain s hno hne]
  simp only [ProcessDerivatives, ProcessTerm_constant m _ s hx, bind_ok, pure_eq_ok,
    RecombineTerms_single]

/-- The text of the polynomial power rule for the base `x`. -/
theorem ProcessPowers_variable_base (m : CMath) (depth : Nat) (n : List Char) (v : ℚ)
    (hno : ∀ c ∈ n, c ≠ '+' ∧ c ≠ '-') (hne : n ≠ []) (hx : 'x' ∉ n) (h0 : n ≠ ['0'])
    (hv : EvalInternal m n 0 = .ok v) :
    ProcessPowers m (FindDerivativeInternalF m (depth + 1)) ('x' :: '^' :: n) ['x'] =
      .ok (some (to_string v ++ ['*', '(', 'x', ')', '^'] ++ to_string (v - 1))) := by
  have hfirst : findTopLevel '^' ('x' :: '^' :: n) 0 0 = some 1 := by
    simp [findTopLevel, nestStep]
  obtain ⟨h1, h2⟩ := split_at_length ['x'] n '^'
  simp only [List.length_singleton, List.singleton_append, Nat.reduceAdd] at h1 h2
  simp only [ProcessPowers, hfirst, h1, h2, bind_ok, h0, FindDerivativeInternalF_variable,
    FindDerivativeInternalF_plain_constant m depth n hno hne hx, hv, pure_eq_ok]
  simp

theorem find_head (c : Char) (s : List Char) : find [c] (c :: s) ≠ none := by
  simp [find, List.isPrefixOf]

/-- The polynomial power rule for the expression `x^n`, `n` a number without a sign. -/
theorem FindDerivativeInternal_power_literal (m : CMath) (n : List Char) (v : ℚ)
    (hne : n ≠ []) (h : ∀ c ∈ n, isdigit c = true ∨ c = '.' ∨ c = 'E') (h0 : n ≠ ['0'])
    (hv : stod n = .ok v) :
    Derivative m ('x' :: '^' :: n) =
      .ok (to_string v ++ ['*', '(', 'x', ')', '^'] ++ to_string (v - 1)) := by
  have no := fun d hd h1 h2 => literal_chars n h d hd h1 h2
  have nm : ∀ d, isdigit d = false → d ≠ '.' → d ≠ 'E' → d ∉ n :=
    fun d hd h1 h2 hm => no d hd h1 h2 d hm rfl
  have hpm : ∀ c ∈ n, c ≠ '+' ∧ c ≠ '-' := fun c hc =>
    ⟨no '+' (by decide) (by decide) (by decide) c hc,
     no '-' (by decide) (by decide) (by decide) c hc⟩
  have hx : 'x' ∉ n := nm 'x' (by decide) (by decide) (by decide)
  have hev : EvalInternal m n 0 = .ok v := by rw [EvalInternal_literal m 0 n hne h, hv]
  obtain ⟨g1, g2⟩ := term_ne_of_mem '^' ('x' :: '^' :: n) (by simp) (by decide) (by decide)
  have hstar : findTopLevel '*' ('x' :: '^' :: n) 0 0 = none :=
    findTopLevel_not_mem '*' _ 0 0 (by
      simp only [List.mem_cons, not_or]
      exact ⟨by decide, by decide, nm '*' (by decide) (by decide) (by decide)⟩)
  have hdiv : findTopLevel '/' ('x' :: '^' :: n) 0 0 = none :=
    findTopLevel_not_mem '/' _ 0 0 (by
      simp only [List.mem_cons, not_or]
      exact ⟨by decide, by decide, nm '/' (by decide) (by decide) (by decide)⟩)
  have hone : BreakUpTerms ('x' :: '^' :: n) = [(.NONE, 'x' :: '^' :: n)] :=
    BreakUpTerms_plain _ (by
      intro c hc
      simp only [List.mem_cons] at hc
      rcases hc with e | e | e
      · subst e; decide
      · subst e; decide
      · exact hpm c e) (by simp)
  obtain ⟨k, hk⟩ : ∃ k, derivativeDepth ('x' :: '^' :: n) ['x'] = k + 2 := by
    have hge : 2 ≤ derivativeDepth ('x' :: '^' :: n) ['x'] := by
      simp only [derivativeDepth, List.length_cons]; omega
    exact ⟨_, (Nat.sub_add_cancel hge).symm⟩
  rw [Derivative, FindDerivativeInternal, hk, FindDerivativeInternalF, hone]
  simp only [ProcessDerivatives, ProcessTerm, g1, g2, find_head 'x' _, if_false,
    ProcessProductRule_none _ _ _ hstar, ProcessQuotientRule_none _ _ _ hdiv,
    ProcessPowers_variable_base m k n v hpm hne hx h0 hev, bind_ok, pure_eq_ok,
    RecombineTerms_single]

/-- C13: the polynomial power rule on `x^n`. For every text `n` of digits, decimal
points and exponent markers other than `0`, read by the number parse as the value `v`,
`Derivative` of `x^n` is the six-decimal rendering of `v`, then `*(x)^`, then the
six-decimal rendering of `v - 1`; `x^3` gives `3.000000*(x)^2.000000`, which is 12 at
`x = 2`. For a literal with a negative exponent the exponent is not read as a number:
`x^2E-3` gives `-1.000000*(x)^-2.000000`, the renderings of `2 - 3` and `2 - 3 - 1`. -/
theorem Derivative_power_of_literal (m : CMath) :
    (∀ (n : List Char) (v : ℚ), n ≠ [] →
      (∀ c ∈ n, isdigit c = true ∨ c = '.' ∨ c = 'E') → n ≠ ['0'] → stod n = .ok v →
      Derivative m ('x' :: '^' :: n) =
        .ok (to_string v ++ ['*', '(', 'x', ')', '^'] ++ to_string (v - 1))) ∧
    Derivative m ['x', '^', '3'] = .ok ['3', '.', '0', '0', '0', '0', '0', '0', '*', '(', 'x',
      ')', '^', '2', '.', '0', '0', '0', '0', '0', '0'] ∧
    Evaluate libm ['3', '.', '0', '0', '0', '0', '0', '0', '*', '(', 'x', ')', '^', '2', '.',
      '0', '0', '0', '0', '0', '0'] 2 = .ok 12 ∧
    Derivative m ['x', '^', '2', 'E', '-', '3'] = .ok ['-', '1', '.', '0', '0', '0', '0', '0',
      '0', '*', '(', 'x', ')', '^', '-', '2', '.', '0', '0', '0', '0', '0', '0'] :=
  ⟨fun n v hne h h0 hv => FindDerivativeInternal_power_literal m n v hne h h0 hv,
    by with_unfolding_all rfl, by decide!, by with_unfolding_all rfl⟩

/-- Witness of C13 on the exponent `2.5`. -/
theorem Derivative_power_of_literal_witness :
    Derivative libm ['x', '^', '2', '.', '5'] =
      .ok (to_string (5 / 2) ++ ['*', '(', 'x', ')', '^'] ++ to_string (5 / 2 - 1)) :=
  (Derivative_power_of_literal libm).1 ['2', '.', '5'] (5 / 2) (by decide) (by decide)
    (by decide) (by decide!)

/-! ## Parenthesised groups and the exponential rule -/

theorem insideGroup_cons (c : Char) (rest : List Char) (n : Nat)
    (h : insideGroup (c :: rest) n = true) :
    nestStep c n ≠ 0 ∧ insideGroup rest (nestStep c n) = true := by
  simpa [insideGroup] using h

theorem nestStep_close_one : nestStep ')' 1 = 0 := by decide

theorem nestStep_open_zero : nestStep '(' 0 = 1 := by decide

theorem nestStep_plain (c : Char) (n : Nat) (h1 : c ≠ '(') (h2 : c ≠ ')') :
    nestStep c n = n := by
  simp [nestStep, h1, h2]

theorem findTopLevel_group (op : Char) (hop : op ≠ ')') (rest : List Char) :
    ∀ (inner : List Char) (pos n : Nat), insideGroup inner n = true →
      findTopLevel op (inner ++ ')' :: rest) pos n =
        findTopLevel op rest (pos + inner.length + 1) 0 := by
  intro inner
  induction inner with
  | nil =>
    intro pos n h
    have hn : n = 1 := by simpa [insideGroup] using h
    subst hn
    rw [List.nil_append, findTopLevel]
    simp only [nestStep_close_one, hop.symm, decide_False, Bool.and_false, Bool.false_eq_true,
      if_false, List.length_nil, Nat.add_zero]
  | cons c t ih =>
    intro pos n h
    obtain ⟨h1, h2⟩ := insideGroup_cons c t n h
    rw [List.cons_append, findTopLevel]
    simp only [h1, decide_False, Bool.false_and, Bool.false_eq_true, if_false]
    rw [ih _ _ h2, List.length_cons]
    congr 1; omega

theorem findTopLevel_skip_plain (op : Char) (rest : List Char) :
    ∀ (pre : List Char) (pos nl : Nat), (∀ c ∈ pre, c ≠ op ∧ c ≠ '(' ∧ c ≠ ')') →
      findTopLevel op (pre ++ rest) pos nl = findTopLevel op rest (pos + pre.length) nl := by
  intro pre
  induction pre with
  | nil => intro pos nl _; rfl
  | cons c t ih =>
    intro pos nl h
    obtain ⟨h1, h2, h3⟩ := h c (List.mem_cons_self _ _)
    rw [List.cons_append, findTopLevel, nestStep_plain c nl h2 h3]
    simp only [h1, decide_False, Bool.and_false, Bool.false_eq_true, if_false]
    rw [ih _ _ (fun d hd => h d (List.mem_cons_of_mem _ hd)), List.length_cons]
    congr 1; omega

/-- A name or number applied to a parenthesised group has no top-level operator. -/
theorem findTopLevel_applied (op : Char) (h1 : op ≠ '(') (h2 : op ≠ ')')
    (pre inner : List Char) (hpre : ∀ c ∈ pre, c ≠ op ∧ c ≠ '(' ∧ c ≠ ')')
    (hin : insideGroup inner 1 = true) :
    findTopLevel op (pre ++ '(' :: (inner ++ [')'])) 0 0 = none := by
  rw [findTopLevel_skip_plain op _ pre 0 0 hpre, findTopLevel, nestStep_open_zero]
  simp only [h1.symm, decide_False, Bool.and_false, Bool.false_eq_true, if_false]
  rw [findTopLevel_group op h2 [] inner _ _ hin]
  rfl

theorem BreakUpTermsLoop_group (rest : List Char) (op : InterTermOperator) :
    ∀ (inner cur : List Char) (lastC : Char) (isFirst : Bool) (n : Nat), n ≠ 0 →
      insideGroup inner n = true →
      BreakUpTermsLoop (inner ++ ')' :: rest) cur op lastC isFirst n =
        BreakUpTermsLoop rest (cur ++ inner ++ [')']) op ')' false 0 := by
  intro inner
  induction inner with
  | nil =>
    intro cur lastC isFirst n hn h
    have h1 : n = 1 := by simpa [insideGroup] using h
    subst h1
    rw [List.nil_append, BreakUpTermsLoop]
    simp only [nestStep_close_one, List.append_nil]
    simp
  | cons c t ih =>
    intro cur lastC isFirst n hn h
    obtain ⟨h1, h2⟩ := insideGroup_cons c t n h
    rw [List.cons_append, BreakUpTermsLoop]
    simp only [hn, decide_False, Bool.false_and, Bool.false_eq_true, if_false]
    rw [ih _ _ _ _ h1 h2]
    simp

theorem BreakUpTermsLoop_skip_plain (rest : List Char) (op : InterTermOperator) :
    ∀ (pre cur : List Char) (lastC : Char) (isFirst : Bool) (nl : Nat),
      (∀ c ∈ pre, c ≠ '+' ∧ c ≠ '-' ∧ c ≠ '(' ∧ c ≠ ')') →
      ∃ lastC2 isFirst2, BreakUpTermsLoop (pre ++ rest) cur op lastC isFirst nl =
        BreakUpTermsLoop rest (cur ++ pre) op lastC2 isFirst2 nl := by
  intro pre
  induction pre with
  | nil => intro cur lastC isFirst nl _; exact ⟨lastC, isFirst, by simp⟩
  | cons c t ih =>
    intro cur lastC isFirst nl h
    obtain ⟨h1, h2, h3, h4⟩ := h c (List.mem_cons_self _ _)
    obtain ⟨l2, f2, e⟩ := ih (cur ++ [c]) c false nl (fun d hd => h d (List.mem_cons_of_mem _ hd))
    refine ⟨l2, f2, ?_⟩
    rw [List.cons_append, BreakUpTermsLoop, nestStep_plain c nl h3 h4]
    simp only [h1, h2, decide_False, Bool.false_and, Bool.or_false, Bool.and_false,
      Bool.false_eq_true, if_false]
    rw [e]
    simp

/-- A name or number applied to a parenthesised group is one term. -/
theorem BreakUpTerms_applied (pre inner : List Char)
    (hpre : ∀ c ∈ pre, c ≠ '+' ∧ c ≠ '-' ∧ c ≠ '(' ∧ c ≠ ')')
    (hin : insideGroup inner 1 = true) :
    BreakUpTerms (pre ++ '(' :: (inner ++ [')'])) =
      [(.NONE, pre ++ '(' :: (inner ++ [')']))] := by
  obtain ⟨l2, f2, e⟩ := BreakUpTermsLoop_skip_plain ('(' :: (inner ++ [')'])) .NONE pre []
    (Char.ofNat 0) true 0 hpre
  rw [BreakUpTerms, e, BreakUpTermsLoop, nestStep_open_zero]
  simp only [Char.reduceEq, decide_False, Bool.false_and, Bool.or_false, Bool.and_false,
    Bool.false_eq_true, if_false]
  rw [BreakUpTermsLoop_group [] _ inner _ _ _ _ (by decide) hin]
  simp [BreakUpTermsLoop]

theorem GetSubExpressionLoop_group (rest : List Char) :
    ∀ (inner : List Char) (n pos : Nat) (acc : List Char), insideGroup inner n = true →
      GetSubExpressionLoop (inner ++ ')' :: rest) n pos acc = (acc ++ inner, pos + inner.length) := by
  intro inner
  induction inner with
  | nil =>
    intro n pos acc h
    have h1 : n = 1 := by simpa [insideGroup] using h
    subst h1
    rw [List.nil_append, GetSubExpressionLoop]
    simp [nestStep_close_one]
  | cons c t ih =>
    intro n pos acc h
    obtain ⟨h1, h2⟩ := insideGroup_cons c t n h
    rw [List.cons_append, GetSubExpressionLoop]
    simp only [h1, if_false]
    rw [ih _ _ _ h2]
    simp; omega

theorem find_of_mem (c : Char) : ∀ (s : List Char), c ∈ s → find [c] s ≠ none := by
  intro s
  induction s with
  | nil => intro h; simp at h
  | cons a t ih =>
    intro h
    rw [find]
    by_cases hp : List.isPrefixOf [c] (a :: t) = true
    · simp [hp]
    · have hac : a ≠ c := by
        intro e; subst e; simp [List.isPrefixOf] at hp
      have ht : c ∈ t := by
        rcases List.mem_cons.1 h with e | e
        · exact absurd e.symm hac
        · exact e
      simp only [hp, Bool.false_eq_true, if_false]
      cases hf : find [c] t with
      | none => exact absurd hf (ih ht)
      | some k => simp

/-- A text with the derivative text `1` contains the variable. -/
theorem mem_of_derivative_one (m : CMath) (s : List Char)
    (h : FindDerivativeInternal m s ['x'] = .ok ['1']) : 'x' ∈ s := by
  by_contra hx
  by_cases hne : s = []
  · subst hne
    have h0 : FindDerivativeInternal m [] ['x'] = .ok [] := by with_unfolding_all rfl
    rw [h0] at h
    simp at h
  · obtain ⟨ops, _, _, h3⟩ := Derivative_constant m s hne hx
    rw [Derivative, h] at h3
    simp [zeroSum] at h3

theorem derivativeDepth_two (c d : Char) (s v : List Char) :
    ∃ k, derivativeDepth (c :: d :: s) v = k + 2 := by
  have hge : 2 ≤ derivativeDepth (c :: d :: s) v := by
    simp only [derivativeDepth, List.length_cons]; omega
  exact ⟨_, (Nat.sub_add_cancel hge).symm⟩

/-- The exponential rule on a term `e^(inner)` whose exponent has the derivative
text `1`. -/
theorem FindDerivativeInternal_exponential (m : CMath) (inner : List Char)
    (hin : insideGroup inner 1 = true)
    (hd : FindDerivativeInternal m ('(' :: (inner ++ [')'])) ['x'] = .ok ['1']) :
    Derivative m ('e' :: '^' :: '(' :: (inner ++ [')'])) =
      .ok ('e' :: '^' :: '(' :: (inner ++ [')'])) := by
  have hx : 'x' ∈ 'e' :: '^' :: '(' :: (inner ++ [')']) :=
    List.mem_cons_of_mem _ (List.mem_cons_of_mem _ (mem_of_derivative_one m _ hd))
  obtain ⟨g1, g2⟩ := term_ne_of_mem '^' ('e' :: '^' :: '(' :: (inner ++ [')'])) (by simp)
    (by decide) (by decide)
  have hstar : findTopLevel '*' ('e' :: '^' :: '(' :: (inner ++ [')'])) 0 0 = none :=
    findTopLevel_applied '*' (by decide) (by decide) ['e', '^'] inner (by decide) hin
  have hdiv : findTopLevel '/' ('e' :: '^' :: '(' :: (inner ++ [')'])) 0 0 = none :=
    findTopLevel_applied '/' (by decide) (by decide) ['e', '^'] inner (by decide) hin
  have hpow : findTopLevel '^' ('e' :: '^' :: '(' :: (inner ++ [')'])) 0 0 = some 1 := by
    simp [findTopLevel, nestStep]
  have hone : BreakUpTerms ('e' :: '^' :: '(' :: (inner ++ [')'])) =
      [(.NONE, 'e' :: '^' :: '(' :: (inner ++ [')']))] :=
    BreakUpTerms_applied ['e', '^'] inner (by decide) hin
  obtain ⟨k, hk⟩ := derivativeDepth_two 'e' '^' ('(' :: (inner ++ [')'])) ['x']
  have hle : derivativeDepth ('(' :: (inner ++ [')'])) ['x'] ≤ k + 1 := by
    have := derivativeDepth_right ['e'] ('(' :: (inner ++ [')'])) ['x'] '^'
    simp only [List.singleton_append] at this
    omega
  have e2 := refines_of_ok (FindDerivativeInternalF_le_refines m _ (k + 1) hle _ ['x']) hd
  have e1 : FindDerivativeInternalF m (k + 1) ['e'] ['x'] = .ok ['0'] :=
    FindDerivativeInternalF_plain_constant m k ['e'] (by decide) (by decide) (by decide)
  obtain ⟨s1, s2⟩ := split_at_length ['e'] ('(' :: (inner ++ [')'])) '^'
  simp only [List.length_singleton, List.singleton_append, Nat.reduceAdd] at s1 s2
  have hpw : ProcessPowers m (FindDerivativeInternalF m (k + 1))
      ('e' :: '^' :: '(' :: (inner ++ [')'])) ['x'] =
      .ok (some ('e' :: '^' :: '(' :: (inner ++ [')']))) := by
    simp only [ProcessPowers, hpow, s1, s2, bind_ok, e1, e2, pure_eq_ok]
    simp
  rw [Derivative, FindDerivativeInternal, hk, FindDerivativeInternalF, hone]
  simp only [ProcessDerivatives, ProcessTerm, g1, g2, find_of_mem 'x' _ hx, if_false,
    ProcessProductRule_none _ _ _ hstar, ProcessQuotientRule_none _ _ _ hdiv, hpw, bind_ok,
    pure_eq_ok, RecombineTerms_single]

/-- C14: the exponential rule with base `e`. `Derivative` of `e^x` is the text `e^x`, and
for every parenthesised group `(inner)` whose derivative text is exactly `1`,
`Derivative` of `e^(inner)` is the text `e^(inner)`; so `Derivative` of `e^x` and `e^x`
have the same value at every `x`, for example 2.718282 at `x = 1`. -/
theorem Derivative_exponential_base_e (m : CMath) :
    Derivative m ['e', '^', 'x'] = .ok ['e', '^', 'x'] ∧
    (∀ inner : List Char, insideGroup inner 1 = true →
      FindDerivativeInternal m ('(' :: (inner ++ [')'])) ['x'] = .ok ['1'] →
      Derivative m ('e' :: '^' :: '(' :: (inner ++ [')'])) =
        .ok ('e' :: '^' :: '(' :: (inner ++ [')']))) ∧
    (∀ d, Derivative m ['e', '^', 'x'] = .ok d →
      ∀ x, Evaluate m d x = Evaluate m ['e', '^', 'x'] x) ∧
    Evaluate libm ['e', '^', 'x'] 1 = .ok (1359141 / 500000) := by
  refine ⟨by with_unfolding_all rfl, fun inner hin hd =>
    FindDerivativeInternal_exponential m inner hin hd, ?_, by decide!⟩
  intro d hd x
  have h : Derivative m ['e', '^', 'x'] = .ok ['e', '^', 'x'] := by with_unfolding_all rfl
  rw [h] at hd
  cases hd
  rfl

/-- Witness of C14 on the exponent `(x)`. -/
theorem Derivative_exponential_base_e_witness :
    Derivative libm ['e', '^', '(', 'x', ')'] = .ok ['e', '^', '(', 'x', ')'] :=
  (Derivative_exponential_base_e libm).2.1 ['x'] (by decide) (by with_unfolding_all rfl)

/-! ## Names applied to a group -/

theorem alpha_ne (c d : Char) (h : c.isAlpha = true) (hd : d.isAlpha = false) : c ≠ d := by
  intro e; subst e; rw [hd] at h; exact absurd h (by decide)

theorem findNestingOne_skip_plain (rest : List Char) :
    ∀ (pre : List Char) (pos : Nat), (∀ c ∈ pre, c ≠ '(' ∧ c ≠ ')') →
      findNestingOne (pre ++ rest) pos 0 = findNestingOne rest (pos + pre.length) 0 := by
  intro pre
  induction pre with
  | nil => intro pos _; rfl
  | cons c t ih =>
    intro pos h
    obtain ⟨h1, h2⟩ := h c (List.mem_cons_self _ _)
    rw [List.cons_append, findNestingOne, nestStep_plain c 0 h1 h2]
    simp only [Nat.zero_ne_one, if_false]
    rw [ih _ (fun d hd => h d (List.mem_cons_of_mem _ hd)), List.length_cons]
    congr 1; omega

theorem find_suffix (pat : List Char) : ∀ pre : List Char, find pat (pre ++ pat) ≠ none := by
  intro pre
  induction pre with
  | nil =>
    cases pat with
    | nil => simp [find]
    | cons c cs => simp [find]
  | cons a t ih =>
    rw [List.cons_append, find]
    by_cases hp : List.isPrefixOf pat (a :: (t ++ pat)) = true
    · simp [hp]
    · simp only [hp, Bool.false_eq_true, if_false]
      cases hf : find pat (t ++ pat) with
      | none => exact absurd hf ih
      | some k => simp

/-- The special-function rule leaves a term alone when its first character is a letter
other than `s`, `c`, `t` and `l`. -/
theorem ProcessSpecialFunctions_other_letter
    (rec : List Char → List Char → Outcome (List Char)) (a : Char) (rest deriveVar : List Char)
    (ha : a.isAlpha = true) (h : a ≠ 's' ∧ a ≠ 'c' ∧ a ≠ 't' ∧ a ≠ 'l') :
    ProcessSpecialFunctions rec (a :: rest) deriveVar = .ok none := by
  have hm : a ≠ '-' := alpha_ne a '-' ha (by decide)
  cases rest with
  | nil => rfl
  | cons b t => simp [ProcessSpecialFunctions, hm, h.1, h.2.1, h.2.2.1, h.2.2.2]

theorem alpha_plain (s : List Char) (h : ∀ c ∈ s, c.isAlpha = true) : isPlain s := by
  intro c hc
  have hc := h c hc
  exact ⟨alpha_ne c _ hc (by decide), alpha_ne c _ hc (by decide), alpha_ne c _ hc (by decide),
    alpha_ne c _ hc (by decide), alpha_ne c _ hc (by decide), alpha_ne c _ hc (by decide),
    alpha_ne c _ hc (by decide)⟩

theorem isPlain_append (s t : List Char) (hs : isPlain s) (ht : isPlain t) :
    isPlain (s ++ t) := by
  intro c hc
  rcases List.mem_append.1 hc with h | h
  · exact hs c h
  · exact ht c h

theorem ProcessPowers_none (m : CMath) (rec : List Char → List Char → Outcome (List Char))
    (term deriveVar : List Char) (h : findTopLevel '^' term 0 0 = none) :
    ProcessPowers m rec term deriveVar = .ok none := by
  simp only [ProcessPowers, h]

theorem ProcessChainRule_none (rec : List Char → List Char → Outcome (List Char))
    (term deriveVar : List Char) (h : findNestingOne term 0 0 = none) :
    ProcessChainRule rec term deriveVar = .ok none := by
  simp only [ProcessChainRule, h]

/-- No rule applies to a name followed by the placeholder variable of the chain rule
when the name starts with a letter other than `s`, `c`, `t` and `l`. -/
theorem ProcessTerm_name_placeholder (m : CMath)
    (rec : List Char → List Char → Outcome (List Char)) (a : Char) (tl : List Char)
    (halpha : ∀ c ∈ a :: tl, c.isAlpha = true)
    (ha : a ≠ 's' ∧ a ≠ 'c' ∧ a ≠ 't' ∧ a ≠ 'l') :
    ProcessTerm m rec (a :: tl ++ ['x', Char.ofNat 39]) ['x', Char.ofNat 39] =
      .thrown .invalid_argument := by
  have hpl : isPlain (a :: tl ++ ['x', Char.ofNat 39]) :=
    isPlain_append _ _ (alpha_plain _ halpha) (by intro c hc; revert c; decide)
  have ha1 := halpha a (List.mem_cons_self _ _)
  have g1 : a :: tl ++ ['x', Char.ofNat 39] ≠ ['x', Char.ofNat 39] := by
    intro e
    have := congrArg List.length e
    simp at this
  have g2 : a :: tl ++ ['x', Char.ofNat 39] ≠ '-' :: ['x', Char.ofNat 39] := by
    intro e
    rw [List.cons_append] at e
    exact alpha_ne a '-' ha1 (by decide) (List.cons.inj e).1
  have nm : ∀ op, (∀ c, c ≠ '+' ∧ c ≠ '-' ∧ c ≠ '*' ∧ c ≠ '/' ∧ c ≠ '^' ∧ c ≠ '(' ∧ c ≠ ')' →
      c ≠ op) → op ∉ a :: tl ++ ['x', Char.ofNat 39] :=
    fun op hop hm => hop op (hpl op hm) rfl
  have hstar := findTopLevel_not_mem '*' _ 0 0 (nm '*' (fun c h => h.2.2.1))
  have hdiv := findTopLevel_not_mem '/' _ 0 0 (nm '/' (fun c h => h.2.2.2.1))
  have hpow := findTopLevel_not_mem '^' _ 0 0 (nm '^' (fun c h => h.2.2.2.2.1))
  have hchain : findNestingOne (a :: tl ++ ['x', Char.ofNat 39]) 0 0 = none := by
    have := findNestingOne_skip_plain [] (a :: tl ++ ['x', Char.ofNat 39]) 0
      (fun c hc => ⟨(hpl c hc).2.2.2.2.2.1, (hpl c hc).2.2.2.2.2.2⟩)
    rw [List.append_nil] at this
    rw [this]; rfl
  have hsp := ProcessSpecialFunctions_other_letter rec a (tl ++ ['x', Char.ofNat 39])
    ['x', Char.ofNat 39] ha1 ha
  rw [← List.cons_append] at hsp
  simp only [ProcessTerm, g1, g2, find_suffix ['x', Char.ofNat 39] (a :: tl), if_false,
    ProcessProductRule_none _ _ _ hstar, ProcessQuotientRule_none _ _ _ hdiv,
    ProcessPowers_none m _ _ _ hpow, hsp, ProcessChainRule_none _ _ _ hchain, bind_ok]

theorem FindDerivativeInternalF_name_placeholder (m : CMath) (k : Nat) (a : Char)
    (tl : List Char) (halpha : ∀ c ∈ a :: tl, c.isAlpha = true)
    (ha : a ≠ 's' ∧ a ≠ 'c' ∧ a ≠ 't' ∧ a ≠ 'l') :
    FindDerivativeInternalF m (k + 1) (a :: tl ++ ['x', Char.ofNat 39])
      ['x', Char.ofNat 39] = .thrown .invalid_argument := by
  have hpl : isPlain (a :: tl ++ ['x', Char.ofNat 39]) :=
    isPlain_append _ _ (alpha_plain _ halpha) (by intro c hc; revert c; decide)
  rw [FindDerivativeInternalF, BreakUpTerms_plain _ (fun c hc => ⟨(hpl c hc).1, (hpl c hc).2.1⟩)
    (by simp)]
  simp only [ProcessDerivatives, ProcessTerm_name_placeholder m _ a tl halpha ha]
  rfl

theorem derivativeDepth_ge_two (s v : List Char) (h : 2 ≤ s.length) :
    ∃ k, derivativeDepth s v = k + 2 := by
  have hge : 2 ≤ derivativeDepth s v := by
    simp only [derivativeDepth]; omega
  exact ⟨_, (Nat.sub_add_cancel hge).symm⟩

/-- The chain rule on a name applied to a group: the argument is differentiated, then
the term with the placeholder in place of the group, which fails. -/
theorem ProcessChainRule_applied_name
    (rec : List Char → List Char → Outcome (List Char)) (name arg : List Char)
    (hname : ∀ c ∈ name, c ≠ '(' ∧ c ≠ ')') (hin : insideGroup arg 1 = true)
    (hfail : rec (name ++ ['x', Char.ofNat 39]) ['x', Char.ofNat 39] =
      .thrown .invalid_argument) :
    ProcessChainRule rec (name ++ '(' :: (arg ++ [')'])) ['x'] =
      (rec arg ['x'] >>= fun _ => .thrown .invalid_argument) := by
  have hpos : findNestingOne (name ++ '(' :: (arg ++ [')'])) 0 0 = some name.length := by
    rw [findNestingOne_skip_plain _ name 0 hname, findNestingOne, nestStep_open_zero]
    simp
  have hdrop : (name ++ '(' :: (arg ++ [')'])).drop (name.length + 1) = arg ++ [')'] := by
    have : name ++ '(' :: (arg ++ [')']) = (name ++ ['(']) ++ (arg ++ [')']) := by simp
    rw [this, show name.length + 1 = (name ++ ['(']).length by simp, List.drop_left]
  have hsub : GetSubExpression (name ++ '(' :: (arg ++ [')'])) (name.length + 1) =
      (arg, name.length + 1 + arg.length) := by
    rw [GetSubExpression, hdrop, GetSubExpressionLoop_group [] arg 1 _ [] hin]
    simp
  have hrep : replace (name ++ '(' :: (arg ++ [')'])) name.length
      (['('] ++ arg ++ [')']).length ['x', Char.ofNat 39] =
      .ok (name ++ ['x', Char.ofNat 39]) := by
    have hle : name.length ≤ (name ++ '(' :: (arg ++ [')'])).length := by simp
    have hd2 : (name ++ '(' :: (arg ++ [')'])).drop
        (name.length + (['('] ++ arg ++ [')']).length) = [] := by
      apply List.drop_eq_nil_of_le
      simp
    simp only [replace, hle, if_true, hd2, List.take_left, List.append_nil]
  have hv : ['x'] ++ [Char.ofNat 39] = ['x', Char.ofNat 39] := rfl
  simp only [ProcessChainRule, hpos, hsub, hv, hrep, hfail, bind_ok]
  cases rec arg ['x'] <;> rfl

/-- The derivative of an expression that applies a name starting with a letter other
than `s`, `c`, `t` and `l` to a parenthesised argument: the derivative of the argument
followed by the failure of the chain rule. -/
theorem FindDerivativeInternal_applied_name (m : CMath) (a : Char) (tl arg : List Char)
    (halpha : ∀ c ∈ a :: tl, c.isAlpha = true)
    (ha : a ≠ 's' ∧ a ≠ 'c' ∧ a ≠ 't' ∧ a ≠ 'l') (hin : insideGroup arg 1 = true)
    (hx : 'x' ∈ arg) :
    ∃ k, derivativeDepth arg ['x'] ≤ k + 1 ∧
      Derivative m (a :: tl ++ '(' :: (arg ++ [')'])) =
        (FindDerivativeInternalF m (k + 1) arg ['x'] >>= fun _ =>
          .thrown .invalid_argument) := by
  have hpl := alpha_plain _ halpha
  have ha1 := halpha a (List.mem_cons_self _ _)
  obtain ⟨k, hk⟩ := derivativeDepth_ge_two (a :: tl ++ '(' :: (arg ++ [')'])) ['x']
    (by simp; omega)
  have hle : derivativeDepth arg ['x'] ≤ k + 1 := by
    have h1 := derivativeDepth_right (a :: tl) (arg ++ [')']) ['x'] '('
    have h2 := derivativeDepth_left arg [] ['x'] ')'
    omega
  refine ⟨k, hle, ?_⟩
  have hmem : '(' ∈ a :: tl ++ '(' :: (arg ++ [')']) := by simp
  obtain ⟨g1, g2⟩ := term_ne_of_mem '(' _ hmem (by decide) (by decide)
  have hxm : 'x' ∈ a :: tl ++ '(' :: (arg ++ [')']) := by simp [hx]
  have hstar := findTopLevel_applied '*' (by decide) (by decide) (a :: tl) arg
    (fun c hc => ⟨(hpl c hc).2.2.1, (hpl c hc).2.2.2.2.2⟩) hin
  have hdiv := findTopLevel_applied '/' (by decide) (by decide) (a :: tl) arg
    (fun c hc => ⟨(hpl c hc).2.2.2.1, (hpl c hc).2.2.2.2.2⟩) hin
  have hpow := findTopLevel_applied '^' (by decide) (by decide) (a :: tl) arg
    (fun c hc => ⟨(hpl c hc).2.2.2.2.1, (hpl c hc).2.2.2.2.2⟩) hin
  have hone := BreakUpTerms_applied (a :: tl) arg
    (fun c hc => ⟨(hpl c hc).1, (hpl c hc).2.1, (hpl c hc).2.2.2.2.2⟩) hin
  have hsp := ProcessSpecialFunctions_other_letter (FindDerivativeInternalF m (k + 1)) a
    (tl ++ '(' :: (arg ++ [')'])) ['x'] ha1 ha
  rw [← List.cons_append] at hsp
  have hch := ProcessChainRule_applied_name (FindDerivativeInternalF m (k + 1)) (a :: tl) arg
    (fun c hc => (hpl c hc).2.2.2.2.2) hin
    (FindDerivativeInternalF_name_placeholder m k a tl halpha ha)
  rw [Derivative, FindDerivativeInternal, hk, FindDerivativeInternalF, hone]
  simp only [ProcessDerivatives, ProcessTerm, g1, g2, find_of_mem 'x' _ hxm, if_false,
    ProcessProductRule_none _ _ _ hstar, ProcessQuotientRule_none _ _ _ hdiv,
    ProcessPowers_none m _ _ _ hpow, hsp, hch, bind_ok]
  cases FindDerivativeInternalF m (k + 1) arg ['x'] <;> rfl

theorem bind_ne_ok_none {α β : Type} (r : Outcome α) (k : α → Outcome (Option β))
    (h : ∀ a, k a ≠ .ok none) : (r >>= k) ≠ .ok none := by
  cases r with
  | ok a => exact h a
  | thrown e => intro e2; cases e2
  | undefined => intro e2; cases e2
  | unmodelled => intro e2; cases e2
  | fuel => intro e2; cases e2

/-- The special-function rule takes every term of two or more characters whose first
character is one of the letters `s`, `c`, `t`, `l`. -/
theorem ProcessSpecialFunctions_first_letter
    (rec : List Char → List Char → Outcome (List Char)) (c c2 : Char)
    (rest deriveVar : List Char) (h : c = 's' ∨ c = 'c' ∨ c = 't' ∨ c = 'l') :
    ProcessSpecialFunctions rec (c :: c2 :: rest) deriveVar ≠ .ok none := by
  have hm : c ≠ '-' := by rcases h with e | e | e | e <;> subst e <;> decide
  have hc : (decide (c = 's') || decide (c = 'c') || decide (c = 't') || decide (c = 'l'))
      = true := by
    rcases h with e | e | e | e <;> subst e <;> decide
  simp only [ProcessSpecialFunctions, hm, decide_False, Bool.false_eq_true, if_false, hc,
    if_true]
  refine bind_ne_ok_none _ _ (fun fn => bind_ne_ok_none _ _ (fun d => ?_))
  split
  · intro e; cases e
  · intro e; cases e

/-- The special-function rule takes every term that starts with `-` followed by one of
the letters `s`, `c`, `t`, `l`. -/
theorem ProcessSpecialFunctions_negated_letter
    (rec : List Char → List Char → Outcome (List Char)) (c : Char)
    (rest deriveVar : List Char) (h : c = 's' ∨ c = 'c' ∨ c = 't' ∨ c = 'l') :
    ProcessSpecialFunctions rec ('-' :: c :: rest) deriveVar ≠ .ok none := by
  have hc : (decide (c = 's') || decide (c = 'c') || decide (c = 't') || decide (c = 'l'))
      = true := by
    rcases h with e | e | e | e <;> subst e <;> decide
  simp only [ProcessSpecialFunctions, decide_True, if_true, hc]
  refine bind_ne_ok_none _ _ (fun fn => bind_ne_ok_none _ _ (fun d => ?_))
  split
  · intro e; cases e
  · intro e; cases e

/-- C15, as stated, fails: `sec(x)` and `sqrt(x)` apply names outside the supported set
to an argument with the variable, and `Derivative` returns the texts `cos(x)` and `0`
for them: the special-function rule looks at the first letter only. -/
theorem Derivative_first_letter_only :
    Derivative libm ['s', 'e', 'c', '(', 'x', ')'] = .ok ['c', 'o', 's', '(', 'x', ')'] ∧
    Derivative libm ['s', 'q', 'r', 't', '(', 'x', ')'] = .ok ['0'] :=
  ⟨by with_unfolding_all rfl, by with_unfolding_all rfl⟩

/-- C15, amended: for every term that applies a name of letters whose first letter is
none of `s`, `c`, `t`, `l` to a parenthesised argument containing the variable,
`Derivative` returns no derivative text, and it fails with `invalid_argument` whenever
the argument itself has a derivative text; the special-function rule leaves such a term
alone, and it takes every term of two or more characters that starts with one of the
four letters, or with `-` followed by one of them, whatever follows; so `sec(x)` gets
the text `cos(x)`, as `sin(x)` does. -/
theorem Derivative_unsupported_function (m : CMath) (a : Char) (tl arg : List Char)
    (halpha : ∀ c ∈ a :: tl, c.isAlpha = true)
    (ha : a ≠ 's' ∧ a ≠ 'c' ∧ a ≠ 't' ∧ a ≠ 'l') (hin : insideGroup arg 1 = true)
    (hx : 'x' ∈ arg) :
    (∀ d, Derivative m (a :: tl ++ '(' :: (arg ++ [')'])) ≠ .ok d) ∧
    (∀ dA, FindDerivativeInternal m arg ['x'] = .ok dA →
      Derivative m (a :: tl ++ '(' :: (arg ++ [')'])) = .thrown .invalid_argument) ∧
    (∀ rec, ProcessSpecialFunctions rec (a :: tl ++ '(' :: (arg ++ [')'])) ['x'] = .ok none) ∧
    (∀ rec (c c2 : Char) (rest : List Char), c = 's' ∨ c = 'c' ∨ c = 't' ∨ c = 'l' →
      ProcessSpecialFunctions rec (c :: c2 :: rest) ['x'] ≠ .ok none) ∧
    (∀ rec (c : Char) (rest : List Char), c = 's' ∨ c = 'c' ∨ c = 't' ∨ c = 'l' →
      ProcessSpecialFunctions rec ('-' :: c :: rest) ['x'] ≠ .ok none) ∧
    Derivative m ['s', 'e', 'c', '(', 'x', ')'] = .ok ['c', 'o', 's', '(', 'x', ')'] ∧
    Derivative m ['s', 'i', 'n', '(', 'x', ')'] = .ok ['c', 'o', 's', '(', 'x', ')'] := by
  obtain ⟨k, hle, hk⟩ := FindDerivativeInternal_applied_name m a tl arg halpha ha hin hx
  refine ⟨?_, ?_, ?_, fun rec c c2 rest h =>
    ProcessSpecialFunctions_first_letter rec c c2 rest ['x'] h, fun rec c rest h =>
    ProcessSpecialFunctions_negated_letter rec c rest ['x'] h, by with_unfolding_all rfl,
    by with_unfolding_all rfl⟩
  · intro d
    rw [hk]
    cases FindDerivativeInternalF m (k + 1) arg ['x'] <;> intro e <;> cases e
  · intro dA hdA
    have e := refines_of_ok (FindDerivativeInternalF_le_refines m _ (k + 1) hle arg ['x']) hdA
    rw [hk, e]
    rfl
  · intro rec
    have hsp := ProcessSpecialFunctions_other_letter rec a (tl ++ '(' :: (arg ++ [')'])) ['x']
      (halpha a (List.mem_cons_self _ _)) ha
    rw [← List.cons_append] at hsp
    exact hsp

/-- Witness of C15 on the expression `exp(x)`. -/
theorem Derivative_unsupported_function_witness :
    Derivative libm ['e', 'x', 'p', '(', 'x', ')'] = .thrown .invalid_argument :=
  (Derivative_unsupported_function libm 'e' ['x', 'p'] ['x'] (by decide) (by decide)
    (by decide) (by decide)).2.1 ['1'] (by with_unfolding_all rfl)

/-! ## The recorded estimates -/

theorem writes_append (t1 t2 : List Event) : writes (t1 ++ t2) = writes t1 ++ writes t2 := by
  simp [writes, List.filterMap_append]

theorem differentiations_append (t1 t2 : List Event) :
    differentiations (t1 ++ t2) = differentiations t1 + differentiations t2 := by
  simp [differentiations, List.countP_append]

theorem indexFrom_append : ∀ (xs ys : List ℚ) (i : Int),
    indexFrom i (xs ++ ys) = indexFrom i xs ++ indexFrom (i + xs.length) ys := by
  intro xs
  induction xs with
  | nil => intro ys i; simp [indexFrom]
  | cons a t ih =>
    intro ys i
    have e : i + 1 + (t.length : Int) = i + ((t.length + 1 : Nat) : Int) := by
      push_cast; ring
    show indexFrom i (a :: (t ++ ys)) = indexFrom i (a :: t) ++ _
    rw [indexFrom, indexFrom, ih, List.length_cons, List.cons_append, e]

theorem newtonChain_snoc (f df : ℚ → Outcome ℚ) (goalErr : ℚ) (a b : ℚ) :
    ∀ pre : List ℚ, newtonChain f df goalErr (pre ++ [a]) → newtonStep f df goalErr a b →
      newtonChain f df goalErr ((pre ++ [a]) ++ [b]) := by
  intro pre
  induction pre with
  | nil => intro _ h; exact ⟨h, trivial⟩
  | cons c t ih =>
    intro hch h
    cases t with
    | nil => exact ⟨hch.1, h, trivial⟩
    | cons d t2 => exact ⟨hch.1, ih hch.2 h⟩

/-- The loop of `SolveForRoot` extends the recorded estimates by Newton updates: when it
returns a nonzero count, the writes of the run are the estimates at the indices 0, 1,
2 and so on, each the update of the one before, and no further differentiation was
made. -/
theorem NewtonLoop_chain (f df : ℚ → Outcome ℚ) (V goalErr : ℚ) (maxSize : Int) :
    ∀ (rounds : Nat) (iterNum : Int) (xn funcVal : ℚ) (trace : List Event) (pre : List ℚ),
      f xn = .ok funcVal → writes trace = indexFrom 0 (pre ++ [xn]) →
      (pre.length : Int) + 1 = iterNum → newtonChain f df goalErr (pre ++ [xn]) →
      ∀ r, (NewtonLoop f df V goalErr maxSize rounds iterNum xn funcVal trace).ret = .ok r →
        r ≠ 0 →
        ∃ xs, writes (NewtonLoop f df V goalErr maxSize rounds iterNum xn funcVal trace).trace
            = indexFrom 0 (pre ++ xn :: xs) ∧
          newtonChain f df goalErr (pre ++ xn :: xs) ∧
          differentiations
            (NewtonLoop f df V goalErr maxSize rounds iterNum xn funcVal trace).trace
            = differentiations trace := by
  intro rounds
  induction rounds with
  | zero =>
    intro iterNum xn funcVal trace pre _ hw _ hch r hret _
    by_cases hc : iterNum ≤ maxSize ∧ |funcVal| > goalErr
    · simp [NewtonLoop, hc] at hret
    · refine ⟨[], ?_, hch, ?_⟩ <;> simp [NewtonLoop, hc, hw]
  | succ n ih =>
    intro iterNum xn funcVal trace pre hf hw hlen hch r hret hr
    by_cases hc : iterNum ≤ maxSize ∧ |funcVal| > goalErr
    · cases hdf : df xn with
      | ok derivVal =>
        by_cases hsmall : |derivVal| < V
        · simp only [NewtonLoop, hc, hdf, hsmall, and_self, if_true] at hret
          cases hret
          exact absurd rfl hr
        · by_cases hzero : derivVal = 0
          · subst hzero
            simp only [NewtonLoop, hc, hdf, hsmall, and_self, if_true, if_false] at hret
            cases hret
          · cases hf1 : f (xn - funcVal / derivVal) with
            | ok funcVal1 =>
              by_cases hint : iterNum = INT_MAX
              · subst hint
                simp only [NewtonLoop, hc, hdf, hsmall, hzero, hf1, and_self, if_true,
                  if_false] at hret
                cases hret
              · have hstep : newtonStep f df goalErr xn (xn - funcVal / derivVal) :=
                  ⟨funcVal, derivVal, hf, hdf, hc.2, rfl⟩
                have hw2 : writes (trace ++ [.evalDerivative xn (.ok derivVal)] ++
                    [.evalFunction (xn - funcVal / derivVal) (.ok funcVal1),
                     .write iterNum (xn - funcVal / derivVal)]) =
                    indexFrom 0 ((pre ++ [xn]) ++ [xn - funcVal / derivVal]) := by
                  rw [writes_append, writes_append, hw, indexFrom_append (pre ++ [xn])]
                  simp [writes, indexFrom]
                  omega
                have hd2 : differentiations (trace ++ [.evalDerivative xn (.ok derivVal)] ++
                    [.evalFunction (xn - funcVal / derivVal) (.ok funcVal1),
                     .write iterNum (xn - funcVal / derivVal)]) = differentiations trace := by
                  rw [differentiations_append, differentiations_append]
                  simp [differentiations]
                have hret2 : (NewtonLoop f df V goalErr maxSize n (iterNum + 1)
                    (xn - funcVal / derivVal) funcVal1
                    (trace ++ [.evalDerivative xn (.ok derivVal)] ++
                    [.evalFunction (xn - funcVal / derivVal) (.ok funcVal1),
                     .write iterNum (xn - funcVal / derivVal)])).ret = .ok r := by
                  simp only [NewtonLoop, hc, hdf, hsmall, hzero, hf1, hint, and_self, if_true,
                    if_false] at hret
                  exact hret
                obtain ⟨xs, h1, h2, h3⟩ := ih (iterNum + 1) (xn - funcVal / derivVal) funcVal1
                  _ (pre ++ [xn]) hf1 hw2 (by simp; omega)
                  (newtonChain_snoc f df goalErr xn _ pre hch hstep) r hret2 hr
                refine ⟨(xn - funcVal / derivVal) :: xs, ?_, ?_, ?_⟩
                · simp only [NewtonLoop, hc, hdf, hsmall, hzero, hf1, hint, and_self, if_true,
                    if_false]
                  rw [h1]; simp
                · simpa using h2
                · simp only [NewtonLoop, hc, hdf, hsmall, hzero, hf1, hint, and_self, if_true,
                    if_false]
                  rw [h3, hd2]
            | thrown e =>
              simp only [NewtonLoop, hc, hdf, hsmall, hzero, hf1, and_self, if_true, if_false,
                catchAll] at hret
              cases hret
              exact absurd rfl hr
            | undefined =>
              simp only [NewtonLoop, hc, hdf, hsmall, hzero, hf1, and_self, if_true, if_false,
                catchAll] at hret
              cases hret
            | unmodelled =>
              simp only [NewtonLoop, hc, hdf, hsmall, hzero, hf1, and_self, if_true, if_false,
                catchAll] at hret
              cases hret
            | fuel =>
              simp only [NewtonLoop, hc, hdf, hsmall, hzero, hf1, and_self, if_true, if_false,
                catchAll] at hret
              cases hret
      | thrown e =>
        simp only [NewtonLoop, hc, hdf, and_self, if_true, catchAll] at hret
        cases hret
        exact absurd rfl hr
      | undefined =>
        simp only [NewtonLoop, hc, hdf, and_self, if_true, catchAll] at hret
        cases hret
      | unmodelled =>
        simp only [NewtonLoop, hc, hdf, and_self, if_true, catchAll] at hret
        cases hret
      | fuel =>
        simp only [NewtonLoop, hc, hdf, and_self, if_true, catchAll] at hret
        cases hret
    · refine ⟨[], ?_, hch, ?_⟩ <;> simp [NewtonLoop, hc, hw]

theorem newtonChain_get (f df : ℚ → Outcome ℚ) (goalErr : ℚ) :
    ∀ (l : List ℚ), newtonChain f df goalErr l →
      ∀ (n : Nat) (a b : ℚ), l[n]? = some a → l[n + 1]? = some b →
        newtonStep f df goalErr a b := by
  intro l
  induction l with
  | nil => intro _ n a b h; simp at h
  | cons c t ih =>
    intro hch n a b ha hb
    cases t with
    | nil => simp at hb
    | cons d t2 =>
      cases n with
      | zero =>
        simp at ha hb
        subst ha; subst hb
        exact hch.1
      | succ k =>
        exact ih hch.2 k a b (by simpa using ha) (by simpa using hb)

/-- C17: on every successful solve (a nonzero returned count) the derivative expression
is computed once, the writes to `results` are the estimates at the indices 0, 1, 2 and
so on, the first being `initialGuess`, and every estimate after the first is the Newton
update of the one before it: with `f` the evaluation of the input expression and `df`
the evaluation of the derivative expression, `results[n+1] = results[n] -
f(results[n]) / df(results[n])`, the step being taken with `|f(results[n])| > goalErr`. -/
theorem SolveForRoot_newton_recurrence (m : CMath) (VERY_SMALL_VALUE : ℚ) (expr : List Char)
    (exprLen : Nat) (initialGuess : ℚ) (maxSize : Int) (goalErr : ℚ) (r : Int)
    (hret : (SolveForRoot m VERY_SMALL_VALUE expr exprLen initialGuess maxSize goalErr).ret
      = .ok r) (hr : r ≠ 0) :
    ∃ (derivative : List Char) (xs : List ℚ),
      Derivative m (expr.take exprLen) = .ok derivative ∧
      differentiations
        (SolveForRoot m VERY_SMALL_VALUE expr exprLen initialGuess maxSize goalErr).trace = 1 ∧
      writes (SolveForRoot m VERY_SMALL_VALUE expr exprLen initialGuess maxSize goalErr).trace
        = indexFrom 0 (initialGuess :: xs) ∧
      ∀ (n : Nat) (a b : ℚ), (initialGuess :: xs)[n]? = some a →
        (initialGuess :: xs)[n + 1]? = some b →
        newtonStep (Evaluate m (expr.take exprLen)) (Evaluate m derivative) goalErr a b := by
  by_cases h1 : maxSize ≤ 0 ∨ exprLen = 0
  · simp only [SolveForRoot, h1, if_true] at hret
    cases hret
    exact absurd rfl hr
  by_cases h2 : expr.length < exprLen
  · simp only [SolveForRoot, h1, h2, if_true, if_false] at hret
    cases hret
  cases hd : Derivative m (expr.take exprLen) with
  | ok derivative =>
    cases hf : Evaluate m (expr.take exprLen) initialGuess with
    | ok funcVal =>
      simp only [SolveForRoot, h1, h2, if_false, hd, hf] at hret ⊢
      obtain ⟨xs, e1, e2, e3⟩ := NewtonLoop_chain (Evaluate m (expr.take exprLen))
        (Evaluate m derivative) VERY_SMALL_VALUE goalErr maxSize maxSize.toNat 1 initialGuess
        funcVal _ [] hf (by simp [writes, indexFrom]) (by simp) trivial r hret hr
      refine ⟨derivative, xs, rfl, ?_, e1, ?_⟩
      · rw [e3]; simp [differentiations]
      · exact newtonChain_get _ _ _ _ e2
    | thrown e =>
      simp only [SolveForRoot, h1, h2, if_false, hd, hf, catchAll] at hret
      cases hret
      exact absurd rfl hr
    | undefined =>
      simp only [SolveForRoot, h1, h2, if_false, hd, hf, catchAll] at hret
      cases hret
    | unmodelled =>
      simp only [SolveForRoot, h1, h2, if_false, hd, hf, catchAll] at hret
      cases hret
    | fuel =>
      simp only [SolveForRoot, h1, h2, if_false, hd, hf, catchAll] at hret
      cases hret
  | thrown e =>
    simp only [SolveForRoot, h1, h2, if_false, hd, catchAll] at hret
    cases hret
    exact absurd rfl hr
  | undefined =>
    simp only [SolveForRoot, h1, h2, if_false, hd, catchAll] at hret
    cases hret
  | unmodelled =>
    simp only [SolveForRoot, h1, h2, if_false, hd, catchAll] at hret
    cases hret
  | fuel =>
    simp only [SolveForRoot, h1, h2, if_false, hd, catchAll] at hret
    cases hret

/-- Witness of C17 on the solve of `x+1` from the guess 1 with five rounds, which
returns 2. -/
theorem SolveForRoot_newton_recurrence_witness :
    ∃ (derivative : List Char) (xs : List ℚ),
      Derivative libm (['x', '+', '1'].take 3) = .ok derivative ∧
      differentiations
        (SolveForRoot libm (1 / 1000000000) ['x', '+', '1'] 3 1 5 (1 / 10)).trace = 1 ∧
      writes (SolveForRoot libm (1 / 1000000000) ['x', '+', '1'] 3 1 5 (1 / 10)).trace
        = indexFrom 0 (1 :: xs) ∧
      ∀ (n : Nat) (a b : ℚ), (1 :: xs)[n]? = some a → (1 :: xs)[n + 1]? = some b →
        newtonStep (Evaluate libm (['x', '+', '1'].take 3)) (Evaluate libm derivative)
          (1 / 10) a b :=
  SolveForRoot_newton_recurrence libm (1 / 1000000000) ['x', '+', '1'] 3 1 5 (1 / 10) 2
    (by decide!) (by decide)

/-! ## Claims on the readers and on chained quotients -/

/-- The left reader started beyond the end of the text reads out of range. -/
theorem GetValueToLeft_out_of_range (m : CMath) (x : ℚ) (expr : List Char) (p : Nat)
    (h : expr.length < p) : GetValueToLeft m expr p x = .undefined := by
  have hc : charAt expr p = .undefined := by
    have h1 : ¬ p < expr.length := by omega
    have h2 : ¬ p = expr.length := by omega
    simp [charAt, h1, h2]
  cases p with
  | zero => omega
  | succ n =>
    rw [GetValueToLeft, GetValueToLeftLoop, GetValueToLeftBody, hc]
    rfl

/-- C21 at its failing input: the addition pass takes a `+` at position 0 as a binary
operator and calls the left reader at the position before the start of the text, which
wraps to the largest `size_t`: for every text that begins with `+` (and is shorter than
that) the pass reads out of range, and so does `Evaluate` on `+2`. A `-` at position 0
is skipped. -/
theorem EvalAddition_leading_plus (m : CMath) (x : ℚ) :
    (∀ rest : List Char, rest.length + 2 < SIZE_MOD →
      EvalAddition m ('+' :: rest) x = .undefined) ∧
    Evaluate m ['+', '2'] x = .undefined ∧
    (∀ (rest : List Char) (fuel : Nat),
      EvalAdditionLoop m x (fuel + 1) ('-' :: rest) 0 =
        EvalAdditionLoop m x fuel ('-' :: rest) 1) := by
  refine ⟨?_, by with_unfolding_all rfl, ?_⟩
  · intro rest h
    have hl : GetValueToLeft m ('+' :: rest) (subSz 0 1) x = .undefined :=
      GetValueToLeft_out_of_range m x _ _ (by
        have e : subSz 0 1 = SIZE_MOD - 1 := by decide
        rw [e, List.length_cons]
        omega)
    rw [EvalAddition, List.length_cons, EvalAdditionLoop]
    simp only [List.length_cons, Nat.zero_lt_succ, if_true, charAt, List.getD_cons_zero,
      bind_ok, decide_True, Bool.true_or, hl]
    rfl
  · intro rest fuel
    rw [EvalAdditionLoop]
    simp [charAt, bind_ok]

/-- Witness of C21 on the text `+2+3`. -/
theorem EvalAddition_leading_plus_witness :
    EvalAddition libm ['+', '2', '+', '3'] 0 = .undefined :=
  (EvalAddition_leading_plus libm 0).1 ['2', '+', '3'] (by decide)

/-- C22 at its failing input: for a literal with the exponent marker `E` and a negative
exponent the right reader takes the mantissa and the `E`, stops in front of the `-`
(a `-` is part of the token only at its start or after a lowercase `e`) and reports the
index of the `E`: on `2E-3` it returns the value 2 and the end position 1, not 3. With a
lowercase marker, `2e-3`, the whole literal is read: value 0.002, end position 3. -/
theorem GetValueToRight_negative_exponent (m : CMath) (x : ℚ) :
    (∀ mantissa rest : List Char, mantissa ≠ [] →
      (∀ c ∈ mantissa, isdigit c = true ∨ c = '.') →
      GetValueToRight m (mantissa ++ 'E' :: '-' :: rest) 0 x =
        (stod (mantissa ++ ['E']) >>= fun v => pure (v, mantissa.length))) ∧
    GetValueToRight m ['2', 'E', '-', '3'] 0 x = .ok (2, 1) ∧
    GetValueToRight m ['2', 'e', '-', '3'] 0 x = .ok (1 / 500, 3) := by
  refine ⟨?_, by with_unfolding_all rfl, by with_unfolding_all rfl⟩
  intro mantissa rest hne hm
  have hlast : (mantissa ++ ['E']).getLast? ≠ some 'e' := by
    simp
  rw [GetValueToRight, List.drop_zero, GetValueToRightLoop_run m x mantissa _ 0 [] hm]
  rw [GetValueToRightLoop]
  simp only [Char.reduceEq, if_false, decide_False, Bool.false_and, Bool.false_or, Bool.or_true,
    Bool.true_or, decide_True, if_true, Bool.false_eq_true, List.nil_append, Nat.zero_add]
  rw [GetValueToRightLoop_stop m x '-' rest _ _
    (Or.inr (Or.inr (Or.inr (Or.inr (Or.inr ⟨rfl, by simp, hlast⟩)))))]
  simp [subSz]

/-- Witness of C22 on the literal `2.5E-3`: end position 3, the index of the `E`. -/
theorem GetValueToRight_negative_exponent_witness :
    GetValueToRight libm (['2', '.', '5'] ++ 'E' :: '-' :: ['3']) 0 0 =
      (stod (['2', '.', '5'] ++ ['E']) >>= fun v => pure (v, ['2', '.', '5'].length)) :=
  (GetValueToRight_negative_exponent libm 0).1 ['2', '.', '5'] ['3'] (by decide) (by decide)

/-- C25 at its failing input: the quotient rule splits a term at its first top-level
`/` (for a numerator `A` without parentheses the position after `A`), so `A/B/C` is
differentiated as `A/(B/C)`. The text returned for `1/x/x` is
`(1)*((1)/x-x/x^2)/(x/x)^2`, whose value at `x = 2` is 0, and the text returned for
`x/x/x` has the value 1 at `x = 2`; the evaluator reads the same texts from the left:
`1/x/x` is 1/4 at `x = 2`, and the derivatives of `(1/x)/x` and `(x/x)/x` are -1/4 there. -/
theorem Derivative_chained_quotient :
    (∀ A rest : List Char, (∀ c ∈ A, c ≠ '/' ∧ c ≠ '(' ∧ c ≠ ')') →
      findTopLevel '/' (A ++ '/' :: rest) 0 0 = some A.length) ∧
    (∀ m, Derivative m ['1', '/', 'x', '/', 'x'] = .ok ['(', '1', ')', '*', '(', '(', '1', ')',
      '/', 'x', '-', 'x', '/', 'x', '^', '2', ')', '/', '(', 'x', '/', 'x', ')', '^', '2']) ∧
    Evaluate libm ['(', '1', ')', '*', '(', '(', '1', ')', '/', 'x', '-', 'x', '/', 'x', '^',
      '2', ')', '/', '(', 'x', '/', 'x', ')', '^', '2'] 2 = .ok 0 ∧
    (∀ m, Derivative m ['x', '/', 'x', '/', 'x'] = .ok ['(', '1', ')', '/', '(', 'x', '/', 'x',
      ')', '-', '(', 'x', ')', '*', '(', '(', '1', ')', '/', 'x', '-', 'x', '/', 'x', '^', '2',
      ')', '/', '(', 'x', '/', 'x', ')', '^', '2']) ∧
    Evaluate libm ['(', '1', ')', '/', '(', 'x', '/', 'x', ')', '-', '(', 'x', ')', '*', '(',
      '(', '1', ')', '/', 'x', '-', 'x', '/', 'x', '^', '2', ')', '/', '(', 'x', '/', 'x', ')',
      '^', '2'] 2 = .ok 1 ∧
    (∀ m, Evaluate m ['1', '/', 'x', '/', 'x'] 2 = .ok (1 / 4)) ∧
    (∀ m, Evaluate m ['x', '/', 'x', '/', 'x'] 2 = .ok (1 / 2)) := by
  refine ⟨?_, fun m => by with_unfolding_all rfl, by decide!,
    fun m => by with_unfolding_all rfl, by decide!, fun m => by with_unfolding_all rfl,
    fun m => by with_unfolding_all rfl⟩
  intro A rest hA
  rw [findTopLevel_skip_plain '/' _ A 0 0 hA, findTopLevel]
  simp [nestStep]

/-- Witness of C25 on the term `1/x/x`: the rule splits it into `1` and `x/x`. -/
theorem Derivative_chained_quotient_witness :
    findTopLevel '/' (['1'] ++ '/' :: ['x', '/', 'x']) 0 0 = some ['1'].length :=
  Derivative_chained_quotient.1 ['1'] ['x', '/', 'x'] (by decide)

/-! ## The recursion of the differentiator -/

theorem agree_of_ne_fuel (q : Prop) {α : Type} (r : Outcome α) (h : r ≠ .fuel) :
    agree q r r := ⟨rfl, fun e => absurd e h⟩

theorem agree_ok (q : Prop) {α : Type} (a : α) : agree q (Outcome.ok a) (Outcome.ok a) :=
  agree_of_ne_fuel q _ (by intro e; cases e)

theorem agree_pure (q : Prop) {α : Type} (a : α) :
    agree q (pure a : Outcome α) (pure a : Outcome α) := agree_ok q a

theorem agree_thrown (q : Prop) {α : Type} (e : Exn) :
    agree q (Outcome.thrown e : Outcome α) (Outcome.thrown e) :=
  agree_of_ne_fuel q _ (by intro e; cases e)

theorem agree_bind (q : Prop) {α β : Type} {r1 r2 : Outcome α} {k1 k2 : α → Outcome β}
    (h : agree q r1 r2) (hk : ∀ a, r1 = .ok a → agree q (k1 a) (k2 a)) :
    agree q (r1 >>= k1) (r2 >>= k2) := by
  obtain ⟨e, hq⟩ := h
  subst e
  cases r1 with
  | ok a => exact hk a rfl
  | thrown e => exact agree_thrown q e
  | undefined => exact agree_of_ne_fuel q _ (by intro e; cases e)
  | unmodelled => exact agree_of_ne_fuel q _ (by intro e; cases e)
  | fuel => exact ⟨rfl, fun _ => hq rfl⟩

theorem substr_ne_fuel (s : List Char) (pos : Nat) : substr s pos ≠ .fuel := by
  unfold substr; split <;> (intro e; cases e)

theorem substr_ok (s : List Char) (pos : Nat) (a : List Char) (h : substr s pos = .ok a) :
    pos ≤ s.length ∧ a = s.drop pos := by
  unfold substr at h
  split at h
  · cases h; exact ⟨by assumption, rfl⟩
  · cases h

theorem replace_ne_fuel (s : List Char) (pos len : Nat) (str : List Char) :
    replace s pos len str ≠ .fuel := by
  unfold replace; split <;> (intro e; cases e)

theorem replace_ok (s : List Char) (pos len : Nat) (str a : List Char)
    (h : replace s pos len str = .ok a) :
    pos ≤ s.length ∧ a = s.take pos ++ str ++ s.drop (pos + len) := by
  unfold replace at h
  split at h
  · cases h; exact ⟨by assumption, rfl⟩
  · cases h

theorem findTopLevel_bound (op : Char) : ∀ (s : List Char) (pos nl q : Nat),
    findTopLevel op s pos nl = some q → pos ≤ q ∧ q < pos + s.length := by
  intro s
  induction s with
  | nil => intro pos nl q h; simp [findTopLevel] at h
  | cons c rest ih =>
    intro pos nl q h
    rw [findTopLevel] at h
    split at h
    · cases h; simp
    · have := ih _ _ _ h
      simp only [List.length_cons]; omega

/-- A shorter text with no more parentheses is an argument of the first kind. -/
theorem recArg_take (term v : List Char) (n : Nat) (h : n < term.length) :
    recArg term v (term.take n) v := by
  refine Or.inl ⟨rfl, ?_, ?_, ?_⟩
  · simp; omega
  · exact (List.take_sublist n term).count_le _
  · exact (List.take_sublist n term).count_le _

theorem recArg_drop (term v : List Char) (n : Nat) (h : 0 < n)
    (hne : term ≠ []) : recArg term v (term.drop n) v := by
  refine Or.inl ⟨rfl, ?_, ?_, ?_⟩
  · have : 0 < term.length := List.length_pos.2 hne
    simp; omega
  · exact (List.drop_sublist n term).count_le _
  · exact (List.drop_sublist n term).count_le _

theorem ProcessProductRule_agree (q : Prop)
    (rec1 rec2 : List Char → List Char → Outcome (List Char)) (term v : List Char)
    (h : ∀ sub v2, recArg term v sub v2 → agree q (rec1 sub v2) (rec2 sub v2)) :
    agree q (ProcessProductRule rec1 term v) (ProcessProductRule rec2 term v) := by
  unfold ProcessProductRule
  cases hf : findTopLevel '*' term 0 0 with
  | none => exact agree_ok q _
  | some pos =>
    have hb := findTopLevel_bound '*' term 0 0 pos hf
    have hne : term ≠ [] := by intro e; subst e; simp at hb
    dsimp only []
    refine agree_bind q (agree_of_ne_fuel q _ (substr_ne_fuel _ _)) (fun rTerm hr => ?_)
    obtain ⟨_, rfl⟩ := substr_ok _ _ _ hr
    split
    · exact agree_pure q _
    · refine agree_bind q (h _ _ (recArg_take term v pos (by omega))) (fun dL _ => ?_)
      refine agree_bind q (h _ _ (recArg_drop term v (pos + 1) (by omega) hne)) (fun dR _ => ?_)
      dsimp only []
      repeat' first | exact agree_pure q _ | split

theorem ProcessQuotientRule_agree (q : Prop)
    (rec1 rec2 : List Char → List Char → Outcome (List Char)) (term v : List Char)
    (h : ∀ sub v2, recArg term v sub v2 → agree q (rec1 sub v2) (rec2 sub v2)) :
    agree q (ProcessQuotientRule rec1 term v) (ProcessQuotientRule rec2 term v) := by
  unfold ProcessQuotientRule
  cases hf : findTopLevel '/' term 0 0 with
  | none => exact agree_ok q _
  | some pos =>
    have hb := findTopLevel_bound '/' term 0 0 pos hf
    have hne : term ≠ [] := by intro e; subst e; simp at hb
    dsimp only []
    refine agree_bind q (agree_of_ne_fuel q _ (substr_ne_fuel _ _)) (fun rTerm hr => ?_)
    obtain ⟨_, rfl⟩ := substr_ok _ _ _ hr
    split
    · exact agree_pure q _
    · split
      · exact agree_thrown q _
      · refine agree_bind q (h _ _ (recArg_take term v pos (by omega))) (fun dL _ => ?_)
        refine agree_bind q (h _ _ (recArg_drop term v (pos + 1) (by omega) hne))
          (fun dR _ => ?_)
        dsimp only []
        repeat' first | exact agree_pure q _ | split

theorem ProcessPowers_agree (q : Prop) (m : CMath)
    (hE : ∀ t, EvalInternal m t 0 = .fuel → q)
    (rec1 rec2 : List Char → List Char → Outcome (List Char)) (term v : List Char)
    (h : ∀ sub v2, recArg term v sub v2 → agree q (rec1 sub v2) (rec2 sub v2)) :
    agree q (ProcessPowers m rec1 term v) (ProcessPowers m rec2 term v) := by
  unfold ProcessPowers
  cases hf : findTopLevel '^' term 0 0 with
  | none => exact agree_ok q _
  | some pos =>
    have hb := findTopLevel_bound '^' term 0 0 pos hf
    have hne : term ≠ [] := by intro e; subst e; simp at hb
    dsimp only []
    refine agree_bind q (agree_of_ne_fuel q _ (substr_ne_fuel _ _)) (fun rTerm hr => ?_)
    obtain ⟨_, rfl⟩ := substr_ok _ _ _ hr
    split
    · exact agree_pure q _
    · refine agree_bind q (h _ _ (recArg_take term v pos (by omega))) (fun dL _ => ?_)
      refine agree_bind q (h _ _ (recArg_drop term v (pos + 1) (by omega) hne)) (fun dR _ => ?_)
      dsimp only []
      repeat' first
        | exact agree_pure q _
        | refine agree_bind q ⟨rfl, hE _⟩ (fun _ _ => ?_)
        | split

theorem recArg_substr (term v fn : List Char) (off : Nat)
    (hr : substr term off = .ok fn) (h : 0 < off) (hne : term ≠ []) : recArg term v fn v := by
  obtain ⟨_, rfl⟩ := substr_ok _ _ _ hr
  exact recArg_drop term v off h hne

theorem ProcessSpecialFunctions_agree (q : Prop)
    (rec1 rec2 : List Char → List Char → Outcome (List Char)) (term v : List Char)
    (h : ∀ sub v2, recArg term v sub v2 → agree q (rec1 sub v2) (rec2 sub v2)) :
    agree q (ProcessSpecialFunctions rec1 term v) (ProcessSpecialFunctions rec2 term v) := by
  unfold ProcessSpecialFunctions
  split
  · rename_i c c2 rest
    dsimp only []
    split <;> split <;> first
      | exact agree_ok q _
      | (refine agree_bind q (agree_of_ne_fuel q _ (substr_ne_fuel _ _)) (fun fn hr => ?_)
         refine agree_bind q (h _ _ (recArg_substr _ v fn _ hr (by split <;> omega)
           (by simp))) (fun d _ => ?_)
         repeat' first | exact agree_pure q _ | split)
  · exact agree_ok q _

theorem nestStep_lt (c : Char) (n : Nat) : nestStep c n < SIZE_MOD ∨ nestStep c n = n := by
  unfold nestStep nestInc nestDec
  split
  · exact Or.inl (Nat.mod_lt _ (by decide))
  · split
    · exact Or.inl (Nat.mod_lt _ (by decide))
    · exact Or.inr rfl

/-- The scan of the chain rule stops at an opening parenthesis: a level of one is first
reached from level zero, unless the text has about `2 ^ 64` closing parentheses. -/
theorem findNestingOne_open : ∀ (s : List Char) (pos n q : Nat),
    findNestingOne s pos n = some q → n < SIZE_MOD → s.count ')' + 2 ≤ SIZE_MOD →
    (n = 0 ∨ s.count ')' + 1 < n) →
    ∃ pre post, s = pre ++ '(' :: post ∧ q = pos + pre.length := by
  intro s
  induction s with
  | nil => intro pos n q h; simp [findNestingOne] at h
  | cons c rest ih =>
    intro pos n q h hn hb hinv
    have hS2 : 2 < SIZE_MOD := by decide
    rw [findNestingOne] at h
    by_cases hc1 : c = '('
    · subst hc1
      have hcount : List.count ')' ('(' :: rest) = List.count ')' rest :=
        List.count_cons_of_ne (by decide) rest
      rw [hcount] at hb hinv
      rcases hinv with h0 | hlarge
      · subst h0
        rw [nestStep_open_zero] at h
        simp only [if_true, Option.some.injEq] at h
        exact ⟨[], rest, rfl, by simp; omega⟩
      · have hs : nestStep '(' n = (n + 1) % SIZE_MOD := by simp [nestStep, nestInc]
        rw [hs] at h
        have h1 : (n + 1) % SIZE_MOD ≠ 1 := by
          by_cases hw : n + 1 = SIZE_MOD
          · rw [hw, Nat.mod_self]; omega
          · rw [Nat.mod_eq_of_lt (by omega)]; omega
        simp only [h1, if_false] at h
        obtain ⟨pre, post, e1, e2⟩ := ih _ _ _ h (Nat.mod_lt _ (by decide)) hb (by
          by_cases hw : n + 1 = SIZE_MOD
          · left; rw [hw, Nat.mod_self]
          · right; rw [Nat.mod_eq_of_lt (by omega)]; omega)
        exact ⟨'(' :: pre, post, by simp [e1], by simp [e2]; omega⟩
    · by_cases hc2 : c = ')'
      · subst hc2
        have hcount : List.count ')' (')' :: rest) = List.count ')' rest + 1 :=
          List.count_cons_self _ _
        rw [hcount] at hb hinv
        have hs : nestStep ')' n = (n + SIZE_MOD - 1) % SIZE_MOD := by
          simp [nestStep, nestDec]
        rw [hs] at h
        have hval : (n + SIZE_MOD - 1) % SIZE_MOD = if n = 0 then SIZE_MOD - 1 else n - 1 := by
          split
          · rename_i h0; subst h0
            rw [Nat.zero_add, Nat.mod_eq_of_lt (by omega)]
          · have : n + SIZE_MOD - 1 = (n - 1) + SIZE_MOD := by omega
            rw [this, Nat.add_mod_right, Nat.mod_eq_of_lt (by omega)]
        rw [hval] at h
        have h1 : (if n = 0 then SIZE_MOD - 1 else n - 1) ≠ 1 := by
          split
          · omega
          · rcases hinv with h0 | hl
            · omega
            · omega
        simp only [h1, if_false] at h
        obtain ⟨pre, post, e1, e2⟩ := ih _ _ _ h (by split <;> omega) (by omega) (by
          right
          split
          · omega
          · rcases hinv with h0 | hl
            · omega
            · omega)
        exact ⟨')' :: pre, post, by simp [e1], by simp [e2]; omega⟩
      · have hs : nestStep c n = n := nestStep_plain c n hc1 hc2
        have hcount : List.count ')' (c :: rest) = List.count ')' rest :=
          List.count_cons_of_ne (fun e => hc2 e.symm) rest
        rw [hcount] at hb hinv
        rw [hs] at h
        have h1 : n ≠ 1 := by
          rcases hinv with h0 | hl
          · omega
          · omega
        simp only [h1, if_false] at h
        obtain ⟨pre, post, e1, e2⟩ := ih _ _ _ h hn hb hinv
        exact ⟨c :: pre, post, by simp [e1], by simp [e2]; omega⟩

/-- The text read by `GetSubExpression` is a prefix of what follows the parenthesis. -/
theorem GetSubExpressionLoop_prefix_of : ∀ (s : List Char) (n pos : Nat) (acc : List Char),
    ∃ a b, s = a ++ b ∧ (GetSubExpressionLoop s n pos acc).1 = acc ++ a := by
  intro s
  induction s with
  | nil => intro n pos acc; exact ⟨[], [], rfl, by simp [GetSubExpressionLoop]⟩
  | cons c rest ih =>
    intro n pos acc
    rw [GetSubExpressionLoop]
    split
    · exact ⟨[], c :: rest, rfl, by simp⟩
    · obtain ⟨a, b, e1, e2⟩ := ih (nestStep c n) (pos + 1) (acc ++ [c])
      exact ⟨c :: a, b, by simp [e1], by simp [e2]⟩

theorem ProcessChainRule_agree (q : Prop)
    (rec1 rec2 : List Char → List Char → Outcome (List Char)) (term v : List Char)
    (hv1 : '(' ∉ v) (hv2 : ')' ∉ v) (hb : term.count ')' + 2 ≤ SIZE_MOD)
    (h : ∀ sub v2, recArg term v sub v2 → agree q (rec1 sub v2) (rec2 sub v2)) :
    agree q (ProcessChainRule rec1 term v) (ProcessChainRule rec2 term v) := by
  unfold ProcessChainRule
  cases hf : findNestingOne term 0 0 with
  | none => exact agree_ok q _
  | some pos =>
    obtain ⟨pre, post, e1, e2⟩ := findNestingOne_open term 0 0 pos hf (by decide) hb
      (Or.inl rfl)
    rw [Nat.zero_add] at e2
    have hdrop : term.drop (pos + 1) = post := by
      rw [e1, e2, show pre ++ '(' :: post = (pre ++ ['(']) ++ post by simp,
        show pre.length + 1 = (pre ++ ['(']).length by simp, List.drop_left]
    obtain ⟨a, b, e3, e4⟩ := GetSubExpressionLoop_prefix_of post 1 (pos + 1) []
    rw [List.nil_append] at e4
    have hsub : (GetSubExpression term (pos + 1)).1 = a := by
      rw [GetSubExpression, hdrop, e4]
    have hlen : term.length = pre.length + 1 + a.length + b.length := by
      rw [e1, e3]; simp; omega
    have hc1 : term.count '(' = pre.count '(' + 1 + a.count '(' + b.count '(' := by
      rw [e1, e3]; simp [List.count_append, List.count_cons]; omega
    have hc2 : term.count ')' = pre.count ')' + a.count ')' + b.count ')' := by
      rw [e1, e3]; simp [List.count_append, List.count_cons]; omega
    have hr1 : recArg term v a v := Or.inl ⟨rfl, by omega, by omega, by omega⟩
    dsimp only []
    rw [hsub]
    refine agree_bind q (h _ _ hr1) (fun dSub _ => ?_)
    refine agree_bind q (agree_of_ne_fuel q _ (replace_ne_fuel _ _ _ _)) (fun st hst => ?_)
    obtain ⟨_, rfl⟩ := replace_ok _ _ _ _ _ hst
    have htake : term.take pos = pre := by rw [e1, e2, List.take_left]
    have hdrop2 : term.drop (pos + (['('] ++ a ++ [')']).length) =
        (a ++ b).drop (a.length + 1) := by
      rw [e1, e2, e3]
      have : pre ++ '(' :: (a ++ b) = (pre ++ ['(']) ++ (a ++ b) := by simp
      rw [this, show pre.length + (['('] ++ a ++ [')']).length =
        (pre ++ ['(']).length + (a.length + 1) by simp; omega, ← List.drop_drop,
        List.drop_left]
    have hsl : ((a ++ b).drop (a.length + 1)).Sublist b := by
      rw [show a.length + 1 = a.length + 1 from rfl, ← List.drop_drop,
        List.drop_left]
      exact List.drop_sublist _ _
    have hv1c : List.count '(' (v ++ [Char.ofNat 39]) = 0 := by
      rw [List.count_eq_zero]
      intro hm
      rcases List.mem_append.1 hm with hm | hm
      · exact hv1 hm
      · simp at hm
    have hv2c : List.count ')' (v ++ [Char.ofNat 39]) = 0 := by
      rw [List.count_eq_zero]
      intro hm
      rcases List.mem_append.1 hm with hm | hm
      · exact hv2 hm
      · simp at hm
    have hr2 : recArg term v
        (term.take pos ++ (v ++ [Char.ofNat 39]) ++
          term.drop (pos + (['('] ++ a ++ [')']).length)) (v ++ [Char.ofNat 39]) := by
      rw [htake, hdrop2]
      refine Or.inr ⟨rfl, ?_, ?_, ?_⟩
      · have := hsl.count_le '('
        simp only [List.count_append, hv1c]; omega
      · have := hsl.length_le
        simp only [List.length_append, List.length_singleton]; omega
      · have := hsl.count_le ')'
        simp only [List.count_append, hv2c]; omega
    refine agree_bind q (h _ _ hr2) (fun dSt _ => ?_)
    repeat' first | exact agree_pure q _ | split

/-- An argument of a recursive call is smaller in the order of the specification. -/
theorem recArg_lexSmaller (term v sub v2 : List Char) (h : recArg term v sub v2) :
    lexSmaller sub term := by
  rcases h with ⟨_, h1, h2, _⟩ | ⟨_, h1, _, _⟩
  · rcases Nat.lt_or_eq_of_le h2 with h3 | h3
    · exact Or.inl h3
    · exact Or.inr ⟨h3, h1⟩
  · exact Or.inl h1

/-- An argument of a recursive call has a smaller depth bound. -/
theorem recArg_depth (term v sub v2 : List Char) (h : recArg term v sub v2) :
    derivativeDepth sub v2 < derivativeDepth term v := by
  unfold derivativeDepth
  rcases h with ⟨rfl, h1, h2, _⟩ | ⟨rfl, h1, h2, _⟩
  · have := Nat.mul_le_mul h2 (Nat.add_le_add_left h2 v2.length)
    omega
  · obtain ⟨P, hP⟩ : ∃ P, List.count '(' term = P + 1 := ⟨List.count '(' term - 1, by omega⟩
    have hle : List.count '(' sub ≤ P := by omega
    have hm := Nat.mul_le_mul hle
      (show v.length + 1 + List.count '(' sub ≤ v.length + P + 1 by omega)
    have hexp : (P + 1) * (v.length + (P + 1)) = P * (v.length + P + 1) + (v.length + P + 1) := by
      ring
    rw [hP, hexp, List.length_append, List.length_singleton]
    omega

theorem recArg_count (term v sub v2 : List Char) (h : recArg term v sub v2) :
    sub.count ')' ≤ term.count ')' := by
  rcases h with ⟨_, _, _, h1⟩ | ⟨_, _, _, h1⟩ <;> exact h1

theorem recArg_var (term v sub v2 : List Char) (h : recArg term v sub v2)
    (hv1 : '(' ∉ v) (hv2 : ')' ∉ v) : '(' ∉ v2 ∧ ')' ∉ v2 := by
  rcases h with ⟨rfl, _⟩ | ⟨rfl, _⟩
  · exact ⟨hv1, hv2⟩
  · constructor
    · intro hm
      rcases List.mem_append.1 hm with hm | hm
      · exact hv1 hm
      · simp at hm
    · intro hm
      rcases List.mem_append.1 hm with hm | hm
      · exact hv2 hm
      · simp at hm

/-- Every term of the decomposition is made of characters of the text, in their order. -/
theorem BreakUpTermsLoop_sublist : ∀ (cs cur : List Char) (op : InterTermOperator)
    (lastC : Char) (isFirst : Bool) (nl : Nat),
    ∀ p ∈ BreakUpTermsLoop cs cur op lastC isFirst nl, p.2.Sublist (cur ++ cs) := by
  intro cs
  induction cs with
  | nil =>
    intro cur op lastC isFirst nl p hp
    rw [BreakUpTermsLoop] at hp
    split at hp
    · simp at hp; subst hp; simp
    · simp at hp
  | cons c rest ih =>
    intro cur op lastC isFirst nl p hp
    rw [BreakUpTermsLoop] at hp
    split at hp
    · rcases List.mem_cons.1 hp with e | hm
      · subst e; simp
      · have := ih [] _ _ _ _ p hm
        simp only [List.nil_append] at this
        exact this.trans ((List.sublist_cons_self c rest).trans (List.sublist_append_right _ _))
    · have := ih (cur ++ [c]) _ _ _ _ p hp
      simpa using this

theorem BreakUpTerms_sublist (expr : List Char) :
    ∀ p ∈ BreakUpTerms expr, p.2.Sublist expr := by
  intro p hp
  have := BreakUpTermsLoop_sublist expr [] _ _ _ _ p hp
  simpa using this

theorem ProcessTerm_agree (q : Prop) (m : CMath) (hE : ∀ t, EvalInternal m t 0 = .fuel → q)
    (rec1 rec2 : List Char → List Char → Outcome (List Char)) (term v : List Char)
    (hv1 : '(' ∉ v) (hv2 : ')' ∉ v) (hb : term.count ')' + 2 ≤ SIZE_MOD)
    (h : ∀ sub v2, recArg term v sub v2 → agree q (rec1 sub v2) (rec2 sub v2)) :
    agree q (ProcessTerm m rec1 term v) (ProcessTerm m rec2 term v) := by
  unfold ProcessTerm
  split
  · exact agree_ok q _
  split
  · exact agree_ok q _
  split
  · exact agree_ok q _
  refine agree_bind q (ProcessProductRule_agree q rec1 rec2 term v h) (fun r1 _ => ?_)
  split
  · exact agree_pure q _
  refine agree_bind q (ProcessQuotientRule_agree q rec1 rec2 term v h) (fun r2 _ => ?_)
  split
  · exact agree_pure q _
  refine agree_bind q (ProcessPowers_agree q m hE rec1 rec2 term v h) (fun r3 _ => ?_)
  split
  · exact agree_pure q _
  refine agree_bind q (ProcessSpecialFunctions_agree q rec1 rec2 term v h) (fun r4 _ => ?_)
  split
  · exact agree_pure q _
  refine agree_bind q (ProcessChainRule_agree q rec1 rec2 term v hv1 hv2 hb h) (fun r5 _ => ?_)
  split
  · exact agree_pure q _
  · exact agree_thrown q _

theorem ProcessDerivatives_agree (q : Prop) (m : CMath)
    (hE : ∀ t, EvalInternal m t 0 = .fuel → q)
    (rec1 rec2 : List Char → List Char → Outcome (List Char)) (v : List Char)
    (hv1 : '(' ∉ v) (hv2 : ')' ∉ v) :
    ∀ items : List (InterTermOperator × List Char),
      (∀ p ∈ items, p.2.count ')' + 2 ≤ SIZE_MOD ∧
        ∀ sub v2, recArg p.2 v sub v2 → agree q (rec1 sub v2) (rec2 sub v2)) →
      agree q (ProcessDerivatives m rec1 items v) (ProcessDerivatives m rec2 items v) := by
  intro items
  induction items with
  | nil => intro _; exact agree_ok q _
  | cons p rest ih =>
    intro h
    obtain ⟨op, term⟩ := p
    rw [ProcessDerivatives, ProcessDerivatives]
    have hp := h (op, term) (List.mem_cons_self _ _)
    refine agree_bind q (ProcessTerm_agree q m hE rec1 rec2 term v hv1 hv2 hp.1 hp.2)
      (fun d _ => ?_)
    refine agree_bind q (ih (fun p2 hp2 => h p2 (List.mem_cons_of_mem _ hp2))) (fun ds _ => ?_)
    exact agree_pure q _

/-- Once the depth bound is reached, one more level of depth changes nothing, and the
result is an exhausted budget only if an evaluation of an exponent (`q`) was one. -/
theorem FindDerivativeInternalF_agree (q : Prop) (m : CMath)
    (hE : ∀ t, EvalInternal m t 0 = .fuel → q) :
    ∀ (depth : Nat) (expr v : List Char), '(' ∉ v → ')' ∉ v →
      expr.count ')' + 2 ≤ SIZE_MOD → derivativeDepth expr v ≤ depth →
      agree q (FindDerivativeInternalF m depth expr v)
        (FindDerivativeInternalF m (depth + 1) expr v) := by
  intro depth
  induction depth with
  | zero =>
    intro expr v _ _ _ hd
    simp [derivativeDepth] at hd
  | succ k ih =>
    intro expr v hv1 hv2 hb hd
    rw [FindDerivativeInternalF, FindDerivativeInternalF]
    refine agree_bind q (ProcessDerivatives_agree q m hE _ _ v hv1 hv2 _ ?_) (fun ds _ =>
      agree_pure q _)
    intro p hp
    have hsl := BreakUpTerms_sublist expr p hp
    have hcnt : p.2.count ')' ≤ expr.count ')' := hsl.count_le _
    have hdp : derivativeDepth p.2 v ≤ derivativeDepth expr v := by
      unfold derivativeDepth
      have h1 := hsl.length_le
      have h2 : p.2.count '(' ≤ expr.count '(' := hsl.count_le _
      have := Nat.mul_le_mul h2 (Nat.add_le_add_left h2 v.length)
      omega
    refine ⟨by omega, fun sub v2 hr => ?_⟩
    obtain ⟨g1, g2⟩ := recArg_var _ _ _ _ hr hv1 hv2
    have h3 := recArg_depth _ _ _ _ hr
    have h4 := recArg_count _ _ _ _ hr
    exact ih sub v2 g1 g2 (by omega) (by omega)

/-! ## The evaluator ends within its budgets -/

theorem ne_fuel_bind {α β : Type} (r : Outcome α) (k : α → Outcome β) (hr : r ≠ .fuel)
    (hk : ∀ a, r = .ok a → k a ≠ .fuel) : (r >>= k) ≠ .fuel := by
  cases r with
  | ok a => exact hk a rfl
  | thrown e => intro e2; cases e2
  | undefined => intro e2; cases e2
  | unmodelled => intro e2; cases e2
  | fuel => exact absurd rfl hr

theorem ok_ne_fuel {α : Type} (a : α) : (Outcome.ok a) ≠ .fuel := by intro e; cases e

theorem pure_ne_fuel {α : Type} (a : α) : (pure a : Outcome α) ≠ .fuel := by intro e; cases e

theorem charAt_ne_fuel (expr : List Char) (i : Nat) : charAt expr i ≠ .fuel := by
  unfold charAt; split
  · exact ok_ne_fuel _
  · split
    · exact ok_ne_fuel _
    · intro e; cases e

theorem stodUnsigned_ne_fuel (s : List Char) : stodUnsigned s ≠ .fuel := by
  unfold stodUnsigned
  dsimp only []
  split
  · intro e; cases e
  · split
    · intro e; cases e
    · exact ok_ne_fuel _

theorem stod_ne_fuel (s : List Char) : stod s ≠ .fuel := by
  unfold stod
  split
  · exact ne_fuel_bind _ _ (stodUnsigned_ne_fuel _) (fun _ _ => pure_ne_fuel _)
  · exact stodUnsigned_ne_fuel _
  · exact stodUnsigned_ne_fuel _

theorem finite_ne_fuel {α : Type} (o : Option α) : finite o ≠ .fuel := by
  unfold finite; split <;> (intro e; cases e)

theorem GetValueToRightLoop_ne_fuel (m : CMath) (x : ℚ) :
    ∀ (s : List Char) (pos : Nat) (rv : List Char),
      GetValueToRightLoop m x s pos rv ≠ .fuel := by
  intro s
  induction s with
  | nil =>
    intro pos rv
    rw [GetValueToRightLoop]
    exact ne_fuel_bind _ _ (stod_ne_fuel _) (fun _ _ => pure_ne_fuel _)
  | cons c rest ih =>
    intro pos rv
    rw [GetValueToRightLoop]
    repeat' first
      | exact ok_ne_fuel _
      | exact pure_ne_fuel _
      | exact ih _ _
      | exact ne_fuel_bind _ _ (stod_ne_fuel _) (fun _ _ => pure_ne_fuel _)
      | split

/-- The end position reported by the right reader is not before the character in
front of its start. -/
theorem GetValueToRightLoop_end (m : CMath) (x : ℚ) :
    ∀ (s : List Char) (pos : Nat) (rv : List Char) (v : ℚ) (e : Nat),
      GetValueToRightLoop m x s pos rv = .ok (v, e) → pos ≤ e + 1 := by
  have hsub : ∀ pos : Nat, pos ≤ subSz pos 1 + 1 := by
    intro pos; unfold subSz; split <;> omega
  have hstod : ∀ (rv : List Char) (pos : Nat) (v : ℚ) (e : Nat),
      (stod rv >>= fun w => (pure (w, subSz pos 1) : Outcome (ℚ × Nat))) = .ok (v, e) →
      pos ≤ e + 1 := by
    intro rv pos v e h
    cases hs : stod rv with
    | ok w =>
      rw [hs] at h
      have : (w, subSz pos 1) = (v, e) := by
        have h2 : (Outcome.ok (w, subSz pos 1) : Outcome (ℚ × Nat)) = .ok (v, e) := h
        cases h2; rfl
      cases this
      exact hsub pos
    | thrown _ => rw [hs] at h; cases h
    | undefined => rw [hs] at h; cases h
    | unmodelled => rw [hs] at h; cases h
    | fuel => rw [hs] at h; cases h
  intro s
  induction s with
  | nil =>
    intro pos rv v e h
    rw [GetValueToRightLoop] at h
    exact hstod rv pos v e h
  | cons c rest ih =>
    intro pos rv v e h
    rw [GetValueToRightLoop] at h
    split at h
    · split at h
      · cases hs : stod rv with
        | ok w =>
          rw [hs] at h
          have h2 : (Outcome.ok (w * x, pos) : Outcome (ℚ × Nat)) = .ok (v, e) := h
          cases h2; omega
        | thrown _ => rw [hs] at h; cases h
        | undefined => rw [hs] at h; cases h
        | unmodelled => rw [hs] at h; cases h
        | fuel => rw [hs] at h; cases h
      · cases h; omega
    · split at h
      · cases h; omega
      · split at h
        · have := ih _ _ _ _ h; omega
        · split at h
          · exact hstod rv pos v e h
          · have := ih _ _ _ _ h; omega

theorem GetValueToRight_ne_fuel (m : CMath) (expr : List Char) (sp : Nat) (x : ℚ) :
    GetValueToRight m expr sp x ≠ .fuel := GetValueToRightLoop_ne_fuel m x _ _ _

theorem GetValueToRight_end (m : CMath) (expr : List Char) (sp : Nat) (x v : ℚ) (e : Nat)
    (h : GetValueToRight m expr sp x = .ok (v, e)) : sp ≤ e + 1 :=
  GetValueToRightLoop_end m x _ _ _ _ _ h

theorem GetValueToLeftBody_ne_fuel (m : CMath) (x : ℚ) (expr : List Char) (pos : Nat)
    (rv : List Char) (next : List Char → Outcome (ℚ × Nat))
    (hnext : pos ≠ 0 → ∀ r, next r ≠ .fuel) :
    GetValueToLeftBody m x expr pos rv next ≠ .fuel := by
  unfold GetValueToLeftBody
  refine ne_fuel_bind _ _ (charAt_ne_fuel _ _) (fun c _ => ?_)
  dsimp only []
  by_cases h0 : pos = 0
  · subst h0
    rw [if_pos (by simp)]
    refine ne_fuel_bind _ _ (pure_ne_fuel _) (fun nextVal _ => ?_)
    repeat' first
      | exact ok_ne_fuel _
      | exact pure_ne_fuel _
      | exact ne_fuel_bind _ _ (stod_ne_fuel _) (fun _ _ => pure_ne_fuel _)
      | split
  · rw [if_neg (by simp [h0])]
    refine ne_fuel_bind _ _ (charAt_ne_fuel _ _) (fun nextVal _ => ?_)
    repeat' first
      | exact ok_ne_fuel _
      | exact pure_ne_fuel _
      | exact hnext h0 _
      | exact ne_fuel_bind _ _ (stod_ne_fuel _) (fun _ _ => pure_ne_fuel _)
      | split

theorem GetValueToLeft_ne_fuel (m : CMath) (expr : List Char) (p : Nat) (x : ℚ) :
    GetValueToLeft m expr p x ≠ .fuel := by
  unfold GetValueToLeft
  generalize ([] : List Char) = rv
  induction p generalizing rv with
  | zero =>
    rw [GetValueToLeftLoop]
    exact GetValueToLeftBody_ne_fuel m x expr 0 rv _ (fun h => absurd rfl h)
  | succ n ih =>
    rw [GetValueToLeftLoop]
    exact GetValueToLeftBody_ne_fuel m x expr (n + 1) rv _ (fun _ r => ih r)

theorem subSz_add_ge (a b : Nat) : a ≤ b + subSz a b := by
  unfold subSz; split <;> omega

/-- The length of a text after a splice that ends at or after the position `e`. -/
theorem replace_length (expr : List Char) (start k : Nat) (S expr2 : List Char)
    (h : replace expr start k S = .ok expr2) :
    expr2.length = start + S.length + (expr.length - (start + k)) := by
  obtain ⟨h1, rfl⟩ := replace_ok _ _ _ _ _ h
  simp only [List.length_append, List.length_take, List.length_drop]
  omega

theorem EvalAdditionLoop_ne_fuel (m : CMath) (x : ℚ) :
    ∀ (fuel : Nat) (expr : List Char) (pos : Nat), expr.length ≤ pos + fuel →
      EvalAdditionLoop m x fuel expr pos ≠ .fuel := by
  intro fuel
  induction fuel with
  | zero =>
    intro expr pos h
    rw [EvalAdditionLoop, if_neg (by omega)]
    exact ok_ne_fuel _
  | succ n ih =>
    intro expr pos h
    rw [EvalAdditionLoop]
    split
    · refine ne_fuel_bind _ _ (charAt_ne_fuel _ _) (fun c _ => ?_)
      split
      · refine ne_fuel_bind _ _ (GetValueToLeft_ne_fuel _ _ _ _) (fun l _ => ?_)
        obtain ⟨vl, start⟩ := l
        refine ne_fuel_bind _ _ (GetValueToRight_ne_fuel _ _ _ _) (fun r hr => ?_)
        obtain ⟨vr, e⟩ := r
        have he := GetValueToRight_end m expr (pos + 1) x vr e hr
        dsimp only []
        refine ne_fuel_bind _ _ (replace_ne_fuel _ _ _ _) (fun expr2 h2 => ?_)
        have hlen := replace_length _ _ _ _ _ h2
        have hS := to_string_length_pos
          (if c = '+' then vl + vr else vl - vr)
        have hge := subSz_add_ge e start
        have hp : subSz (start + (to_string (if c = '+' then vl + vr else vl - vr)).length) 1
            = start + (to_string (if c = '+' then vl + vr else vl - vr)).length - 1 := by
          unfold subSz; rw [if_pos (by omega)]
        apply ih
        rw [hlen, hp]
        omega
      · exact ih _ _ (by omega)
    · exact ok_ne_fuel _

theorem EvalPowersLoop_ne_fuel (m : CMath) (x : ℚ) :
    ∀ (fuel : Nat) (expr : List Char) (pos : Nat), expr.length ≤ pos + fuel →
      EvalPowersLoop m x fuel expr pos ≠ .fuel := by
  intro fuel
  induction fuel with
  | zero =>
    intro expr pos h
    rw [EvalPowersLoop, if_neg (by omega)]
    exact ok_ne_fuel _
  | succ n ih =>
    intro expr pos h
    rw [EvalPowersLoop]
    split
    · refine ne_fuel_bind _ _ (charAt_ne_fuel _ _) (fun c _ => ?_)
      split
      · refine ne_fuel_bind _ _ (GetValueToLeft_ne_fuel _ _ _ _) (fun l _ => ?_)
        obtain ⟨vl, start⟩ := l
        refine ne_fuel_bind _ _ (GetValueToRight_ne_fuel _ _ _ _) (fun r hr => ?_)
        obtain ⟨vr, e⟩ := r
        have he := GetValueToRight_end m expr (pos + 1) x vr e hr
        dsimp only []
        refine ne_fuel_bind _ _ (finite_ne_fuel _) (fun ev _ => ?_)
        refine ne_fuel_bind _ _ (replace_ne_fuel _ _ _ _) (fun expr2 h2 => ?_)
        have hlen := replace_length _ _ _ _ _ h2
        have hS := to_string_length_pos ev
        have hge := subSz_add_ge e start
        have hp : subSz (start + (to_string ev).length) 1
            = start + (to_string ev).length - 1 := by
          unfold subSz; rw [if_pos (by omega)]
        apply ih
        rw [hlen, hp]
        omega
      · exact ih _ _ (by omega)
    · exact ok_ne_fuel _

theorem find_bound (pat : List Char) : ∀ (s : List Char) (i : Nat),
    find pat s = some i → i + pat.length ≤ s.length := by
  intro s
  induction s with
  | nil =>
    intro i h
    rw [find] at h
    split at h
    · cases h
      rename_i hp
      simp [List.isEmpty_iff] at hp
      simp [hp]
    · cases h
  | cons c cs ih =>
    intro i h
    rw [find] at h
    split at h
    · cases h
      rename_i hp
      have := (List.isPrefixOf_iff_prefix.1 hp).length_le
      omega
    · cases hf : find pat cs with
      | none => rw [hf] at h; cases h
      | some k =>
        rw [hf] at h
        simp only [Option.map_some', Option.some.injEq] at h
        have := ih k hf
        simp only [List.length_cons]
        omega

theorem normalizeSigns_ne_fuel (expr : List Char) : normalizeSigns expr ≠ .fuel := by
  unfold normalizeSigns
  dsimp only []
  cases find ['+', '-'] expr with
  | none =>
    refine ne_fuel_bind _ _ (pure_ne_fuel _) (fun y _ => ?_)
    split
    · exact replace_ne_fuel _ _ _ _
    · exact pure_ne_fuel _
  | some pos =>
    refine ne_fuel_bind _ _ (replace_ne_fuel _ _ _ _) (fun y _ => ?_)
    split
    · exact replace_ne_fuel _ _ _ _
    · exact pure_ne_fuel _

theorem replace_find_length (pat : List Char) (c : Char) (s s2 : List Char)
    (hp : pat.length = 2)
    (h : (match find pat s with
      | some pos => replace s pos 2 [c]
      | none => (pure s : Outcome (List Char))) = .ok s2) : s2.length ≤ s.length := by
  cases hf : find pat s with
  | none =>
    rw [hf] at h
    have h2 : (Outcome.ok s : Outcome (List Char)) = .ok s2 := h
    cases h2; exact le_refl _
  | some pos =>
    rw [hf] at h
    have hb := find_bound pat s pos hf
    have := replace_length _ _ _ _ _ h
    simp only [List.length_singleton] at this
    omega

theorem normalizeSigns_length (expr expr3 : List Char) (h : normalizeSigns expr = .ok expr3) :
    expr3.length ≤ expr.length := by
  unfold normalizeSigns at h
  dsimp only [] at h
  cases hf : find ['+', '-'] expr with
  | none =>
    rw [hf] at h
    exact replace_find_length ['-', '-'] '+' expr expr3 rfl h
  | some pos =>
    rw [hf] at h
    dsimp only [] at h
    cases hr : replace expr pos 2 ['-'] with
    | ok e1 =>
      rw [hr] at h
      have hb := find_bound _ _ _ hf
      have h1 := replace_length _ _ _ _ _ hr
      have h2 := replace_find_length ['-', '-'] '+' e1 expr3 rfl h
      simp only [List.length_singleton, List.length_cons, List.length_nil] at h1 hb
      omega
    | thrown _ => rw [hr] at h; cases h
    | undefined => rw [hr] at h; cases h
    | unmodelled => rw [hr] at h; cases h
    | fuel => rw [hr] at h; cases h

theorem EvalMultiplcationLoop_ne_fuel (m : CMath) (x : ℚ) :
    ∀ (fuel : Nat) (expr : List Char) (pos : Nat), expr.length ≤ pos + fuel →
      EvalMultiplcationLoop m x fuel expr pos ≠ .fuel := by
  intro fuel
  induction fuel with
  | zero =>
    intro expr pos h
    rw [EvalMultiplcationLoop, if_neg (by omega)]
    exact ok_ne_fuel _
  | succ n ih =>
    intro expr pos h
    rw [EvalMultiplcationLoop]
    split
    · refine ne_fuel_bind _ _ (charAt_ne_fuel _ _) (fun c _ => ?_)
      split
      · refine ne_fuel_bind _ _ (GetValueToLeft_ne_fuel _ _ _ _) (fun l _ => ?_)
        obtain ⟨vl, start⟩ := l
        refine ne_fuel_bind _ _ (GetValueToRight_ne_fuel _ _ _ _) (fun r hr => ?_)
        obtain ⟨vr, e⟩ := r
        have he := GetValueToRight_end m expr (pos + 1) x vr e hr
        dsimp only []
        have tail : ∀ ev : ℚ,
            (replace expr start (subSz e start + 1) (to_string ev) >>= fun expr2 =>
              normalizeSigns expr2 >>= fun expr3 =>
              EvalMultiplcationLoop m x n expr3 (subSz (start + (to_string ev).length) 1 + 1))
            ≠ .fuel := by
          intro ev
          refine ne_fuel_bind _ _ (replace_ne_fuel _ _ _ _) (fun expr2 h2 => ?_)
          refine ne_fuel_bind _ _ (normalizeSigns_ne_fuel _) (fun expr3 h3 => ?_)
          have hlen := replace_length _ _ _ _ _ h2
          have hl3 := normalizeSigns_length _ _ h3
          have hS := to_string_length_pos ev
          have hge := subSz_add_ge e start
          have hp : subSz (start + (to_string ev).length) 1
              = start + (to_string ev).length - 1 := by
            unfold subSz; rw [if_pos (by omega)]
          apply ih
          rw [hp]
          omega
        split
        · refine ne_fuel_bind _ _ ?_ (fun ev _ => tail ev)
          split
          · intro e2; cases e2
          · exact pure_ne_fuel _
        · exact ne_fuel_bind _ _ (pure_ne_fuel _) (fun ev _ => tail ev)
      · exact ih _ _ (by omega)
    · exact ok_ne_fuel _

/-- One call of `EvalSpecialFunction` does not end on an exhausted budget, and the
text after the returned position is not longer than the text after the keyword. -/
theorem EvalSpecialFunction_spec (m : CMath) (expr : List Char) (pos sv : Nat)
    (func : ℚ → Outcome ℚ) (x : ℚ) (hf : ∀ v, func v ≠ .fuel) :
    EvalSpecialFunction m expr pos sv func x ≠ .fuel ∧
    ∀ expr2 pos2, EvalSpecialFunction m expr pos sv func x = .ok (expr2, pos2) →
      expr2.length ≤ pos2 + 1 + (expr.length - (pos + 1)) := by
  unfold EvalSpecialFunction
  constructor
  · refine ne_fuel_bind _ _ (GetValueToRight_ne_fuel _ _ _ _) (fun r _ => ?_)
    obtain ⟨v, e⟩ := r
    dsimp only []
    refine ne_fuel_bind _ _ (hf v) (fun ev _ => ?_)
    refine ne_fuel_bind _ _ (replace_ne_fuel _ _ _ _) (fun e2 _ => pure_ne_fuel _)
  · intro expr2 pos2 h
    cases hr : GetValueToRight m expr sv x with
    | ok r =>
      obtain ⟨v, e⟩ := r
      rw [hr] at h
      simp only [bind_ok] at h
      cases hv : func v with
      | ok ev =>
        rw [hv] at h
        simp only [bind_ok] at h
        cases hp : replace expr pos (subSz e pos + 1) (to_string ev) with
        | ok e2 =>
          rw [hp] at h
          simp only [bind_ok, pure_eq_ok] at h
          cases h
          have hlen := replace_length _ _ _ _ _ hp
          have hS := to_string_length_pos ev
          have hq : subSz (pos + (to_string ev).length) 1
              = pos + (to_string ev).length - 1 := by
            unfold subSz; rw [if_pos (by omega)]
          rw [hlen, hq]
          omega
        | thrown _ => rw [hp] at h; cases h
        | undefined => rw [hp] at h; cases h
        | unmodelled => rw [hp] at h; cases h
        | fuel => rw [hp] at h; cases h
      | thrown _ => rw [hv] at h; cases h
      | undefined => rw [hv] at h; cases h
      | unmodelled => rw [hv] at h; cases h
      | fuel => rw [hv] at h; cases h
    | thrown _ => rw [hr] at h; cases h
    | undefined => rw [hr] at h; cases h
    | unmodelled => rw [hr] at h; cases h
    | fuel => rw [hr] at h; cases h

theorem EvalSpecialFunctionsLoop_ne_fuel (m : CMath) (x : ℚ) :
    ∀ (fuel : Nat) (expr : List Char) (pos : Nat), expr.length ≤ pos + fuel →
      EvalSpecialFunctionsLoop m x fuel expr pos ≠ .fuel := by
  intro fuel
  induction fuel with
  | zero =>
    intro expr pos h
    rw [EvalSpecialFunctionsLoop, if_neg (by omega)]
    exact ok_ne_fuel _
  | succ n ih =>
    intro expr pos h
    have hlog : ∀ v, finite (m.log v) ≠ .fuel := fun v => finite_ne_fuel _
    have hnlog : ∀ v, (finite (m.log v) >>= fun r => (pure (-1 * r) : Outcome ℚ)) ≠ .fuel :=
      fun v => ne_fuel_bind _ _ (finite_ne_fuel _) (fun _ _ => pure_ne_fuel _)
    have call : ∀ (sv : Nat) (func : ℚ → Outcome ℚ), (∀ v, func v ≠ .fuel) →
        (EvalSpecialFunction m expr pos sv func x >>= fun r =>
          EvalSpecialFunctionsLoop m x n r.1 (r.2 + 1)) ≠ .fuel := by
      intro sv func hf
      obtain ⟨h1, h2⟩ := EvalSpecialFunction_spec m expr pos sv func x hf
      refine ne_fuel_bind _ _ h1 (fun r hr => ?_)
      obtain ⟨e2, p2⟩ := r
      have := h2 e2 p2 hr
      exact ih _ _ (by simp only []; omega)
    rw [EvalSpecialFunctionsLoop]
    split
    · refine ne_fuel_bind _ _ (charAt_ne_fuel _ _) (fun c _ => ?_)
      refine ne_fuel_bind _ _ (charAt_ne_fuel _ _) (fun nextC _ => ?_)
      dsimp only []
      repeat' first
        | exact call _ _ (fun v => pure_ne_fuel _)
        | exact call _ _ hnlog
        | exact call _ _ hlog
        | exact ih _ _ (by omega)
        | split
    · exact ok_ne_fuel _

theorem EvalSubExpression_spec (ev : List Char → ℚ → Outcome ℚ) (expr : List Char)
    (sp : Nat) (x : ℚ) (hsp : 0 < sp)
    (hev : ∀ sub : List Char, sub.length + sp ≤ expr.length → ev sub x ≠ .fuel) :
    EvalSubExpression ev expr sp x ≠ .fuel ∧
    ∀ expr2 pos2, EvalSubExpression ev expr sp x = .ok (expr2, pos2) →
      expr2.length ≤ pos2 + 1 + (expr.length - sp) := by
  unfold EvalSubExpression
  split
  · rename_i hge
    refine ⟨ok_ne_fuel _, fun expr2 pos2 h => ?_⟩
    cases h
    omega
  · rename_i hlt
    obtain ⟨a, b, e1, e2⟩ := GetSubExpressionLoop_prefix_of (expr.drop sp) 1 sp []
    have hal : a.length ≤ expr.length - sp := by
      have := congrArg List.length e1
      simp only [List.length_drop, List.length_append] at this
      omega
    have hsub : (GetSubExpression expr sp).1 = a := by
      rw [GetSubExpression, e2, List.nil_append]
    have hp : subSz sp 1 = sp - 1 := by unfold subSz; rw [if_pos (by omega)]
    dsimp only []
    rw [hsub, hp]
    constructor
    · refine ne_fuel_bind _ _ (hev a (by omega)) (fun sr _ => ?_)
      exact ne_fuel_bind _ _ (replace_ne_fuel _ _ _ _) (fun _ _ => pure_ne_fuel _)
    · intro expr2 pos2 h
      cases hs : ev a x with
      | ok sr =>
        rw [hs] at h
        simp only [bind_ok] at h
        cases hr : replace expr (sp - 1) (subSz (GetSubExpression expr sp).2 sp + 2)
            (to_string sr) with
        | ok e3 =>
          rw [hr] at h
          simp only [bind_ok, pure_eq_ok] at h
          cases h
          have hlen := replace_length _ _ _ _ _ hr
          rw [hlen]
          omega
        | thrown _ => rw [hr] at h; cases h
        | undefined => rw [hr] at h; cases h
        | unmodelled => rw [hr] at h; cases h
        | fuel => rw [hr] at h; cases h
      | thrown _ => rw [hs] at h; cases h
      | undefined => rw [hs] at h; cases h
      | unmodelled => rw [hs] at h; cases h
      | fuel => rw [hs] at h; cases h

theorem EvalSubExpressionsLoop_ne_fuel (ev : List Char → ℚ → Outcome ℚ) (x : ℚ) :
    ∀ (fuel : Nat) (expr : List Char) (pos : Nat), expr.length ≤ pos + fuel →
      (∀ sub : List Char, sub.length + 1 ≤ fuel → ev sub x ≠ .fuel) →
      EvalSubExpressionsLoop ev x fuel expr pos ≠ .fuel := by
  intro fuel
  induction fuel with
  | zero =>
    intro expr pos h _
    rw [EvalSubExpressionsLoop, if_neg (by omega)]
    exact ok_ne_fuel _
  | succ n ih =>
    intro expr pos h hev
    have hev2 : ∀ sub : List Char, sub.length + 1 ≤ n → ev sub x ≠ .fuel :=
      fun sub hs => hev sub (by omega)
    rw [EvalSubExpressionsLoop]
    split
    · rename_i hlt
      refine ne_fuel_bind _ _ (charAt_ne_fuel _ _) (fun c _ => ?_)
      split
      · obtain ⟨h1, h2⟩ := EvalSubExpression_spec ev expr (pos + 1) x (by omega)
          (fun sub hs => hev sub (by omega))
        refine ne_fuel_bind _ _ h1 (fun r hr => ?_)
        obtain ⟨e2, p2⟩ := r
        have := h2 e2 p2 hr
        exact ih _ _ (by omega) hev2
      · exact ih _ _ (by omega) hev2
    · exact ok_ne_fuel _

/-- The evaluator does not run out of its step budgets: every pass ends within as many
rounds as its text has characters, and a group is shorter than the text around it. -/
theorem EvalInternalF_ne_fuel (m : CMath) (x : ℚ) :
    ∀ (depth : Nat) (expr : List Char), expr.length + 1 ≤ depth →
      EvalInternalF m depth expr x ≠ .fuel := by
  intro depth
  induction depth with
  | zero => intro expr h; omega
  | succ d ih =>
    intro expr h
    rw [EvalInternalF]
    split
    · intro e; cases e
    · split
      · exact ok_ne_fuel _
      · split
        · exact ok_ne_fuel _
        · refine ne_fuel_bind _ _ (EvalSubExpressionsLoop_ne_fuel _ x _ _ _ (by omega)
            (fun sub hs => ih sub (by omega))) (fun e1 _ => ?_)
          refine ne_fuel_bind _ _ (EvalSpecialFunctionsLoop_ne_fuel m x _ _ _ (by omega))
            (fun e2 _ => ?_)
          refine ne_fuel_bind _ _ (EvalPowersLoop_ne_fuel m x _ _ _ (by omega)) (fun e3 _ => ?_)
          refine ne_fuel_bind _ _ (EvalMultiplcationLoop_ne_fuel m x _ _ _ (by omega))
            (fun e4 _ => ?_)
          refine ne_fuel_bind _ _ (EvalAdditionLoop_ne_fuel m x _ _ _ (by omega)) (fun e5 _ => ?_)
          exact stod_ne_fuel _

theorem EvalInternal_ne_fuel (m : CMath) (expr : List Char) (x : ℚ) :
    EvalInternal m expr x ≠ .fuel :=
  EvalInternalF_ne_fuel m x _ expr (le_refl _)

/-! ## Differentiation ends -/

theorem FindDerivativeInternalF_stable (m : CMath) (expr v : List Char)
    (hv1 : '(' ∉ v) (hv2 : ')' ∉ v) (hb : expr.count ')' + 2 ≤ SIZE_MOD) :
    ∀ k, FindDerivativeInternalF m (derivativeDepth expr v + k) expr v =
      FindDerivativeInternal m expr v := by
  intro k
  induction k with
  | zero => rfl
  | succ k ih =>
    have := (FindDerivativeInternalF_agree True m (fun _ _ => trivial)
      (derivativeDepth expr v + k) expr v hv1 hv2 hb (by omega)).1
    rw [← ih, this]
    rfl

/-- C28: differentiation ends on every text. For every text (with fewer than 2^64 - 2
closing parentheses) and every variable name without parentheses,
`FindDerivativeInternal` does not exhaust the bound `derivativeDepth` on the depth of
its recursion: the run ends inside it, with a text, with an error, or with what the
evaluation of an exponent in the power rule ends with; any larger bound gives the same
result; and the result of a term depends on the recursive calls only at texts that are
smaller in the order (number of opening parentheses, then length), the variable being
the same or longer by one character. -/
theorem FindDerivativeInternal_terminates (m : CMath) (expr v : List Char)
    (hv1 : '(' ∉ v) (hv2 : ')' ∉ v) (hb : expr.count ')' + 2 ≤ SIZE_MOD) :
    FindDerivativeInternal m expr v ≠ .fuel ∧
    (∀ depth, derivativeDepth expr v ≤ depth →
      FindDerivativeInternalF m depth expr v = FindDerivativeInternal m expr v) ∧
    (∀ rec1 rec2 : List Char → List Char → Outcome (List Char),
      (∀ sub v2, lexSmaller sub expr → (v2 = v ∨ v2 = v ++ [Char.ofNat 39]) →
        rec1 sub v2 = rec2 sub v2) →
      ProcessTerm m rec1 expr v = ProcessTerm m rec2 expr v) := by
  refine ⟨?_, ?_, ?_⟩
  · exact (FindDerivativeInternalF_agree False m
      (fun t ht => EvalInternal_ne_fuel m t 0 ht) _ expr v hv1 hv2 hb (le_refl _)).2
  · intro depth hd
    obtain ⟨k, rfl⟩ := Nat.exists_eq_add_of_le hd
    exact FindDerivativeInternalF_stable m expr v hv1 hv2 hb k
  · intro rec1 rec2 h
    refine (ProcessTerm_agree True m (fun _ _ => trivial) rec1 rec2 expr v hv1 hv2 hb
      (fun sub v2 hr => ⟨h sub v2 (recArg_lexSmaller _ _ _ _ hr) ?_, fun _ => trivial⟩)).1
    rcases hr with hr | hr
    · exact Or.inl hr.1
    · exact Or.inr hr.1

/-- Witness of C28 on the unbalanced text `sin((x^2)))*`. -/
theorem FindDerivativeInternal_terminates_witness :
    '(' ∉ ['x'] ∧ ')' ∉ ['x'] ∧ "sin((x^2)))*".toList.count ')' + 2 ≤ SIZE_MOD ∧
    FindDerivativeInternal libm "sin((x^2)))*".toList ['x'] ≠ .fuel :=
  ⟨by decide, by decide, by decide,
    (FindDerivativeInternal_terminates libm "sin((x^2)))*".toList ['x'] (by decide) (by decide)
      (by decide)).1⟩

/-! ## Terms and balanced parentheses -/

theorem depthAfter_append : ∀ (s t : List Char) (d : Nat),
    depthAfter d (s ++ t) = (depthAfter d s).bind (fun e => depthAfter e t) := by
  intro s
  induction s with
  | nil => intro t d; rfl
  | cons c cs ih =>
    intro t d
    rw [List.cons_append, depthAfter, depthAfter]
    split
    · exact ih t _
    · split
      · split
        · rfl
        · exact ih t _
      · exact ih t _

theorem depthAfter_snoc (cur : List Char) (c : Char) (d : Nat)
    (h : depthAfter 0 cur = some d) : depthAfter 0 (cur ++ [c]) = depthAfter d [c] := by
  rw [depthAfter_append, h]; rfl

/-- One character of a text that closes all its groups: the counter of the source moves
as the unbounded depth does. -/
theorem depthAfter_step (c : Char) (rest : List Char) (d : Nat)
    (h : depthAfter d (c :: rest) = some 0) (hb : d + (c :: rest).count '(' < SIZE_MOD) :
    depthAfter (nestStep c d) rest = some 0 ∧ depthAfter d [c] = some (nestStep c d) ∧
      nestStep c d + rest.count '(' < SIZE_MOD := by
  have hS2 : 2 < SIZE_MOD := by decide
  rw [depthAfter] at h
  unfold nestStep
  by_cases h1 : c = '('
  · rw [if_pos h1] at h
    rw [h1, List.count_cons_self] at hb
    have e : nestInc d = d + 1 := by
      unfold nestInc; exact Nat.mod_eq_of_lt (by omega)
    rw [if_pos h1, e]
    refine ⟨h, ?_, by omega⟩
    simp [depthAfter, h1]
  · rw [if_neg h1] at h
    rw [List.count_cons_of_ne (Ne.symm h1)] at hb
    by_cases h2 : c = ')'
    · rw [if_pos h2] at h
      by_cases h0 : d = 0
      · rw [if_pos h0] at h; cases h
      · rw [if_neg h0] at h
        have e : nestDec d = d - 1 := by
          unfold nestDec
          have : d + SIZE_MOD - 1 = (d - 1) + SIZE_MOD := by omega
          rw [this, Nat.add_mod_right]
          exact Nat.mod_eq_of_lt (by omega)
        rw [if_neg h1, if_pos h2, e]
        refine ⟨h, ?_, by omega⟩
        simp [depthAfter, h2, h0]
    · rw [if_neg h2] at h
      rw [if_neg h1, if_neg h2]
      refine ⟨h, ?_, by omega⟩
      simp [depthAfter, h1, h2]

theorem split_char (c lastC : Char) (isFirst : Bool) (nl : Nat)
    (h : (decide (nl = 0) && (decide (c = '+') || (decide (c = '-') && decide (lastC ≠ 'E') &&
      !isFirst))) = true) : nl = 0 ∧ (c = '+' ∨ c = '-') := by
  simp only [Bool.and_eq_true, Bool.or_eq_true, decide_eq_true_eq] at h
  refine ⟨h.1, ?_⟩
  rcases h.2 with h1 | h1
  · exact Or.inl h1
  · exact Or.inr h1.1.1

theorem BreakUpTermsLoop_balanced : ∀ (cs cur : List Char) (op : InterTermOperator)
    (lastC : Char) (isFirst : Bool) (d : Nat), depthAfter d cs = some 0 →
    depthAfter 0 cur = some d → d + cs.count '(' < SIZE_MOD →
    ∀ p ∈ BreakUpTermsLoop cs cur op lastC isFirst d, balanced p.2 = true := by
  intro cs
  induction cs with
  | nil =>
    intro cur op lastC isFirst d h1 h2 _ p hp
    rw [depthAfter] at h1
    cases h1
    rw [BreakUpTermsLoop] at hp
    split at hp
    · simp only [List.mem_singleton] at hp
      subst hp
      simp [balanced, h2]
    · cases hp
  | cons c rest ih =>
    intro cur op lastC isFirst d h1 h2 hb p hp
    rw [BreakUpTermsLoop] at hp
    split at hp
    · rename_i hsplit
      obtain ⟨hd, hc⟩ := split_char c lastC isFirst d hsplit
      subst hd
      rcases List.mem_cons.1 hp with e | hp2
      · subst e
        simp [balanced, h2]
      · have hr : depthAfter 0 rest = some 0 := by
          rw [depthAfter] at h1
          rcases hc with hc | hc <;> subst hc <;> simpa using h1
        have hcnt : rest.count '(' ≤ (c :: rest).count '(' :=
          (List.sublist_cons_self c rest).count_le _
        exact ih [] _ c true 0 hr rfl (by omega) p hp2
    · obtain ⟨g1, g2, g3⟩ := depthAfter_step c rest d h1 hb
      exact ih (cur ++ [c]) op c false _ g1 (by rw [depthAfter_snoc cur c d h2, g2]) g3 p hp

theorem BreakUpTermsSplits_depth : ∀ (cs done : List Char) (lastC : Char) (isFirst : Bool)
    (d : Nat), depthAfter d cs = some 0 → depthAfter 0 done = some d →
    d + cs.count '(' < SIZE_MOD →
    ∀ p ∈ BreakUpTermsSplits cs lastC isFirst d done.length,
      ∃ pre post c, done ++ cs = pre ++ c :: post ∧ pre.length = p ∧ (c = '+' ∨ c = '-') ∧
        balanced pre = true := by
  intro cs
  induction cs with
  | nil =>
    intro done lastC isFirst d _ _ _ p hp
    rw [BreakUpTermsSplits] at hp
    cases hp
  | cons c rest ih =>
    intro done lastC isFirst d h1 h2 hb p hp
    have hlen : (done ++ [c]).length = done.length + 1 := by simp
    have happ : done ++ c :: rest = (done ++ [c]) ++ rest := by simp
    rw [BreakUpTermsSplits] at hp
    split at hp
    · rename_i hsplit
      obtain ⟨hd, hc⟩ := split_char c lastC isFirst d hsplit
      subst hd
      rcases List.mem_cons.1 hp with e | hp2
      · subst e
        exact ⟨done, rest, c, rfl, rfl, hc, by simp [balanced, h2]⟩
      · have hr : depthAfter 0 rest = some 0 := by
          rw [depthAfter] at h1
          rcases hc with hc | hc <;> subst hc <;> simpa using h1
        have hdone : depthAfter 0 (done ++ [c]) = some 0 := by
          rw [depthAfter_snoc done c 0 h2]
          rcases hc with hc | hc <;> subst hc <;> rfl
        have hcnt : rest.count '(' ≤ (c :: rest).count '(' :=
          (List.sublist_cons_self c rest).count_le _
        rw [← hlen] at hp2
        rw [happ]
        exact ih (done ++ [c]) c true 0 hr hdone (by omega) p hp2
    · obtain ⟨g1, g2, g3⟩ := depthAfter_step c rest d h1 hb
      rw [← hlen] at hp
      rw [happ]
      exact ih (done ++ [c]) c false _ g1 (by rw [depthAfter_snoc done c d h2, g2]) g3 p hp

/-- C26: for every text with balanced parentheses (shorter than 2^64 characters),
`BreakUpTerms` ends a term only at a `+` or `-` at nesting depth zero, that is after a
prefix that is itself balanced, never at a character enclosed in parentheses; and every
returned term has balanced parentheses. -/
theorem BreakUpTerms_balanced (expr : List Char) (hbal : balanced expr = true)
    (hlen : expr.length < SIZE_MOD) :
    (∀ p ∈ BreakUpTermsSplits expr (Char.ofNat 0) true 0 0,
      ∃ pre post c, expr = pre ++ c :: post ∧ pre.length = p ∧ (c = '+' ∨ c = '-') ∧
        balanced pre = true) ∧
    (∀ t ∈ BreakUpTerms expr, balanced t.2 = true) := by
  have h0 : depthAfter 0 expr = some 0 := by simpa [balanced] using hbal
  have hcnt := List.count_le_length '(' expr
  constructor
  · intro p hp
    have := BreakUpTermsSplits_depth expr [] (Char.ofNat 0) true 0 h0 rfl (by omega) p hp
    simpa using this
  · exact BreakUpTermsLoop_balanced expr [] .NONE (Char.ofNat 0) true 0 h0 rfl (by omega)

/-- Witness of C26 on the text `(x+1)*2-(3-(x+4))+x`. -/
theorem BreakUpTerms_balanced_witness :
    balanced "(x+1)*2-(3-(x+4))+x".toList = true ∧
    "(x+1)*2-(3-(x+4))+x".toList.length < SIZE_MOD ∧
    (∀ t ∈ BreakUpTerms "(x+1)*2-(3-(x+4))+x".toList, balanced t.2 = true) :=
  ⟨by decide, by decide,
    (BreakUpTerms_balanced "(x+1)*2-(3-(x+4))+x".toList (by decide) (by decide)).2⟩

theorem BreakUpTermsLoop_writeTerms : ∀ (cs cur : List Char) (op : InterTermOperator)
    (lastC : Char) (isFirst : Bool) (nl pos : Nat), (cur ≠ [] ∨ cs ≠ []) →
    (∀ p ∈ BreakUpTermsSplits cs lastC isFirst nl pos, p + 1 ≠ pos + cs.length) →
    writeTerms (BreakUpTermsLoop cs cur op lastC isFirst nl) = opText op ++ cur ++ cs := by
  intro cs
  induction cs with
  | nil =>
    intro cur op lastC isFirst nl pos h _
    have hc : cur ≠ [] := by
      rcases h with h | h
      · exact h
      · exact absurd rfl h
    cases cur with
    | nil => exact absurd rfl hc
    | cons a t => simp [BreakUpTermsLoop, writeTerms]
  | cons c rest ih =>
    intro cur op lastC isFirst nl pos _ hs
    rw [BreakUpTermsLoop]
    rw [BreakUpTermsSplits] at hs
    split
    · rename_i hsplit
      rw [if_pos hsplit] at hs
      have hrest : rest ≠ [] := by
        intro e
        subst e
        exact hs pos (List.mem_cons_self _ _) (by simp)
      have hop : opText (if c = '+' then InterTermOperator.PLUS else .MINUS) = [c] := by
        by_cases hp : c = '+'
        · rw [if_pos hp, hp]; rfl
        · have hm : c = '-' := by
            simp only [Bool.and_eq_true, Bool.or_eq_true, decide_eq_true_eq] at hsplit
            rcases hsplit.2 with h1 | h1
            · exact absurd h1 hp
            · exact h1.1.1
          rw [if_neg hp, hm]; rfl
      rw [writeTerms, ih [] _ c true nl (pos + 1) (Or.inr hrest)
        (fun p hp => by
          have := hs p (List.mem_cons_of_mem _ hp)
          simp only [List.length_cons] at this
          omega), hop]
      simp
    · rename_i hsplit
      rw [if_neg hsplit] at hs
      rw [ih (cur ++ [c]) op c false _ (pos + 1) (Or.inl (by simp))
        (fun p hp => by
          have := hs p hp
          simp only [List.length_cons] at this
          omega)]
      simp

/-- C29: term decomposition loses nothing. For every text whose last character is not
taken as a term boundary by the loop of `BreakUpTerms`, writing the returned terms in
order, each preceded by the character of its operator (nothing for `NONE`), gives the
text back; and `NONE` is the operator of the first term and of no other term. -/
theorem BreakUpTerms_writeTerms (expr : List Char)
    (h : ∀ p ∈ BreakUpTermsSplits expr (Char.ofNat 0) true 0 0, p + 1 ≠ expr.length) :
    writeTerms (BreakUpTerms expr) = expr ∧
    (∀ t0 rest, BreakUpTerms expr = t0 :: rest →
      t0.1 = .NONE ∧ ∀ p ∈ rest, p.1 = .PLUS ∨ p.1 = .MINUS) := by
  constructor
  · cases expr with
    | nil => rfl
    | cons c rest =>
      have := BreakUpTermsLoop_writeTerms (c :: rest) [] .NONE (Char.ofNat 0) true 0 0
        (Or.inr (by simp)) (by simpa using h)
      simpa [BreakUpTerms, opText] using this
  · intro t0 rest e
    cases expr with
    | nil => cases e
    | cons c cs =>
      obtain ⟨t1, r1, e1, h1⟩ := BreakUpTermsLoop_head (c :: cs) [] .NONE (Char.ofNat 0) true 0
        (Or.inr (by simp))
      rw [BreakUpTerms, e1] at e
      cases e
      exact ⟨rfl, h1⟩

/-- Witness of C29 on the text `-x^2+2E-3-(x-1)`. -/
theorem BreakUpTerms_writeTerms_witness :
    (∀ p ∈ BreakUpTermsSplits "-x^2+2E-3-(x-1)".toList (Char.ofNat 0) true 0 0,
      p + 1 ≠ "-x^2+2E-3-(x-1)".toList.length) ∧
    writeTerms (BreakUpTerms "-x^2+2E-3-(x-1)".toList) = "-x^2+2E-3-(x-1)".toList :=
  ⟨by decide, (BreakUpTerms_writeTerms "-x^2+2E-3-(x-1)".toList (by decide)).1⟩

/-! ## The chain rule on a bare group and the special functions -/

/-- The inside of a group in the sense of the counters of the source, from balanced
parentheses in the unbounded sense. -/
theorem insideGroup_of_depthAfter : ∀ (g : List Char) (d : Nat), depthAfter d g = some 0 →
    d + 1 + g.count '(' < SIZE_MOD → insideGroup g (d + 1) = true := by
  intro g
  induction g with
  | nil =>
    intro d h _
    rw [depthAfter] at h
    cases h
    rfl
  | cons c rest ih =>
    intro d h hb
    have hS2 : 2 < SIZE_MOD := by decide
    rw [depthAfter] at h
    rw [insideGroup]
    unfold nestStep
    by_cases h1 : c = '('
    · rw [if_pos h1] at h
      rw [h1, List.count_cons_self] at hb
      have e : nestInc (d + 1) = d + 1 + 1 := by
        unfold nestInc; exact Nat.mod_eq_of_lt (by omega)
      rw [if_pos h1, e, ih (d + 1) h (by omega)]
      simp
    · rw [if_neg h1] at h
      rw [List.count_cons_of_ne (Ne.symm h1)] at hb
      by_cases h2 : c = ')'
      · rw [if_pos h2] at h
        by_cases h0 : d = 0
        · rw [if_pos h0] at h; cases h
        · rw [if_neg h0] at h
          have e : nestDec (d + 1) = (d - 1) + 1 := by
            unfold nestDec
            have : d + 1 + SIZE_MOD - 1 = d + SIZE_MOD := by omega
            rw [this, Nat.add_mod_right]
            rw [Nat.mod_eq_of_lt (by omega)]
            omega
          rw [if_neg h1, if_pos h2, e, ih (d - 1) h (by omega)]
          simp
      · rw [if_neg h2] at h
        rw [if_neg h1, if_neg h2, ih d h (by omega)]
        simp

theorem insideGroup_of_balanced (g : List Char) (h : balanced g = true)
    (hb : g.count '(' + 1 < SIZE_MOD) : insideGroup g 1 = true :=
  insideGroup_of_depthAfter g 0 (by simpa [balanced] using h) (by omega)

/-- The chain rule on a bare group: the derivative of the inside, the placeholder alone
having the derivative `1`. -/
theorem ProcessChainRule_group (rec : List Char → List Char → Outcome (List Char))
    (g : List Char) (hin : insideGroup g 1 = true)
    (hone : rec ['x', Char.ofNat 39] ['x', Char.ofNat 39] = .ok ['1']) :
    ProcessChainRule rec ('(' :: (g ++ [')'])) ['x'] =
      (rec g ['x'] >>= fun d => pure (some d)) := by
  have hpos : findNestingOne ('(' :: (g ++ [')'])) 0 0 = some 0 := by
    rw [findNestingOne, nestStep_open_zero]
    simp
  have hsub : GetSubExpression ('(' :: (g ++ [')'])) (0 + 1) = (g, 0 + 1 + g.length) := by
    rw [GetSubExpression]
    simp only [Nat.zero_add, List.drop_succ_cons, List.drop_zero]
    rw [GetSubExpressionLoop_group [] g 1 _ [] hin]
    simp
  have hrep : replace ('(' :: (g ++ [')'])) 0
      (['('] ++ g ++ [')']).length ['x', Char.ofNat 39] = .ok ['x', Char.ofNat 39] := by
    have hd2 : ('(' :: (g ++ [')'])).drop (0 + (['('] ++ g ++ [')']).length) = [] := by
      apply List.drop_eq_nil_of_le
      simp
    simp only [replace, Nat.zero_le, if_true, hd2, List.take_zero, List.append_nil,
      List.nil_append]
  have hv : ['x'] ++ [Char.ofNat 39] = ['x', Char.ofNat 39] := rfl
  simp only [ProcessChainRule, hpos, hsub, hv, hrep, hone, bind_ok]
  cases hr : rec g ['x'] with
  | ok d =>
    simp only [bind_ok]
    by_cases h0 : d = ['0']
    · subst h0; rfl
    · simp [h0]
  | thrown _ => rfl
  | undefined => rfl
  | unmodelled => rfl
  | fuel => rfl

theorem FindDerivativeInternalF_placeholder (m : CMath) (depth : Nat) :
    FindDerivativeInternalF m (depth + 1) ['x', Char.ofNat 39] ['x', Char.ofNat 39] =
      .ok ['1'] := by
  with_unfolding_all rfl

theorem ProcessSpecialFunctions_group (rec : List Char → List Char → Outcome (List Char))
    (rest v : List Char) : ProcessSpecialFunctions rec ('(' :: rest) v = .ok none := by
  cases rest with
  | nil => rfl
  | cons b t => simp [ProcessSpecialFunctions]

/-- C24: the chain rule on a bare group. For every text `g` with balanced parentheses
that contains the variable (and is shorter than 2^64 - 2 characters), `Derivative` of
`(g)` is the outcome of `Derivative` on `g`: the same text when `g` is differentiated,
the same failure when it is not. -/
theorem Derivative_bare_group (m : CMath) (g : List Char) (hbal : balanced g = true)
    (hx : 'x' ∈ g) (hlen : g.length + 2 < SIZE_MOD) :
    Derivative m ('(' :: (g ++ [')'])) = Derivative m g := by
  have hin := insideGroup_of_balanced g hbal (by
    have := List.count_le_length '(' g
    omega)
  obtain ⟨k, hk⟩ := derivativeDepth_ge_two ('(' :: (g ++ [')'])) ['x'] (by simp)
  have hle : derivativeDepth g ['x'] ≤ k + 1 := by
    have h2 := derivativeDepth_left g [] ['x'] ')'
    have h1 := derivativeDepth_right [] (g ++ [')']) ['x'] '('
    simp only [List.nil_append] at h1
    omega
  have hcnt : g.count ')' + 2 ≤ SIZE_MOD := by
    have := List.count_le_length ')' g
    omega
  have hstab : FindDerivativeInternalF m (k + 1) g ['x'] = FindDerivativeInternal m g ['x'] := by
    obtain ⟨j, hj⟩ := Nat.exists_eq_add_of_le hle
    rw [hj]
    exact FindDerivativeInternalF_stable m g ['x'] (by decide) (by decide) hcnt j
  have hmem : '(' ∈ '(' :: (g ++ [')']) := List.mem_cons_self _ _
  obtain ⟨g1, g2⟩ := term_ne_of_mem '(' _ hmem (by decide) (by decide)
  have hxm : 'x' ∈ '(' :: (g ++ [')']) := by simp [hx]
  have hstar := findTopLevel_applied '*' (by decide) (by decide) [] g (by simp) hin
  have hdiv := findTopLevel_applied '/' (by decide) (by decide) [] g (by simp) hin
  have hpow := findTopLevel_applied '^' (by decide) (by decide) [] g (by simp) hin
  have hone := BreakUpTerms_applied [] g (by simp) hin
  simp only [List.nil_append] at hstar hdiv hpow hone
  have hch := ProcessChainRule_group (FindDerivativeInternalF m (k + 1)) g hin
    (FindDerivativeInternalF_placeholder m k)
  rw [Derivative, Derivative, FindDerivativeInternal, hk, FindDerivativeInternalF, hone]
  simp only [ProcessDerivatives, ProcessTerm, g1, g2, find_of_mem 'x' _ hxm, if_false,
    ProcessProductRule_none _ _ _ hstar, ProcessQuotientRule_none _ _ _ hdiv,
    ProcessPowers_none m _ _ _ hpow, ProcessSpecialFunctions_group, hch, bind_ok, hstab]
  cases FindDerivativeInternal m g ['x'] with
  | ok d => cases d <;> rfl
  | thrown _ => rfl
  | undefined => rfl
  | unmodelled => rfl
  | fuel => rfl

/-- Witness of C24 on the group `(x*(x+1))`. -/
theorem Derivative_bare_group_witness :
    balanced "x*(x+1)".toList = true ∧ 'x' ∈ "x*(x+1)".toList ∧
    "x*(x+1)".toList.length + 2 < SIZE_MOD ∧
    Derivative libm ('(' :: ("x*(x+1)".toList ++ [')'])) = Derivative libm "x*(x+1)".toList :=
  ⟨by decide, by decide, by decide,
    Derivative_bare_group libm "x*(x+1)".toList (by decide) (by decide) (by decide)⟩

/-- A negated name or number applied to a parenthesised group is one term. -/
theorem BreakUpTerms_negated_applied (pre inner : List Char)
    (hpre : ∀ c ∈ pre, c ≠ '+' ∧ c ≠ '-' ∧ c ≠ '(' ∧ c ≠ ')')
    (hin : insideGroup inner 1 = true) :
    BreakUpTerms ('-' :: (pre ++ '(' :: (inner ++ [')']))) =
      [(.NONE, '-' :: (pre ++ '(' :: (inner ++ [')'])))] := by
  obtain ⟨l2, f2, e⟩ := BreakUpTermsLoop_skip_plain ('(' :: (inner ++ [')'])) .NONE pre ['-']
    '-' false 0 hpre
  rw [BreakUpTerms, BreakUpTermsLoop]
  simp only [Bool.not_true, Bool.and_false, Bool.or_false, Char.reduceEq, decide_False,
    Bool.false_eq_true, if_false, List.nil_append]
  rw [show nestStep '-' 0 = 0 by decide, e, BreakUpTermsLoop, nestStep_open_zero]
  simp only [Char.reduceEq, decide_False, Bool.false_and, Bool.or_false, Bool.and_false,
    Bool.false_eq_true, if_false]
  rw [BreakUpTermsLoop_group [] _ inner _ _ _ _ (by decide) hin]
  simp [BreakUpTermsLoop]

/-- The special-function rule on a keyword applied to an argument, negated or not. -/
theorem ProcessSpecialFunctions_keyword (rec : List Char → List Char → Outcome (List Char))
    (K F v : List Char)
    (hK : K = ['s', 'i', 'n'] ∨ K = ['c', 'o', 's'] ∨ K = ['t', 'a', 'n'] ∨ K = ['l', 'n']) :
    ProcessSpecialFunctions rec (K ++ F) v =
      (rec F v >>= fun dF => pure (some (if dF = ['0'] then ['0']
        else specialFunctionTable K F dF))) ∧
    ProcessSpecialFunctions rec ('-' :: (K ++ F)) v =
      (rec F v >>= fun dF => pure (some (if dF = ['0'] then ['0']
        else ['-', '1', '.', '0', '*'] ++ specialFunctionTable K F dF))) := by
  have e2 : ∀ a b : Char, substr (a :: b :: F) 2 = .ok F := by
    intro a b; simp [substr]
  have e3 : ∀ a b c : Char, substr (a :: b :: c :: F) 3 = .ok F := by
    intro a b c; simp [substr]
  have e4 : ∀ a b c d : Char, substr (a :: b :: c :: d :: F) 4 = .ok F := by
    intro a b c d; simp [substr]
  rcases hK with rfl | rfl | rfl | rfl <;> constructor <;>
    (simp only [ProcessSpecialFunctions, List.cons_append, List.nil_append,
        Char.reduceEq, decide_True, decide_False, Bool.or_true, Bool.or_false, Bool.true_or,
        if_true, if_false, Bool.false_eq_true, Nat.zero_add, Nat.reduceAdd,
        specialFunctionTable, e2, e3, e4, bind_ok]
     cases rec F v with
     | ok d =>
       by_cases h0 : d = ['0']
       · subst h0; simp [bind_ok, pure_eq_ok]
       · by_cases h1 : d = ['1']
         · subst h1; simp [bind_ok, pure_eq_ok]
         · simp [bind_ok, pure_eq_ok, h0, h1]
     | thrown _ => rfl
     | undefined => rfl
     | unmodelled => rfl
     | fuel => rfl)

theorem derivativeDepth_suffix (pre F v : List Char) (h : pre ≠ []) :
    derivativeDepth F v + 1 ≤ derivativeDepth (pre ++ F) v := by
  unfold derivativeDepth
  have h1 : 0 < pre.length := List.length_pos.2 h
  have h2 : F.count '(' ≤ (pre ++ F).count '(' := by
    rw [List.count_append]; omega
  have h3 := Nat.mul_le_mul h2 (Nat.add_le_add_left h2 v.length)
  simp only [List.length_append]
  omega

/-- The derivative of a single term that the special-function rule takes: the rule is
reached, and its result is the derivative of the expression. -/
theorem Derivative_special_term (m : CMath) (pre inner : List Char)
    (f : List Char → List Char) (hne : pre ≠ [])
    (hpre : ∀ c ∈ pre, c ≠ '*' ∧ c ≠ '/' ∧ c ≠ '^' ∧ c ≠ '(' ∧ c ≠ ')')
    (hin : insideGroup inner 1 = true) (hx : 'x' ∈ inner)
    (hlen : inner.length + 4 < SIZE_MOD)
    (hone : BreakUpTerms (pre ++ '(' :: (inner ++ [')'])) =
      [(.NONE, pre ++ '(' :: (inner ++ [')']))])
    (hsp : ∀ rec : List Char → List Char → Outcome (List Char),
      ProcessSpecialFunctions rec (pre ++ '(' :: (inner ++ [')'])) ['x'] =
        (rec ('(' :: (inner ++ [')'])) ['x'] >>= fun dF => pure (some (f dF)))) :
    Derivative m (pre ++ '(' :: (inner ++ [')'])) =
      (Derivative m ('(' :: (inner ++ [')'])) >>= fun dF => .ok (f dF)) := by
  obtain ⟨k, hk⟩ := derivativeDepth_ge_two (pre ++ '(' :: (inner ++ [')'])) ['x']
    (by simp; omega)
  have hle : derivativeDepth ('(' :: (inner ++ [')'])) ['x'] ≤ k + 1 := by
    have := derivativeDepth_suffix pre ('(' :: (inner ++ [')'])) ['x'] hne
    omega
  have hcnt : ('(' :: (inner ++ [')'])).count ')' + 2 ≤ SIZE_MOD := by
    have := List.count_le_length ')' ('(' :: (inner ++ [')']))
    simp only [List.length_cons, List.length_append, List.length_nil] at this
    omega
  have hstab : FindDerivativeInternalF m (k + 1) ('(' :: (inner ++ [')'])) ['x'] =
      FindDerivativeInternal m ('(' :: (inner ++ [')'])) ['x'] := by
    obtain ⟨j, hj⟩ := Nat.exists_eq_add_of_le hle
    rw [hj]
    exact FindDerivativeInternalF_stable m _ ['x'] (by decide) (by decide) hcnt j
  have hmem : '(' ∈ pre ++ '(' :: (inner ++ [')']) := by simp
  obtain ⟨g1, g2⟩ := term_ne_of_mem '(' _ hmem (by decide) (by decide)
  have hxm : 'x' ∈ pre ++ '(' :: (inner ++ [')']) := by simp [hx]
  have hstar := findTopLevel_applied '*' (by decide) (by decide) pre inner
    (fun c hc => ⟨(hpre c hc).1, (hpre c hc).2.2.2⟩) hin
  have hdiv := findTopLevel_applied '/' (by decide) (by decide) pre inner
    (fun c hc => ⟨(hpre c hc).2.1, (hpre c hc).2.2.2⟩) hin
  have hpow := findTopLevel_applied '^' (by decide) (by decide) pre inner
    (fun c hc => ⟨(hpre c hc).2.2.1, (hpre c hc).2.2.2⟩) hin
  rw [Derivative, Derivative, FindDerivativeInternal, hk, FindDerivativeInternalF, hone]
  simp only [ProcessDerivatives, ProcessTerm, g1, g2, find_of_mem 'x' _ hxm, if_false,
    ProcessProductRule_none _ _ _ hstar, ProcessQuotientRule_none _ _ _ hdiv,
    ProcessPowers_none m _ _ _ hpow, hsp, bind_ok, hstab]
  cases FindDerivativeInternal m ('(' :: (inner ++ [')'])) ['x'] with
  | ok d => simp only [bind_ok, pure_eq_ok, RecombineTerms_single]
  | thrown _ => rfl
  | undefined => rfl
  | unmodelled => rfl
  | fuel => rfl

/-- C23: the special-function rule. For every keyword `K` among `sin`, `cos`, `tan`,
`ln` and every parenthesised argument `F` with balanced inside that contains the
variable, with `dF` the derivative text of `F`: the derivative of `K` applied to `F` is
`0` when `dF` is `0` and the text of the table otherwise; the derivative of the negated
term is `0` when `dF` is `0` and the text of the table after `-1.0*` otherwise. -/
theorem Derivative_special_function (m : CMath) (K inner : List Char)
    (hK : K = ['s', 'i', 'n'] ∨ K = ['c', 'o', 's'] ∨ K = ['t', 'a', 'n'] ∨ K = ['l', 'n'])
    (hbal : balanced inner = true) (hx : 'x' ∈ inner) (hlen : inner.length + 4 < SIZE_MOD) :
    Derivative m (K ++ '(' :: (inner ++ [')'])) =
      (Derivative m ('(' :: (inner ++ [')'])) >>= fun dF =>
        .ok (if dF = ['0'] then ['0']
          else specialFunctionTable K ('(' :: (inner ++ [')'])) dF)) ∧
    Derivative m ('-' :: (K ++ '(' :: (inner ++ [')']))) =
      (Derivative m ('(' :: (inner ++ [')'])) >>= fun dF =>
        .ok (if dF = ['0'] then ['0']
          else ['-', '1', '.', '0', '*'] ++
            specialFunctionTable K ('(' :: (inner ++ [')'])) dF)) := by
  have hin := insideGroup_of_balanced inner hbal (by
    have := List.count_le_length '(' inner
    omega)
  have hKp : ∀ c ∈ K, c ≠ '+' ∧ c ≠ '-' ∧ c ≠ '*' ∧ c ≠ '/' ∧ c ≠ '^' ∧ c ≠ '(' ∧ c ≠ ')' := by
    rcases hK with rfl | rfl | rfl | rfl <;> decide
  have hKne : K ≠ [] := by
    rcases hK with rfl | rfl | rfl | rfl <;> simp
  have hsp := fun rec => ProcessSpecialFunctions_keyword rec K ('(' :: (inner ++ [')'])) ['x'] hK
  constructor
  · exact Derivative_special_term m K inner _ hKne
      (fun c hc => ⟨(hKp c hc).2.2.1, (hKp c hc).2.2.2.1, (hKp c hc).2.2.2.2.1,
        (hKp c hc).2.2.2.2.2.1, (hKp c hc).2.2.2.2.2.2⟩) hin hx hlen
      (BreakUpTerms_applied K inner
        (fun c hc => ⟨(hKp c hc).1, (hKp c hc).2.1, (hKp c hc).2.2.2.2.2.1,
          (hKp c hc).2.2.2.2.2.2⟩) hin)
      (fun rec => (hsp rec).1)
  · have := Derivative_special_term m ('-' :: K) inner
      (fun dF => if dF = ['0'] then ['0']
          else ['-', '1', '.', '0', '*'] ++
            specialFunctionTable K ('(' :: (inner ++ [')'])) dF) (by simp)
      (fun c hc => by
        rcases List.mem_cons.1 hc with e | hc2
        · subst e; decide
        · exact ⟨(hKp c hc2).2.2.1, (hKp c hc2).2.2.2.1, (hKp c hc2).2.2.2.2.1,
            (hKp c hc2).2.2.2.2.2.1, (hKp c hc2).2.2.2.2.2.2⟩) hin hx hlen
      (BreakUpTerms_negated_applied K inner
        (fun c hc => ⟨(hKp c hc).1, (hKp c hc).2.1, (hKp c hc).2.2.2.2.2.1,
          (hKp c hc).2.2.2.2.2.2⟩) hin)
      (fun rec => (hsp rec).2)
    exact this

/-- Witness of C23 on the negated term `-tan(x^2)`. -/
theorem Derivative_special_function_witness :
    (['t', 'a', 'n'] = ['s', 'i', 'n'] ∨ ['t', 'a', 'n'] = ['c', 'o', 's'] ∨
      ['t', 'a', 'n'] = ['t', 'a', 'n'] ∨ ['t', 'a', 'n'] = ['l', 'n']) ∧
    balanced "x^2".toList = true ∧ 'x' ∈ "x^2".toList ∧ "x^2".toList.length + 4 < SIZE_MOD ∧
    Derivative libm "-tan(x^2)".toList =
      (Derivative libm "(x^2)".toList >>= fun dF =>
        .ok (if dF = ['0'] then ['0']
          else ['-', '1', '.', '0', '*'] ++
            specialFunctionTable ['t', 'a', 'n'] "(x^2)".toList dF)) :=
  ⟨by decide, by decide, by decide, by decide,
    (Derivative_special_function libm ['t', 'a', 'n'] "x^2".toList (by decide) (by decide)
      (by decide) (by decide)).2⟩

/-- C23, the negated term whose argument has the derivative `0`: the result is `0`, not
`0` after `-1.0*`. -/
theorem Derivative_negated_special_zero :
    Derivative libm "(x*0)".toList = .ok ['0'] ∧
    Derivative libm "sin(x*0)".toList = .ok ['0'] ∧
    Derivative libm "-sin(x*0)".toList = .ok ['0'] ∧
    Derivative libm "-sin(x*0)".toList ≠ .ok "-1.0*0".toList := by
  decide!

/-! ## Derivatives keep parentheses balanced -/

theorem depthAfter_shift : ∀ (s : List Char) (d e k : Nat), depthAfter d s = some e →
    depthAfter (d + k) s = some (e + k) := by
  intro s
  induction s with
  | nil => intro d e k h; rw [depthAfter] at h ⊢; cases h; rfl
  | cons c cs ih =>
    intro d e k h
    rw [depthAfter] at h ⊢
    by_cases h1 : c = '('
    · rw [if_pos h1] at h ⊢
      have := ih (d + 1) e k h
      rw [show d + k + 1 = d + 1 + k by omega]
      exact this
    · rw [if_neg h1] at h ⊢
      by_cases h2 : c = ')'
      · rw [if_pos h2] at h ⊢
        by_cases h0 : d = 0
        · rw [if_pos h0] at h; cases h
        · rw [if_neg h0] at h
          rw [if_neg (by omega)]
          have := ih (d - 1) e k h
          rw [show d + k - 1 = d - 1 + k by omega]
          exact this
      · rw [if_neg h2] at h ⊢
        exact ih d e k h

theorem bal_of_depthAfter (s : List Char) (h : depthAfter 0 s = some 0) : bal s := by
  intro k
  have := depthAfter_shift s 0 0 k h
  simpa using this

theorem bal_balanced (s : List Char) (h : bal s) : balanced s = true := by
  simp [balanced, h 0]

theorem bal_nil : bal [] := fun _ => rfl

theorem bal_append (s t : List Char) (hs : bal s) (ht : bal t) : bal (s ++ t) := by
  intro k
  rw [depthAfter_append, hs k]
  exact ht k

theorem depthAfter_plain : ∀ (s : List Char) (d : Nat), (∀ c ∈ s, c ≠ '(' ∧ c ≠ ')') →
    depthAfter d s = some d := by
  intro s
  induction s with
  | nil => intro d _; rfl
  | cons c cs ih =>
    intro d h
    obtain ⟨h1, h2⟩ := h c (List.mem_cons_self _ _)
    rw [depthAfter, if_neg h1, if_neg h2]
    exact ih d (fun x hx => h x (List.mem_cons_of_mem _ hx))

theorem bal_plain (s : List Char) (h : ∀ c ∈ s, c ≠ '(' ∧ c ≠ ')') : bal s :=
  fun k => depthAfter_plain s k h

theorem bal_group (s : List Char) (h : bal s) : bal ('(' :: (s ++ [')'])) := by
  intro k
  simp [depthAfter, depthAfter_append, h (k + 1)]

/-- The first top-level operator of a balanced text splits it into two balanced texts. -/
theorem findTopLevel_split (op : Char) (h1 : op ≠ '(') (h2 : op ≠ ')') :
    ∀ (s : List Char) (pos d q : Nat), depthAfter d s = some 0 →
      d + s.count '(' < SIZE_MOD → findTopLevel op s pos d = some q →
      ∃ L R, s = L ++ op :: R ∧ q = pos + L.length ∧ depthAfter d L = some 0 ∧
        depthAfter 0 R = some 0 := by
  intro s
  induction s with
  | nil => intro pos d q _ _ h; simp [findTopLevel] at h
  | cons c rest ih =>
    intro pos d q hd hb h
    obtain ⟨g1, g2, g3⟩ := depthAfter_step c rest d hd hb
    rw [findTopLevel] at h
    split at h
    · rename_i hf
      simp only [Bool.and_eq_true, decide_eq_true_eq] at hf
      obtain ⟨hz, hc⟩ := hf
      subst hc
      cases h
      rw [nestStep_plain c d h1 h2] at hz
      subst hz
      refine ⟨[], rest, rfl, rfl, rfl, ?_⟩
      rw [nestStep_plain c 0 h1 h2] at g1
      exact g1
    · obtain ⟨L, R, e1, e2, e3, e4⟩ := ih (pos + 1) _ q g1 g3 h
      refine ⟨c :: L, R, by rw [e1]; rfl, by rw [e2]; simp; omega, ?_, e4⟩
      have : depthAfter d ([c] ++ L) = some 0 := by
        rw [depthAfter_append, g2]; exact e3
      simpa using this

/-- An operator in front of the first parenthesis is found by the scan. -/
theorem findTopLevel_of_plain_mem (op : Char) (h1 : op ≠ '(') (h2 : op ≠ ')')
    (rest : List Char) : ∀ (a : List Char) (pos : Nat), (∀ c ∈ a, c ≠ '(' ∧ c ≠ ')') →
      findTopLevel op (a ++ op :: rest) pos 0 ≠ none := by
  intro a
  induction a with
  | nil =>
    intro pos _
    rw [List.nil_append, findTopLevel, nestStep_plain op 0 h1 h2]
    simp
  | cons c t ih =>
    intro pos h
    obtain ⟨g1, g2⟩ := h c (List.mem_cons_self _ _)
    rw [List.cons_append, findTopLevel, nestStep_plain c 0 g1 g2]
    split
    · simp
    · exact ih _ (fun x hx => h x (List.mem_cons_of_mem _ hx))

/-- The scan of the chain rule stops at the first opening parenthesis of a text whose
parentheses do not close before they open. -/
theorem findNestingOne_first : ∀ (s : List Char) (pos q e : Nat),
    findNestingOne s pos 0 = some q → depthAfter 0 s = some e →
    ∃ pre post, s = pre ++ '(' :: post ∧ q = pos + pre.length ∧
      (∀ c ∈ pre, c ≠ '(' ∧ c ≠ ')') := by
  intro s
  induction s with
  | nil => intro pos q e h _; simp [findNestingOne] at h
  | cons c rest ih =>
    intro pos q e h hd
    rw [findNestingOne] at h
    by_cases h1 : c = '('
    · subst h1
      rw [nestStep_open_zero] at h
      simp only [if_true] at h
      cases h
      exact ⟨[], rest, rfl, rfl, by simp⟩
    · by_cases h2 : c = ')'
      · subst h2
        simp [depthAfter] at hd
      · rw [nestStep_plain c 0 h1 h2] at h
        simp only [Nat.zero_ne_one, if_false] at h
        rw [depthAfter, if_neg h1, if_neg h2] at hd
        obtain ⟨pre, post, e1, e2, e3⟩ := ih (pos + 1) q e h hd
        refine ⟨c :: pre, post, by rw [e1]; rfl, by rw [e2]; simp; omega, ?_⟩
        intro x hx
        rcases List.mem_cons.1 hx with hx | hx
        · subst hx; exact ⟨h1, h2⟩
        · exact e3 x hx

/-- A text that closes one group more than it opens: up to the parenthesis that closes
the group, and after it. -/
theorem group_split : ∀ (s : List Char) (k D : Nat), depthAfter (D + 1 + k) s = some 0 →
    ∃ g post, s = g ++ ')' :: post ∧ depthAfter k g = some 0 ∧ depthAfter D post = some 0 := by
  intro s
  induction s with
  | nil => intro k D h; simp [depthAfter] at h
  | cons c rest ih =>
    intro k D h
    rw [depthAfter] at h
    by_cases h1 : c = '('
    · subst h1
      simp only [if_true] at h
      obtain ⟨g, post, e1, e2, e3⟩ := ih (k + 1) D h
      exact ⟨'(' :: g, post, by rw [e1]; rfl, by simpa [depthAfter] using e2, e3⟩
    · rw [if_neg h1] at h
      by_cases h2 : c = ')'
      · subst h2
        simp only [if_true] at h
        rw [if_neg (by omega)] at h
        cases k with
        | zero =>
          exact ⟨[], rest, rfl, rfl, by simpa using h⟩
        | succ k2 =>
          have h3 : depthAfter (D + 1 + k2) rest = some 0 := by
            rw [show D + 1 + (k2 + 1) - 1 = D + 1 + k2 by omega] at h
            exact h
          obtain ⟨g, post, e1, e2, e3⟩ := ih k2 D h3
          exact ⟨')' :: g, post, by rw [e1]; rfl, by simpa [depthAfter] using e2, e3⟩
      · rw [if_neg h2] at h
        obtain ⟨g, post, e1, e2, e3⟩ := ih k D h
        exact ⟨c :: g, post, by rw [e1]; rfl, by simpa [depthAfter, h1, h2] using e2, e3⟩

theorem split_append (Y : List Char) (c : Char) (rest : List Char) :
    ∀ (X a : List Char), X ++ Y = a ++ c :: rest →
    (∃ r, X = a ++ c :: r ∧ rest = r ++ Y) ∨ (∃ a2, a = X ++ a2 ∧ Y = a2 ++ c :: rest) := by
  intro X
  induction X with
  | nil => intro a h; exact Or.inr ⟨a, rfl, h⟩
  | cons x X2 ih =>
    intro a h
    cases a with
    | nil =>
      rw [List.cons_append, List.nil_append] at h
      obtain ⟨e1, e2⟩ := List.cons.inj h
      exact Or.inl ⟨X2, by rw [e1]; rfl, e2.symm⟩
    | cons a0 a1 =>
      rw [List.cons_append, List.cons_append] at h
      obtain ⟨e1, e2⟩ := List.cons.inj h
      rcases ih a1 e2 with ⟨r, g1, g2⟩ | ⟨a2, g1, g2⟩
      · exact Or.inl ⟨r, by rw [e1, g1]; rfl, g2⟩
      · exact Or.inr ⟨a2, by rw [e1, g1]; rfl, g2⟩

theorem keyword_cut (q : Char) (post : List Char) : ∀ (K x : List Char), q ∉ K →
    K <+: x ++ q :: post → K <+: x := by
  intro K
  induction K with
  | nil => intro x _ _; exact List.nil_prefix
  | cons k K2 ih =>
    intro x hq h
    cases x with
    | nil =>
      rw [List.nil_append] at h
      have := (List.cons_prefix_cons.1 h).1
      exact absurd (this ▸ List.mem_cons_self k K2) hq
    | cons x0 x1 =>
      rw [List.cons_append] at h
      obtain ⟨e1, e2⟩ := List.cons_prefix_cons.1 h
      exact List.cons_prefix_cons.2 ⟨e1, ih x1 (fun hm => hq (List.mem_cons_of_mem _ hm)) e2⟩

theorem keywordAhead_append (s t : List Char) (h : keywordAhead s) : keywordAhead (s ++ t) := by
  rcases h with h | h | h | h
  · exact Or.inl (h.trans (List.prefix_append s t))
  · exact Or.inr (Or.inl (h.trans (List.prefix_append s t)))
  · exact Or.inr (Or.inr (Or.inl (h.trans (List.prefix_append s t))))
  · exact Or.inr (Or.inr (Or.inr (h.trans (List.prefix_append s t))))

theorem cut_not_mem (q : Char) (hq : isCutChar q = true) :
    q ∉ ['s', 'i', 'n', '('] ∧ q ∉ ['c', 'o', 's', '('] ∧ q ∉ ['t', 'a', 'n', '('] ∧
      q ∉ ['l', 'n', '('] := by
  simp only [isCutChar, Bool.or_eq_true, decide_eq_true_eq] at hq
  rcases hq with ((((h | h) | h) | h) | h) | h <;> subst h <;> decide

theorem keywordAhead_cut (x post : List Char) (q : Char) (hq : isCutChar q = true)
    (h : keywordAhead (x ++ q :: post)) : keywordAhead x := by
  obtain ⟨n1, n2, n3, n4⟩ := cut_not_mem q hq
  rcases h with h | h | h | h
  · exact Or.inl (keyword_cut q post _ x n1 h)
  · exact Or.inr (Or.inl (keyword_cut q post _ x n2 h))
  · exact Or.inr (Or.inr (Or.inl (keyword_cut q post _ x n3 h)))
  · exact Or.inr (Or.inr (Or.inr (keyword_cut q post _ x n4 h)))

/-- A keyword ahead, spelled out: the keyword, the parenthesis and the rest. -/
theorem keywordAhead_form (s : List Char) (h : keywordAhead s) :
    ∃ K tail, s = K ++ '(' :: tail ∧
      (K = ['s', 'i', 'n'] ∨ K = ['c', 'o', 's'] ∨ K = ['t', 'a', 'n'] ∨ K = ['l', 'n']) := by
  rcases h with ⟨t, h⟩ | ⟨t, h⟩ | ⟨t, h⟩ | ⟨t, h⟩
  · exact ⟨_, t, h.symm, Or.inl rfl⟩
  · exact ⟨_, t, h.symm, Or.inr (Or.inl rfl)⟩
  · exact ⟨_, t, h.symm, Or.inr (Or.inr (Or.inl rfl))⟩
  · exact ⟨_, t, h.symm, Or.inr (Or.inr (Or.inr rfl))⟩

theorem startsAt_append (a0 a : List Char) (h : a ≠ []) (hs : startsAt a) :
    startsAt (a0 ++ a) := by
  rcases hs with e | ⟨a2, p, e, hp⟩
  · exact absurd e h
  · exact Or.inr ⟨a0 ++ a2, p, by rw [e, List.append_assoc], hp⟩

theorem startsAt_of_append (a0 a : List Char) (h : a ≠ []) (hs : startsAt (a0 ++ a)) :
    startsAt a := by
  rcases hs with e | ⟨a2, p, e, hp⟩
  · exact absurd (List.append_eq_nil.1 e).2 h
  · obtain ⟨b, q, eb⟩ : ∃ b q, a = b ++ [q] := by
      rcases List.eq_nil_or_concat a with e0 | ⟨b, q, e0⟩
      · exact absurd e0 h
      · exact ⟨b, q, by simpa using e0⟩
    rw [eb, ← List.append_assoc] at e
    obtain ⟨_, e2⟩ := List.append_inj' e rfl
    have hq : q = p := by simpa using e2
    exact Or.inr ⟨b, q, eb, by rw [hq]; exact hp⟩

/-- The shape of keywords passes to the end of a text that starts an operand, or that
does not start with a keyword letter. -/
theorem keywordShape_drop (a0 s : List Char) (h : keywordShape (a0 ++ s))
    (hs : startsAt a0 ∨ ∀ c rest, s = c :: rest → isKeyLetter c = false) :
    keywordShape s := by
  intro a c rest e hk ha
  refine h (a0 ++ a) c rest (by rw [e, List.append_assoc]) hk ?_
  cases a with
  | nil =>
    rw [List.append_nil]
    rcases hs with hs | hs
    · exact hs
    · have := hs c rest e
      rw [this] at hk
      cases hk
  | cons x xs => exact startsAt_append a0 _ (by simp) ha

/-- The shape of keywords passes to the text in front of a character that ends an
operand. -/
theorem keywordShape_take (s post : List Char) (q : Char) (hq : isCutChar q = true)
    (h : keywordShape (s ++ q :: post)) : keywordShape s := by
  intro a c rest e hk ha
  have := h a c (rest ++ q :: post) (by rw [e]; simp) hk ha
  exact keywordAhead_cut (c :: rest) post q hq (by simpa using this)

theorem keywordShape_of_no_key (s : List Char) (h : ∀ c ∈ s, isKeyLetter c = false) :
    keywordShape s := by
  intro a c rest e hk _
  have := h c (by rw [e]; simp)
  rw [this] at hk
  cases hk

theorem noKeyAfterExponent_inside (a0 s b0 : List Char)
    (h : noKeyAfterExponent (a0 ++ s ++ b0)) : noKeyAfterExponent s := by
  intro a c rest e
  exact h (a0 ++ a) c (rest ++ b0) (by rw [e]; simp)

/-- A balanced operand inside a well-shaped text is well shaped. -/
theorem wellShaped_inside (a0 s b0 : List Char) (h : wellShaped (a0 ++ s ++ b0))
    (hbal : depthAfter 0 s = some 0)
    (ha : startsAt a0 ∨ ∀ c rest, s = c :: rest → isKeyLetter c = false)
    (hb : b0 = [] ∨ ∃ q b2, b0 = q :: b2 ∧ isCutChar q = true) : wellShaped s := by
  obtain ⟨_, h2, h3, h4⟩ := h
  refine ⟨hbal, ?_, ?_, noKeyAfterExponent_inside a0 s b0 h4⟩
  · simp only [List.count_append] at h2
    omega
  · rw [List.append_assoc] at h3
    have h5 := keywordShape_drop a0 (s ++ b0) h3 (by
      rcases ha with ha | ha
      · exact Or.inl ha
      · cases s with
        | nil =>
          rcases hb with hb | ⟨q, b2, hb, hq⟩
          · subst hb
            exact Or.inr (fun c rest e => by cases e)
          · subst hb
            refine Or.inr (fun c rest e => ?_)
            rw [List.nil_append] at e
            obtain ⟨e1, _⟩ := List.cons.inj e
            subst e1
            simp only [isCutChar, Bool.or_eq_true, decide_eq_true_eq] at hq
            rcases hq with ((((h | h) | h) | h) | h) | h <;> subst h <;> rfl
        | cons x xs =>
          refine Or.inr (fun c rest e => ?_)
          rw [List.cons_append] at e
          obtain ⟨e1, _⟩ := List.cons.inj e
          exact ha c xs (by rw [e1]))
    rcases hb with hb | ⟨q, b2, hb, hq⟩
    · subst hb
      rw [List.append_nil] at h5
      exact h5
    · subst hb
      exact keywordShape_take s b2 q hq h5

theorem BreakUpTermsLoop_inside : ∀ (cs cur : List Char) (op : InterTermOperator)
    (lastC : Char) (isFirst : Bool) (nl : Nat),
    ∀ p ∈ BreakUpTermsLoop cs cur op lastC isFirst nl,
      ∃ a0 b0, cur ++ cs = a0 ++ p.2 ++ b0 ∧ startsAt a0 ∧
        (b0 = [] ∨ ∃ q b2, b0 = q :: b2 ∧ isCutChar q = true) := by
  intro cs
  induction cs with
  | nil =>
    intro cur op lastC isFirst nl p hp
    rw [BreakUpTermsLoop] at hp
    split at hp
    · simp only [List.mem_singleton] at hp
      subst hp
      exact ⟨[], [], by simp, Or.inl rfl, Or.inl rfl⟩
    · cases hp
  | cons c rest ih =>
    intro cur op lastC isFirst nl p hp
    rw [BreakUpTermsLoop] at hp
    split at hp
    · rename_i hsplit
      obtain ⟨_, hc⟩ := split_char c lastC isFirst nl hsplit
      have hcut : isCutChar c = true := by
        rcases hc with hc | hc <;> subst hc <;> rfl
      have hstart : isStartChar c = true := by
        rcases hc with hc | hc <;> subst hc <;> rfl
      rcases List.mem_cons.1 hp with e | hp2
      · subst e
        exact ⟨[], c :: rest, by simp, Or.inl rfl, Or.inr ⟨c, rest, rfl, hcut⟩⟩
      · obtain ⟨a0, b0, e1, e2, e3⟩ := ih [] _ c true nl p hp2
        rw [List.nil_append] at e1
        refine ⟨cur ++ c :: a0, b0, by rw [e1]; simp, ?_, e3⟩
        cases a0 with
        | nil => exact Or.inr ⟨cur, c, rfl, hstart⟩
        | cons x xs =>
          have := startsAt_append (cur ++ [c]) (x :: xs) (by simp) e2
          simpa using this
    · obtain ⟨a0, b0, e1, e2, e3⟩ := ih (cur ++ [c]) op c false _ p hp
      exact ⟨a0, b0, by rw [← e1]; simp, e2, e3⟩

theorem snoc_split (cur : List Char) (c : Char) : ∀ (a : List Char) (p : Char)
    (rest : List Char), cur ++ [c] = a ++ p :: rest →
    (rest = [] ∧ a = cur ∧ p = c) ∨ (∃ r, cur = a ++ p :: r ∧ rest = r ++ [c]) := by
  intro a p rest h
  rcases split_append [c] p rest cur a h with ⟨r, g1, g2⟩ | ⟨a2, g1, g2⟩
  · exact Or.inr ⟨r, g1, g2⟩
  · cases a2 with
    | nil =>
      rw [List.nil_append] at g2
      obtain ⟨e1, e2⟩ := List.cons.inj g2
      exact Or.inl ⟨e2.symm, by rw [g1]; simp, e1.symm⟩
    | cons x xs =>
      rw [List.cons_append] at g2
      obtain ⟨_, e2⟩ := List.cons.inj g2
      have := congrArg List.length e2
      simp at this
      omega

theorem BreakUpTermsLoop_topSigns : ∀ (cs cur : List Char) (op : InterTermOperator)
    (lastC : Char) (isFirst : Bool) (nl : Nat), topSigns cur →
    ((∀ c ∈ cur, c ≠ '(' ∧ c ≠ ')') → nl = 0 ∧ (isFirst = false → ∃ a2, cur = a2 ++ [lastC])) →
    (isFirst = true → cur = []) →
    ∀ p ∈ BreakUpTermsLoop cs cur op lastC isFirst nl, topSigns p.2 := by
  intro cs
  induction cs with
  | nil =>
    intro cur op lastC isFirst nl h1 _ _ p hp
    rw [BreakUpTermsLoop] at hp
    split at hp
    · simp only [List.mem_singleton] at hp
      subst hp
      exact h1
    · cases hp
  | cons c rest ih =>
    intro cur op lastC isFirst nl h1 h2 h3 p hp
    rw [BreakUpTermsLoop] at hp
    split at hp
    · rename_i hsplit
      obtain ⟨hz, _⟩ := split_char c lastC isFirst nl hsplit
      rcases List.mem_cons.1 hp with e | hp2
      · subst e
        exact h1
      · refine ih [] _ c true nl ?_ (fun _ => ⟨hz, fun e => by cases e⟩) (fun _ => rfl) p hp2
        intro a q r e
        have := congrArg List.length e
        simp at this
        omega
    · rename_i hsplit
      refine ih (cur ++ [c]) op c false _ ?_ ?_ (fun e => by cases e) p hp
      · intro a q r e ha
        rcases snoc_split cur c a q r e with ⟨_, g2, g3⟩ | ⟨r2, g1, _⟩
        · subst g2
          subst g3
          obtain ⟨hz, hl⟩ := h2 ha
          subst hz
          have hplus : q ≠ '+' := by
            intro e2
            apply hsplit
            simp [e2]
          refine ⟨hplus, fun hm => ?_⟩
          cases isFirst with
          | true => exact Or.inl (h3 rfl)
          | false =>
            obtain ⟨a2, ea⟩ := hl rfl
            have hE : lastC = 'E' := by
              by_contra hne
              apply hsplit
              simp [hm, hne]
            exact Or.inr ⟨a2, by rw [ea, hE]⟩
        · exact h1 a q r2 g1 ha
      · intro hpl
        have hcur : ∀ x ∈ cur, x ≠ '(' ∧ x ≠ ')' :=
          fun x hx => hpl x (List.mem_append_left _ hx)
        have hc := hpl c (by simp)
        obtain ⟨hz, _⟩ := h2 hcur
        subst hz
        exact ⟨nestStep_plain c 0 hc.1 hc.2, fun _ => ⟨cur, rfl⟩⟩

/-- The terms of a well-shaped text are well shaped, and outside parentheses they hold
no `+`, and a `-` only in front or after `E`. -/
theorem BreakUpTerms_wellShaped (expr : List Char) (h : wellShaped expr) :
    ∀ p ∈ BreakUpTerms expr, wellShaped p.2 ∧ topSigns p.2 := by
  intro p hp
  constructor
  · obtain ⟨a0, b0, e1, e2, e3⟩ := BreakUpTermsLoop_inside expr [] .NONE (Char.ofNat 0) true 0 p hp
    rw [List.nil_append] at e1
    have hb := BreakUpTermsLoop_balanced expr [] .NONE (Char.ofNat 0) true 0 h.1 rfl
      (by have := h.2.1; omega) p hp
    rw [e1] at h
    exact wellShaped_inside a0 p.2 b0 h (by simpa [balanced] using hb) (Or.inl e2) e3
  · refine BreakUpTermsLoop_topSigns expr [] .NONE (Char.ofNat 0) true 0 ?_
      (fun _ => ⟨rfl, fun e => by cases e⟩) (fun _ => rfl) p hp
    intro a q r e
    have := congrArg List.length e
    simp at this
    omega

theorem wellShaped_bal (s : List Char) (h : wellShaped s) : bal s :=
  bal_of_depthAfter s h.1

/-- The two sides of the first top-level operator of a well-shaped term. -/
theorem wellShaped_sides (op : Char) (hop : op = '*' ∨ op = '/' ∨ op = '^')
    (term : List Char) (pos : Nat) (h : wellShaped term)
    (hf : findTopLevel op term 0 0 = some pos) :
    ∃ L R, term = L ++ op :: R ∧ term.take pos = L ∧ substr term (pos + 1) = .ok R ∧
      wellShaped L ∧ wellShaped R := by
  have h1 : op ≠ '(' := by rcases hop with e | e | e <;> subst e <;> decide
  have h2 : op ≠ ')' := by rcases hop with e | e | e <;> subst e <;> decide
  have hs : isStartChar op = true := by rcases hop with e | e | e <;> subst e <;> rfl
  have hc : isCutChar op = true := by rcases hop with e | e | e <;> subst e <;> rfl
  obtain ⟨L, R, e1, e2, e3, e4⟩ := findTopLevel_split op h1 h2 term 0 0 pos h.1
    (by have := h.2.1; omega) hf
  rw [Nat.zero_add] at e2
  refine ⟨L, R, e1, ?_, ?_, ?_, ?_⟩
  · rw [e1, e2, List.take_left]
  · have hle : pos + 1 ≤ term.length := by rw [e1, e2]; simp
    have hd : term.drop (pos + 1) = R := by
      have : term = (L ++ [op]) ++ R := by rw [e1]; simp
      rw [this, e2, show L.length + 1 = (L ++ [op]).length by simp, List.drop_left]
    rw [substr, if_pos hle, hd]
  · have h5 : wellShaped ([] ++ L ++ (op :: R)) := by simpa [e1] using h
    exact wellShaped_inside [] L (op :: R) h5 e3 (Or.inl (Or.inl rfl)) (Or.inr ⟨op, R, rfl, hc⟩)
  · have h5 : wellShaped ((L ++ [op]) ++ R ++ []) := by simpa [e1] using h
    exact wellShaped_inside (L ++ [op]) R [] h5 e4 (Or.inl (Or.inr ⟨L, op, rfl, hs⟩)) (Or.inl rfl)

theorem bal_zero : bal ['0'] := bal_plain _ (by decide)

theorem okBal_ite (c : Prop) [Decidable c] (a b : Outcome (Option (List Char)))
    (ha : okBal a) (hb : okBal b) : okBal (if c then a else b) := by
  split
  · exact ha
  · exact hb

theorem okBal_pure (x : List Char) (h : bal x) :
    okBal (pure (some x) : Outcome (Option (List Char))) := by
  intro item e
  cases e
  exact h

theorem okBal_none : okBal (Outcome.ok none) := by
  intro item e
  cases e

theorem okBal_thrown (e : Exn) : okBal (Outcome.thrown e) := by
  intro item e
  cases e

theorem okBal_bind {α : Type} (r : Outcome α) (f : α → Outcome (Option (List Char)))
    (h : ∀ a, r = .ok a → okBal (f a)) : okBal (r >>= f) := by
  cases r with
  | ok a => exact h a rfl
  | thrown _ => intro item e; cases e
  | undefined => intro item e; cases e
  | unmodelled => intro item e; cases e
  | fuel => intro item e; cases e

theorem isdigit_not_paren (c : Char) (h : isdigit c = true) : c ≠ '(' ∧ c ≠ ')' := by
  constructor <;> rintro rfl <;> exact absurd h (by decide)

theorem to_string_bal (q : ℚ) : bal (to_string q) := by
  apply bal_plain
  intro c hc
  unfold to_string at hc
  simp only [List.mem_append, List.mem_singleton, List.mem_replicate] at hc
  rcases hc with (((hc | hc) | hc) | hc) | hc
  · split at hc
    · simp only [List.mem_singleton] at hc
      subst hc; decide
    · cases hc
  · exact isdigit_not_paren c ((toDigits_spec _).2.1 c hc)
  · subst hc; decide
  · rw [hc.2]; decide
  · exact isdigit_not_paren c ((toDigits_spec _).2.1 c hc)

theorem ProcessProductRule_bal (rec : List Char → List Char → Outcome (List Char))
    (term v : List Char) (h : wellShaped term)
    (hrec : ∀ sub d, wellShaped sub → rec sub v = .ok d → bal d) :
    okBal (ProcessProductRule rec term v) := by
  unfold ProcessProductRule
  cases hf : findTopLevel '*' term 0 0 with
  | none => exact okBal_none
  | some pos =>
    obtain ⟨L, R, e1, e2, e3, hL, hR⟩ := wellShaped_sides '*' (Or.inl rfl) term pos h hf
    simp only [e2, e3, bind_ok]
    have bL := wellShaped_bal L hL
    have bR := wellShaped_bal R hR
    refine okBal_ite _ _ _ (okBal_pure _ bal_zero) ?_
    refine okBal_bind _ _ (fun dL hdL => okBal_bind _ _ (fun dR hdR => ?_))
    have bdL := hrec L dL hL hdL
    have bdR := hrec R dR hR hdR
    repeat' first
      | apply okBal_ite
      | (apply okBal_pure; intro k;
         simp [depthAfter, depthAfter_append, bL _, bR _, bdL _, bdR _])

theorem ProcessQuotientRule_bal (rec : List Char → List Char → Outcome (List Char))
    (term v : List Char) (h : wellShaped term)
    (hrec : ∀ sub d, wellShaped sub → rec sub v = .ok d → bal d) :
    okBal (ProcessQuotientRule rec term v) := by
  unfold ProcessQuotientRule
  cases hf : findTopLevel '/' term 0 0 with
  | none => exact okBal_none
  | some pos =>
    obtain ⟨L, R, e1, e2, e3, hL, hR⟩ := wellShaped_sides '/' (Or.inr (Or.inl rfl)) term pos h hf
    simp only [e2, e3, bind_ok]
    have bL := wellShaped_bal L hL
    have bR := wellShaped_bal R hR
    refine okBal_ite _ _ _ (okBal_pure _ bal_zero) (okBal_ite _ _ _ (okBal_thrown _) ?_)
    refine okBal_bind _ _ (fun dL hdL => okBal_bind _ _ (fun dR hdR => ?_))
    have bdL := hrec L dL hL hdL
    have bdR := hrec R dR hR hdR
    repeat' first
      | apply okBal_ite
      | (apply okBal_pure; intro k;
         simp [depthAfter, depthAfter_append, bL _, bR _, bdL _, bdR _])

theorem ProcessPowers_bal (m : CMath) (rec : List Char → List Char → Outcome (List Char))
    (term v : List Char) (h : wellShaped term)
    (hrec : ∀ sub d, wellShaped sub → rec sub v = .ok d → bal d) :
    okBal (ProcessPowers m rec term v) := by
  unfold ProcessPowers
  cases hf : findTopLevel '^' term 0 0 with
  | none => exact okBal_none
  | some pos =>
    obtain ⟨L, R, e1, e2, e3, hL, hR⟩ := wellShaped_sides '^' (Or.inr (Or.inr rfl)) term pos h hf
    simp only [e2, e3, bind_ok]
    have bL := wellShaped_bal L hL
    have bR := wellShaped_bal R hR
    refine okBal_ite _ _ _ (okBal_pure _ bal_zero) ?_
    refine okBal_bind _ _ (fun dL hdL => okBal_bind _ _ (fun dR hdR => ?_))
    have bdL := hrec L dL hL hdL
    have bdR := hrec R dR hR hdR
    repeat' first
      | apply okBal_ite
      | (apply okBal_bind; intro val _)
      | (apply okBal_pure; intro k;
         simp [depthAfter, depthAfter_append, bL _, bR _, bdL _, bdR _, to_string_bal _ _])

theorem isKeyLetter_cases (c : Char) (h : isKeyLetter c = true) :
    c = 's' ∨ c = 'c' ∨ c = 't' ∨ c = 'l' := by
  simp only [isKeyLetter, Bool.or_eq_true, decide_eq_true_eq] at h
  rcases h with ((h | h) | h) | h
  · exact Or.inl h
  · exact Or.inr (Or.inl h)
  · exact Or.inr (Or.inr (Or.inl h))
  · exact Or.inr (Or.inr (Or.inr h))

/-- The special-function rule leaves a term alone unless its first character, or the one
after a leading `-`, is a keyword letter. -/
theorem ProcessSpecialFunctions_cases (rec : List Char → List Char → Outcome (List Char))
    (term v : List Char) :
    ProcessSpecialFunctions rec term v = .ok none ∨
    (∃ c tl, term = c :: tl ∧ tl ≠ [] ∧ isKeyLetter c = true) ∨
    (∃ c tl, term = '-' :: c :: tl ∧ isKeyLetter c = true) := by
  match term with
  | [] => exact Or.inl rfl
  | [c] => exact Or.inl rfl
  | c :: c2 :: tl =>
    by_cases hneg : c = '-'
    · subst hneg
      by_cases hk : isKeyLetter c2 = true
      · exact Or.inr (Or.inr ⟨c2, tl, rfl, hk⟩)
      · left
        simp only [isKeyLetter, Bool.or_eq_true, decide_eq_true_eq, not_or] at hk
        simp [ProcessSpecialFunctions, hk.1.1.1, hk.1.1.2, hk.1.2, hk.2]
    · by_cases hk : isKeyLetter c = true
      · exact Or.inr (Or.inl ⟨c, c2 :: tl, rfl, by simp, hk⟩)
      · left
        simp only [isKeyLetter, Bool.or_eq_true, decide_eq_true_eq, not_or] at hk
        simp [ProcessSpecialFunctions, hneg, hk.1.1.1, hk.1.1.2, hk.1.2, hk.2]

theorem keyword_plain (K : List Char)
    (hK : K = ['s', 'i', 'n'] ∨ K = ['c', 'o', 's'] ∨ K = ['t', 'a', 'n'] ∨ K = ['l', 'n']) :
    ∀ c ∈ K, c ≠ '(' ∧ c ≠ ')' := by
  rcases hK with rfl | rfl | rfl | rfl <;> decide

/-- The argument of a keyword in a well-shaped term is well shaped. -/
theorem wellShaped_argument (pre tail : List Char) (hpre : ∀ c ∈ pre, c ≠ '(' ∧ c ≠ ')')
    (h : wellShaped (pre ++ '(' :: tail)) : wellShaped ('(' :: tail) := by
  have hd : depthAfter 0 ('(' :: tail) = some 0 := by
    have := h.1
    rw [depthAfter_append, depthAfter_plain pre 0 hpre] at this
    exact this
  have h5 : wellShaped (pre ++ ('(' :: tail) ++ []) := by simpa using h
  exact wellShaped_inside pre ('(' :: tail) [] h5 hd
    (Or.inr (fun c rest e => by
      obtain ⟨e1, _⟩ := List.cons.inj e
      rw [← e1]; rfl)) (Or.inl rfl)

theorem specialFunctionTable_bal (K F dF : List Char)
    (hK : K = ['s', 'i', 'n'] ∨ K = ['c', 'o', 's'] ∨ K = ['t', 'a', 'n'] ∨ K = ['l', 'n'])
    (bF : bal F) (bdF : bal dF) : bal (specialFunctionTable K F dF) := by
  rcases hK with rfl | rfl | rfl | rfl <;>
    simp only [specialFunctionTable, List.cons.injEq, Char.reduceEq, false_and, and_false,
      and_self, if_true, if_false] <;>
    (try split) <;> intro k <;>
    simp [depthAfter, depthAfter_append, bF _, bdF _]

theorem ProcessSpecialFunctions_bal (rec : List Char → List Char → Outcome (List Char))
    (term v : List Char) (h : wellShaped term)
    (hrec : ∀ sub d, wellShaped sub → rec sub v = .ok d → bal d) :
    okBal (ProcessSpecialFunctions rec term v) := by
  rcases ProcessSpecialFunctions_cases rec term v with e | ⟨c, tl, e, _, hk⟩ | ⟨c, tl, e, hk⟩
  · rw [e]; exact okBal_none
  · subst e
    have ha := h.2.2.1 [] c tl rfl hk (Or.inl rfl)
    obtain ⟨K, tail, e2, hK⟩ := keywordAhead_form _ ha
    rw [e2] at h ⊢
    have hF := wellShaped_argument K tail (keyword_plain K hK) h
    rw [(ProcessSpecialFunctions_keyword rec K ('(' :: tail) v hK).1]
    refine okBal_bind _ _ (fun dF hdF => okBal_pure _ ?_)
    have bdF := hrec _ dF hF hdF
    split
    · exact bal_zero
    · exact specialFunctionTable_bal K _ dF hK (wellShaped_bal _ hF) bdF
  · subst e
    have ha := h.2.2.1 ['-'] c tl rfl hk (Or.inr ⟨[], '-', rfl, rfl⟩)
    obtain ⟨K, tail, e2, hK⟩ := keywordAhead_form _ ha
    rw [e2] at h ⊢
    have hF := wellShaped_argument ('-' :: K) tail (by
      intro x hx
      rcases List.mem_cons.1 hx with hx | hx
      · subst hx; decide
      · exact keyword_plain K hK x hx) h
    rw [(ProcessSpecialFunctions_keyword rec K ('(' :: tail) v hK).2]
    refine okBal_bind _ _ (fun dF hdF => okBal_pure _ ?_)
    have bdF := hrec _ dF hF hdF
    split
    · exact bal_zero
    · have := specialFunctionTable_bal K _ dF hK (wellShaped_bal _ hF) bdF
      intro k
      simp [depthAfter, this k]

theorem isVar_plain (w : List Char) (hw : isVar w) : ∀ c ∈ w, c ≠ '(' ∧ c ≠ ')' := by
  intro c hc
  rcases hw c hc with e | e <;> subst e <;> decide

theorem isVar_no_key (w : List Char) (hw : isVar w) : ∀ c ∈ w, isKeyLetter c = false := by
  intro c hc
  rcases hw c hc with e | e <;> subst e <;> rfl

theorem isVar_snoc (v : List Char) (hv : isVar v) : isVar (v ++ [Char.ofNat 39]) := by
  intro c hc
  rcases List.mem_append.1 hc with h | h
  · exact hv c h
  · simp only [List.mem_singleton] at h
    exact Or.inr h

theorem startsAt_snoc (a : List Char) (p : Char) (h : startsAt (a ++ [p])) :
    isStartChar p = true := by
  rcases h with e | ⟨a2, q, e, hq⟩
  · simp at e
  · obtain ⟨_, e2⟩ := List.append_inj' e rfl
    have : p = q := by simpa using e2
    rw [this]; exact hq

/-- The term of the chain rule with its first group replaced by the placeholder is well
shaped, when no keyword letter starts an operand in front of the group. -/
theorem wellShaped_substitute (pre g post w2 : List Char)
    (h : wellShaped (pre ++ '(' :: (g ++ ')' :: post)))
    (hpre : ∀ c ∈ pre, c ≠ '(' ∧ c ≠ ')') (hpost : depthAfter 0 post = some 0)
    (hw : isVar (w2 ++ [Char.ofNat 39]))
    (hnk : ∀ a c rest, pre = a ++ c :: rest → isKeyLetter c = true → ¬ startsAt a) :
    wellShaped (pre ++ (w2 ++ [Char.ofNat 39]) ++ post) := by
  obtain ⟨_, h2, h3, h4⟩ := h
  have hwp := isVar_plain _ hw
  have hterm : ∀ a3 s, post = a3 ++ s →
      pre ++ '(' :: (g ++ ')' :: post) = (pre ++ '(' :: (g ++ ')' :: a3)) ++ s := by
    intro a3 s e; rw [e]; simp
  refine ⟨?_, ?_, ?_, ?_⟩
  · rw [depthAfter_append, depthAfter_append, depthAfter_plain pre 0 hpre]
    simp only [Option.some_bind]
    rw [depthAfter_plain _ 0 hwp]
    exact hpost
  · have hc : (w2 ++ [Char.ofNat 39]).count '(' = 0 :=
      List.count_eq_zero_of_not_mem (fun hm => (hwp _ hm).1 rfl)
    simp only [List.count_append, List.count_cons, hc] at h2 ⊢
    omega
  · intro a c rest e hk hs
    rw [List.append_assoc] at e
    rcases split_append _ c rest pre a e with ⟨r, g1, _⟩ | ⟨a2, g1, g2⟩
    · exact absurd hs (hnk a c r g1 hk)
    · rcases split_append _ c rest _ a2 g2 with ⟨r, g3, _⟩ | ⟨a3, g3, g4⟩
      · have := isVar_no_key _ hw c (by rw [g3]; simp)
        rw [this] at hk; cases hk
      · subst g1 g3
        cases a3 with
        | nil =>
          rw [List.append_nil, ← List.append_assoc] at hs
          have := startsAt_snoc _ _ hs
          exact absurd this (by decide)
        | cons y ys =>
          have hs3 : startsAt (y :: ys) := by
            rw [← List.append_assoc] at hs
            exact startsAt_of_append _ _ (by simp) hs
          have hform : pre ++ '(' :: (g ++ ')' :: (y :: ys)) =
              (pre ++ '(' :: (g ++ [')'])) ++ (y :: ys) := by simp
          refine h3 _ c rest (hterm _ _ g4) hk ?_
          rw [hform]
          exact startsAt_append _ _ (by simp) hs3
  · intro a c rest e
    rw [List.append_assoc] at e
    rcases split_append _ 'E' _ pre a e with ⟨r, g1, g2⟩ | ⟨a2, g1, g2⟩
    · match r, g1, g2 with
      | [], _, g2 =>
        rw [List.nil_append] at g2
        have hm : '-' ∈ w2 ++ [Char.ofNat 39] := by
          cases w2 with
          | nil => cases g2
          | cons y ys =>
            rw [List.cons_append, List.cons_append] at g2
            rw [← (List.cons.inj g2).1]; simp
        rcases hw _ hm with e2 | e2 <;> exact absurd e2 (by decide)
      | [r0], _, g2 =>
        rw [List.singleton_append] at g2
        obtain ⟨_, g3⟩ := List.cons.inj g2
        have hm : c ∈ w2 ++ [Char.ofNat 39] := by
          cases w2 with
          | nil =>
            rw [List.nil_append, List.singleton_append] at g3
            rw [(List.cons.inj g3).1]; simp
          | cons y ys =>
            rw [List.cons_append, List.cons_append] at g3
            rw [(List.cons.inj g3).1]; simp
        exact isVar_no_key _ hw c hm
      | r0 :: r1 :: r2, g1, g2 =>
        rw [List.cons_append, List.cons_append] at g2
        obtain ⟨e0, g3⟩ := List.cons.inj g2
        obtain ⟨e1, _⟩ := List.cons.inj g3
        refine h4 a c (r2 ++ '(' :: (g ++ ')' :: post)) ?_
        rw [g1, ← e0, ← e1]; simp
    · rcases split_append _ 'E' _ _ a2 g2 with ⟨r, g3, _⟩ | ⟨a3, g3, g4⟩
      · have hm : 'E' ∈ w2 ++ [Char.ofNat 39] := by rw [g3]; simp
        rcases hw _ hm with e2 | e2 <;> exact absurd e2 (by decide)
      · exact h4 _ c rest (hterm _ _ g4)

/-- In a term that reaches the chain rule no keyword letter starts an operand in front
of the first parenthesis. -/
theorem noKeyStart_of_chain (rec : List Char → List Char → Outcome (List Char))
    (pre tail v : List Char) (h : wellShaped (pre ++ '(' :: tail))
    (hpre : ∀ c ∈ pre, c ≠ '(' ∧ c ≠ ')') (ht : topSigns (pre ++ '(' :: tail))
    (hstar : findTopLevel '*' (pre ++ '(' :: tail) 0 0 = none)
    (hdiv : findTopLevel '/' (pre ++ '(' :: tail) 0 0 = none)
    (hpow : findTopLevel '^' (pre ++ '(' :: tail) 0 0 = none)
    (hsp : ProcessSpecialFunctions rec (pre ++ '(' :: tail) v = .ok none) :
    ∀ a c rest, pre = a ++ c :: rest → isKeyLetter c = true → ¬ startsAt a := by
  intro a c rest e hk hs
  have hkc := isKeyLetter_cases c hk
  subst e
  rcases hs with e | ⟨a2, p, e, hp⟩
  · subst e
    cases rest with
    | nil => exact ProcessSpecialFunctions_first_letter rec c '(' tail v hkc hsp
    | cons r0 r1 => exact ProcessSpecialFunctions_first_letter rec c r0 _ v hkc hsp
  · subst e
    have ha2 : ∀ x ∈ a2, x ≠ '(' ∧ x ≠ ')' := fun x hx => hpre x (by simp [hx])
    have hform : (a2 ++ [p] ++ c :: rest) ++ '(' :: tail =
        a2 ++ p :: (c :: (rest ++ '(' :: tail)) := by simp
    rw [hform] at h ht hstar hdiv hpow hsp
    simp only [isStartChar, Bool.or_eq_true, decide_eq_true_eq] at hp
    rcases hp with ((((hp | hp) | hp) | hp) | hp) | hp
    · exact (ht a2 p _ rfl ha2).1 hp
    · rcases (ht a2 p _ rfl ha2).2 hp with e | ⟨a3, e⟩
      · subst e hp
        exact ProcessSpecialFunctions_negated_letter rec c _ v hkc hsp
      · subst e hp
        have := h.2.2.2 a3 c (rest ++ '(' :: tail) (by simp)
        rw [this] at hk; cases hk
    · subst hp
      exact findTopLevel_of_plain_mem '*' (by decide) (by decide) _ a2 0 ha2 hstar
    · subst hp
      exact findTopLevel_of_plain_mem '/' (by decide) (by decide) _ a2 0 ha2 hdiv
    · subst hp
      exact findTopLevel_of_plain_mem '^' (by decide) (by decide) _ a2 0 ha2 hpow
    · subst hp
      exact (hpre '(' (by simp)).1 rfl

theorem ProcessChainRule_bal (rec : List Char → List Char → Outcome (List Char))
    (term v : List Char) (h : wellShaped term) (ht : topSigns term) (hv : isVar v)
    (hstar : findTopLevel '*' term 0 0 = none) (hdiv : findTopLevel '/' term 0 0 = none)
    (hpow : findTopLevel '^' term 0 0 = none)
    (hsp : ProcessSpecialFunctions rec term v = .ok none)
    (hrec : ∀ sub v2 d, wellShaped sub → isVar v2 → rec sub v2 = .ok d → bal d) :
    okBal (ProcessChainRule rec term v) := by
  cases hf : findNestingOne term 0 0 with
  | none => simp only [ProcessChainRule, hf]; exact okBal_none
  | some q =>
    obtain ⟨pre, post1, e1, e2, hpre⟩ := findNestingOne_first term 0 q 0 hf h.1
    rw [Nat.zero_add] at e2
    have hd1 : depthAfter 1 post1 = some 0 := by
      have := h.1
      rw [e1, depthAfter_append, depthAfter_plain pre 0 hpre] at this
      simpa [depthAfter] using this
    obtain ⟨g, post, e3, hg, hpost⟩ := group_split post1 0 0 hd1
    subst e3
    subst e1
    have hcnt : g.count '(' ≤ (pre ++ '(' :: (g ++ ')' :: post)).count '(' := by
      simp only [List.count_append, List.count_cons]
      omega
    have hin : insideGroup g 1 = true :=
      insideGroup_of_depthAfter g 0 hg (by have := h.2.1; omega)
    have hdrop : (pre ++ '(' :: (g ++ ')' :: post)).drop (q + 1) = g ++ ')' :: post := by
      have : pre ++ '(' :: (g ++ ')' :: post) = (pre ++ ['(']) ++ (g ++ ')' :: post) := by simp
      rw [this, e2, show pre.length + 1 = (pre ++ ['(']).length by simp, List.drop_left]
    have hsub : GetSubExpression (pre ++ '(' :: (g ++ ')' :: post)) (q + 1) =
        (g, q + 1 + g.length) := by
      rw [GetSubExpression, hdrop, GetSubExpressionLoop_group post g 1 _ [] hin]
      simp
    have hrep : replace (pre ++ '(' :: (g ++ ')' :: post)) q
        (['('] ++ g ++ [')']).length (v ++ [Char.ofNat 39]) =
        .ok (pre ++ (v ++ [Char.ofNat 39]) ++ post) := by
      have hle : q ≤ (pre ++ '(' :: (g ++ ')' :: post)).length := by rw [e2]; simp
      have hd2 : (pre ++ '(' :: (g ++ ')' :: post)).drop
          (q + (['('] ++ g ++ [')']).length) = post := by
        have : pre ++ '(' :: (g ++ ')' :: post) = (pre ++ '(' :: (g ++ [')'])) ++ post := by simp
        rw [this, e2, show pre.length + (['('] ++ g ++ [')']).length =
          (pre ++ '(' :: (g ++ [')'])).length by simp, List.drop_left]
      have ht2 : (pre ++ '(' :: (g ++ ')' :: post)).take q = pre := by
        rw [e2, List.take_left]
      simp only [replace, hle, if_true, hd2, ht2]
    have hnk := noKeyStart_of_chain rec pre (g ++ ')' :: post) v h hpre ht hstar hdiv hpow hsp
    have hG : wellShaped g := by
      have h5 : wellShaped ((pre ++ ['(']) ++ g ++ (')' :: post)) := by simpa using h
      exact wellShaped_inside (pre ++ ['(']) g (')' :: post) h5 hg
        (Or.inl (Or.inr ⟨pre, '(', rfl, rfl⟩)) (Or.inr ⟨')', post, rfl, rfl⟩)
    have hS := wellShaped_substitute pre g post v h hpre hpost (isVar_snoc v hv) hnk
    simp only [ProcessChainRule, hf, hsub, hrep, bind_ok]
    refine okBal_bind _ _ (fun dG hdG => okBal_bind _ _ (fun dS hdS => ?_))
    have bdG := hrec g v dG hG hv hdG
    have bdS := hrec _ _ dS hS (isVar_snoc v hv) hdS
    repeat' first
      | apply okBal_ite
      | (apply okBal_pure; first | exact bal_zero | exact bdG | exact bdS |
          (intro k; simp [depthAfter, depthAfter_append, bdG _, bdS _]))

theorem neverNone_bind {α β : Type} (r : Outcome α) (k : α → Outcome (Option β))
    (h : ∀ a, k a ≠ .ok none) : (r >>= k) ≠ .ok none := bind_ne_ok_none r k h

theorem neverNone_ite {β : Type} (c : Prop) [Decidable c] (a b : Outcome (Option β))
    (ha : a ≠ .ok none) (hb : b ≠ .ok none) : (if c then a else b) ≠ .ok none := by
  split
  · exact ha
  · exact hb

theorem neverNone_pure {β : Type} (x : β) :
    (pure (some x) : Outcome (Option β)) ≠ .ok none := by
  intro e; cases e

theorem neverNone_thrown {β : Type} (e : Exn) :
    (Outcome.thrown e : Outcome (Option β)) ≠ .ok none := by
  intro e; cases e

theorem ProcessProductRule_ok_none (rec : List Char → List Char → Outcome (List Char))
    (term v : List Char) (h : ProcessProductRule rec term v = .ok none) :
    findTopLevel '*' term 0 0 = none := by
  cases hf : findTopLevel '*' term 0 0 with
  | none => rfl
  | some pos =>
    exfalso
    revert h
    simp only [ProcessProductRule, hf]
    repeat' first
      | apply neverNone_ite
      | apply neverNone_pure
      | (apply neverNone_bind; intro _)

theorem ProcessQuotientRule_ok_none (rec : List Char → List Char → Outcome (List Char))
    (term v : List Char) (h : ProcessQuotientRule rec term v = .ok none) :
    findTopLevel '/' term 0 0 = none := by
  cases hf : findTopLevel '/' term 0 0 with
  | none => rfl
  | some pos =>
    exfalso
    revert h
    simp only [ProcessQuotientRule, hf]
    repeat' first
      | apply neverNone_ite
      | apply neverNone_pure
      | apply neverNone_thrown
      | (apply neverNone_bind; intro _)

theorem ProcessPowers_ok_none (m : CMath) (rec : List Char → List Char → Outcome (List Char))
    (term v : List Char) (h : ProcessPowers m rec term v = .ok none) :
    findTopLevel '^' term 0 0 = none := by
  cases hf : findTopLevel '^' term 0 0 with
  | none => rfl
  | some pos =>
    exfalso
    revert h
    simp only [ProcessPowers, hf]
    repeat' first
      | apply neverNone_ite
      | apply neverNone_pure
      | (apply neverNone_bind; intro _)

theorem bal_one : bal ['1'] := bal_plain _ (by decide)

theorem bal_minus_one : bal ['-', '1'] := bal_plain _ (by decide)

/-- The derivative text of a well-shaped term is balanced when the texts returned for
its parts are. -/
theorem ProcessTerm_bal (m : CMath) (rec : List Char → List Char → Outcome (List Char))
    (term v d : List Char) (h : wellShaped term) (ht : topSigns term) (hv : isVar v)
    (hrec : ∀ sub v2 d, wellShaped sub → isVar v2 → rec sub v2 = .ok d → bal d)
    (hd : ProcessTerm m rec term v = .ok d) : bal d := by
  have hrec1 : ∀ sub d, wellShaped sub → rec sub v = .ok d → bal d :=
    fun sub d hs e => hrec sub v d hs hv e
  unfold ProcessTerm at hd
  split at hd
  · cases hd; exact bal_one
  split at hd
  · cases hd; exact bal_minus_one
  split at hd
  · cases hd; exact bal_zero
  cases hP : ProcessProductRule rec term v with
  | ok o =>
    cases o with
    | some item =>
      rw [hP] at hd
      simp only [bind_ok] at hd
      cases hd
      exact ProcessProductRule_bal rec term v h hrec1 _ hP
    | none =>
      rw [hP] at hd
      simp only [bind_ok] at hd
      cases hQ : ProcessQuotientRule rec term v with
      | ok o =>
        cases o with
        | some item =>
          rw [hQ] at hd
          simp only [bind_ok] at hd
          cases hd
          exact ProcessQuotientRule_bal rec term v h hrec1 _ hQ
        | none =>
          rw [hQ] at hd
          simp only [bind_ok] at hd
          cases hW : ProcessPowers m rec term v with
          | ok o =>
            cases o with
            | some item =>
              rw [hW] at hd
              simp only [bind_ok] at hd
              cases hd
              exact ProcessPowers_bal m rec term v h hrec1 _ hW
            | none =>
              rw [hW] at hd
              simp only [bind_ok] at hd
              cases hS : ProcessSpecialFunctions rec term v with
              | ok o =>
                cases o with
                | some item =>
                  rw [hS] at hd
                  simp only [bind_ok] at hd
                  cases hd
                  exact ProcessSpecialFunctions_bal rec term v h hrec1 _ hS
                | none =>
                  rw [hS] at hd
                  simp only [bind_ok] at hd
                  cases hC : ProcessChainRule rec term v with
                  | ok o =>
                    cases o with
                    | some item =>
                      rw [hC] at hd
                      simp only [bind_ok] at hd
                      cases hd
                      exact ProcessChainRule_bal rec term v h ht hv
                        (ProcessProductRule_ok_none rec term v hP)
                        (ProcessQuotientRule_ok_none rec term v hQ)
                        (ProcessPowers_ok_none m rec term v hW) hS hrec _ hC
                    | none => rw [hC] at hd; cases hd
                  | thrown _ => rw [hC] at hd; cases hd
                  | undefined => rw [hC] at hd; cases hd
                  | unmodelled => rw [hC] at hd; cases hd
                  | fuel => rw [hC] at hd; cases hd
              | thrown _ => rw [hS] at hd; cases hd
              | undefined => rw [hS] at hd; cases hd
              | unmodelled => rw [hS] at hd; cases hd
              | fuel => rw [hS] at hd; cases hd
          | thrown _ => rw [hW] at hd; cases hd
          | undefined => rw [hW] at hd; cases hd
          | unmodelled => rw [hW] at hd; cases hd
          | fuel => rw [hW] at hd; cases hd
      | thrown _ => rw [hQ] at hd; cases hd
      | undefined => rw [hQ] at hd; cases hd
      | unmodelled => rw [hQ] at hd; cases hd
      | fuel => rw [hQ] at hd; cases hd
  | thrown _ => rw [hP] at hd; cases hd
  | undefined => rw [hP] at hd; cases hd
  | unmodelled => rw [hP] at hd; cases hd
  | fuel => rw [hP] at hd; cases hd

theorem ProcessDerivatives_bal (m : CMath)
    (rec : List Char → List Char → Outcome (List Char)) (v : List Char) (hv : isVar v)
    (hrec : ∀ sub v2 d, wellShaped sub → isVar v2 → rec sub v2 = .ok d → bal d) :
    ∀ (items ds : List (InterTermOperator × List Char)),
      (∀ p ∈ items, wellShaped p.2 ∧ topSigns p.2) →
      ProcessDerivatives m rec items v = .ok ds → ∀ p ∈ ds, bal p.2 := by
  intro items
  induction items with
  | nil =>
    intro ds _ h p hp
    rw [ProcessDerivatives] at h
    cases h
    cases hp
  | cons it rest ih =>
    intro ds hall h p hp
    obtain ⟨op, term⟩ := it
    rw [ProcessDerivatives] at h
    cases hT : ProcessTerm m rec term v with
    | ok d =>
      cases hR : ProcessDerivatives m rec rest v with
      | ok ds2 =>
        rw [hT, hR] at h
        simp only [bind_ok, pure_eq_ok] at h
        cases h
        rcases List.mem_cons.1 hp with e | hp2
        · subst e
          have := hall (op, term) (List.mem_cons_self _ _)
          exact ProcessTerm_bal m rec term v d this.1 this.2 hv hrec hT
        · exact ih ds2 (fun q hq => hall q (List.mem_cons_of_mem _ hq)) hR p hp2
      | thrown _ => rw [hT, hR] at h; cases h
      | undefined => rw [hT, hR] at h; cases h
      | unmodelled => rw [hT, hR] at h; cases h
      | fuel => rw [hT, hR] at h; cases h
    | thrown _ => rw [hT] at h; cases h
    | undefined => rw [hT] at h; cases h
    | unmodelled => rw [hT] at h; cases h
    | fuel => rw [hT] at h; cases h

theorem bal_cons_plain (x : Char) (s : List Char) (h1 : x ≠ '(') (h2 : x ≠ ')')
    (h : bal s) : bal (x :: s) := by
  intro k
  rw [depthAfter, if_neg h1, if_neg h2]
  exact h k

theorem RecombineStep_bal (acc : List Char) (item : InterTermOperator × List Char)
    (ha : bal acc) (hi : bal item.2) : bal (RecombineStep acc item) := by
  obtain ⟨op, t⟩ := item
  cases t with
  | nil => exact ha
  | cons c t2 =>
    have hi2 : bal (c :: t2) := hi
    by_cases hc : c = '-'
    · subst hc
      have ht2 : bal t2 := by
        intro k
        have := hi2 k
        simpa [depthAfter] using this
      cases op with
      | NONE => exact hi2
      | PLUS =>
        have e : RecombineStep acc (.PLUS, '-' :: t2) = acc ++ '-' :: t2 := by
          simp [RecombineStep]
        rw [e]
        exact bal_append _ _ ha hi2
      | MINUS =>
        have e : RecombineStep acc (.MINUS, '-' :: t2) = acc ++ '+' :: t2 := by
          simp [RecombineStep]
        rw [e]
        exact bal_append _ _ ha (bal_cons_plain '+' t2 (by decide) (by decide) ht2)
    · cases op with
      | NONE => exact hi2
      | PLUS =>
        have e : RecombineStep acc (.PLUS, c :: t2) = acc ++ '+' :: (c :: t2) := by
          simp [RecombineStep, hc]
        rw [e]
        exact bal_append _ _ ha (bal_cons_plain '+' _ (by decide) (by decide) hi2)
      | MINUS =>
        have e : RecombineStep acc (.MINUS, c :: t2) = acc ++ '-' :: (c :: t2) := by
          simp [RecombineStep, hc]
        rw [e]
        exact bal_append _ _ ha (bal_cons_plain '-' _ (by decide) (by decide) hi2)

theorem RecombineTerms_bal : ∀ (ds : List (InterTermOperator × List Char)) (acc : List Char),
    bal acc → (∀ p ∈ ds, bal p.2) → bal (ds.foldl RecombineStep acc) := by
  intro ds
  induction ds with
  | nil => intro acc ha _; exact ha
  | cons p rest ih =>
    intro acc ha h
    rw [List.foldl_cons]
    exact ih _ (RecombineStep_bal acc p ha (h p (List.mem_cons_self _ _)))
      (fun q hq => h q (List.mem_cons_of_mem _ hq))

/-- The text returned for a well-shaped expression is balanced, at every depth of the
recursion and for every placeholder variable. -/
theorem FindDerivativeInternalF_bal (m : CMath) : ∀ (depth : Nat) (expr v d : List Char),
    wellShaped expr → isVar v → FindDerivativeInternalF m depth expr v = .ok d → bal d := by
  intro depth
  induction depth with
  | zero =>
    intro expr v d _ _ h
    rw [FindDerivativeInternalF] at h
    cases h
  | succ n ih =>
    intro expr v d hw hv h
    rw [FindDerivativeInternalF] at h
    cases hP : ProcessDerivatives m (FindDerivativeInternalF m n) (BreakUpTerms expr) v with
    | ok ds =>
      rw [hP] at h
      simp only [bind_ok, pure_eq_ok] at h
      cases h
      exact RecombineTerms_bal ds [] bal_nil
        (ProcessDerivatives_bal m _ v hv ih _ ds (BreakUpTerms_wellShaped expr hw) hP)
    | thrown _ => rw [hP] at h; cases h
    | undefined => rw [hP] at h; cases h
    | unmodelled => rw [hP] at h; cases h
    | fuel => rw [hP] at h; cases h

theorem keywordShape_append (A B : List Char) (hA : keywordShape A) (hB : keywordShape B) :
    keywordShape (A ++ B) := by
  intro a c rest e hk hs
  rcases split_append B c rest A a e with ⟨r, g1, g2⟩ | ⟨a2, g1, g2⟩
  · have := keywordAhead_append _ B (hA a c r g1 hk hs)
    rw [g2]
    simpa using this
  · refine hB a2 c rest g2 hk ?_
    cases a2 with
    | nil => exact Or.inl rfl
    | cons y ys =>
      rw [g1] at hs
      exact startsAt_of_append A _ (by simp) hs

theorem exponentShape_append (A B : List Char) (hA : exponentShape A)
    (hB : exponentShape B) : exponentShape (A ++ B) := by
  intro a rest e
  rcases split_append B 'E' rest A a e with ⟨r, g1, g2⟩ | ⟨a2, g1, g2⟩
  · rcases hA a r g1 with ⟨d, r2, e2, hd⟩ | ⟨d, r2, e2, hd⟩
    · exact Or.inl ⟨d, r2 ++ B, by rw [g2, e2]; rfl, hd⟩
    · exact Or.inr ⟨d, r2 ++ B, by rw [g2, e2]; rfl, hd⟩
  · exact hB a2 rest g2

theorem exponentShape_of_no_E (s : List Char) (h : 'E' ∉ s) : exponentShape s := by
  intro a rest e
  exact absurd (by rw [e]; simp) h

theorem grammarShape_append (A B : List Char) (hA : grammarShape A) (hB : grammarShape B) :
    grammarShape (A ++ B) :=
  ⟨bal_append A B hA.1 hB.1, keywordShape_append A B hA.2.1 hB.2.1,
    exponentShape_append A B hA.2.2 hB.2.2⟩

/-- A text of operators, digits, points or the letters `x` and `e` has the shape. -/
theorem grammarShape_plain (s : List Char)
    (h : ∀ c ∈ s, c ≠ '(' ∧ c ≠ ')' ∧ c ≠ 'E' ∧ isKeyLetter c = false) : grammarShape s :=
  ⟨bal_plain s (fun c hc => ⟨(h c hc).1, (h c hc).2.1⟩),
    keywordShape_of_no_key s (fun c hc => (h c hc).2.2.2),
    exponentShape_of_no_E s (fun hm => (h _ hm).2.2.1 rfl)⟩

theorem grammarShape_join (A B : List Char) (op : Char)
    (hop : op ≠ '(' ∧ op ≠ ')' ∧ op ≠ 'E' ∧ isKeyLetter op = false)
    (hA : grammarShape A) (hB : grammarShape B) : grammarShape (A ++ op :: B) := by
  have h1 : grammarShape [op] := grammarShape_plain [op] (by
    intro c hc
    simp only [List.mem_singleton] at hc
    subst hc
    exact hop)
  have := grammarShape_append A _ hA (grammarShape_append [op] B h1 hB)
  simpa using this

theorem isdigit_plain (c : Char) (h : isdigit c = true) :
    c ≠ '(' ∧ c ≠ ')' ∧ c ≠ 'E' ∧ isKeyLetter c = false := by
  refine ⟨?_, ?_, ?_, ?_⟩
  · rintro rfl; exact absurd h (by decide)
  · rintro rfl; exact absurd h (by decide)
  · rintro rfl; exact absurd h (by decide)
  · simp only [isKeyLetter, Bool.or_eq_false_iff, decide_eq_false_iff_not]
    refine ⟨⟨⟨?_, ?_⟩, ?_⟩, ?_⟩ <;> rintro rfl <;> exact absurd h (by decide)

theorem grammarShape_digits (ds : List Char) (h : isDigits ds) : grammarShape ds :=
  grammarShape_plain ds (fun c hc => isdigit_plain c (h.2 c hc))

theorem exponentShape_marker (tl : List Char) (h : 'E' ∉ tl)
    (hd : (∃ d r, tl = d :: r ∧ isdigit d = true) ∨
      (∃ d r, tl = '-' :: d :: r ∧ isdigit d = true)) : exponentShape ('E' :: tl) := by
  intro a rest e
  cases a with
  | nil =>
    rw [List.nil_append] at e
    obtain ⟨_, e2⟩ := List.cons.inj e
    rw [← e2]
    exact hd
  | cons y ys =>
    rw [List.cons_append] at e
    obtain ⟨_, e2⟩ := List.cons.inj e
    exact absurd (by rw [e2]; simp) h

theorem digits_head (es : List Char) (h : isDigits es) :
    ∃ d r, es = d :: r ∧ isdigit d = true := by
  cases es with
  | nil => exact absurd rfl h.1
  | cons d r => exact ⟨d, r, rfl, h.2 d (List.mem_cons_self _ _)⟩

theorem digits_no_E (es : List Char) (h : isDigits es) : 'E' ∉ es :=
  fun hm => absurd (h.2 _ hm) (by decide)

theorem grammarShape_number (n : List Char) (h : isNumber n) : grammarShape n := by
  obtain ⟨ds, frac, ex, e, hds, hfrac, hex⟩ := h
  subst e
  refine grammarShape_append _ _ (grammarShape_append _ _ (grammarShape_digits ds hds) ?_) ?_
  · rcases hfrac with e | ⟨fs, e, hfs⟩
    · subst e; exact grammarShape_plain [] (by simp)
    · subst e
      have := grammarShape_join [] fs '.' (by decide) (grammarShape_plain [] (by simp))
        (grammarShape_digits fs hfs)
      simpa using this
  · rcases hex with e | ⟨es, e | e, hes⟩
    · subst e; exact grammarShape_plain [] (by simp)
    · subst e
      obtain ⟨d, r, e2, hd⟩ := digits_head es hes
      have hplain : ∀ c ∈ 'E' :: es, c ≠ '(' ∧ c ≠ ')' ∧ isKeyLetter c = false := by
        intro c hc
        rcases List.mem_cons.1 hc with hc | hc
        · subst hc; decide
        · have := isdigit_plain c (hes.2 c hc)
          exact ⟨this.1, this.2.1, this.2.2.2⟩
      exact ⟨bal_plain _ (fun c hc => ⟨(hplain c hc).1, (hplain c hc).2.1⟩),
        keywordShape_of_no_key _ (fun c hc => (hplain c hc).2.2),
        exponentShape_marker es (digits_no_E es hes) (Or.inl ⟨d, r, e2, hd⟩)⟩
    · subst e
      obtain ⟨d, r, e2, hd⟩ := digits_head es hes
      have hplain : ∀ c ∈ 'E' :: '-' :: es, c ≠ '(' ∧ c ≠ ')' ∧ isKeyLetter c = false := by
        intro c hc
        rcases List.mem_cons.1 hc with hc | hc
        · subst hc; decide
        · rcases List.mem_cons.1 hc with hc | hc
          · subst hc; decide
          · have := isdigit_plain c (hes.2 c hc)
            exact ⟨this.1, this.2.1, this.2.2.2⟩
      refine ⟨bal_plain _ (fun c hc => ⟨(hplain c hc).1, (hplain c hc).2.1⟩),
        keywordShape_of_no_key _ (fun c hc => (hplain c hc).2.2),
        exponentShape_marker ('-' :: es) ?_ (Or.inr ⟨d, r, by rw [e2], hd⟩)⟩
      intro hm
      rcases List.mem_cons.1 hm with hm | hm
      · exact absurd hm (by decide)
      · exact digits_no_E es hes hm

theorem grammarShape_group (e : List Char) (h : grammarShape e) :
    grammarShape ('(' :: (e ++ [')'])) := by
  refine ⟨bal_group e h.1, ?_, ?_⟩
  · have := keywordShape_append ['('] (e ++ [')']) (keywordShape_of_no_key _ (by decide))
      (keywordShape_append e [')'] h.2.1 (keywordShape_of_no_key _ (by decide)))
    simpa using this
  · have := exponentShape_append ['('] (e ++ [')']) (exponentShape_of_no_E _ (by decide))
      (exponentShape_append e [')'] h.2.2 (exponentShape_of_no_E _ (by decide)))
    simpa using this

theorem grammarShape_func (K e : List Char) (hK : isFunc K) (h : grammarShape e) :
    grammarShape (K ++ '(' :: (e ++ [')'])) := by
  have hg := grammarShape_group e h
  have hKs : ∀ x ∈ K, isStartChar x = false ∧ x ≠ '(' ∧ x ≠ ')' ∧ x ≠ 'E' := by
    rcases hK with rfl | rfl | rfl | rfl <;> decide
  refine ⟨bal_append K _ (bal_plain K (fun c hc => ⟨(hKs c hc).2.1, (hKs c hc).2.2.1⟩)) hg.1,
    ?_, exponentShape_append K _ (exponentShape_of_no_E K (fun hm => (hKs _ hm).2.2.2 rfl))
      hg.2.2⟩
  intro a c rest e2 hk hs
  rcases split_append _ c rest K a e2 with ⟨r, g1, g2⟩ | ⟨a2, g1, g2⟩
  · have ha : a = [] := by
      rcases hs with e3 | ⟨a3, p, e3, hp⟩
      · exact e3
      · have := (hKs p (by rw [g1, e3]; simp)).1
        rw [this] at hp; cases hp
    subst ha
    rw [List.nil_append] at e2
    rw [← e2]
    rcases hK with rfl | rfl | rfl | rfl
    · exact Or.inl ⟨_, rfl⟩
    · exact Or.inr (Or.inl ⟨_, rfl⟩)
    · exact Or.inr (Or.inr (Or.inl ⟨_, rfl⟩))
    · exact Or.inr (Or.inr (Or.inr ⟨_, rfl⟩))
  · refine hg.2.1 a2 c rest g2 hk ?_
    cases a2 with
    | nil => exact Or.inl rfl
    | cons y ys =>
      rw [g1] at hs
      exact startsAt_of_append K _ (by simp) hs

/-- Every text of the grammar has the shape the differentiator relies on. -/
theorem conforms_grammarShape (sym : Nonterminal) (s : List Char) (h : conforms sym s) :
    grammarShape s := by
  induction h with
  | exprTerm t _ ih => exact ih
  | exprPlus e t _ _ ih1 ih2 => exact grammarShape_join e t '+' (by decide) ih1 ih2
  | exprMinus e t _ _ ih1 ih2 => exact grammarShape_join e t '-' (by decide) ih1 ih2
  | termFactor f _ ih => exact ih
  | termTimes t f _ _ ih1 ih2 => exact grammarShape_join t f '*' (by decide) ih1 ih2
  | termOver t f _ _ ih1 ih2 => exact grammarShape_join t f '/' (by decide) ih1 ih2
  | factorPower p _ ih => exact ih
  | factorPow f p _ _ ih1 ih2 => exact grammarShape_join f p '^' (by decide) ih1 ih2
  | powerAtom a _ ih => exact ih
  | powerNeg a _ ih =>
    have := grammarShape_join [] a '-' (by decide) (grammarShape_plain [] (by simp)) ih
    simpa using this
  | atomNumber n hn => exact grammarShape_number n hn
  | atomX => exact grammarShape_plain _ (by decide)
  | atomE => exact grammarShape_plain _ (by decide)
  | atomFunc K e hK _ ih => exact grammarShape_func K e hK ih
  | atomGroup e _ ih => exact grammarShape_group e ih

theorem grammarShape_wellShaped (s : List Char) (h : grammarShape s)
    (hlen : s.length + 1 < SIZE_MOD) : wellShaped s := by
  refine ⟨h.1 0, ?_, h.2.1, ?_⟩
  · have := List.count_le_length '(' s
    omega
  · intro a c rest e
    rcases h.2.2 a ('-' :: c :: rest) e with ⟨d, r, e2, hd⟩ | ⟨d, r, e2, hd⟩
    · obtain ⟨e3, _⟩ := List.cons.inj e2
      rw [← e3] at hd
      exact absurd hd (by decide)
    · obtain ⟨_, e3⟩ := List.cons.inj e2
      obtain ⟨e4, _⟩ := List.cons.inj e3
      rw [e4]
      exact (isdigit_plain d hd).2.2.2

/-- C27: `Derivative` keeps parentheses balanced. For every text of the grammar (shorter
than 2^64 - 1 characters) on which `Derivative` returns a text, the returned text has
balanced parentheses: no prefix closes more parentheses than it opens, and the whole
text closes as many as it opens. -/
theorem Derivative_balanced (m : CMath) (expr d : List Char) (hg : conforms .expr expr)
    (hlen : expr.length + 1 < SIZE_MOD) (h : Derivative m expr = .ok d) :
    balanced d = true := by
  have hw := grammarShape_wellShaped expr (conforms_grammarShape .expr expr hg) hlen
  have hv : isVar ['x'] := by
    intro c hc
    simp only [List.mem_singleton] at hc
    exact Or.inl hc
  exact bal_balanced d (FindDerivativeInternalF_bal m _ expr ['x'] d hw hv h)

theorem conforms_factor_of_atom (a : List Char) (h : conforms .atom a) : conforms .factor a :=
  .factorPower a (.powerAtom a h)

theorem conforms_expr_of_atom (a : List Char) (h : conforms .atom a) : conforms .expr a :=
  .exprTerm a (.termFactor a (conforms_factor_of_atom a h))

theorem isNumber_two : isNumber ['2'] :=
  ⟨['2'], [], [], rfl, ⟨by simp, by decide⟩, Or.inl rfl, Or.inl rfl⟩

theorem isNumber_small : isNumber ['2', 'E', '-', '3'] :=
  ⟨['2'], [], ['E', '-', '3'], rfl, ⟨by simp, by decide⟩, Or.inl rfl,
    Or.inr ⟨['3'], Or.inr rfl, ⟨by simp, by decide⟩⟩⟩

theorem conforms_example : conforms .expr "cos(x)^2-x/(x+2E-3)".toList :=
  .exprMinus "cos(x)^2".toList "x/(x+2E-3)".toList
    (.exprTerm _ (.termFactor _ (.factorPow "cos(x)".toList ['2']
      (conforms_factor_of_atom _ (.atomFunc ['c', 'o', 's'] ['x'] (Or.inr (Or.inl rfl))
        (conforms_expr_of_atom _ .atomX)))
      (.powerAtom _ (.atomNumber _ isNumber_two)))))
    (.termOver ['x'] "(x+2E-3)".toList (.termFactor _ (conforms_factor_of_atom _ .atomX))
      (conforms_factor_of_atom _ (.atomGroup "x+2E-3".toList
        (.exprPlus ['x'] "2E-3".toList (conforms_expr_of_atom _ .atomX)
          (.termFactor _ (conforms_factor_of_atom _ (.atomNumber _ isNumber_small)))))))

/-- Witness of C27 on the text `cos(x)^2-x/(x+2E-3)` of the grammar. -/
theorem Derivative_balanced_witness :
    conforms .expr "cos(x)^2-x/(x+2E-3)".toList ∧
    "cos(x)^2-x/(x+2E-3)".toList.length + 1 < SIZE_MOD ∧
    Derivative libm "cos(x)^2-x/(x+2E-3)".toList =
      .ok "(2.000000)*(-sin(x))*(cos(x))^(1.000000)-(1)/((x+2E-3))-(x)*(1+0)/((x+2E-3))^2".toList ∧
    balanced
      "(2.000000)*(-sin(x))*(cos(x))^(1.000000)-(1)/((x+2E-3))-(x)*(1+0)/((x+2E-3))^2".toList
      = true :=
  ⟨conforms_example, by decide, by decide!,
    Derivative_balanced libm _ _ conforms_example (by decide) (by decide!)⟩

end RootFinder
